import Mathlib

/-!
# PrisKV: buddy and slab allocators

A shallow embedding of `server/buddy.c` and `server/slab.c`.

Conventions of the embedding

* C unsigned integers are natural numbers; every operation that can leave the
  range of its C type is reduced modulo `2 ^ 32` (`u32`).
* A pointer is a natural number (a byte address); `NULL` results are `none`
  of the inner `Option`.
* Undefined behaviour and failed assertions (a read outside the metadata
  array, a division by zero, `__builtin_clz(0)`, `assert`) are a fault: the
  outer `Option` is `none`.
* A shift of a 32-bit value by 32 is undefined in C as well, but the compiled
  code has one result for it: the x86-64 shift instruction takes the count
  modulo 32. The embedding does the same, so that the calls that shift by 32
  are calls of the model.
* Loops are unrolled with a fuel argument; running out of fuel is a fault.
  The theorems show that the fuel given is never used up on the states that
  the allocator can reach.
-/

namespace PrisKV

/-! ## Machine arithmetic -/

/-- Reduction of a natural number to the range of `uint32_t`. -/
def u32 (x : Nat) : Nat := x % 4294967296

/-- Modelled from the spec: the macro `IS_POWER_OF_2` of `priskv-utils.h`, a header
that is not part of the sources at hand. `buddy.h` documents its use as "must be
power of 2"; the model is true exactly on `1, 2, 4, ...` (zero is not a power of
two). -/
def IS_POWER_OF_2 (x : Nat) : Bool := x != 0 && (x &&& (x - 1)) == 0

/-- The macro `MAX(a, b)` of `buddy.c`. -/
def MAX (a b : Nat) : Nat := if a > b then a else b

/-- The macro `L_LEAF(index)` of `buddy.c`, on `uint32_t`. -/
def L_LEAF (index : Nat) : Nat := u32 (index * 2 + 1)

/-- The macro `R_LEAF(index)` of `buddy.c`, on `uint32_t`. -/
def R_LEAF (index : Nat) : Nat := u32 (index * 2 + 2)

/-- The macro `PARENT(index)` of `buddy.c`, on `uint32_t`: `(index + 1) / 2 - 1`. -/
def PARENT (index : Nat) : Nat := u32 (u32 (index + 1) / 2 + 4294967296 - 1)

/-- The number of binary digits of `v`, for `v < 2 ^ n`. -/
def bit_length : Nat → Nat → Nat
  | 0, _ => 0
  | n + 1, v => if v = 0 then 0 else bit_length n (v / 2) + 1

/-- The builtin `__builtin_clz` on a 32-bit value, the number of leading zero
bits; undefined on zero. -/
def builtin_clz (val : Nat) : Option Nat :=
  if val = 0 then none else some (32 - bit_length 32 val)

/-- The function `roundup_power_of_2` of `buddy.c`:
`1 << (sizeof(uint32_t) * 8 - __builtin_clz(val))`.
For `val` above `2 ^ 31` the count is 32, the width of the `int` that is
shifted; the shift instruction takes the count modulo 32, so the function
returns `1 << 0 = 1` there. -/
def roundup_power_of_2 (val : Nat) : Option Nat :=
  match builtin_clz val with
  | none => none
  | some z =>
    let sh := 32 - z
    some (u32 (1 <<< (sh % 32)))

/-! ## The buddy allocator -/

/-- The record `struct buddy` of `buddy.c` (the lock is left out). `meta` is the
array of `2 * nmemb - 1` counters that lives behind the blocks. -/
structure buddy where
  nmemb : Nat
  inuse : Nat
  size : Nat
  base : Nat
  meta : List Nat
deriving DecidableEq, Repr

/-- The initialisation loop of `priskv_buddy_create`:
`for (i = 0; i < nmemb * 2 - 1; i++) { if (IS_POWER_OF_2(i + 1)) nodes /= 2; meta[i] = nodes; }`.
The first argument counts the iterations that remain. -/
def create_loop : Nat → Nat → Nat → List Nat
  | 0, _, _ => []
  | n + 1, i, nodes =>
    let nodes := if IS_POWER_OF_2 (i + 1) then nodes / 2 else nodes
    nodes :: create_loop n (i + 1) nodes

/-- The function `priskv_buddy_create`. `none` stands for the `NULL` result.
The products `nmemb * 2` are 32-bit values: with `nmemb = 2 ^ 31` they wrap to
zero, the loop bound `nmemb * 2 - 1` is `UINT32_MAX` and every counter is
written as zero. -/
def priskv_buddy_create (base nmemb size : Nat) : Option buddy :=
  if base = 0 then none
  else if !IS_POWER_OF_2 nmemb then none
  else
    some { nmemb := nmemb, inuse := 0, size := size, base := base,
           meta := create_loop (u32 (u32 (nmemb * 2) + 4294967296 - 1)) 0 (u32 (nmemb * 2)) }

/-- The accessor `priskv_buddy_inuse`. -/
def priskv_buddy_inuse (b : buddy) : Nat := b.inuse

/-- The descent of `priskv_buddy_alloc`:
`for (nodes = nmemb; nodes != alignup; nodes /= 2) index = meta[L_LEAF(index)] >= alignup ? L_LEAF(index) : R_LEAF(index);`
It yields the final `(index, nodes)`. -/
def alloc_descend (m : List Nat) (alignup : Nat) : Nat → Nat → Nat → Option (Nat × Nat)
  | 0, _, _ => none
  | fuel + 1, nodes, index =>
    if nodes = alignup then some (index, nodes)
    else
      match m[L_LEAF index]? with
      | none => none
      | some v =>
        alloc_descend m alignup fuel (nodes / 2)
          (if v ≥ alignup then L_LEAF index else R_LEAF index)

/-- The upward loop of `priskv_buddy_alloc`:
`while (index) { index = PARENT(index); meta[index] = MAX(meta[L_LEAF(index)], meta[R_LEAF(index)]); }`. -/
def alloc_update : Nat → List Nat → Nat → Option (List Nat)
  | 0, _, _ => none
  | fuel + 1, m, index =>
    if index = 0 then some m
    else
      let index := PARENT index
      match m[L_LEAF index]?, m[R_LEAF index]? with
      | some l, some r =>
        if index < m.length then alloc_update fuel (m.set index (MAX l r)) index else none
      | _, _ => none

/-- The value of `alignup` in `priskv_buddy_alloc` when the root counter is
tested: `((uint64_t)size + bsize - 1) / bsize`, rounded up by
`roundup_power_of_2` unless it is a power of two. `bsize` is the block size of
the buddy; a division by zero is a fault. -/
def alloc_alignup (bsize size : Nat) : Option Nat :=
  if bsize = 0 then none
  else
    let alignup := u32 ((size + bsize - 1) / bsize)
    if IS_POWER_OF_2 alignup then some alignup else roundup_power_of_2 alignup

/-- The function `priskv_buddy_alloc`. The outer `none` is a fault, the inner
`none` the `NULL` result. -/
def priskv_buddy_alloc (b : buddy) (size : Nat) : Option (Option Nat × buddy) :=
  match alloc_alignup b.size size with
  | none => none
  | some alignup =>
    match b.meta[0]? with
    | none => none
    | some root =>
      if root < alignup then some (none, b)
      else
        match alloc_descend b.meta alignup 64 b.nmemb 0 with
        | none => none
        | some (index, nodes) =>
          match b.meta[index]? with
          | none => none
          | some v =>
            if v = 0 then some (none, b)
            else
              let offset := u32 (u32 ((index + 1) * nodes) + 4294967296 - b.nmemb)
              match alloc_update 64 (b.meta.set index 0) index with
              | none => none
              | some m =>
                some (some (b.base + offset * b.size),
                      { b with meta := m, inuse := u32 (b.inuse + alignup) })

/-- The upward search of `priskv_buddy_free`:
`for (nodes = 1; meta[index]; index = PARENT(index)) { nodes *= 2; if (index == 0) goto end; }`.
The inner `none` is the jump to `end`. -/
def free_ascend (m : List Nat) : Nat → Nat → Nat → Option (Option (Nat × Nat))
  | 0, _, _ => none
  | fuel + 1, nodes, index =>
    match m[index]? with
    | none => none
    | some v =>
      if v = 0 then some (some (index, nodes))
      else if index = 0 then some none
      else free_ascend m fuel (u32 (nodes * 2)) (PARENT index)

/-- The upward loop of `priskv_buddy_free`, which merges two free halves:
`while (index) { index = PARENT(index); nodes *= 2; ... }`. -/
def free_update : Nat → List Nat → Nat → Nat → Option (List Nat)
  | 0, _, _, _ => none
  | fuel + 1, m, nodes, index =>
    if index = 0 then some m
    else
      let index := PARENT index
      let nodes := u32 (nodes * 2)
      match m[L_LEAF index]?, m[R_LEAF index]? with
      | some left_meta, some right_meta =>
        if index < m.length then
          free_update fuel
            (m.set index (if u32 (left_meta + right_meta) = nodes then nodes
                          else MAX left_meta right_meta)) nodes index
        else none
      | _, _ => none

/-- The function `priskv_buddy_free`. `none` is a fault (a failed assertion, a
division by zero, an address below the base). -/
def priskv_buddy_free (b : buddy) (addr : Nat) : Option buddy :=
  if b.size = 0 then none
  else if addr < b.base then none
  else
    let offset := (addr - b.base) / b.size
    if offset * b.size + b.base ≠ addr then none
    else
      let index := u32 (offset + b.nmemb + 4294967296 - 1)
      if ¬ index < u32 (2 * b.nmemb) then none
      else
        match free_ascend b.meta 64 1 index with
        | none => none
        | some none => some b
        | some (some (index, nodes)) =>
          if ¬ index < u32 (2 * b.nmemb) then none
          else if ¬ index < b.meta.length then none
          else
            match free_update 64 (b.meta.set index nodes) nodes index with
            | none => none
            | some m =>
              some { b with meta := m, inuse := u32 (b.inuse + 4294967296 - nodes) }

/-! ## Reading the metadata as a tree

The counters form a complete binary tree in heap order: the children of node
`i` are `2 * i + 1` and `2 * i + 2`. A node with `d` levels below it stands for
`2 ^ d` blocks. -/

/-- Reading a counter, zero outside the array. -/
def rd (m : List Nat) (i : Nat) : Nat := m.getD i 0

/-- Node `j` lies in the subtree below node `i` (or is `i`). -/
def Sub (i j : Nat) : Prop := ∃ t, (j + 1) / 2 ^ t = i + 1

/-- The subtree of node `i` with `d` levels below it lies inside the array. -/
def Fits (m : List Nat) (d i : Nat) : Prop := (i + 2) * 2 ^ d ≤ m.length + 1

/-- The shape that the counters of the subtree below node `i` have: a leaf holds
`0` or `1`; an inner node over two wholly free halves is wholly free or handed
out as one run (`0`); any other inner node holds the larger of its children. -/
def WF (m : List Nat) : Nat → Nat → Prop
  | 0, i => rd m i ≤ 1
  | d + 1, i =>
    WF m d (2 * i + 1) ∧ WF m d (2 * i + 2) ∧
    ((rd m (2 * i + 1) = 2 ^ d ∧ rd m (2 * i + 2) = 2 ^ d ∧
        (rd m i = 2 ^ (d + 1) ∨ rd m i = 0)) ∨
     (¬ (rd m (2 * i + 1) = 2 ^ d ∧ rd m (2 * i + 2) = 2 ^ d) ∧
        rd m i = max (rd m (2 * i + 1)) (rd m (2 * i + 2))))

/-- The runs handed out inside the subtree of node `i`, which starts at block
`o`: pairs of first block and length, from left to right. -/
def allocs (m : List Nat) : Nat → Nat → Nat → List (Nat × Nat)
  | 0, i, o => if rd m i = 0 then [(o, 1)] else []
  | d + 1, i, o =>
    if rd m i = 2 ^ (d + 1) then []
    else if rd m i = 0 ∧ rd m (2 * i + 1) = 2 ^ d ∧ rd m (2 * i + 2) = 2 ^ d then
      [(o, 2 ^ (d + 1))]
    else allocs m d (2 * i + 1) o ++ allocs m d (2 * i + 2) (o + 2 ^ d)

/-- The child that the descent of `priskv_buddy_alloc` moves to from node `i`. -/
def pick (m : List Nat) (k i : Nat) : Nat :=
  if rd m (2 * i + 1) ≥ k then 2 * i + 1 else 2 * i + 2

/-- The node on which the descent for `k` blocks ends, started at node `i`. -/
def target (m : List Nat) (k : Nat) : Nat → Nat → Nat
  | 0, i => i
  | d + 1, i => if 2 ^ (d + 1) = k then i else target m k d (pick m k i)

/-- The first block of the node on which the descent ends. -/
def targetOff (m : List Nat) (k : Nat) : Nat → Nat → Nat → Nat
  | 0, _, o => o
  | d + 1, i, o =>
    if 2 ^ (d + 1) = k then o
    else targetOff m k d (pick m k i) (if rd m (2 * i + 1) ≥ k then o else o + 2 ^ d)

/-- The counters after an allocation of `k` blocks below node `i`, written as a
recursion over the tree: the chosen node becomes `0`, every node above it the
larger of its children. -/
def allocRec (m : List Nat) (k : Nat) : Nat → Nat → List Nat
  | 0, i => m.set i 0
  | d + 1, i =>
    if 2 ^ (d + 1) = k then m.set i 0
    else
      let m1 := allocRec m k d (pick m k i)
      m1.set i (MAX (rd m1 (2 * i + 1)) (rd m1 (2 * i + 2)))

/-- The counters after `priskv_buddy_free` of the leaf with number `r` below
node `i`, written as a recursion over the tree, with the number of blocks
given back; `none` when no counter on the way from the leaf up to `i` is zero. -/
def freeRec (m : List Nat) : Nat → Nat → Nat → Option (List Nat × Nat)
  | 0, i, _ => if rd m i = 0 then some (m.set i 1, 1) else none
  | d + 1, i, r =>
    match freeRec m d (if r < 2 ^ d then 2 * i + 1 else 2 * i + 2)
        (if r < 2 ^ d then r else r - 2 ^ d) with
    | some (m1, n) =>
      some (m1.set i (if u32 (rd m1 (2 * i + 1) + rd m1 (2 * i + 2)) = 2 ^ (d + 1) then
                        2 ^ (d + 1)
                      else MAX (rd m1 (2 * i + 1)) (rd m1 (2 * i + 2))), n)
    | none => if rd m i = 0 then some (m.set i (2 ^ (d + 1)), 2 ^ (d + 1)) else none

/-! ## Requests and runs, in the words of the specification -/

/-- The number of blocks of a request of `size` bytes with blocks of `bsize`
bytes: the least power of two that is not below `ceil (size / bsize)`. -/
def roundup_blocks (bsize size : Nat) : Nat := 2 ^ Nat.clog 2 ((size + bsize - 1) / bsize)

/-- The block number of an address, as `priskv_buddy_free` computes it. -/
def block_of (b : buddy) (addr : Nat) : Nat := (addr - b.base) / b.size

/-- Two runs `(first block, length)` have no block in common. -/
def runs_disjoint (e f : Nat × Nat) : Prop := e.1 + e.2 ≤ f.1 ∨ f.1 + f.2 ≤ e.1

/-- The run of an outstanding allocation `(address, blocks)`. -/
def run_of (b : buddy) (e : Nat × Nat) : Nat × Nat := (block_of b e.1, e.2)

/-- Removal of the first occurrence of an entry from a list of allocations. -/
def remove (a : Nat × Nat) : List (Nat × Nat) → List (Nat × Nat)
  | [] => []
  | x :: l => if x = a then l else x :: remove a l

/-- The states of a buddy that `priskv_buddy_create`, `priskv_buddy_alloc` and
`priskv_buddy_free` of an outstanding address lead to, each with the list of
its outstanding allocations: the address returned and the number of blocks that
the call took, the value of `alignup` in `priskv_buddy_alloc`. Sizes and the
number of blocks are 32-bit values, as the C types demand. -/
inductive Reach : buddy → List (Nat × Nat) → Prop
  | create {base nmemb size : Nat} {b : buddy} :
      size < 4294967296 → nmemb < 4294967296 →
      priskv_buddy_create base nmemb size = some b → Reach b []
  | alloc {b b1 : buddy} {out : List (Nat × Nat)} {size addr k : Nat} :
      Reach b out → size < 4294967296 → alloc_alignup b.size size = some k →
      priskv_buddy_alloc b size = some (some addr, b1) →
      Reach b1 ((addr, k) :: out)
  | alloc_null {b b1 : buddy} {out : List (Nat × Nat)} {size : Nat} :
      Reach b out → size < 4294967296 →
      priskv_buddy_alloc b size = some (none, b1) → Reach b1 out
  | free {b b1 : buddy} {out : List (Nat × Nat)} {addr k : Nat} :
      Reach b out → (addr, k) ∈ out → priskv_buddy_free b addr = some b1 →
      Reach b1 (remove (addr, k) out)

/-- Freeing a list of addresses one after the other. -/
def free_all : buddy → List Nat → Option buddy
  | b, [] => some b
  | b, addr :: rest =>
    match priskv_buddy_free b addr with
    | none => none
    | some b1 => free_all b1 rest

/-- The metadata of a buddy of `2 ^ D` blocks has the shape `WF`. -/
def Valid (b : buddy) (D : Nat) : Prop :=
  D ≤ 30 ∧ b.nmemb = 2 ^ D ∧ b.meta.length = 2 ^ (D + 1) - 1 ∧ WF b.meta D 0

/-- Node `x` lies `t` levels below node `i`, in its subtree. -/
def Level (i t x : Nat) : Prop := (i + 1) * 2 ^ t ≤ x + 1 ∧ x + 1 < (i + 2) * 2 ^ t

/-- The address and length of a run given as first block and length. -/
def to_addr (b : buddy) (e : Nat × Nat) : Nat × Nat := (b.base + e.1 * b.size, e.2)

/-- The invariant of the reachable states: the counters have the shape `WF`, the
outstanding allocations are the runs that the counters show as handed out, and
`inuse` is the number of their blocks. -/
def Inv (b : buddy) (out : List (Nat × Nat)) : Prop :=
  ∃ D, Valid b D ∧ out.Perm ((allocs b.meta D 0 0).map (to_addr b)) ∧
    b.inuse = ((allocs b.meta D 0 0).map Prod.snd).sum ∧ (b.size = 0 → out = []) ∧
    b.base ≠ 0

/-- The buddy of `2 ^ 31` blocks as `priskv_buddy_create` returns it: the doubled
number of blocks has wrapped to zero, so that all its `2 ^ 32 - 1` counters are
zero. -/
def Wrapped (b : buddy) : Prop :=
  b.nmemb = 2147483648 ∧ b.inuse = 0 ∧ b.base ≠ 0 ∧ b.meta = create_loop 4294967295 0 0

/-- A call of the test programs: an allocation of so many bytes, or the release
of an address. -/
inductive buddy_op where
  | alloc (size : Nat)
  | free (addr : Nat)

/-- Running a list of calls; the result lists what the allocations returned
(`none` is `NULL`) and ends with the final state. A fault gives `none`. -/
def run_ops : buddy → List buddy_op → Option (List (Option Nat) × buddy)
  | b, [] => some ([], b)
  | b, buddy_op.alloc size :: rest =>
    match priskv_buddy_alloc b size with
    | none => none
    | some (a, b1) =>
      match run_ops b1 rest with
      | none => none
      | some (l, b2) => some (a :: l, b2)
  | b, buddy_op.free addr :: rest =>
    match priskv_buddy_free b addr with
    | none => none
    | some b1 => run_ops b1 rest

/-- A buddy of four blocks of 128 bytes at address 1000 after `alloc(128)` and
`alloc(256)`. -/
def ex_buddy : buddy :=
  { nmemb := 4, inuse := 3, size := 128, base := 1000, meta := [1, 1, 0, 0, 1, 1, 1] }

/-- The outstanding allocations of `ex_buddy`. -/
def ex_out : List (Nat × Nat) := [(1256, 2), (1000, 1)]

/-- A buddy of four blocks of one byte at address 4096, as
`priskv_buddy_create(4096, 4, 1)` returns it. -/
def byte_buddy : buddy :=
  { nmemb := 4, inuse := 0, size := 1, base := 4096, meta := [4, 2, 2, 1, 1, 1, 1] }

/-- The buddy `byte_buddy` after `priskv_buddy_alloc` of `2 ^ 31 + 1` bytes: one
block is taken. -/
def byte_buddy_taken : buddy :=
  { nmemb := 4, inuse := 1, size := 1, base := 4096, meta := [2, 1, 2, 0, 1, 1, 1] }


/-! ## The slab allocator

A shallow embedding of `server/slab.c`. The name of a slab and its lock are left
out. A fault of `priskv_slab_free` carries the state in which the program stops,
so that it can be said what was written before. -/

/-- Reduction of a natural number to the range of `uint64_t`. -/
def u64 (x : Nat) : Nat := x % 18446744073709551616

/-- The constant `BITS_OF_UL` of `slab.c`: `sizeof(uint64_t) * 8`. -/
def BITS_OF_UL : Nat := 64

/-- Modelled from the spec: the macro `ALIGN_UP` of `priskv-utils.h`, a header
that is not part of the sources at hand. The spec speaks of a bitmap of
`ceil(objects / 64)` words; the model rounds `x` up to the next multiple of `a`. -/
def ALIGN_UP (x a : Nat) : Nat := (x + a - 1) / a * a

/-- The function `set_bit` of `slab.c`: `*val |= (1UL << bit)`. -/
def set_bit (val bit : Nat) : Nat := u64 (val ||| u64 (1 <<< bit))

/-- The function `clear_bit` of `slab.c`: `*val &= ~(1UL << bit)`. -/
def clear_bit (val bit : Nat) : Nat := val &&& (18446744073709551615 - u64 (1 <<< bit))

/-- The search of `__builtin_ffsl`: the position, counted from one, of the lowest
bit of `x` that is set, looking at `fuel` bits from position `pos` on. -/
def ffs_loop : Nat → Nat → Nat → Nat
  | 0, _, _ => 0
  | fuel + 1, x, pos => if x % 2 = 1 then pos + 1 else ffs_loop fuel (x / 2) (pos + 1)

/-- The builtin `__builtin_ffsl` on a 64-bit value: one plus the index of the
lowest set bit, or zero for zero. -/
def builtin_ffsl (x : Nat) : Nat := ffs_loop 64 x 0

/-- The record `priskv_slab` of `slab.c` (name and lock are left out). -/
structure priskv_slab where
  size : Nat
  inuse : Nat
  objects : Nat
  base : Nat
  lindex : Nat
  bitmap : List Nat
deriving DecidableEq, Repr

/-- The loop of `priskv_slab_create` that marks the slots as free:
`for (index = 0; index < objects; index++) set_bit(&bitmap[index / BITS_OF_UL], index % BITS_OF_UL);`.
The first argument counts the iterations that remain; a write outside the
bitmap is a fault. -/
def slab_create_loop : Nat → Nat → List Nat → Option (List Nat)
  | 0, _, bm => some bm
  | n + 1, index, bm =>
    match bm[index / BITS_OF_UL]? with
    | none => none
    | some w =>
      slab_create_loop n (index + 1)
        (bm.set (index / BITS_OF_UL) (set_bit w (index % BITS_OF_UL)))

/-- The function `priskv_slab_create`. `none` stands for the `NULL` result and
for a fault: when `ALIGN_UP(objects, 64)` does not fit the 32-bit `bits`, the
bitmap is too short for the loop that follows. -/
def priskv_slab_create (base size objects : Nat) : Option priskv_slab :=
  if base = 0 then none
  else if size = 0 then none
  else if objects = 0 then none
  else
    let bits := u32 (ALIGN_UP objects BITS_OF_UL)
    match slab_create_loop objects 0 (List.replicate (bits / 8 / 8) 0) with
    | none => none
    | some bm =>
      some { size := size, inuse := 0, objects := objects, base := base, lindex := 0,
             bitmap := bm }

/-- The function `__slab_alloc` of `slab.c`, on the word with number `index`. A
shift by 64 or more, a read outside the bitmap and the failed assertion are
faults. -/
def __slab_alloc (s : priskv_slab) (index : Nat) : Option (Nat × priskv_slab) :=
  match s.bitmap[index]? with
  | none => none
  | some w =>
    let found := u32 (builtin_ffsl w + 4294967296 - 1)
    if 64 ≤ found then none
    else if ¬ (u64 (index * BITS_OF_UL + found) < s.objects) then none
    else
      some (s.base + u64 (index * BITS_OF_UL + found) * s.size,
            { s with bitmap := s.bitmap.set index (clear_bit w found),
                     inuse := u32 (s.inuse + 1) })

/-- The function `priskv_slab_reserve`. The index is the value of the C `int`. -/
def priskv_slab_reserve (s : priskv_slab) (index : Int) : Option (Nat × priskv_slab) :=
  if index < 0 then none
  else if ¬ (index.toNat < s.objects) then none
  else
    match s.bitmap[index.toNat / BITS_OF_UL]? with
    | none => none
    | some w =>
      some (s.base + index.toNat * s.size,
            { s with bitmap := s.bitmap.set (index.toNat / BITS_OF_UL)
                       (clear_bit w (index.toNat % BITS_OF_UL)),
                     inuse := u32 (s.inuse + 1) })

/-- One scanning loop of `priskv_slab_alloc`:
`for (; index < bound; index++) { if (!bitmap[index]) continue; addr = __slab_alloc(slab, &bitmap[index], index); break; }`.
It yields the address, the final `index` and the new state, or the inner `none`
when no word is set. -/
def slab_scan (s : priskv_slab) (bound : Nat) : Nat → Nat →
    Option (Option (Nat × Nat × priskv_slab))
  | 0, index => if index < bound then none else some none
  | fuel + 1, index =>
    if ¬ index < bound then some none
    else
      match s.bitmap[index]? with
      | none => none
      | some w =>
        if w = 0 then slab_scan s bound fuel (index + 1)
        else
          match __slab_alloc s index with
          | none => none
          | some (addr, s1) => some (some (addr, index, s1))

/-- The function `priskv_slab_alloc`. The outer `none` is a fault, the inner
`none` the `NULL` result. -/
def priskv_slab_alloc (s : priskv_slab) : Option (Option Nat × priskv_slab) :=
  let bits := u32 (ALIGN_UP s.objects BITS_OF_UL)
  match slab_scan s (bits / BITS_OF_UL) (bits / BITS_OF_UL) s.lindex with
  | none => none
  | some (some (addr, index, s1)) => some (some addr, { s1 with lindex := index })
  | some none =>
    match slab_scan s s.lindex s.lindex 0 with
    | none => none
    | some (some (addr, index, s1)) => some (some addr, { s1 with lindex := index })
    | some none => some (none, s)

/-- The conversion of a 64-bit integer to `int`, which keeps the low 32 bits. -/
def int32_of (x : Int) : Int := (x + 2147483648) % 4294967296 - 2147483648

/-- The function `__priskv_slab_index` of `slab.c`. The difference of the
addresses, its remainder and its quotient are signed; `none` is a fault (a
division by zero, the failed assertion). -/
def __priskv_slab_index (s : priskv_slab) (addr : Nat) : Option Int :=
  if s.size = 0 then none
  else if Int.tmod ((addr : Int) - (s.base : Int)) (s.size : Int) ≠ 0 then some (-1)
  else if ¬ (Int.tdiv ((addr : Int) - (s.base : Int)) (s.size : Int) < (s.objects : Int)) then none
  else some (int32_of (Int.tdiv ((addr : Int) - (s.base : Int)) (s.size : Int)))

/-- The function `priskv_slab_index`. -/
def priskv_slab_index (s : priskv_slab) (addr : Nat) : Option Int := __priskv_slab_index s addr

/-- The outcome of `priskv_slab_free`: the state after the call, or the state in
which an assertion fails. -/
inductive slab_result where
  | ok (s : priskv_slab)
  | fault (s : priskv_slab)
deriving DecidableEq, Repr

/-- The function `priskv_slab_free`. -/
def priskv_slab_free (s : priskv_slab) (addr : Nat) : slab_result :=
  match __priskv_slab_index s addr with
  | none => slab_result.fault s
  | some index =>
    if index < 0 then slab_result.fault s
    else
      match s.bitmap[index.toNat / BITS_OF_UL]? with
      | none => slab_result.fault s
      | some w =>
        if ¬ (u32 (s.inuse + 4294967296 - 1) < s.objects) then
          slab_result.fault
            { s with bitmap := s.bitmap.set (index.toNat / BITS_OF_UL)
                       (set_bit w (index.toNat % BITS_OF_UL)),
                     inuse := u32 (s.inuse + 4294967296 - 1) }
        else
          slab_result.ok
            { s with bitmap := s.bitmap.set (index.toNat / BITS_OF_UL)
                       (set_bit w (index.toNat % BITS_OF_UL)),
                     inuse := u32 (s.inuse + 4294967296 - 1) }

/-- The accessor `priskv_slab_inuse`. -/
def priskv_slab_inuse (s : priskv_slab) : Nat := s.inuse

/-- Slot `i` is free: its bit in the bitmap is set. -/
def slot_free (s : priskv_slab) (i : Nat) : Bool :=
  (s.bitmap.getD (i / 64) 0).testBit (i % 64)

/-- Removal of the first occurrence of an address from a list. -/
def remove_addr (a : Nat) : List Nat → List Nat
  | [] => []
  | x :: l => if x = a then l else x :: remove_addr a l

/-- A call of the slab: an allocation, the reservation of a slot, or the release
of an address. -/
inductive slab_op where
  | alloc
  | reserve (i : Nat)
  | free (addr : Nat)
deriving DecidableEq, Repr

/-- One call on a state of a slab with its list of outstanding addresses:
`priskv_slab_alloc`, `priskv_slab_reserve` of a free slot below `objects`, or
`priskv_slab_free` of an outstanding address, none of them with a fault. -/
inductive SStep : priskv_slab → List Nat → slab_op → priskv_slab → List Nat → Prop
  | alloc {s s1 : priskv_slab} {out : List Nat} {addr : Nat} :
      priskv_slab_alloc s = some (some addr, s1) → SStep s out slab_op.alloc s1 (addr :: out)
  | alloc_null {s s1 : priskv_slab} {out : List Nat} :
      priskv_slab_alloc s = some (none, s1) → SStep s out slab_op.alloc s1 out
  | reserve {s s1 : priskv_slab} {out : List Nat} {i addr : Nat} :
      i < s.objects → slot_free s i = true →
      priskv_slab_reserve s (i : Int) = some (addr, s1) →
      SStep s out (slab_op.reserve i) s1 (addr :: out)
  | free {s s1 : priskv_slab} {out : List Nat} {addr : Nat} :
      addr ∈ out → priskv_slab_free s addr = slab_result.ok s1 →
      SStep s out (slab_op.free addr) s1 (remove_addr addr out)

/-- The states of a slab that `priskv_slab_create` and the calls of `SStep` lead
to, each with the list of the outstanding addresses. The arguments of
`priskv_slab_create` are 32-bit values. -/
inductive SReach : priskv_slab → List Nat → Prop
  | create {base size objects : Nat} {s : priskv_slab} :
      size < 4294967296 → objects < 4294967296 →
      priskv_slab_create base size objects = some s → SReach s []
  | step {s s1 : priskv_slab} {out out1 : List Nat} {op : slab_op} :
      SReach s out → SStep s out op s1 out1 → SReach s1 out1

/-- The runs of calls from one state to a later one in which the address `a` is
not passed to `priskv_slab_free`. -/
inductive SUntilFree (a : Nat) : priskv_slab → List Nat → priskv_slab → List Nat → Prop
  | refl {s : priskv_slab} {out : List Nat} : SUntilFree a s out s out
  | step {s s1 s2 : priskv_slab} {out out1 out2 : List Nat} {op : slab_op} :
      SUntilFree a s out s1 out1 → SStep s1 out1 op s2 out2 → op ≠ slab_op.free a →
      SUntilFree a s out s2 out2

/-- The results of `n` calls of `priskv_slab_alloc` one after the other, with the
final state. -/
def slab_alloc_n : Nat → priskv_slab → Option (List (Option Nat) × priskv_slab)
  | 0, s => some ([], s)
  | n + 1, s =>
    match priskv_slab_alloc s with
    | none => none
    | some (a, s1) =>
      match slab_alloc_n n s1 with
      | none => none
      | some (l, s2) => some (a :: l, s2)

/-- The slots of a slab that are taken: their bit in the bitmap is clear. -/
def taken (s : priskv_slab) : Finset Nat :=
  (Finset.range s.objects).filter (fun i => slot_free s i = false)

/-- The shape of the states of a slab: the bitmap has `ceil(objects / 64)` words
of 64 bits, only slots below `objects` are free, and the hint `lindex` is the
number of a word. -/
def SWF (s : priskv_slab) : Prop :=
  s.size ≠ 0 ∧ s.base ≠ 0 ∧ 0 < s.objects ∧ s.objects + 63 < 4294967296 ∧
  s.bitmap.length = (s.objects + 63) / 64 ∧ (∀ w ∈ s.bitmap, w < 18446744073709551616) ∧
  s.lindex < s.bitmap.length ∧ (∀ i, slot_free s i = true → i < s.objects)

/-- The invariant of the reachable states of a slab: `inuse` counts the slots
taken, and the outstanding addresses are the addresses of the slots taken, each
listed once. -/
def SInv (s : priskv_slab) (out : List Nat) : Prop :=
  SWF s ∧ s.inuse = (taken s).card ∧ out.Nodup ∧
  ∀ a, a ∈ out ↔ ∃ i, i ∈ taken s ∧ a = s.base + i * s.size

/-- The state of a slab after slot `i` is taken: its bit is cleared and `inuse`
grows by one. -/
def take_slot (s : priskv_slab) (i : Nat) : priskv_slab :=
  { s with bitmap := s.bitmap.set (i / 64) (clear_bit (s.bitmap.getD (i / 64) 0) (i % 64)),
           inuse := s.inuse + 1 }

/-- The state of a slab after slot `i` is given back: its bit is set and `inuse`
falls by one. -/
def give_slot (s : priskv_slab) (i : Nat) : priskv_slab :=
  { s with bitmap := s.bitmap.set (i / 64) (set_bit (s.bitmap.getD (i / 64) 0) (i % 64)),
           inuse := s.inuse - 1 }

/-- Bit `j` of a bitmap, counted through the words. -/
def bit_at (bm : List Nat) (j : Nat) : Bool := (bm.getD (j / 64) 0).testBit (j % 64)

/-- The state of a fresh slab after `j` allocations: the slots below `j` are
taken, the others are free, and the hint `lindex` is not behind slot `j`. -/
def Fresh (base size objects j : Nat) (s : priskv_slab) : Prop :=
  SWF s ∧ s.inuse = j ∧ (∀ i, slot_free s i = true ↔ j ≤ i ∧ i < objects) ∧
  64 * s.lindex ≤ j ∧ s.base = base ∧ s.size = size ∧ s.objects = objects

/-! ## The LRU eviction policy

A shallow embedding of `server/backend/policy_lru.c` and of the wrappers of
`server/backend/policy.c`. A node is identified by its key: the hash table holds
at most one node for a key, and the recency list links the nodes of the hash
table. Allocation is taken to succeed. -/

/-- The record `priskv_lru_node` of `policy_lru.c`: the key and the reference
count, a C `int`. The links of the list and of the hash table are the positions
in the two lists of `priskv_policy_lru`. -/
structure priskv_lru_node where
  key : String
  ref_count : Int
deriving DecidableEq, Repr

/-- The record `priskv_policy_lru` of `policy_lru.c`: `head` is the recency list,
the nodes named by their keys with the most recent one first, and `hashmap` holds
the nodes of the hash table in the order in which they were added. -/
structure priskv_policy_lru where
  head : List String
  hashmap : List priskv_lru_node
deriving DecidableEq, Repr

/-- Modelled from the spec: `list_add` of `list.h`, a header that is not part of
the sources at hand. The spec has `access` promote a key to most-recent; the node
is linked in at the front of the list. -/
def list_add (head : List String) (node : String) : List String := node :: head

/-- Modelled from the spec: `list_del` of `list.h`, which is not part of the
sources at hand: the node is unlinked from the list. -/
def list_del (node : String) : List String → List String
  | [] => []
  | n :: l => if n = node then l else n :: list_del node l

/-- Modelled from the spec: `HASH_FIND_STR` of `uthash.h`, a header that is not
part of the sources at hand. The spec has a hashmap from the name to the node;
the result is the node with the key, if there is one. -/
def HASH_FIND_STR : List priskv_lru_node → String → Option priskv_lru_node
  | [], _ => none
  | n :: l, key => if n.key = key then some n else HASH_FIND_STR l key

/-- Modelled from the spec: `HASH_ADD_STR` of `uthash.h`, which is not part of
the sources at hand: the node is added to the hash table. -/
def HASH_ADD_STR (hashmap : List priskv_lru_node) (node : priskv_lru_node) :
    List priskv_lru_node := hashmap ++ [node]

/-- Modelled from the spec: `HASH_DEL` of `uthash.h`, which is not part of the
sources at hand: the node is taken out of the hash table. -/
def HASH_DEL : List priskv_lru_node → String → List priskv_lru_node
  | [], _ => []
  | n :: l, node => if n.key = node then l else n :: HASH_DEL l node

/-- The write `node->ref_count = v` to the node of the hash table named `node`. -/
def set_ref_count : List priskv_lru_node → String → Int → List priskv_lru_node
  | [], _, _ => []
  | n :: l, node, v =>
    if n.key = node then { n with ref_count := v } :: l else n :: set_ref_count l node v

/-- The function `lru_policy_create`. -/
def lru_policy_create : priskv_policy_lru := { head := [], hashmap := [] }

/-- The function `lru_policy_access`. -/
def lru_policy_access (lru : priskv_policy_lru) (key : String) : priskv_policy_lru :=
  match HASH_FIND_STR lru.hashmap key with
  | some node => { lru with head := list_add (list_del node.key lru.head) node.key }
  | none =>
    { head := list_add lru.head key,
      hashmap := HASH_ADD_STR lru.hashmap { key := key, ref_count := 0 } }

/-- The loop of `lru_policy_evict`:
`while (node && max_attempts-- > 0) { if (node->ref_count == 0) { ... return evicted_key; } node = list_prev(&lru->head, node, node); }`.
The second argument lists the nodes that the loop can reach: the current node,
its `list_prev`, and so on up to the front of the list; the empty list stands
for `NULL`. A link without a node in the hash table is a fault. -/
def evict_loop (lru : priskv_policy_lru) : List String → Int →
    Option (Option String × priskv_policy_lru)
  | [], _ => some (none, lru)
  | node :: prev, max_attempts =>
    if ¬ (max_attempts > 0) then some (none, lru)
    else
      match HASH_FIND_STR lru.hashmap node with
      | none => none
      | some n =>
        if n.ref_count = 0 then
          some (some n.key,
            { head := list_del node lru.head, hashmap := HASH_DEL lru.hashmap node })
        else evict_loop lru prev (max_attempts - 1)

/-- The function `lru_policy_evict`. The walk starts at `list_tail`, the last
node of the list, with `max_attempts = 128`. The inner `none` is `NULL`, the
outer one a fault. -/
def lru_policy_evict (lru : priskv_policy_lru) : Option (Option String × priskv_policy_lru) :=
  evict_loop lru lru.head.reverse 128

/-- The function `lru_policy_del_key`. -/
def lru_policy_del_key (lru : priskv_policy_lru) (key : String) : priskv_policy_lru :=
  match HASH_FIND_STR lru.hashmap key with
  | some node =>
    { head := list_del node.key lru.head, hashmap := HASH_DEL lru.hashmap node.key }
  | none => lru

/-- The function `lru_policy_try_ref_key`. The increment of a reference count of
`INT_MAX` is undefined in C and a fault here. -/
def lru_policy_try_ref_key (lru : priskv_policy_lru) (key : String) :
    Option (Bool × priskv_policy_lru) :=
  match HASH_FIND_STR lru.hashmap key with
  | some node =>
    if node.ref_count = 2147483647 then none
    else
      some (true,
        { head := list_add (list_del node.key lru.head) node.key,
          hashmap := set_ref_count lru.hashmap node.key (node.ref_count + 1) })
  | none => some (false, lru)

/-- The function `lru_policy_unref_key`. -/
def lru_policy_unref_key (lru : priskv_policy_lru) (key : String) : priskv_policy_lru :=
  match HASH_FIND_STR lru.hashmap key with
  | some node =>
    if node.ref_count > 0 then
      { lru with hashmap := set_ref_count lru.hashmap node.key (node.ref_count - 1) }
    else lru
  | none => lru

/-- The record `priskv_policy_impl` of `policy.h`, for an implementation whose
state has the type `σ`. The entries `try_ref_key` and `unref_key` may be `NULL`;
`create` yields `NULL` when the allocation fails. The results of `evict` and of
`try_ref_key` have an outer `none` for a fault. -/
structure priskv_policy_impl (σ : Type) where
  name : String
  create : Option σ
  access : σ → String → σ
  evict : σ → Option (Option String × σ)
  del_key : σ → String → σ
  try_ref_key : Option (σ → String → Option (Bool × σ))
  unref_key : Option (σ → String → σ)

/-- The record `priskv_policy` of `policy.h`. The field `data` is the pointer
that the header calls `opaque`, a word that Lean reserves. -/
structure priskv_policy (σ : Type) where
  impl : priskv_policy_impl σ
  data : σ

/-- The table `lru_policy` of `policy_lru.c`. -/
def lru_policy : priskv_policy_impl priskv_policy_lru :=
  { name := "lru",
    create := some lru_policy_create,
    access := lru_policy_access,
    evict := lru_policy_evict,
    del_key := lru_policy_del_key,
    try_ref_key := some lru_policy_try_ref_key,
    unref_key := some lru_policy_unref_key }

/-- The function `priskv_policy_access` of `policy.c`; `none` is the `NULL`
policy. -/
def priskv_policy_access {σ : Type} (policy : Option (priskv_policy σ)) (key : String) :
    Option (priskv_policy σ) :=
  match policy with
  | none => none
  | some p => some { p with data := p.impl.access p.data key }

/-- The function `priskv_policy_evict` of `policy.c`. -/
def priskv_policy_evict {σ : Type} (policy : Option (priskv_policy σ)) :
    Option (Option String × Option (priskv_policy σ)) :=
  match policy with
  | none => some (none, none)
  | some p =>
    match p.impl.evict p.data with
    | none => none
    | some (k, d) => some (k, some { p with data := d })

/-- The function `priskv_policy_del_key` of `policy.c`. -/
def priskv_policy_del_key {σ : Type} (policy : Option (priskv_policy σ)) (key : String) :
    Option (priskv_policy σ) :=
  match policy with
  | none => none
  | some p => some { p with data := p.impl.del_key p.data key }

/-- The function `priskv_policy_try_ref_key` of `policy.c`. -/
def priskv_policy_try_ref_key {σ : Type} (policy : Option (priskv_policy σ)) (key : String) :
    Option (Bool × Option (priskv_policy σ)) :=
  match policy with
  | none => some (false, none)
  | some p =>
    match p.impl.try_ref_key with
    | none => some (false, some p)
    | some f =>
      match f p.data key with
      | none => none
      | some (b, d) => some (b, some { p with data := d })

/-- The function `priskv_policy_unref_key` of `policy.c`. -/
def priskv_policy_unref_key {σ : Type} (policy : Option (priskv_policy σ)) (key : String) :
    Option (priskv_policy σ) :=
  match policy with
  | none => none
  | some p =>
    match p.impl.unref_key with
    | none => some p
    | some f => some { p with data := f p.data key }

/-- A call of the LRU policy. -/
inductive lru_op where
  | access (key : String)
  | evict
  | del_key (key : String)
  | try_ref_key (key : String)
  | unref_key (key : String)
deriving DecidableEq, Repr

/-- What a call of the LRU policy returns: nothing, the key of `evict` (`none`
for `NULL`), or the truth value of `try_ref_key`. -/
inductive lru_ret where
  | done
  | key (k : Option String)
  | flag (b : Bool)
deriving DecidableEq, Repr

/-- One call of the LRU policy; `none` is a fault. -/
def lru_call (lru : priskv_policy_lru) : lru_op → Option (lru_ret × priskv_policy_lru)
  | lru_op.access key => some (lru_ret.done, lru_policy_access lru key)
  | lru_op.evict =>
    match lru_policy_evict lru with
    | none => none
    | some (k, lru1) => some (lru_ret.key k, lru1)
  | lru_op.del_key key => some (lru_ret.done, lru_policy_del_key lru key)
  | lru_op.try_ref_key key =>
    match lru_policy_try_ref_key lru key with
    | none => none
    | some (b, lru1) => some (lru_ret.flag b, lru1)
  | lru_op.unref_key key => some (lru_ret.done, lru_policy_unref_key lru key)

/-- A sequence of calls of the LRU policy, with what each call returns and the
final state. -/
def lru_run (lru : priskv_policy_lru) : List lru_op → Option (List lru_ret × priskv_policy_lru)
  | [] => some ([], lru)
  | op :: ops =>
    match lru_call lru op with
    | none => none
    | some (r, lru1) =>
      match lru_run lru1 ops with
      | none => none
      | some (rs, lru2) => some (r :: rs, lru2)

/-- The states of the LRU policy that `lru_policy_create` and calls without a
fault lead to. -/
inductive LReach : priskv_policy_lru → Prop
  | create : LReach lru_policy_create
  | step {lru lru1 : priskv_policy_lru} {op : lru_op} {r : lru_ret} :
      LReach lru → lru_call lru op = some (r, lru1) → LReach lru1

/-- The entries of the policy in recency order, the most recent one first: the
nodes of the hash table that the recency list links. -/
def entries (lru : priskv_policy_lru) : List priskv_lru_node :=
  lru.head.filterMap (HASH_FIND_STR lru.hashmap)

/-- The reference count of a key, zero for a key that is absent. -/
def ref_of (lru : priskv_policy_lru) (key : String) : Int :=
  match HASH_FIND_STR lru.hashmap key with
  | some node => node.ref_count
  | none => 0

/-- The invariant of the states of the LRU policy: the recency list and the hash
table hold the same keys, each once, and the reference counts are values of a
C `int` that are not negative. -/
def LInv (lru : priskv_policy_lru) : Prop :=
  lru.head.Nodup ∧ (lru.hashmap.map priskv_lru_node.key).Nodup ∧
  (∀ k, k ∈ lru.head ↔ k ∈ lru.hashmap.map priskv_lru_node.key) ∧
  ∀ n ∈ lru.hashmap, 0 ≤ n.ref_count ∧ n.ref_count ≤ 2147483647

/-- The number of calls `try_ref_key(key)` in a sequence of calls. -/
def pins (key : String) : List lru_op → Int
  | [] => 0
  | op :: ops => (if op = lru_op.try_ref_key key then 1 else 0) + pins key ops

/-- The number of calls `unref_key(key)` in a sequence of calls. -/
def unpins (key : String) : List lru_op → Int
  | [] => 0
  | op :: ops => (if op = lru_op.unref_key key then 1 else 0) + unpins key ops

/-! ## The backend chain

A shallow embedding of `server/backend/backend.c`. The drivers
are not part of the sources; a driver is a record of functions on the private
data of its device. A driver function that takes a completion callback is taken
to invoke it once, with the status and the length that the function of the record
yields. The functions of `backend.c` yield the list of the invocations of the
callback of their caller, the buffer, the devices and the calls of driver
functions, in this order of time. -/

/-- The enumeration `priskv_backend_status` of `backend.h`. -/
inductive priskv_backend_status where
  | PRISKV_BACKEND_STATUS_OK
  | PRISKV_BACKEND_STATUS_ERROR
  | PRISKV_BACKEND_STATUS_NOT_FOUND
  | PRISKV_BACKEND_STATUS_VALUE_TOO_BIG
  | PRISKV_BACKEND_STATUS_TIMEOUT
  | PRISKV_BACKEND_STATUS_NO_SPACE
deriving DecidableEq, Repr

open priskv_backend_status

/-- What a driver function passes to its completion callback of the type
`priskv_backend_driver_cb`, the status and the 32-bit length, together with the
private data of the device after the call. -/
structure driver_done (σ : Type) where
  status : priskv_backend_status
  length : Nat
  data : σ

/-- The record `priskv_backend_link` of `backend.h`; a C string is the list of
its characters, and `childaddr` is `none` for `NULL`. -/
structure priskv_backend_link where
  protocol : List Char
  address : List Char
  childaddr : Option (List Char)
deriving DecidableEq, Repr

/-- The record `priskv_backend_driver` of `backend.h`, for a driver with private
data of the type `σ`. A key is a string, a buffer the list of its bytes, and
`get` also yields the buffer after the call. The entry `bdrv_open` is the entry
`open` of the header, a word that Lean reserves: from the link and the
descriptor of the event loop of its device it yields its `int` result and the
private data. The entry `close` yields its `int` result, and `clearup` its `int`
result and the private data. -/
structure priskv_backend_driver (σ : Type) where
  name : String
  bdrv_open : priskv_backend_link → Int → Int × σ
  close : σ → Int
  is_cacheable : σ → Nat → Bool
  get : σ → String → List Nat → Nat → driver_done σ × List Nat
  set : σ → String → List Nat → Nat → Nat → driver_done σ
  del : σ → String → driver_done σ
  test : σ → String → driver_done σ
  evict : σ → driver_done σ
  clearup : σ → Int × σ

/-- The record `priskv_backend_device` of `backend.h`: the driver, its private
data and the child, `none` for `NULL`. The link and the descriptor of the event
loop play no part in the data path. -/
inductive priskv_backend_device (σ : Type) where
  | mk (bdrv : priskv_backend_driver σ) (private_data : σ)
      (child : Option (priskv_backend_device σ))

/-- The field `bdrv` of a device. -/
def priskv_backend_device.bdrv {σ : Type} : priskv_backend_device σ → priskv_backend_driver σ
  | .mk b _ _ => b

/-- The field `private_data` of a device. -/
def priskv_backend_device.private_data {σ : Type} : priskv_backend_device σ → σ
  | .mk _ p _ => p

/-- The field `child` of a device. -/
def priskv_backend_device.child {σ : Type} :
    priskv_backend_device σ → Option (priskv_backend_device σ)
  | .mk _ _ c => c

/-- A call of a driver function with its arguments; `tier` counts the devices
from the one on which the function of `backend.c` was called, which is tier 0. -/
inductive backend_call where
  | is_cacheable (tier : Nat) (valuelen : Nat)
  | get (tier : Nat) (key : String) (val : List Nat) (valuelen : Nat)
  | set (tier : Nat) (key : String) (val : List Nat) (valuelen : Nat) (timeout : Nat)
  | del (tier : Nat) (key : String)
  | test (tier : Nat) (key : String)
  | evict (tier : Nat)
deriving DecidableEq, Repr

/-- The tier of a call. -/
def backend_call.tier : backend_call → Nat
  | .is_cacheable t _ => t
  | .get t _ _ _ => t
  | .set t _ _ _ _ => t
  | .del t _ => t
  | .test t _ => t
  | .evict t => t

/-- A call of the child chain, seen from the parent: its tier is one more. -/
def backend_call.below : backend_call → backend_call
  | .is_cacheable t l => .is_cacheable (t + 1) l
  | .get t k v l => .get (t + 1) k v l
  | .set t k v l o => .set (t + 1) k v l o
  | .del t k => .del (t + 1) k
  | .test t k => .test (t + 1) k
  | .evict t => .evict (t + 1)

/-- The outcome of a function of `backend.c`: the invocations of the callback of
the caller with their status and length, the buffer, the device with its chain,
and the calls of driver functions. -/
structure backend_done (σ : Type) where
  cbs : List (priskv_backend_status × Nat)
  val : List Nat
  bdev : priskv_backend_device σ
  calls : List backend_call

/-- The functions `_priskv_backend_freeup` and `priskv_backend_freeup_cb`, which
call each other through the driver: as long as the device is not cacheable for
`valuelen` one entry is evicted, and the callback of the context is invoked with
`OK` or with the status of the evict that failed, and with `ctx->valuelen` as its
32-bit length. The result is that invocation, the private data and the calls;
the first argument bounds the number of rounds, `none` says that it was too
small. -/
def _priskv_backend_freeup {σ : Type} (bdrv : priskv_backend_driver σ) (valuelen : Nat) :
    Nat → σ → Option (priskv_backend_status × Nat × σ × List backend_call)
  | 0, _ => none
  | fuel + 1, data =>
    if ¬ bdrv.is_cacheable data valuelen then
      if (bdrv.evict data).status ≠ PRISKV_BACKEND_STATUS_OK then
        some ((bdrv.evict data).status, u32 valuelen, (bdrv.evict data).data,
          [backend_call.is_cacheable 0 valuelen, backend_call.evict 0])
      else
        match _priskv_backend_freeup bdrv valuelen fuel (bdrv.evict data).data with
        | none => none
        | some (status, length, data1, calls) =>
          some (status, length, data1,
            backend_call.is_cacheable 0 valuelen :: backend_call.evict 0 :: calls)
    else
      some (PRISKV_BACKEND_STATUS_OK, u32 valuelen, data, [backend_call.is_cacheable 0 valuelen])

/-- The function `priskv_backend_freeup`. -/
def priskv_backend_freeup {σ : Type} (fuel : Nat) (bdrv : priskv_backend_driver σ) (data : σ)
    (valuelen : Nat) : Option (priskv_backend_status × Nat × σ × List backend_call) :=
  _priskv_backend_freeup bdrv valuelen fuel data

/-- The function `priskv_backend_cache_cb`: the callback of the request is invoked
with `OK`, whatever the status, and with the length it was given. -/
def priskv_backend_cache_cb (_status : priskv_backend_status) (length : Nat) :
    List (priskv_backend_status × Nat) :=
  [(PRISKV_BACKEND_STATUS_OK, length)]

/-- The function `priskv_backend_cache` for the request with `key`, the buffer
`val` and `valuelen`: after a failed `freeup` the callback of the request is
invoked with `OK` and `length`; else the driver's `set` is called with the fields
of the request and `priskv_backend_cache_cb` as its callback. -/
def priskv_backend_cache {σ : Type} (bdrv : priskv_backend_driver σ) (data : σ) (key : String)
    (val : List Nat) (valuelen : Nat) (status : priskv_backend_status) (length : Nat) :
    List (priskv_backend_status × Nat) × σ × List backend_call :=
  if status ≠ PRISKV_BACKEND_STATUS_OK then ([(PRISKV_BACKEND_STATUS_OK, length)], data, [])
  else
    (priskv_backend_cache_cb (bdrv.set data key val valuelen 0).status
        (bdrv.set data key val valuelen 0).length,
      (bdrv.set data key val valuelen 0).data, [backend_call.set 0 key val valuelen 0])

/-- The function `priskv_backend_child_get_cb` for the request with `key`, the
buffer `val` and `valuelen` on the device with `bdrv` and `data`. -/
def priskv_backend_child_get_cb {σ : Type} (fuel : Nat) (bdrv : priskv_backend_driver σ)
    (data : σ) (key : String) (val : List Nat) (valuelen : Nat)
    (status : priskv_backend_status) (length : Nat) :
    Option (List (priskv_backend_status × Nat) × σ × List backend_call) :=
  if status = PRISKV_BACKEND_STATUS_OK then
    match priskv_backend_freeup fuel bdrv data length with
    | none => none
    | some (status1, length1, data1, calls) =>
      some ((priskv_backend_cache bdrv data1 key val valuelen status1 length1).1,
        (priskv_backend_cache bdrv data1 key val valuelen status1 length1).2.1,
        calls ++ (priskv_backend_cache bdrv data1 key val valuelen status1 length1).2.2)
  else some ([(status, length)], data, [])

/-- The functions `priskv_backend_get` and `priskv_backend_get_cb`. The request
holds `key`, the buffer `val` and `valuelen`. The driver's `get` is called; on
`OK`, and without a child, the callback of the request is invoked with the status
and the length of the driver; else `priskv_backend_get` runs on the child with
`priskv_backend_child_get_cb` as its callback. The request is freed by the first
invocation of that callback, so that a second one is a fault. -/
def priskv_backend_get {σ : Type} (fuel : Nat) :
    priskv_backend_device σ → String → List Nat → Nat → Option (backend_done σ)
  | .mk bdrv data none, key, val, valuelen =>
    some { cbs := [((bdrv.get data key val valuelen).1.status,
                    (bdrv.get data key val valuelen).1.length)],
           val := (bdrv.get data key val valuelen).2,
           bdev := .mk bdrv (bdrv.get data key val valuelen).1.data none,
           calls := [backend_call.get 0 key val valuelen] }
  | .mk bdrv data (some child), key, val, valuelen =>
    if (bdrv.get data key val valuelen).1.status = PRISKV_BACKEND_STATUS_OK then
      some { cbs := [((bdrv.get data key val valuelen).1.status,
                      (bdrv.get data key val valuelen).1.length)],
             val := (bdrv.get data key val valuelen).2,
             bdev := .mk bdrv (bdrv.get data key val valuelen).1.data (some child),
             calls := [backend_call.get 0 key val valuelen] }
    else
      match priskv_backend_get fuel child key (bdrv.get data key val valuelen).2 valuelen with
      | none => none
      | some rc =>
        match rc.cbs with
        | [] =>
          some { cbs := [], val := rc.val,
                 bdev := .mk bdrv (bdrv.get data key val valuelen).1.data (some rc.bdev),
                 calls := backend_call.get 0 key val valuelen ::
                   rc.calls.map backend_call.below }
        | [(status, length)] =>
          match priskv_backend_child_get_cb fuel bdrv (bdrv.get data key val valuelen).1.data
              key rc.val valuelen status length with
          | none => none
          | some (cbs, data1, calls) =>
            some { cbs := cbs, val := rc.val, bdev := .mk bdrv data1 (some rc.bdev),
                   calls := backend_call.get 0 key val valuelen ::
                     (rc.calls.map backend_call.below ++ calls) }
        | _ :: _ :: _ => none

/-- Modelled from the spec: a driver that keeps its entries in a table in memory,
as the tiers `cache` and `origin` of the scenario E3 of the spec; the drivers are
not part of the sources at hand. The device is cacheable while it holds fewer
than `cap` entries, `get` copies a value that fits the buffer and reports its
length, `set` stores the first `valuelen` bytes of the buffer and reports the
length 0 (`backend.h`: "SET and DEL operations do not need to return length"),
`del` reports `NOT_FOUND` for a key without an entry, `evict` drops the oldest
entry, and `bdrv_open` and `clearup` leave an empty table. -/
def table_driver (cap : Nat) : priskv_backend_driver (List (String × List Nat)) :=
  { name := "table",
    bdrv_open := fun _ _ => (0, []),
    close := fun _ => 0,
    clearup := fun _ => (0, []),
    is_cacheable := fun t _ => decide (t.length < cap),
    get := fun t key val valuelen =>
      match t.find? (fun e => decide (e.1 = key)) with
      | some e =>
        if e.2.length ≤ valuelen then
          (⟨PRISKV_BACKEND_STATUS_OK, e.2.length, t⟩, e.2 ++ val.drop e.2.length)
        else (⟨PRISKV_BACKEND_STATUS_VALUE_TOO_BIG, e.2.length, t⟩, val)
      | none => (⟨PRISKV_BACKEND_STATUS_NOT_FOUND, 0, t⟩, val),
    set := fun t key val valuelen _ =>
      ⟨PRISKV_BACKEND_STATUS_OK, 0,
        (key, val.take valuelen) :: t.filter (fun e => decide (e.1 ≠ key))⟩,
    del := fun t key =>
      match t.find? (fun e => decide (e.1 = key)) with
      | some _ => ⟨PRISKV_BACKEND_STATUS_OK, 0, t.filter (fun e => decide (e.1 ≠ key))⟩
      | none => ⟨PRISKV_BACKEND_STATUS_NOT_FOUND, 0, t⟩,
    test := fun t key =>
      match t.find? (fun e => decide (e.1 = key)) with
      | some e => ⟨PRISKV_BACKEND_STATUS_OK, e.2.length, t⟩
      | none => ⟨PRISKV_BACKEND_STATUS_NOT_FOUND, 0, t⟩,
    evict := fun t =>
      match t with
      | [] => ⟨PRISKV_BACKEND_STATUS_NOT_FOUND, 0, t⟩
      | _ :: _ => ⟨PRISKV_BACKEND_STATUS_OK, 0, t.dropLast⟩ }

/-- A driver without data whose `get` reports a fixed status and length; a fixture
for a tier that fails. It is never cacheable and its other functions report
`ERROR`. -/
def fixed_driver (status : priskv_backend_status) (length : Nat) : priskv_backend_driver Unit :=
  { name := "fixed",
    bdrv_open := fun _ _ => (0, ()),
    close := fun _ => 0,
    clearup := fun _ => (0, ()),
    is_cacheable := fun _ _ => false,
    get := fun _ _ val _ => (⟨status, length, ()⟩, val),
    set := fun _ _ _ _ _ => ⟨PRISKV_BACKEND_STATUS_ERROR, 0, ()⟩,
    del := fun _ _ => ⟨PRISKV_BACKEND_STATUS_ERROR, 0, ()⟩,
    test := fun _ _ => ⟨PRISKV_BACKEND_STATUS_ERROR, 0, ()⟩,
    evict := fun _ => ⟨PRISKV_BACKEND_STATUS_ERROR, 0, ()⟩ }

/-- The bytes of the value "hello" of the scenario E3. -/
def hello : List Nat := [104, 101, 108, 108, 111]

/-- The chain `cache;origin` of the scenario E3: a cache for 4 entries, empty,
before an origin that holds the value "hello" for the key "k". -/
def e3_chain : priskv_backend_device (List (String × List Nat)) :=
  .mk (table_driver 4) [] (some (.mk (table_driver 1000) [("k", hello)] none))

/-! ## The backend chain: `set`, `del` and `test` -/

/-- The function `priskv_backend_set_cb`: the callback of the request is invoked
with the status and the length it was given. -/
def priskv_backend_set_cb (status : priskv_backend_status) (length : Nat) :
    List (priskv_backend_status × Nat) :=
  [(status, length)]

/-- The function `priskv_backend_child_set_cb` for the request with `key` on the
device with `bdrv` and `data`: on `OK` the driver's `del` is called with
`priskv_backend_set_cb` as its callback, else the callback of the request is
invoked with the status and the length. -/
def priskv_backend_child_set_cb {σ : Type} (bdrv : priskv_backend_driver σ) (data : σ)
    (key : String) (status : priskv_backend_status) (length : Nat) :
    List (priskv_backend_status × Nat) × σ × List backend_call :=
  if status = PRISKV_BACKEND_STATUS_OK then
    (priskv_backend_set_cb (bdrv.del data key).status (bdrv.del data key).length,
      (bdrv.del data key).data, [backend_call.del 0 key])
  else ([(status, length)], data, [])

/-- The function `priskv_backend_set`. With a child, `priskv_backend_set` runs on
the child with `priskv_backend_child_set_cb` as its callback; the request is
freed by the first invocation of that callback, so that a second one is a fault,
`none`. Without a child the driver's `set` is called with
`priskv_backend_set_cb` as its callback. -/
def priskv_backend_set {σ : Type} :
    priskv_backend_device σ → String → List Nat → Nat → Nat → Option (backend_done σ)
  | .mk bdrv data none, key, val, valuelen, timeout =>
    some { cbs := priskv_backend_set_cb (bdrv.set data key val valuelen timeout).status
                    (bdrv.set data key val valuelen timeout).length,
           val := val,
           bdev := .mk bdrv (bdrv.set data key val valuelen timeout).data none,
           calls := [backend_call.set 0 key val valuelen timeout] }
  | .mk bdrv data (some child), key, val, valuelen, timeout =>
    match priskv_backend_set child key val valuelen timeout with
    | none => none
    | some rc =>
      match rc.cbs with
      | [] =>
        some { cbs := [], val := rc.val, bdev := .mk bdrv data (some rc.bdev),
               calls := rc.calls.map backend_call.below }
      | [(status, length)] =>
        some { cbs := (priskv_backend_child_set_cb bdrv data key status length).1,
               val := rc.val,
               bdev := .mk bdrv (priskv_backend_child_set_cb bdrv data key status length).2.1
                 (some rc.bdev),
               calls := rc.calls.map backend_call.below ++
                 (priskv_backend_child_set_cb bdrv data key status length).2.2 }
      | _ :: _ :: _ => none

/-- The function `priskv_backend_del_cb`. -/
def priskv_backend_del_cb (status : priskv_backend_status) (length : Nat) :
    List (priskv_backend_status × Nat) :=
  [(status, length)]

/-- The function `priskv_backend_child_del_cb` for the request with `key` on the
device with `bdrv` and `data`. -/
def priskv_backend_child_del_cb {σ : Type} (bdrv : priskv_backend_driver σ) (data : σ)
    (key : String) (status : priskv_backend_status) (length : Nat) :
    List (priskv_backend_status × Nat) × σ × List backend_call :=
  if status = PRISKV_BACKEND_STATUS_OK then
    (priskv_backend_del_cb (bdrv.del data key).status (bdrv.del data key).length,
      (bdrv.del data key).data, [backend_call.del 0 key])
  else ([(status, length)], data, [])

/-- The function `priskv_backend_del`. With a child, `priskv_backend_del` runs on
the child with `priskv_backend_child_del_cb` as its callback, which frees the
request at its first invocation; without a child the driver's `del` is called
with `priskv_backend_del_cb` as its callback. -/
def priskv_backend_del {σ : Type} :
    priskv_backend_device σ → String → Option (backend_done σ)
  | .mk bdrv data none, key =>
    some { cbs := priskv_backend_del_cb (bdrv.del data key).status (bdrv.del data key).length,
           val := [],
           bdev := .mk bdrv (bdrv.del data key).data none,
           calls := [backend_call.del 0 key] }
  | .mk bdrv data (some child), key =>
    match priskv_backend_del child key with
    | none => none
    | some rc =>
      match rc.cbs with
      | [] =>
        some { cbs := [], val := [], bdev := .mk bdrv data (some rc.bdev),
               calls := rc.calls.map backend_call.below }
      | [(status, length)] =>
        some { cbs := (priskv_backend_child_del_cb bdrv data key status length).1,
               val := [],
               bdev := .mk bdrv (priskv_backend_child_del_cb bdrv data key status length).2.1
                 (some rc.bdev),
               calls := rc.calls.map backend_call.below ++
                 (priskv_backend_child_del_cb bdrv data key status length).2.2 }
      | _ :: _ :: _ => none

/-- The functions `priskv_backend_test` and `priskv_backend_test_cb`. The driver's
`test` is called; on `OK`, and without a child, the callback of the request is
invoked with the status and the length of the driver; else
`priskv_backend_test` runs on the child with the callback of the request as its
callback. -/
def priskv_backend_test {σ : Type} : priskv_backend_device σ → String → backend_done σ
  | .mk bdrv data none, key =>
    { cbs := [((bdrv.test data key).status, (bdrv.test data key).length)],
      val := [],
      bdev := .mk bdrv (bdrv.test data key).data none,
      calls := [backend_call.test 0 key] }
  | .mk bdrv data (some child), key =>
    if (bdrv.test data key).status = PRISKV_BACKEND_STATUS_OK then
      { cbs := [((bdrv.test data key).status, (bdrv.test data key).length)],
        val := [],
        bdev := .mk bdrv (bdrv.test data key).data (some child),
        calls := [backend_call.test 0 key] }
    else
      { cbs := (priskv_backend_test child key).cbs,
        val := [],
        bdev := .mk bdrv (bdrv.test data key).data (some (priskv_backend_test child key).bdev),
        calls := backend_call.test 0 key ::
          (priskv_backend_test child key).calls.map backend_call.below }

/-- The private data of the tiers of a chain, the head first. -/
def chain_data {σ : Type} : priskv_backend_device σ → List σ
  | .mk _ data none => [data]
  | .mk _ data (some child) => data :: chain_data child

/-- The private data after `n` entries were evicted one after the other. -/
def evicted {σ : Type} (bdrv : priskv_backend_driver σ) : Nat → σ → σ
  | 0, data => data
  | n + 1, data => evicted bdrv n (bdrv.evict data).data

/-- The calls of `n` rounds of the loop of `priskv_backend_freeup`: the test
`is_cacheable` and the `evict` that follows it. -/
def freeup_rounds (valuelen : Nat) : Nat → List backend_call
  | 0 => []
  | n + 1 => backend_call.is_cacheable 0 valuelen :: backend_call.evict 0 ::
      freeup_rounds valuelen n

/-- The chain `cache;origin` with both tiers empty. -/
def empty_chain : priskv_backend_device (List (String × List Nat)) :=
  .mk (table_driver 4) [] (some (.mk (table_driver 1000) [] none))

/-! ## The backend chain: addresses, `open` and `close` -/

/-- The constant `EINVAL` of `errno.h`. -/
def EINVAL : Int := 22

/-- The function `strchr` of the C library: the position of the first occurrence
of the character, `none` for `NULL`. -/
def strchr : List Char → Char → Option Nat
  | [], _ => none
  | x :: s, c => if x = c then some 0 else (strchr s c).map (· + 1)

/-- The function `strndup` of the C library: a copy of at most `n` characters. -/
def strndup (s : List Char) (n : Nat) : List Char := s.take n

/-- The function `parse_link`. The result is the `int` that it returns and the
link that it leaves; `none` stands for a link whose strings were freed or never
set. The length `end - delim - 1` is converted to `size_t`. -/
def parse_link (address : Option (List Char)) : Int × Option priskv_backend_link :=
  match address with
  | none => (-EINVAL, none)
  | some s =>
    if s = [] then (-EINVAL, none)
    else
      match strchr s ':' with
      | none => (-EINVAL, none)
      | some delim =>
        match strchr s ';' with
        | none =>
          if (strndup s delim).length = 0 ∨ (s.drop (delim + 1)).length = 0 then (-EINVAL, none)
          else (0, some { protocol := strndup s delim, address := s.drop (delim + 1),
                          childaddr := none })
        | some e =>
          if (strndup s delim).length = 0 ∨
              (strndup (s.drop (delim + 1))
                (((e : Int) - (delim : Int) - 1) % 18446744073709551616).toNat).length = 0 ∨
              (s.drop (e + 1)).length = 0 then (-EINVAL, none)
          else (0, some { protocol := strndup s delim,
                          address := strndup (s.drop (delim + 1))
                            (((e : Int) - (delim : Int) - 1) % 18446744073709551616).toNat,
                          childaddr := some (s.drop (e + 1)) })

/-- The function `priskv_backend_find_driver` on the list of the registered
drivers: the first one with the name. -/
def priskv_backend_find_driver {σ : Type} :
    List (priskv_backend_driver σ) → List Char → Option (priskv_backend_driver σ)
  | [], _ => none
  | bdrv :: l, name => if bdrv.name.data = name then some bdrv else priskv_backend_find_driver l name

/-- A call of `bdrv_open`, `clearup` or `close` of the driver of a tier; the
tiers are counted from the device that is opened or closed, which is tier 0. -/
inductive backend_life where
  | bdrv_open (tier : Nat) (link : priskv_backend_link)
  | clearup (tier : Nat)
  | close (tier : Nat)
deriving DecidableEq, Repr

/-- A call on the child chain, seen from the parent. -/
def backend_life.below : backend_life → backend_life
  | .bdrv_open t l => .bdrv_open (t + 1) l
  | .clearup t => .clearup (t + 1)
  | .close t => .close (t + 1)

/-- The function `priskv_backend_close`: the `int` that it returns and the calls
of the drivers. When the close of the child chain does not return 0 the function
returns at once. -/
def priskv_backend_close {σ : Type} : priskv_backend_device σ → Int × List backend_life
  | .mk bdrv data none => (bdrv.close data, [backend_life.close 0])
  | .mk bdrv data (some child) =>
    if (priskv_backend_close child).1 ≠ 0 then
      ((priskv_backend_close child).1, (priskv_backend_close child).2.map backend_life.below)
    else
      (bdrv.close data,
        (priskv_backend_close child).2.map backend_life.below ++ [backend_life.close 0])

/-- The function `priskv_backend_open` on the list `drivers` of the registered
drivers: the device, `none` for `NULL`, and the calls of the drivers. The first
argument bounds the depth of the calls of the function by itself; the outer
`none` says that it was too small. -/
def priskv_backend_open_rec {σ : Type} (drivers : List (priskv_backend_driver σ))
    (epollfd : Int) :
    Nat → Option (List Char) → Option (Option (priskv_backend_device σ) × List backend_life)
  | 0, _ => none
  | fuel + 1, address =>
    match (parse_link address).2 with
    | none => some (none, [])
    | some link =>
      match priskv_backend_find_driver drivers link.protocol with
      | none => some (none, [])
      | some bdrv =>
        if (bdrv.bdrv_open link epollfd).1 ≠ 0 then
          some (none, [backend_life.bdrv_open 0 link])
        else
          match link.childaddr with
          | none =>
            some (some (.mk bdrv (bdrv.bdrv_open link epollfd).2 none),
              [backend_life.bdrv_open 0 link])
          | some childaddr =>
            match priskv_backend_open_rec drivers epollfd fuel (some childaddr) with
            | none => none
            | some (none, calls) =>
              some (none, backend_life.bdrv_open 0 link ::
                (calls.map backend_life.below ++ [backend_life.close 0]))
            | some (some child, calls) =>
              if (bdrv.clearup (bdrv.bdrv_open link epollfd).2).1 ≠ 0 then
                some (none, backend_life.bdrv_open 0 link ::
                  (calls.map backend_life.below ++ backend_life.clearup 0 ::
                    (priskv_backend_close
                      (.mk bdrv (bdrv.clearup (bdrv.bdrv_open link epollfd).2).2
                        (some child))).2))
              else
                some (some (.mk bdrv (bdrv.clearup (bdrv.bdrv_open link epollfd).2).2
                    (some child)),
                  backend_life.bdrv_open 0 link ::
                    (calls.map backend_life.below ++ [backend_life.clearup 0]))

/-- The function `priskv_backend_open`: every call of the function by itself is
on a shorter address, so that the length of the address bounds their depth. -/
def priskv_backend_open {σ : Type} (drivers : List (priskv_backend_driver σ))
    (address : Option (List Char)) (epollfd : Int) :
    Option (Option (priskv_backend_device σ) × List backend_life) :=
  priskv_backend_open_rec drivers epollfd ((address.getD []).length + 1) address

/-- A driver without data, a fixture for `open` and `close`: its name and the
results of its `bdrv_open`, `clearup` and `close`. Its other functions report
`ERROR`. -/
def life_driver (name : String) (open_ret clearup_ret close_ret : Int) :
    priskv_backend_driver Unit :=
  { name := name,
    bdrv_open := fun _ _ => (open_ret, ()),
    close := fun _ => close_ret,
    clearup := fun _ => (clearup_ret, ()),
    is_cacheable := fun _ _ => false,
    get := fun _ _ val _ => (⟨PRISKV_BACKEND_STATUS_ERROR, 0, ()⟩, val),
    set := fun _ _ _ _ _ => ⟨PRISKV_BACKEND_STATUS_ERROR, 0, ()⟩,
    del := fun _ _ => ⟨PRISKV_BACKEND_STATUS_ERROR, 0, ()⟩,
    test := fun _ _ => ⟨PRISKV_BACKEND_STATUS_ERROR, 0, ()⟩,
    evict := fun _ => ⟨PRISKV_BACKEND_STATUS_ERROR, 0, ()⟩ }

/-- The drivers of the tiers of a chain, the head first. -/
def chain_drivers {σ : Type} : priskv_backend_device σ → List (priskv_backend_driver σ)
  | .mk bdrv _ none => [bdrv]
  | .mk bdrv _ (some child) => bdrv :: chain_drivers child

/-- The names of the drivers of the tiers of a chain, the head first. -/
def chain_names {σ : Type} (bdev : priskv_backend_device σ) : List String :=
  (chain_drivers bdev).map (fun bdrv => bdrv.name)

/-- The address `p1:a1;p2:a2;...;pn:an` of the tiers with the protocols `pi` and
the addresses `ai`; no tiers give the empty string. -/
def chain_address : List (List Char × List Char) → List Char
  | [] => []
  | [t] => t.1 ++ ':' :: t.2
  | t :: t1 :: l => t.1 ++ ':' :: (t.2 ++ ';' :: chain_address (t1 :: l))

/-- A tier of a chain address, its protocol and its address: the protocol is not
empty and holds no `:` and no `;`, the address is not empty and holds no `;`. -/
def tier_wf (t : List Char × List Char) : Prop :=
  t.1 ≠ [] ∧ ':' ∉ t.1 ∧ ';' ∉ t.1 ∧ t.2 ≠ [] ∧ ';' ∉ t.2

instance tier_wf_decidable : DecidablePred tier_wf := fun t => by
  unfold tier_wf
  infer_instance

/-- The links of the tiers of the chain address of `chain_address`: the child
address of a tier is the chain address of the tiers after it. -/
def chain_links : List (List Char × List Char) → List priskv_backend_link
  | [] => []
  | [t] => [⟨t.1, t.2, none⟩]
  | t :: t1 :: l => ⟨t.1, t.2, some (chain_address (t1 :: l))⟩ :: chain_links (t1 :: l)

/-- Whether the tier with the link opens: a driver with the name of its protocol
is registered, the `bdrv_open` of the driver returns 0 and, when the link has a
child address, its `clearup` returns 0 on the private data that `bdrv_open`
left. -/
def link_opens {σ : Type} (drivers : List (priskv_backend_driver σ)) (epollfd : Int)
    (link : priskv_backend_link) : Bool :=
  match priskv_backend_find_driver drivers link.protocol with
  | none => false
  | some bdrv =>
    decide ((bdrv.bdrv_open link epollfd).1 = 0) &&
      (link.childaddr.isNone ||
        decide ((bdrv.clearup (bdrv.bdrv_open link epollfd).2).1 = 0))

/-- In the words of the specification, the registered driver of a name: a driver
of the list of the registered drivers that has the name, none of the drivers
registered before it having the name. `priskv_backend_register` asserts that no
two registered drivers have one name, so that it is the only one. -/
def driver_named {σ : Type} (drivers : List (priskv_backend_driver σ)) (name : List Char)
    (bdrv : priskv_backend_driver σ) : Prop :=
  ∃ before after, drivers = before ++ bdrv :: after ∧ bdrv.name.data = name ∧
    ∀ d ∈ before, d.name.data ≠ name

/-- In the words of the specification, a name that no registered driver has. -/
def not_registered {σ : Type} (drivers : List (priskv_backend_driver σ)) (name : List Char) :
    Prop :=
  ∀ d ∈ drivers, d.name.data ≠ name

/-- The calls of the drivers when the tiers with the links open, the first of
them being the tier `k`: the `bdrv_open` of every tier, the head first, and then
the `clearup` of every tier but the last, the last but one first. -/
def open_calls (k : Nat) (links : List priskv_backend_link) : List backend_life :=
  (links.enumFrom k).map (fun p => backend_life.bdrv_open p.1 p.2) ++
    (List.range (links.length - 1)).reverse.map (fun i => backend_life.clearup (k + i))

/-- The calls of `close` on a chain of `n` tiers, the tail first. -/
def close_calls (n : Nat) : List backend_life :=
  (List.range n).reverse.map backend_life.close

/-! ## The codec

A shallow embedding of `lib/codec.c`. The codec reaches the fields of a C
structure through the byte offsets of a schema, so that the memory is a list of
bytes, an address is an index into it and address 0 is `NULL`; integers lie in it
with the low byte first. A block that was allocated is never given out again.
The library json-c is not part of the sources: a JSON value is a tree, and the
text that `json_object_to_json_string` makes of a tree and
`json_tokener_parse_verbose` reads is taken to denote that tree. -/

/-- The value of the `n` bytes at `addr`, the low byte first; `none` when they
are not all in the memory. -/
def load (m : List Nat) (addr : Nat) : Nat → Option Nat
  | 0 => some 0
  | n + 1 =>
    match m[addr]? with
    | none => none
    | some b => (load m (addr + 1) n).map (fun v => b + 256 * v)

/-- The memory after the low `n` bytes of `v` were stored at `addr`; `none` when
they are not all in the memory. -/
def store (m : List Nat) (addr : Nat) : Nat → Nat → Option (List Nat)
  | 0, _ => some m
  | n + 1, v =>
    if addr < m.length then (store m (addr + 1) n (v / 256)).map (fun m1 => m1.set addr (v % 256))
    else none

/-- The function `calloc` of the C library, and `malloc` with the `memset` to 0
that follows it: the address of a new block of zero bytes, and the memory. -/
def calloc (m : List Nat) (nmemb size : Nat) : Nat × List Nat :=
  (m.length, m ++ List.replicate (nmemb * size) 0)

/-- The function `strdup` of the C library: the address of a new block with the
bytes of the string and the byte 0 after them, and the memory. -/
def strdup (m : List Nat) (s : List Nat) : Nat × List Nat :=
  (m.length, m ++ s ++ [0])

/-- The C string at `addr`: the bytes before the first byte 0; `none` when the
memory ends before. The first argument bounds the length. -/
def c_string (m : List Nat) : Nat → Nat → Option (List Nat)
  | 0, _ => none
  | fuel + 1, addr =>
    match m[addr]? with
    | none => none
    | some b => if b = 0 then some [] else (c_string m fuel (addr + 1)).map (fun s => b :: s)

/-- The enumeration `priskv_object_type` of `priskv-codec.h`. -/
inductive priskv_object_type where
  | priskv_obj_type_boolean
  | priskv_obj_type_int
  | priskv_obj_type_uint64
  | priskv_obj_type_string
  | priskv_obj_type_object
deriving DecidableEq, Repr

/-- The enumeration `priskv_object_field_type` of `priskv-codec.h`. -/
inductive priskv_object_field_type where
  | priskv_obj_field_type_value
  | priskv_obj_field_type_array
deriving DecidableEq, Repr

open priskv_object_type priskv_object_field_type

/-- The record `priskv_object_field` of `priskv-codec.h`; `α` is the type of the
schema `obj` of the field. -/
structure priskv_object_field (α : Type) where
  type : priskv_object_field_type
  name : String
  offset : Nat
  noffset : Nat
  obj : α
  _required : Bool
  _ignored : Bool

/-- The record `priskv_object` of `priskv-codec.h`; `nfields` is the length of
`fields`. -/
inductive priskv_object where
  | mk (type : priskv_object_type) (size : Nat)
      (fields : List (priskv_object_field priskv_object))

/-- The field `type` of a schema. -/
def priskv_object.type : priskv_object → priskv_object_type
  | .mk t _ _ => t

/-- The field `size` of a schema. -/
def priskv_object.size : priskv_object → Nat
  | .mk _ s _ => s

/-- The field `fields` of a schema. -/
def priskv_object.fields : priskv_object → List (priskv_object_field priskv_object)
  | .mk _ _ f => f

/-- The schema `priskv_boolean_obj`. -/
def priskv_boolean_obj : priskv_object := .mk priskv_obj_type_boolean 1 []

/-- The schema `priskv_int_obj`. -/
def priskv_int_obj : priskv_object := .mk priskv_obj_type_int 4 []

/-- The schema `priskv_uint64_obj`. -/
def priskv_uint64_obj : priskv_object := .mk priskv_obj_type_uint64 8 []

/-- The schema `priskv_string_obj`. -/
def priskv_string_obj : priskv_object := .mk priskv_obj_type_string 8 []

/-- A JSON value of json-c: `null`, a boolean, a number with a fraction (of which
the codec reads the type only), an integer (json-c keeps 64 bits, signed or
not), a string, an array, or an object with its keys in the order in which they
were added. In json-c the value `null` is the pointer `NULL`. -/
inductive json_object where
  | json_type_null
  | json_type_boolean (b : Bool)
  | json_type_double (bits : Nat)
  | json_type_int (v : Int)
  | json_type_string (s : List Nat)
  | json_type_array (elems : List json_object)
  | json_type_object (entries : List (String × json_object))

open json_object

/-- The function `json_object_object_get` of json-c: the value of the key in an
object; `none`, for `NULL`, when there is none, when the value is `null`, or
when `jobj` is no object. -/
def json_object_object_get (jobj : json_object) (key : String) : Option json_object :=
  match jobj with
  | json_type_object entries =>
    match (entries.find? (fun e => decide (e.1 = key))).map Prod.snd with
    | some json_type_null => none
    | r => r
  | _ => none

/-- The function `json_object_object_add` of json-c on the entries of an object:
the value of a key that the object has is replaced, a new key comes last. -/
def json_object_object_add (entries : List (String × json_object)) (key : String)
    (val : json_object) : List (String × json_object) :=
  if entries.any (fun e => decide (e.1 = key)) then
    entries.map (fun e => if e.1 = key then (key, val) else e)
  else entries ++ [(key, val)]

/-- The function `json_object_get_int` of json-c on an integer: the value, cut to
the range of `int32_t`. -/
def json_object_get_int (v : Int) : Int :=
  if v < -2147483648 then -2147483648 else if 2147483647 < v then 2147483647 else v

/-- The function `json_object_get_uint64` of json-c on an integer: the value, 0
for a negative one. -/
def json_object_get_uint64 (v : Int) : Nat := v.toNat

/-- The table `priskv_value_is_ignored` with its functions; `none` is a read
outside the memory. -/
def priskv_value_is_ignored (m : List Nat) (data : Nat) : priskv_object_type → Option Bool
  | priskv_obj_type_boolean => some false
  | priskv_obj_type_int => (load m data 4).map (fun v => decide (v = 0))
  | priskv_obj_type_uint64 => (load m data 8).map (fun v => decide (v = 0))
  | priskv_obj_type_string => (load m data 8).map (fun v => decide (v = 0))
  | priskv_obj_type_object => some false

/-- The table `priskv_value_code` with its functions `__priskv_code_boolean`,
`__priskv_code_int`, `__priskv_code_uint64`, `__priskv_code_string` and
`__priskv_code_object`; `code_obj` stands for `__priskv_code_obj`. The outer
`none` is a read outside the memory, the inner one is `NULL`. -/
def priskv_value_code (code_obj : Nat → priskv_object → Option (Option json_object))
    (m : List Nat) (data : Nat) (obj : priskv_object) : Option (Option json_object) :=
  match obj.type with
  | priskv_obj_type_boolean =>
    (load m data 1).map (fun v => some (json_type_boolean (decide (v ≠ 0))))
  | priskv_obj_type_int =>
    (load m data 4).map (fun v => some (json_type_int (int32_of v)))
  | priskv_obj_type_uint64 =>
    (load m data 8).map (fun v => some (json_type_int v))
  | priskv_obj_type_string =>
    match load m data 8 with
    | none => none
    | some p =>
      if p = 0 then some (some (json_type_string []))
      else (c_string m m.length p).map (fun s => some (json_type_string s))
  | priskv_obj_type_object => code_obj data obj

/-- The loop over the elements of an array field in `__priskv_code_obj`, with `k`
elements to go from the index `j`: the element is at `*(void **)field_data +
size * j`. -/
def code_elems (code : Nat → Option (Option json_object)) (m : List Nat)
    (field_data size : Nat) : Nat → Nat → Option (Option (List json_object))
  | 0, _ => some (some [])
  | k + 1, j =>
    match load m field_data 8 with
    | none => none
    | some base =>
      match code (base + size * j) with
      | none => none
      | some none => some none
      | some (some ele) =>
        match code_elems code m field_data size k (j + 1) with
        | none => none
        | some none => some none
        | some (some l) => some (some (ele :: l))

/-- The body of the loop over the fields in `__priskv_code_obj`, for one field;
`jobj` holds the entries of the object so far, and the result is the entries
after the field. The count of an array field is read as an `int`; for a negative
count `json_object_new_array_ext` returns `NULL`. The outer `none` is a read
outside the memory, the inner one the jump to `fail`. -/
def code_field (code_value : Nat → priskv_object → Option (Option json_object))
    (m : List Nat) (data : Nat) (field : priskv_object_field priskv_object)
    (jobj : List (String × json_object)) : Option (Option (List (String × json_object))) :=
  match field.type with
  | priskv_obj_field_type_value =>
    match (if field._ignored then
        priskv_value_is_ignored m (data + field.offset) field.obj.type else some false) with
    | none => none
    | some true => some (some jobj)
    | some false =>
      match code_value (data + field.offset) field.obj with
      | none => none
      | some none => some none
      | some (some field_obj) => some (some (json_object_object_add jobj field.name field_obj))
  | priskv_obj_field_type_array =>
    match load m (data + field.noffset) 4 with
    | none => none
    | some n =>
      if field._ignored ∧ int32_of n = 0 then some (some jobj)
      else if int32_of n < 0 then some none
      else
        match code_elems (fun a => code_value a field.obj) m (data + field.offset)
            field.obj.size (int32_of n).toNat 0 with
        | none => none
        | some none => some none
        | some (some l) =>
          some (some (json_object_object_add jobj field.name (json_type_array l)))

/-- The loop over the fields in `__priskv_code_obj`; `jobj` holds the entries of
the object so far. -/
def code_fields (code_value : Nat → priskv_object → Option (Option json_object))
    (m : List Nat) (data : Nat) :
    List (priskv_object_field priskv_object) → List (String × json_object) →
      Option (Option json_object)
  | [], jobj => some (some (json_type_object jobj))
  | field :: rest, jobj =>
    match code_field code_value m data field jobj with
    | none => none
    | some none => some none
    | some (some jobj1) => code_fields code_value m data rest jobj1

/-- The function `__priskv_code_obj`. The first argument bounds the depth of the
objects within objects; the outer `none` says that it was too small or that a
read went outside the memory, the inner one is `NULL`. -/
def __priskv_code_obj : Nat → List Nat → Nat → priskv_object → Option (Option json_object)
  | 0, _, _, _ => none
  | fuel + 1, m, data, obj =>
    if data = 0 then some none
    else code_fields (priskv_value_code (__priskv_code_obj fuel m) m) m data obj.fields []

/-- The function `priskv_codec_code`; the result is the JSON value that the
string denotes. -/
def priskv_codec_code (fuel : Nat) (m : List Nat) (data : Nat) (obj : priskv_object) :
    Option (Option json_object) :=
  if data = 0 then some none else __priskv_code_obj fuel m data obj

/-- The constant `MAX_STRING_SIZE` of `codec.c`. -/
def MAX_STRING_SIZE : Nat := 255

/-- The record `priskv_codec` of `codec.c`: the text in `error_string`, up to its
byte 0. A character of a text is taken as one byte. -/
structure priskv_codec where
  error_string : String
deriving DecidableEq, Repr

/-- The function `priskv_codec_new`. -/
def priskv_codec_new : priskv_codec := { error_string := "" }

/-- The function `__priskv_codec_set_error` with the text that its format and
arguments make: `vsnprintf` with the size `MAX_STRING_SIZE` keeps the first 254
bytes of it. -/
def __priskv_codec_set_error (_codec : priskv_codec) (text : String) : priskv_codec :=
  { error_string := String.mk (text.data.take (MAX_STRING_SIZE - 1)) }

/-- The function `priskv_codec_get_error`. -/
def priskv_codec_get_error (codec : priskv_codec) : String := codec.error_string

/-- The table `priskv_value_decode` with its functions `__priskv_decode_boolean`,
`__priskv_decode_int`, `__priskv_decode_uint64`, `__priskv_decode_string` and
`__priskv_decode_object`; `decode_obj` stands for `__priskv_decode_obj`. The
result is the `int` that is returned, the memory and the codec; `none` is a write
outside the memory. -/
def priskv_value_decode
    (decode_obj : priskv_codec → List Nat → json_object → Nat → priskv_object →
      Option (Int × List Nat × priskv_codec))
    (codec : priskv_codec) (m : List Nat) (jobj : json_object) (data : Nat)
    (obj : priskv_object) : Option (Int × List Nat × priskv_codec) :=
  match obj.type with
  | priskv_obj_type_boolean =>
    match jobj with
    | json_type_boolean b =>
      (store m data 1 (if b then 1 else 0)).map (fun m1 => (0, m1, codec))
    | _ => some (-1, m, __priskv_codec_set_error codec "type is not boolean")
  | priskv_obj_type_int =>
    match jobj with
    | json_type_int v =>
      (store m data 4 (json_object_get_int v % 4294967296).toNat).map
        (fun m1 => (0, m1, codec))
    | _ => some (-1, m, __priskv_codec_set_error codec "type is not int")
  | priskv_obj_type_uint64 =>
    match jobj with
    | json_type_int v =>
      (store m data 8 (json_object_get_uint64 v)).map (fun m1 => (0, m1, codec))
    | _ => some (-1, m, __priskv_codec_set_error codec "type is not int")
  | priskv_obj_type_string =>
    match jobj with
    | json_type_string s =>
      (store (strdup m s).2 data 8 (strdup m s).1).map (fun m1 => (0, m1, codec))
    | _ => some (-1, m, __priskv_codec_set_error codec "type is not string")
  | priskv_obj_type_object =>
    match jobj with
    | json_type_object _ => decode_obj codec m jobj data obj
    | _ => some (-1, m, __priskv_codec_set_error codec "type is not object")

/-- The loop over the elements of the array field `name` in `__priskv_decode_obj`,
from the index `j`: the element goes to `*(void **)field_data + size * j`. -/
def decode_elems
    (decode : priskv_codec → List Nat → json_object → Nat →
      Option (Int × List Nat × priskv_codec))
    (name : String) (field_data size : Nat) :
    priskv_codec → List Nat → List json_object → Nat → Option (Int × List Nat × priskv_codec)
  | codec, m, [], _ => some (0, m, codec)
  | codec, m, ele :: rest, j =>
    match load m field_data 8 with
    | none => none
    | some base =>
      match decode codec m ele (base + size * j) with
      | none => none
      | some (r, m1, codec1) =>
        if r < 0 then
          some (-1, m1, __priskv_codec_set_error codec1
            ("failed to decode array `" ++ name ++ "`: " ++ priskv_codec_get_error codec1))
        else decode_elems decode name field_data size codec1 m1 rest (j + 1)

/-- The body of the loop over the fields in `__priskv_decode_obj`, for one field;
the result -1 is the jump to `fail`, the result 0 goes on with the next field.
The length of an array is stored at `noffset` as a `size_t`, 8 bytes, before the
block of the elements is allocated and its address stored at `offset`. -/
def decode_field
    (decode_value : priskv_codec → List Nat → json_object → Nat → priskv_object →
      Option (Int × List Nat × priskv_codec))
    (jobj : json_object) (data : Nat) (codec : priskv_codec) (m : List Nat)
    (field : priskv_object_field priskv_object) : Option (Int × List Nat × priskv_codec) :=
  match json_object_object_get jobj field.name with
  | none =>
    if field._required then
      some (-1, m, __priskv_codec_set_error codec
        ("not found `" ++ field.name ++ "` that is required"))
    else some (0, m, codec)
  | some field_obj =>
    match field.type with
    | priskv_obj_field_type_value =>
      match decode_value codec m field_obj (data + field.offset) field.obj with
      | none => none
      | some (r, m1, codec1) =>
        if r < 0 then
          some (-1, m1, __priskv_codec_set_error codec1
            ("failed to decode `" ++ field.name ++ "`: " ++ priskv_codec_get_error codec1))
        else some (0, m1, codec1)
    | priskv_obj_field_type_array =>
      match field_obj with
      | json_type_array elems =>
        match store m (data + field.noffset) 8 elems.length with
        | none => none
        | some m1 =>
          match store (calloc m1 elems.length field.obj.size).2 (data + field.offset) 8
              (calloc m1 elems.length field.obj.size).1 with
          | none => none
          | some m2 =>
            decode_elems (fun c m3 e a => decode_value c m3 e a field.obj) field.name
              (data + field.offset) field.obj.size codec m2 elems 0
      | _ =>
        some (-1, m, __priskv_codec_set_error codec
          ("failed to decode `" ++ field.name ++ "`: type is not array"))

/-- The loop over the fields in `__priskv_decode_obj`. -/
def decode_fields
    (decode_value : priskv_codec → List Nat → json_object → Nat → priskv_object →
      Option (Int × List Nat × priskv_codec))
    (jobj : json_object) (data : Nat) :
    priskv_codec → List Nat → List (priskv_object_field priskv_object) →
      Option (Int × List Nat × priskv_codec)
  | codec, m, [] => some (0, m, codec)
  | codec, m, field :: rest =>
    match decode_field decode_value jobj data codec m field with
    | none => none
    | some (r, m1, codec1) =>
      if r < 0 then some (-1, m1, codec1)
      else decode_fields decode_value jobj data codec1 m1 rest

/-- The function `__priskv_decode_obj`. The first argument bounds the depth of
the objects within objects; `none` says that it was too small or that a write
went outside the memory. -/
def __priskv_decode_obj : Nat → priskv_codec → List Nat → json_object → Nat → priskv_object →
    Option (Int × List Nat × priskv_codec)
  | 0, _, _, _, _, _ => none
  | fuel + 1, codec, m, jobj, data, obj =>
    match jobj with
    | json_type_null => some (-1, m, __priskv_codec_set_error codec "json object is null")
    | _ =>
      if data = 0 then some (-1, m, __priskv_codec_set_error codec "data is null")
      else
        decode_fields (priskv_value_decode (__priskv_decode_obj fuel)) jobj data codec m
          obj.fields

/-- Modelled from the library json-c, which is not part of the sources: the text
of `json_tokener_error_desc` for `json_tokener_success`, the code that
`json_tokener_parse_verbose` leaves when the text is `null` and its result is
`NULL`. -/
def json_tokener_success_desc : String := "success"

/-- The function `priskv_codec_decode` on the JSON value that the string denotes:
the address of the new structure, `none` for `NULL`, the memory and the codec. -/
def priskv_codec_decode (fuel : Nat) (m : List Nat) (codec : priskv_codec) (jobj : json_object)
    (obj : priskv_object) : Option (Option Nat × List Nat × priskv_codec) :=
  match jobj with
  | json_type_null =>
    some (none, m,
      __priskv_codec_set_error codec ("failed to parse json: " ++ json_tokener_success_desc))
  | _ =>
    match __priskv_decode_obj fuel codec (calloc m 1 obj.size).2 jobj (calloc m 1 obj.size).1
        obj with
    | none => none
    | some (r, m1, codec1) =>
      if r < 0 then some (none, m1, codec1)
      else some (some (calloc m 1 obj.size).1, m1, codec1)

/-- The schema of `struct { int nvals; int x; int *vals; }` with the forced
fields `x`, an `int`, and `vals`, an array of `int` with its count in `nvals`:
the count is at the offset 0, `x` at 4 and `vals` at 8. -/
def counted_obj : priskv_object :=
  .mk priskv_obj_type_object 16
    [⟨priskv_obj_field_type_value, "x", 4, 0, priskv_int_obj, true, false⟩,
     ⟨priskv_obj_field_type_array, "vals", 8, 0, priskv_int_obj, true, false⟩]

/-- A memory with such a structure at the address 16: `nvals` is 2, `x` is 7 and
`vals` is the address 32, where the elements 5 and 6 lie. -/
def counted_mem : List Nat :=
  List.replicate 16 0 ++ [2, 0, 0, 0, 7, 0, 0, 0, 32, 0, 0, 0, 0, 0, 0, 0] ++
    [5, 0, 0, 0, 6, 0, 0, 0]

/-- The JSON value of `{ "x": 7, "vals": [ 5, 6 ] }`. -/
def counted_json : json_object :=
  json_type_object [("x", json_type_int 7),
    ("vals", json_type_array [json_type_int 5, json_type_int 6])]

/-- The schema of `struct { int x; int *vals; int nvals; }` with the same fields,
laid out as the structures of `test_codec.c` are: `x` is at the offset 0, `vals`
at 8 and the count at 16, before the padding at the end. -/
def padded_obj : priskv_object :=
  .mk priskv_obj_type_object 24
    [⟨priskv_obj_field_type_value, "x", 0, 0, priskv_int_obj, true, false⟩,
     ⟨priskv_obj_field_type_array, "vals", 8, 16, priskv_int_obj, true, false⟩]

/-- A memory with such a structure at the address 16: `x` is 7, `vals` is the
address 40, where the elements 5 and 6 lie, and `nvals` is 2. -/
def padded_mem : List Nat :=
  List.replicate 16 0 ++
    [7, 0, 0, 0, 0, 0, 0, 0, 40, 0, 0, 0, 0, 0, 0, 0, 2, 0, 0, 0, 0, 0, 0, 0] ++
    [5, 0, 0, 0, 6, 0, 0, 0]
/-! ## The event dispatcher

A shallow embedding of `lib/event.c`. The table of the handlers is process-wide
state; it is passed to the functions and returned by them. The lock is left out.
A handler is a function pointer, known here by a number, `none` for `NULL`; what
a handler does when it is invoked is not part of the model, and
`priskv_fd_handler_event` yields the list of the invocations in the order of
time. It works on a copy of the entry, so that the invocations do not depend on
what the handlers do to the table. -/

/-- The constant `PRISKV_FDS_GROW` of `event.c`. -/
def PRISKV_FDS_GROW : Nat := 64

/-- The constant `EPOLLIN` of `sys/epoll.h`. -/
def EPOLLIN : Nat := 1

/-- The constant `EPOLLOUT` of `sys/epoll.h`. -/
def EPOLLOUT : Nat := 4

/-- The record `priskv_fd_handler` of `priskv-event.h`. The field `opaque_ptr` is
the field `opaque` of the header, a word that Lean reserves. -/
structure priskv_fd_handler where
  pollin : Option Nat
  pollout : Option Nat
  opaque_ptr : Nat
deriving DecidableEq, Repr

/-- The variables `priskv_fds` and `fd_handlers` of `event.c`. An entry of the
array that was never written is `none`: `reallocarray` does not clear the memory
it adds. -/
structure fd_table where
  priskv_fds : Int
  fd_handlers : List (Option priskv_fd_handler)
deriving DecidableEq, Repr

/-- The table at the start of the process: `priskv_fds = 0` and no array. -/
def fd_table_init : fd_table := { priskv_fds := 0, fd_handlers := [] }

/-- The function `priskv_fd_handlers_try_grow`. `none` is a fault: the sum
`fd + 1 + 63` of `ALIGN_UP(fd + 1, PRISKV_FDS_GROW)` does not fit an `int`. The
allocation is taken to succeed; `reallocarray` keeps the entries up to the new
number. -/
def priskv_fd_handlers_try_grow (t : fd_table) (fd : Int) : Option fd_table :=
  if fd ≥ t.priskv_fds then
    if fd + 1 + 63 > 2147483647 then none
    else
      let newfds := ALIGN_UP (fd + 1).toNat PRISKV_FDS_GROW
      some { priskv_fds := (newfds : Int),
             fd_handlers := t.fd_handlers.take newfds ++
               List.replicate (newfds - t.fd_handlers.length) none }
  else some t

/-- The function `priskv_set_fd_handler`. `none` is a fault: the failed assertion
`fd >= 0`, a fault of `priskv_fd_handlers_try_grow`, or a write outside the
array. -/
def priskv_set_fd_handler (t : fd_table) (fd : Int) (pollin pollout : Option Nat)
    (opaque_ptr : Nat) : Option fd_table :=
  if ¬ fd ≥ 0 then none
  else
    match priskv_fd_handlers_try_grow t fd with
    | none => none
    | some t1 =>
      if fd.toNat < t1.fd_handlers.length then
        some { t1 with
          fd_handlers := t1.fd_handlers.set fd.toNat
            (some { pollin := pollin, pollout := pollout, opaque_ptr := opaque_ptr }) }
      else none

/-- The function `priskv_get_fd_handler`, which copies the entry of `fd`. `none`
is a fault: the failed assertion `fd < priskv_fds`, a read outside the array, or
a read of an entry that was never written. -/
def priskv_get_fd_handler (t : fd_table) (fd : Int) : Option priskv_fd_handler :=
  if ¬ fd < t.priskv_fds then none
  else if fd < 0 then none
  else
    match t.fd_handlers[fd.toNat]? with
    | some (some h) => some h
    | _ => none

/-- The fields of `struct epoll_event` that `event.c` reads: the 32-bit `events`
and `data.fd`. -/
structure epoll_event where
  events : Nat
  fd : Int
deriving DecidableEq, Repr

/-- An invocation `handler(fd, opaque, events)` of a handler. -/
structure handler_call where
  handler : Nat
  fd : Int
  opaque_ptr : Nat
  events : Nat
deriving DecidableEq, Repr

/-- The function `priskv_fd_handler_event`: the invocations it makes, the first
one first. -/
def priskv_fd_handler_event (t : fd_table) (event : epoll_event) : Option (List handler_call) :=
  match priskv_get_fd_handler t event.fd with
  | none => none
  | some fd_handler =>
    some
      ((if event.events &&& EPOLLIN ≠ 0 then
          match fd_handler.pollin with
          | some f => [{ handler := f, fd := event.fd, opaque_ptr := fd_handler.opaque_ptr,
                         events := EPOLLIN }]
          | none => []
        else []) ++
       (if event.events &&& EPOLLOUT ≠ 0 then
          match fd_handler.pollout with
          | some f => [{ handler := f, fd := event.fd, opaque_ptr := fd_handler.opaque_ptr,
                         events := EPOLLOUT }]
          | none => []
        else []))

/-- The tables that calls of `priskv_set_fd_handler` without a fault lead to from
the start of the process, each with the list of the descriptors installed. -/
inductive FdReach : fd_table → List Int → Prop
  | init : FdReach fd_table_init []
  | set {t t1 : fd_table} {inst : List Int} {fd : Int} {pollin pollout : Option Nat}
      {opaque_ptr : Nat} :
      FdReach t inst → priskv_set_fd_handler t fd pollin pollout opaque_ptr = some t1 →
      FdReach t1 (fd :: inst)

/-- The invocations that the dispatch of an event with the bits `events` on `fd`
has to make for the handlers `pollin` and `pollout`: the one of `pollin` when the
event has `EPOLLIN` and `pollin` is not `NULL`, then the one of `pollout` when the
event has `EPOLLOUT` and `pollout` is not `NULL`. -/
def dispatch_spec (fd : Int) (pollin pollout : Option Nat) (opaque_ptr events : Nat) :
    List handler_call :=
  (if events.testBit 0 = true ∧ pollin.isSome then
      [{ handler := pollin.getD 0, fd := fd, opaque_ptr := opaque_ptr, events := 1 }]
    else []) ++
  (if events.testBit 2 = true ∧ pollout.isSome then
      [{ handler := pollout.getD 0, fd := fd, opaque_ptr := opaque_ptr, events := 4 }]
    else [])

/-- The invariant of the tables reached: `priskv_fds` is the length of the array
and a multiple of 64, and every descriptor installed is not negative, below
`priskv_fds`, and has an entry that was written. -/
def FdInv (t : fd_table) (inst : List Int) : Prop :=
  t.priskv_fds = (t.fd_handlers.length : Int) ∧ (64 : Int) ∣ t.priskv_fds ∧
  ∀ f ∈ inst, 0 ≤ f ∧ f < t.priskv_fds ∧ ∃ h, t.fd_handlers[f.toNat]? = some (some h)

/-! ## The size of the region of a buddy -/

/-- The function `priskv_buddy_mem_size` of `buddy.h`:
`(uint64_t)nmemb * ((uint64_t)size + sizeof(uint32_t) * 2)`, in 64-bit
arithmetic. -/
def priskv_buddy_mem_size (nmemb size : Nat) : Nat := u64 (nmemb * u64 (size + 4 * 2))
/-! ## The codec: what is said of the output of `priskv_codec_code` -/

/-- A field is left out of the output, in the words of the description of the
codec: it is declared `ignored` and its value is 0 for an `int` or a `uint64_t`,
a `NULL` pointer for a string, or, for an array field, its count of elements is
0. A boolean and an object within the object are never left out. -/
def field_omitted (m : List Nat) (data : Nat) (f : priskv_object_field priskv_object) : Bool :=
  f._ignored &&
    (match f.type with
     | priskv_obj_field_type_array =>
       decide ((load m (data + f.noffset) 4).map int32_of = some 0)
     | priskv_obj_field_type_value =>
       match f.obj.type with
       | priskv_obj_type_boolean => false
       | priskv_obj_type_int => decide (load m (data + f.offset) 4 = some 0)
       | priskv_obj_type_uint64 => decide (load m (data + f.offset) 8 = some 0)
       | priskv_obj_type_string => decide (load m (data + f.offset) 8 = some 0)
       | priskv_obj_type_object => false)

/-- The entry `e` of the output is the one of the field `f`: it has the name of
the field, and its value is what the coder `code_value` makes of the field, for
an array field the array of what it makes of the elements. -/
def emit_rel (code_value : Nat → priskv_object → Option (Option json_object)) (m : List Nat)
    (data : Nat) (f : priskv_object_field priskv_object) (e : String × json_object) : Prop :=
  e.1 = f.name ∧
    (f.type = priskv_obj_field_type_value →
      code_value (data + f.offset) f.obj = some (some e.2)) ∧
    (f.type = priskv_obj_field_type_array →
      ∃ n l, load m (data + f.noffset) 4 = some n ∧ 0 ≤ int32_of n ∧
        code_elems (fun a => code_value a f.obj) m (data + f.offset) f.obj.size
          (int32_of n).toNat 0 = some (some l) ∧
        e.2 = json_type_array l)

/-- The schema `test_int_ignored` of `test_codec.c` for
`struct test_int { int int_val_required; int int_val_optional; }`: the first
field is required and forced, the second optional and ignored. -/
def test_int_ignored_obj : priskv_object :=
  .mk priskv_obj_type_object 8
    [⟨priskv_obj_field_type_value, "int_val_required", 0, 0, priskv_int_obj, true, false⟩,
     ⟨priskv_obj_field_type_value, "int_val_optional", 4, 0, priskv_int_obj, false, true⟩]

/-- A memory with a `struct test_int` at the address 16 whose fields are 0. -/
def test_int_mem : List Nat := List.replicate 24 0

/-- The value at `data` can be read as a value of the schema: its bytes are in
the memory, a string that is not `NULL` ends in the memory, and an object can be
read as `obj_readable` says. -/
def value_readable (obj_readable : Nat → priskv_object → Bool) (m : List Nat) (data : Nat)
    (obj : priskv_object) : Bool :=
  match obj.type with
  | priskv_obj_type_boolean => (load m data 1).isSome
  | priskv_obj_type_int => (load m data 4).isSome
  | priskv_obj_type_uint64 => (load m data 8).isSome
  | priskv_obj_type_string =>
    match load m data 8 with
    | none => false
    | some p => decide (p = 0) || (c_string m m.length p).isSome
  | priskv_obj_type_object => obj_readable data obj

/-- The `k` elements from the index `j` on of the block at `base` can be read. -/
def elems_readable (vr : Nat → Bool) (base size : Nat) : Nat → Nat → Bool
  | 0, _ => true
  | k + 1, j => vr (base + size * j) && elems_readable vr base size k (j + 1)

/-- The field of the structure at `data` can be read: its value, or for an array
field its count, which is not negative, and, unless the count is 0, its pointer
and its elements. -/
def field_readable (vr : Nat → priskv_object → Bool) (m : List Nat) (data : Nat)
    (f : priskv_object_field priskv_object) : Bool :=
  match f.type with
  | priskv_obj_field_type_value => vr (data + f.offset) f.obj
  | priskv_obj_field_type_array =>
    match load m (data + f.noffset) 4 with
    | none => false
    | some n =>
      decide (0 ≤ int32_of n) &&
        (decide (int32_of n = 0) ||
          match load m (data + f.offset) 8 with
          | none => false
          | some base =>
            elems_readable (fun a => vr a f.obj) base f.obj.size (int32_of n).toNat 0)

/-- The structure at `data` is a value of the schema in the memory: `data` is not
`NULL` and every field can be read, also in the objects within it and in the
elements of its arrays. The depth of the schema is below the first argument. -/
def readable : Nat → List Nat → Nat → priskv_object → Bool
  | 0, _, _, _ => false
  | fuel + 1, m, data, obj =>
    decide (data ≠ 0) &&
      obj.fields.all (field_readable (value_readable (readable fuel m) m) m data)

/-! ## The codec: what is said of `priskv_codec_decode`

The definitions of this section follow the words of the description of the
decoder, not its code: which JSON values conform to a schema, and which error
is that of the first offending field. The first argument of `conforms`,
`decode_error`, `layout_ok` and `decode_alloc` bounds the depth of the objects
within objects, as it does in `__priskv_decode_obj`. -/

/-- The name of the JSON type that a type of the schema demands, as the error
texts have it; a `uint64_t` is an `int` there. -/
def type_name : priskv_object_type → String
  | priskv_obj_type_boolean => "boolean"
  | priskv_obj_type_int => "int"
  | priskv_obj_type_uint64 => "int"
  | priskv_obj_type_string => "string"
  | priskv_obj_type_object => "object"

/-- The JSON value has the JSON type that the type of the schema demands. -/
def has_type : priskv_object_type → json_object → Bool
  | priskv_obj_type_boolean, json_type_boolean _ => true
  | priskv_obj_type_int, json_type_int _ => true
  | priskv_obj_type_uint64, json_type_int _ => true
  | priskv_obj_type_string, json_type_string _ => true
  | priskv_obj_type_object, json_type_object _ => true
  | _, _ => false

/-- The first 254 bytes of a text: what the buffer of the codec keeps of it. -/
def cut_error (text : String) : String := String.mk (text.data.take 254)

/-- The JSON value conforms to the schema of a value: it has the type demanded,
and an object conforms as `obj_conforms` says. -/
def value_conforms (obj_conforms : priskv_object → json_object → Bool) (obj : priskv_object)
    (j : json_object) : Bool :=
  has_type obj.type j &&
    (if obj.type = priskv_obj_type_object then obj_conforms obj j else true)

/-- The JSON object conforms to the declaration of a field: a field without a
value, or with the value `null`, is not required; a value conforms to the schema
of the field, and for an array field it is an array whose elements do. -/
def field_conforms (vc : priskv_object → json_object → Bool) (jobj : json_object)
    (f : priskv_object_field priskv_object) : Bool :=
  match json_object_object_get jobj f.name with
  | none => !f._required
  | some v =>
    match f.type with
    | priskv_obj_field_type_value => vc f.obj v
    | priskv_obj_field_type_array =>
      match v with
      | json_type_array elems => elems.all (vc f.obj)
      | _ => false

/-- The JSON value conforms to the schema: every field declared `required` is
present and every field present has the JSON type its declaration demands, also
in the objects within it and in the elements of its arrays. -/
def conforms : Nat → priskv_object → json_object → Bool
  | 0, _, _ => false
  | fuel + 1, obj, jobj =>
    obj.fields.all (field_conforms (value_conforms (conforms fuel)) jobj)

/-- The error of a value that does not conform: `type is not T` for a value of
another type, and for an object the error `obj_error` of its first offending
field. -/
def value_error (obj_error : priskv_object → json_object → Option String) (obj : priskv_object)
    (j : json_object) : Option String :=
  if has_type obj.type j then
    (if obj.type = priskv_obj_type_object then obj_error obj j else none)
  else some (cut_error ("type is not " ++ type_name obj.type))

/-- The error of the first element of an array that does not conform. -/
def elems_error (ve : json_object → Option String) : List json_object → Option String
  | [] => none
  | e :: rest =>
    match ve e with
    | some s => some s
    | none => elems_error ve rest

/-- The error of a field that offends: it is required and has no value; its
value does not conform, and the error of the value follows the name of the
field; it is an array field whose value is no array, or has an element that
does not conform. -/
def field_error (ve : priskv_object → json_object → Option String) (jobj : json_object)
    (f : priskv_object_field priskv_object) : Option String :=
  match json_object_object_get jobj f.name with
  | none =>
    if f._required then some (cut_error ("not found `" ++ f.name ++ "` that is required"))
    else none
  | some v =>
    match f.type with
    | priskv_obj_field_type_value =>
      (ve f.obj v).map (fun s => cut_error ("failed to decode `" ++ f.name ++ "`: " ++ s))
    | priskv_obj_field_type_array =>
      match v with
      | json_type_array elems =>
        (elems_error (ve f.obj) elems).map
          (fun s => cut_error ("failed to decode array `" ++ f.name ++ "`: " ++ s))
      | _ => some (cut_error ("failed to decode `" ++ f.name ++ "`: type is not array"))

/-- The error of the first field, in the order of the declaration, that
offends. -/
def fields_error (ve : priskv_object → json_object → Option String) (jobj : json_object) :
    List (priskv_object_field priskv_object) → Option String
  | [] => none
  | f :: rest =>
    match field_error ve jobj f with
    | some s => some s
    | none => fields_error ve jobj rest

/-- The error of a JSON value against a schema: that of its first offending
field, `none` when no field offends. -/
def decode_error : Nat → priskv_object → json_object → Option String
  | 0, _, _ => none
  | fuel + 1, obj, jobj => fields_error (value_error (decode_error fuel)) jobj obj.fields

/-- The number of bytes that a value of a type takes in a structure; the bytes
of an object are those of its fields. -/
def type_width : priskv_object_type → Nat
  | priskv_obj_type_boolean => 1
  | priskv_obj_type_int => 4
  | priskv_obj_type_uint64 => 8
  | priskv_obj_type_string => 8
  | priskv_obj_type_object => 0

/-- The field lies inside a structure of `size` bytes: a value with the size of
its schema at `offset`, for an array field the pointer at `offset` and the count
of 8 bytes at `noffset`; and the schema of the field is laid out as `ok` says. -/
def field_layout (ok : priskv_object → Bool) (size : Nat)
    (f : priskv_object_field priskv_object) : Bool :=
  ok f.obj &&
    (match f.type with
     | priskv_obj_field_type_value => decide (f.offset + f.obj.size ≤ size)
     | priskv_obj_field_type_array => decide (f.offset + 8 ≤ size ∧ f.noffset + 8 ≤ size))

/-- The schema is laid out inside its size: a value has room for its type, and
the fields lie inside the structure. The depth of the schema is below the first
argument. -/
def layout_ok : Nat → priskv_object → Bool
  | 0, _ => false
  | fuel + 1, obj =>
    decide (type_width obj.type ≤ obj.size) &&
      obj.fields.all (field_layout (layout_ok fuel) obj.size)

/-- A bound for the bytes that the decoder allocates for a value: the copy of a
string, and what `obj_alloc` says for an object. -/
def value_alloc (obj_alloc : priskv_object → json_object → Nat) (obj : priskv_object)
    (j : json_object) : Nat :=
  match obj.type, j with
  | priskv_obj_type_string, json_type_string s => s.length + 1
  | priskv_obj_type_object, json_type_object _ => obj_alloc obj j
  | _, _ => 0

/-- A bound for the bytes that the decoder allocates for a field: for an array
field the block of the elements and what the elements need. -/
def field_alloc (va : priskv_object → json_object → Nat) (jobj : json_object)
    (f : priskv_object_field priskv_object) : Nat :=
  match json_object_object_get jobj f.name with
  | none => 0
  | some v =>
    match f.type with
    | priskv_obj_field_type_value => va f.obj v
    | priskv_obj_field_type_array =>
      match v with
      | json_type_array elems => elems.length * f.obj.size + (elems.map (va f.obj)).sum
      | _ => 0

/-- A bound for the bytes that the decoder allocates for a JSON value against a
schema, the structure itself apart. -/
def decode_alloc : Nat → priskv_object → json_object → Nat
  | 0, _, _ => 0
  | fuel + 1, obj, jobj =>
    (obj.fields.map (field_alloc (value_alloc (decode_alloc fuel)) jobj)).sum

/-- The byte at the address `x` belongs to the field `f` of the structure at
`data`: to its value, or for an array field to its pointer or its count. -/
def field_covers (data : Nat) (f : priskv_object_field priskv_object) (x : Nat) : Prop :=
  (f.type = priskv_obj_field_type_value ∧ data + f.offset ≤ x ∧
    x < data + f.offset + f.obj.size) ∨
  (f.type = priskv_obj_field_type_array ∧
    ((data + f.offset ≤ x ∧ x < data + f.offset + 8) ∨
     (data + f.noffset ≤ x ∧ x < data + f.noffset + 8)))

/-- The result `r` and the codec `c1` of a decoding function that was called with
the codec `c`, for an input of which `ok` says whether it conforms and `err` is
the error: 0 and the codec as it was when it conforms, else -1 and the error in
the codec. -/
def Outcome (r : Int) (c c1 : priskv_codec) (ok : Bool) (err : Option String) : Prop :=
  (r = 0 ∧ ok = true ∧ err = none ∧ c1 = c) ∨
  (r = -1 ∧ ok = false ∧ ∃ e, err = some e ∧ priskv_codec_get_error c1 = e)

/-- The memory `m1` after a decoding function ran on the memory `m` with at most
`bound` bytes to allocate: it is not shorter, not longer than the bound allows,
and outside the bytes from `lo` to `hi` the memory that was there is as
before. -/
def Frame (m m1 : List Nat) (bound lo hi : Nat) : Prop :=
  m.length ≤ m1.length ∧ m1.length ≤ m.length + bound ∧
  ∀ x, x < m.length → (x < lo ∨ hi ≤ x) → m1[x]? = m[x]?

/-- The schema `test_int` of `test_codec.c` for
`struct test_int { int int_val_required; int int_val_optional; }`, both fields
forced. -/
def test_int_obj : priskv_object :=
  .mk priskv_obj_type_object 8
    [⟨priskv_obj_field_type_value, "int_val_required", 0, 0, priskv_int_obj, true, false⟩,
     ⟨priskv_obj_field_type_value, "int_val_optional", 4, 0, priskv_int_obj, false, false⟩]

/-- The schema of `struct inner { int val; }` with the required field `val`. -/
def inner_obj : priskv_object :=
  .mk priskv_obj_type_object 4
    [⟨priskv_obj_field_type_value, "val", 0, 0, priskv_int_obj, true, false⟩]

/-- The schema of `struct outer { struct inner child; int opt; }` with the
required field `child` and the optional field `opt`. -/
def outer_obj : priskv_object :=
  .mk priskv_obj_type_object 8
    [⟨priskv_obj_field_type_value, "child", 0, 0, inner_obj, true, false⟩,
     ⟨priskv_obj_field_type_value, "opt", 4, 0, priskv_int_obj, false, false⟩]

/-- A name of 250 letters. -/
def long_name : String := String.mk (List.replicate 250 'a')

/-- The schema of `struct { int v; }` whose required field has the name
`long_name`. -/
def long_obj : priskv_object :=
  .mk priskv_obj_type_object 4
    [⟨priskv_obj_field_type_value, long_name, 0, 0, priskv_int_obj, true, false⟩]

/-- What is shown of `__priskv_decode_obj` with the depth `fuel`: for a JSON
object, a schema that is laid out inside its size, a structure inside the memory
at an address
that is not `NULL`, and a memory below the size of the address space after the
allocations, it returns; it writes to the structure and to new blocks only; and
its result and the error of the codec are those of `conforms` and
`decode_error`. -/
def ObjSpec (fuel : Nat) : Prop :=
  ∀ (codec : priskv_codec) (m : List Nat) (entries : List (String × json_object)) (data : Nat)
    (obj : priskv_object),
    layout_ok fuel obj = true → data ≠ 0 → data + obj.size ≤ m.length →
    m.length + decode_alloc fuel obj (json_type_object entries) < 18446744073709551616 →
    ∃ r m1 c1, __priskv_decode_obj fuel codec m (json_type_object entries) data obj =
        some (r, m1, c1) ∧
      Frame m m1 (decode_alloc fuel obj (json_type_object entries)) data (data + obj.size) ∧
      (∀ x, x < m.length →
        (∀ f ∈ obj.fields, json_object_object_get (json_type_object entries) f.name ≠ none →
          ¬ field_covers data f x) → m1[x]? = m[x]?) ∧
      Outcome r codec c1 (conforms fuel obj (json_type_object entries))
        (decode_error fuel obj (json_type_object entries))


/-! ## Machine arithmetic: lemmas -/

theorem u32_of_lt {x : Nat} (h : x < 4294967296) : u32 x = x := Nat.mod_eq_of_lt h

theorem L_LEAF_eq {i : Nat} (h : i < 2147483647) : L_LEAF i = 2 * i + 1 := by
  unfold L_LEAF; rw [u32_of_lt (by omega)]; omega

theorem R_LEAF_eq {i : Nat} (h : i < 2147483647) : R_LEAF i = 2 * i + 2 := by
  unfold R_LEAF; rw [u32_of_lt (by omega)]; omega

theorem PARENT_eq {i : Nat} (h0 : 0 < i) (h : i < 4294967295) : PARENT i = (i + 1) / 2 - 1 := by
  unfold PARENT u32; omega

theorem PARENT_left {i : Nat} (h : i < 2147483647) : PARENT (2 * i + 1) = i := by
  rw [PARENT_eq (by omega) (by omega)]; omega

theorem PARENT_right {i : Nat} (h : i < 2147483647) : PARENT (2 * i + 2) = i := by
  rw [PARENT_eq (by omega) (by omega)]; omega

theorem MAX_eq_max (a b : Nat) : MAX a b = max a b := by
  unfold MAX; split <;> omega

theorem land_pred_eq_zero_iff : ∀ x : Nat, x ≠ 0 → ((x &&& (x - 1)) = 0 ↔ ∃ k, x = 2 ^ k) := by
  intro x
  induction x using Nat.strong_induction_on with
  | _ x ih =>
    intro hx
    constructor
    · intro h
      have hdiv : x / 2 &&& (x - 1) / 2 = 0 := by
        rw [← Nat.and_div_two, h]
      rcases Nat.mod_two_eq_zero_or_one x with he | ho
      · have hy : x / 2 ≠ 0 := by omega
        have e1 : (x - 1) / 2 = x / 2 - 1 := by omega
        rw [e1] at hdiv
        obtain ⟨k, hk⟩ := (ih (x / 2) (by omega) hy).1 hdiv
        exact ⟨k + 1, by rw [pow_succ]; omega⟩
      · have e1 : (x - 1) / 2 = x / 2 := by omega
        rw [e1, Nat.and_self] at hdiv
        exact ⟨0, by simp; omega⟩
    · rintro ⟨k, rfl⟩
      rw [Nat.and_pow_two_sub_one_eq_mod]; simp

theorem IS_POWER_OF_2_iff (x : Nat) : IS_POWER_OF_2 x = true ↔ ∃ k, x = 2 ^ k := by
  unfold IS_POWER_OF_2
  by_cases hx : x = 0
  · subst hx
    simp
    intro k
    exact (Nat.pos_pow_of_pos k (by decide)).ne
  · simp only [bne_iff_ne, ne_eq, hx, not_false_eq_true, Bool.and_eq_true, beq_iff_eq, true_and,
      decide_True, Bool.true_and]
    exact land_pred_eq_zero_iff x hx

theorem IS_POWER_OF_2_pow (k : Nat) : IS_POWER_OF_2 (2 ^ k) = true :=
  (IS_POWER_OF_2_iff _).2 ⟨k, rfl⟩

/-! ## The tree of counters: lemmas -/

theorem rd_of_getElem? {m : List Nat} {i v : Nat} (h : m[i]? = some v) : rd m i = v := by
  simp [rd, List.getD_eq_getElem?_getD, h]

theorem getElem?_eq_rd {m : List Nat} {i : Nat} (h : i < m.length) : m[i]? = some (rd m i) := by
  simp [rd, List.getD_eq_getElem?_getD, List.getElem?_eq_getElem h]

theorem rd_set_self {m : List Nat} {i v : Nat} (h : i < m.length) : rd (m.set i v) i = v := by
  simp [rd, List.getD_eq_getElem?_getD, List.getElem?_set_self, h]

theorem rd_set_ne {m : List Nat} {i j v : Nat} (h : i ≠ j) : rd (m.set i v) j = rd m j := by
  simp [rd, List.getD_eq_getElem?_getD, List.getElem?_set_ne h]

theorem Sub.refl (i : Nat) : Sub i i := ⟨0, by simp⟩

theorem Sub.le {i j : Nat} (h : Sub i j) : i ≤ j := by
  obtain ⟨t, ht⟩ := h
  have := Nat.div_le_self (j + 1) (2 ^ t)
  omega

theorem Sub.of_left {i j : Nat} (h : Sub (2 * i + 1) j) : Sub i j := by
  obtain ⟨t, ht⟩ := h
  refine ⟨t + 1, ?_⟩
  rw [pow_succ, ← Nat.div_div_eq_div_mul, ht]; omega

theorem Sub.of_right {i j : Nat} (h : Sub (2 * i + 2) j) : Sub i j := by
  obtain ⟨t, ht⟩ := h
  refine ⟨t + 1, ?_⟩
  rw [pow_succ, ← Nat.div_div_eq_div_mul, ht]; omega

theorem div_pow_le_half {a s : Nat} (hs : 0 < s) : a / 2 ^ s ≤ a / 2 := by
  obtain ⟨s', rfl⟩ : ∃ s', s = s' + 1 := ⟨s - 1, by omega⟩
  rw [pow_succ', ← Nat.div_div_eq_div_mul]
  exact Nat.div_le_self _ _

theorem Sub.not_sibling {i j : Nat} (h1 : Sub (2 * i + 1) j) (h2 : Sub (2 * i + 2) j) : False := by
  obtain ⟨t, ht⟩ := h1
  obtain ⟨s, hs⟩ := h2
  rcases Nat.lt_trichotomy t s with h | h | h
  · have e : (j + 1) / 2 ^ s = ((j + 1) / 2 ^ t) / 2 ^ (s - t) := by
      rw [Nat.div_div_eq_div_mul, ← pow_add]; congr 2; omega
    have := @div_pow_le_half ((j + 1) / 2 ^ t) (s - t) (by omega)
    omega
  · subst h; omega
  · have e : (j + 1) / 2 ^ t = ((j + 1) / 2 ^ s) / 2 ^ (t - s) := by
      rw [Nat.div_div_eq_div_mul, ← pow_add]; congr 2; omega
    have := @div_pow_le_half ((j + 1) / 2 ^ s) (t - s) (by omega)
    omega

theorem Fits.child_left {m : List Nat} {d i : Nat} (h : Fits m (d + 1) i) : Fits m d (2 * i + 1) := by
  unfold Fits at *
  have : (2 * i + 1 + 2) * 2 ^ d ≤ (i + 2) * 2 ^ (d + 1) := by
    rw [pow_succ]; nlinarith [Nat.pos_pow_of_pos d (by decide : 0 < 2)]
  omega

theorem Fits.child_right {m : List Nat} {d i : Nat} (h : Fits m (d + 1) i) : Fits m d (2 * i + 2) := by
  unfold Fits at *
  have : (2 * i + 2 + 2) * 2 ^ d = (i + 2) * 2 ^ (d + 1) := by
    rw [pow_succ]; ring
  omega

theorem Fits.lt {m : List Nat} {d i : Nat} (h : Fits m d i) : i < m.length := by
  unfold Fits at h
  have : 0 < 2 ^ d := Nat.pos_pow_of_pos d (by decide)
  nlinarith

theorem WF_le {m : List Nat} : ∀ {d i : Nat}, WF m d i → rd m i ≤ 2 ^ d
  | 0, i, h => by simpa [WF] using h
  | d + 1, i, h => by
    obtain ⟨hl, hr, hloc⟩ := h
    have := WF_le hl
    have := WF_le hr
    rw [pow_succ]
    rcases hloc with ⟨_, _, h | h⟩ | ⟨_, h⟩
    · rw [h, pow_succ]
    · omega
    · omega

theorem WF_full_children {m : List Nat} {d i : Nat} (h : WF m (d + 1) i)
    (hf : rd m i = 2 ^ (d + 1)) : rd m (2 * i + 1) = 2 ^ d ∧ rd m (2 * i + 2) = 2 ^ d := by
  obtain ⟨hl, hr, hloc⟩ := h
  have := WF_le hl
  have := WF_le hr
  have : 0 < 2 ^ d := Nat.pos_pow_of_pos d (by decide)
  rw [pow_succ] at hf
  rcases hloc with ⟨h1, h2, _⟩ | ⟨_, h⟩
  · exact ⟨h1, h2⟩
  · omega

theorem WF_frame {m m1 : List Nat} : ∀ {d i : Nat}, (∀ j, Sub i j → rd m1 j = rd m j) →
    WF m d i → WF m1 d i
  | 0, i, hs, h => by
    simp only [WF] at *
    rw [hs i (Sub.refl i)]; exact h
  | d + 1, i, hs, h => by
    obtain ⟨hl, hr, hloc⟩ := h
    refine ⟨WF_frame (fun j hj => hs j hj.of_left) hl, WF_frame (fun j hj => hs j hj.of_right) hr, ?_⟩
    rw [hs i (Sub.refl i), hs _ (Sub.of_left (Sub.refl _)), hs _ (Sub.of_right (Sub.refl _))]
    exact hloc

theorem allocs_frame {m m1 : List Nat} : ∀ {d i : Nat} (o : Nat),
    (∀ j, Sub i j → rd m1 j = rd m j) → allocs m1 d i o = allocs m d i o
  | 0, i, o, hs => by
    simp only [allocs]
    rw [hs i (Sub.refl i)]
  | d + 1, i, o, hs => by
    simp only [allocs]
    rw [hs i (Sub.refl i), hs _ (Sub.of_left (Sub.refl _)), hs _ (Sub.of_right (Sub.refl _)),
      allocs_frame o (fun j hj => hs j hj.of_left),
      allocs_frame (o + 2 ^ d) (fun j hj => hs j hj.of_right)]

theorem two_pow_pos (d : Nat) : 0 < 2 ^ d := Nat.pos_pow_of_pos d (by decide)

/-- Every run listed below a node lies inside the node, has a length that is a
power of two and starts at a multiple of its length, counted from the node. -/
theorem allocs_mem {m : List Nat} : ∀ {d i o : Nat} {e : Nat × Nat}, e ∈ allocs m d i o →
    o ≤ e.1 ∧ e.1 + e.2 ≤ o + 2 ^ d ∧ ∃ j c, j ≤ d ∧ e.2 = 2 ^ j ∧ e.1 = o + c * 2 ^ j
  | 0, i, o, e, h => by
    simp only [allocs] at h
    split at h
    · simp only [List.mem_singleton] at h
      subst h
      exact ⟨le_rfl, by simp, 0, 0, le_rfl, by simp, by simp⟩
    · simp at h
  | d + 1, i, o, e, h => by
    simp only [allocs] at h
    split at h
    · simp at h
    · split at h
      · simp only [List.mem_singleton] at h
        subst h
        exact ⟨le_rfl, le_rfl, d + 1, 0, le_rfl, rfl, by simp⟩
      · have hp := two_pow_pos d
        rw [List.mem_append] at h
        rcases h with h | h
        · obtain ⟨h1, h2, j, c, hj, hk, hc⟩ := allocs_mem h
          refine ⟨h1, ?_, j, c, by omega, hk, hc⟩
          rw [pow_succ]; omega
        · obtain ⟨h1, h2, j, c, hj, hk, hc⟩ := allocs_mem h
          refine ⟨by omega, ?_, j, 2 ^ (d - j) + c, by omega, hk, ?_⟩
          · rw [pow_succ]; omega
          · have : 2 ^ d = 2 ^ (d - j) * 2 ^ j := by rw [← pow_add]; congr 1; omega
            rw [hc, add_mul, ← this]; omega

theorem allocs_sorted {m : List Nat} : ∀ (d i o : Nat),
    (allocs m d i o).Pairwise (fun e f => e.1 + e.2 ≤ f.1)
  | 0, i, o => by
    simp only [allocs]; split <;> simp
  | d + 1, i, o => by
    simp only [allocs]
    split
    · simp
    · split
      · simp
      · rw [List.pairwise_append]
        refine ⟨allocs_sorted d _ _, allocs_sorted d _ _, ?_⟩
        intro a ha b hb
        have := (allocs_mem ha).2.1
        have := (allocs_mem hb).1
        omega

theorem allocs_sum_le {m : List Nat} : ∀ (d i o : Nat),
    ((allocs m d i o).map Prod.snd).sum ≤ 2 ^ d
  | 0, i, o => by
    simp only [allocs]; split <;> simp
  | d + 1, i, o => by
    simp only [allocs]
    split
    · simp
    · split
      · simp
      · rw [List.map_append, List.sum_append, pow_succ]
        have := @allocs_sum_le m d (2 * i + 1) o
        have := @allocs_sum_le m d (2 * i + 2) (o + 2 ^ d)
        omega

/-- A subtree lists no run exactly when its root counter is full. -/
theorem allocs_eq_nil_iff {m : List Nat} : ∀ {d i : Nat} (o : Nat), WF m d i →
    (allocs m d i o = [] ↔ rd m i = 2 ^ d)
  | 0, i, o, h => by
    simp only [WF] at h
    simp only [allocs, pow_zero]
    split <;> simp <;> omega
  | d + 1, i, o, h => by
    have hfull := WF_full_children h
    obtain ⟨hl, hr, hloc⟩ := h
    have il := allocs_eq_nil_iff o hl
    have ir := allocs_eq_nil_iff (o + 2 ^ d) hr
    have hp := two_pow_pos d
    simp only [allocs]
    split
    · rename_i hf; simp [hf]
    · rename_i hf
      split
      · simp [hf]
      · rename_i ha
        simp only [List.append_eq_nil, il, ir, hf, iff_false]
        intro hc
        rcases hloc with ⟨_, _, h | h⟩ | ⟨h, _⟩
        · exact hf h
        · exact ha ⟨h, hc⟩
        · exact h hc

theorem allocs_of_full {m : List Nat} {d i : Nat} (o : Nat) (h : WF m d i)
    (hf : rd m i = 2 ^ d) : allocs m d i o = [] := (allocs_eq_nil_iff o h).2 hf

/-- Unfolding of `allocs` at a node that is neither handed out as a whole nor
has both halves free while holding zero. -/
theorem allocs_node {m : List Nat} {d i : Nat} (o : Nat) (h : WF m (d + 1) i)
    (hne : rd m i ≠ 0 ∨ ¬ (rd m (2 * i + 1) = 2 ^ d ∧ rd m (2 * i + 2) = 2 ^ d)) :
    allocs m (d + 1) i o = allocs m d (2 * i + 1) o ++ allocs m d (2 * i + 2) (o + 2 ^ d) := by
  have hfull := WF_full_children h
  obtain ⟨hl, hr, hloc⟩ := h
  simp only [allocs]
  split
  · rename_i hf
    obtain ⟨h1, h2⟩ := hfull hf
    rw [allocs_of_full o hl h1, allocs_of_full _ hr h2]; rfl
  · split
    · rename_i ha
      rcases hne with h | h
      · exact absurd ha.1 h
      · exact absurd ha.2 h
    · rfl

theorem allocRec_length {m : List Nat} {k : Nat} : ∀ (d i : Nat),
    (allocRec m k d i).length = m.length
  | 0, i => by simp [allocRec]
  | d + 1, i => by
    simp only [allocRec]
    split
    · simp
    · simp [allocRec_length d]

theorem pick_cases (m : List Nat) (k i : Nat) :
    (k ≤ rd m (2 * i + 1) ∧ pick m k i = 2 * i + 1) ∨
    (rd m (2 * i + 1) < k ∧ pick m k i = 2 * i + 2) := by
  unfold pick
  by_cases h : k ≤ rd m (2 * i + 1)
  · left; simp [h]
  · right; simp [h]; omega

theorem Sub_pick {m : List Nat} {k i x : Nat} (h : Sub (pick m k i) x) : Sub i x := by
  rcases pick_cases m k i with ⟨_, e⟩ | ⟨_, e⟩ <;> rw [e] at h
  · exact h.of_left
  · exact h.of_right

/-- The allocation changes no counter outside the subtree it works in. -/
theorem allocRec_frame {m : List Nat} {k : Nat} : ∀ (d i x : Nat), ¬ Sub i x →
    rd (allocRec m k d i) x = rd m x
  | 0, i, x, h => by
    simp only [allocRec]
    exact rd_set_ne (fun e => h (e ▸ Sub.refl i))
  | d + 1, i, x, h => by
    have hne : i ≠ x := fun e => h (e ▸ Sub.refl i)
    simp only [allocRec]
    split
    · exact rd_set_ne hne
    · rw [rd_set_ne hne]
      exact allocRec_frame d _ x (fun hs => h (Sub_pick hs))

theorem not_Sub_child_self_left (i : Nat) : ¬ Sub (2 * i + 1) i := fun h => by
  have := h.le; omega

theorem not_Sub_child_self_right (i : Nat) : ¬ Sub (2 * i + 2) i := fun h => by
  have := h.le; omega

/-- Below a node that admits `k` blocks, the child picked by the descent admits
`k` blocks as well. -/
theorem pick_ok {m : List Nat} {k d i j : Nat} (h : WF m (d + 1) i) (hk : k = 2 ^ j)
    (hj : j ≤ d) (hge : k ≤ rd m i) :
    WF m d (pick m k i) ∧ k ≤ rd m (pick m k i) := by
  obtain ⟨hl, hr, hloc⟩ := h
  have hkd : k ≤ 2 ^ d := hk ▸ Nat.pow_le_pow_right (by decide) hj
  rcases pick_cases m k i with ⟨h1, e⟩ | ⟨h1, e⟩ <;> rw [e]
  · exact ⟨hl, h1⟩
  · refine ⟨hr, ?_⟩
    rcases hloc with ⟨h2, _, _⟩ | ⟨_, h2⟩
    · omega
    · omega

theorem Fits_pick {m : List Nat} {k d i : Nat} (h : Fits m (d + 1) i) : Fits m d (pick m k i) := by
  rcases pick_cases m k i with ⟨_, e⟩ | ⟨_, e⟩ <;> rw [e]
  · exact h.child_left
  · exact h.child_right

/-- The effect of an allocation on the tree: the shape is kept, the node is no
longer wholly free, and the runs handed out gain exactly the run chosen. -/
theorem allocRec_spec {m : List Nat} {k j : Nat} (hk : k = 2 ^ j) : ∀ {d i : Nat} (o : Nat),
    WF m d i → Fits m d i → j ≤ d → k ≤ rd m i →
    WF (allocRec m k d i) d i ∧ rd (allocRec m k d i) i < 2 ^ d ∧
    (allocs (allocRec m k d i) d i o).Perm ((targetOff m k d i o, k) :: allocs m d i o)
  | 0, i, o, h, hfit, hj, hge => by
    have hj0 : j = 0 := by omega
    subst hj0
    simp only [pow_zero] at hk
    subst hk
    simp only [WF] at h
    have hi := hfit.lt
    have hr1 : rd m i = 1 := by omega
    refine ⟨?_, ?_, ?_⟩
    · simp only [allocRec, WF, rd_set_self hi]; omega
    · simp only [allocRec, rd_set_self hi]; omega
    · simp only [allocRec, allocs, targetOff, rd_set_self hi, hr1]; simp
  | d + 1, i, o, h, hfit, hj, hge => by
    have hi := hfit.lt
    have hp := two_pow_pos d
    have hk1 : 1 ≤ k := hk ▸ two_pow_pos j
    by_cases hkd : 2 ^ (d + 1) = k
    · have hf : rd m i = 2 ^ (d + 1) := le_antisymm (WF_le h) (hkd ▸ hge)
      obtain ⟨h1, h2⟩ := WF_full_children h hf
      have hal := allocs_of_full o h hf
      obtain ⟨hl, hr, hloc⟩ := h
      have fl : ∀ x, Sub (2 * i + 1) x → rd (m.set i 0) x = rd m x := fun x hx =>
        rd_set_ne (fun e => not_Sub_child_self_left i (e ▸ hx))
      have fr : ∀ x, Sub (2 * i + 2) x → rd (m.set i 0) x = rd m x := fun x hx =>
        rd_set_ne (fun e => not_Sub_child_self_right i (e ▸ hx))
      simp only [allocRec, targetOff, if_pos hkd]
      refine ⟨⟨WF_frame fl hl, WF_frame fr hr, ?_⟩, ?_, ?_⟩
      · left
        rw [fl _ (Sub.refl _), fr _ (Sub.refl _), rd_set_self hi]
        exact ⟨h1, h2, Or.inr rfl⟩
      · rw [rd_set_self hi]; exact two_pow_pos _
      · rw [hal]
        have hnew : allocs (m.set i 0) (d + 1) i o = [(o, 2 ^ (d + 1))] := by
          simp only [allocs]
          rw [rd_set_self hi, fl _ (Sub.refl _), fr _ (Sub.refl _),
            if_neg (by have := two_pow_pos (d + 1); omega), if_pos ⟨rfl, h1, h2⟩]
        rw [hnew, hkd]
    · have hjd : j ≤ d := by
        rcases Nat.lt_or_ge d j with hlt | hge'
        · exfalso; apply hkd; rw [hk]; congr 1; omega
        · exact hge'
      obtain ⟨hwc, hgec⟩ := pick_ok h hk hjd hge
      have hnode := allocs_node o h (Or.inl (by omega))
      obtain ⟨hl, hr, hloc⟩ := h
      simp only [allocRec, targetOff, if_neg hkd]
      set m1 := allocRec m k d (pick m k i) with hm1
      have hlen : m1.length = m.length := allocRec_length d _
      have hi1 : i < m1.length := by omega
      set v := MAX (rd m1 (2 * i + 1)) (rd m1 (2 * i + 2)) with hv
      have fl : ∀ x, Sub (2 * i + 1) x → rd (m1.set i v) x = rd m1 x := fun x hx =>
        rd_set_ne (fun e => not_Sub_child_self_left i (e ▸ hx))
      have fr : ∀ x, Sub (2 * i + 2) x → rd (m1.set i v) x = rd m1 x := fun x hx =>
        rd_set_ne (fun e => not_Sub_child_self_right i (e ▸ hx))
      rcases pick_cases m k i with ⟨hL, e⟩ | ⟨hL, e⟩
      · obtain ⟨w1, w2, w3⟩ := allocRec_spec hk o hwc (Fits_pick hfit) hjd hgec
        rw [← hm1] at w1 w2 w3
        rw [e] at w1 w2 w3 hm1
        have fs : ∀ x, Sub (2 * i + 2) x → rd m1 x = rd m x := fun x hx => by
          rw [hm1]; exact allocRec_frame d _ x (fun hs => Sub.not_sibling hs hx)
        have wr : WF m1 d (2 * i + 2) := WF_frame fs hr
        have hb1 := WF_le w1
        have hb2 := WF_le wr
        have hvle : v ≤ 2 ^ d := by rw [hv, MAX_eq_max]; omega
        have hW : WF (m1.set i v) (d + 1) i := by
          refine ⟨WF_frame fl w1, WF_frame fr wr, Or.inr ?_⟩
          rw [fl _ (Sub.refl _), fr _ (Sub.refl _), rd_set_self hi1, hv, MAX_eq_max]
          exact ⟨fun hc => by omega, rfl⟩
        refine ⟨hW, ?_, ?_⟩
        · rw [rd_set_self hi1, pow_succ]; omega
        · rw [allocs_node o hW (Or.inr (by
            rw [fl _ (Sub.refl _)]; intro hc; omega)), hnode,
            allocs_frame o fl, allocs_frame _ fr, allocs_frame _ fs, e, if_pos hL]
          exact List.Perm.append_right _ w3
      · obtain ⟨w1, w2, w3⟩ := allocRec_spec hk (o + 2 ^ d) hwc (Fits_pick hfit) hjd hgec
        rw [← hm1] at w1 w2 w3
        rw [e] at w1 w2 w3 hm1
        have fs : ∀ x, Sub (2 * i + 1) x → rd m1 x = rd m x := fun x hx => by
          rw [hm1]; exact allocRec_frame d _ x (fun hs => Sub.not_sibling hx hs)
        have wl : WF m1 d (2 * i + 1) := WF_frame fs hl
        have hb1 := WF_le w1
        have hb2 := WF_le wl
        have hvle : v ≤ 2 ^ d := by rw [hv, MAX_eq_max]; omega
        have hW : WF (m1.set i v) (d + 1) i := by
          refine ⟨WF_frame fl wl, WF_frame fr w1, Or.inr ?_⟩
          rw [fl _ (Sub.refl _), fr _ (Sub.refl _), rd_set_self hi1, hv, MAX_eq_max]
          exact ⟨fun hc => by omega, rfl⟩
        refine ⟨hW, ?_, ?_⟩
        · rw [rd_set_self hi1, pow_succ]; omega
        · rw [allocs_node o hW (Or.inr (by
            rw [fr _ (Sub.refl _)]; intro hc; omega)), hnode,
            allocs_frame o fl, allocs_frame _ fr, allocs_frame _ fs, e, if_neg (by omega)]
          exact (List.Perm.append_left _ w3).trans List.perm_middle

/-- The node on which the descent ends is wholly free, lies inside the array and
its first block is the one that `priskv_buddy_alloc` computes from its index. -/
theorem target_spec {m : List Nat} {k j : Nat} (hk : k = 2 ^ j) : ∀ {d i : Nat} (o : Nat),
    WF m d i → Fits m d i → j ≤ d → k ≤ rd m i →
    rd m (target m k d i) = k ∧ target m k d i < m.length ∧
    (target m k d i + 1) * k + o = (i + 1) * 2 ^ d + targetOff m k d i o
  | 0, i, o, h, hfit, hj, hge => by
    have hj0 : j = 0 := by omega
    subst hj0
    simp only [pow_zero] at hk
    subst hk
    simp only [WF] at h
    refine ⟨?_, hfit.lt, ?_⟩
    · simp only [target]; omega
    · simp only [target, targetOff, pow_zero]
  | d + 1, i, o, h, hfit, hj, hge => by
    by_cases hkd : 2 ^ (d + 1) = k
    · simp only [target, targetOff, if_pos hkd]
      exact ⟨le_antisymm (hkd ▸ WF_le h) hge, hfit.lt, by rw [hkd]⟩
    · have hjd : j ≤ d := by
        rcases Nat.lt_or_ge d j with hlt | hge'
        · exfalso; apply hkd; rw [hk]; congr 1; omega
        · exact hge'
      obtain ⟨hwc, hgec⟩ := pick_ok h hk hjd hge
      simp only [target, targetOff, if_neg hkd]
      rcases pick_cases m k i with ⟨hL, e⟩ | ⟨hL, e⟩
      · obtain ⟨w1, w2, w3⟩ := target_spec hk o hwc (Fits_pick hfit) hjd hgec
        rw [e] at w1 w2 w3 ⊢
        rw [if_pos hL]
        refine ⟨w1, w2, ?_⟩
        rw [w3, pow_succ]; ring
      · obtain ⟨w1, w2, w3⟩ := target_spec hk (o + 2 ^ d) hwc (Fits_pick hfit) hjd hgec
        rw [e] at w1 w2 w3 ⊢
        rw [if_neg (by omega)]
        refine ⟨w1, w2, ?_⟩
        have e2 : (i + 1) * 2 ^ (d + 1) + 2 ^ d = (2 * i + 2 + 1) * 2 ^ d := by
          rw [pow_succ]; ring
        omega

/-- An aligned run of `k` blocks inside a node of `q * k` blocks lies in the
left half of `q * k` blocks or in the part behind it. -/
theorem aligned_split {k q o o1 c : Nat} (ho : o1 = o + c * k) :
    (o1 + k ≤ o + q * k) ∨ (∃ c1, o1 = o + q * k + c1 * k) := by
  rcases Nat.lt_or_ge c q with h | h
  · left
    have : (c + 1) * k ≤ q * k := Nat.mul_le_mul_right k h
    rw [ho]; linarith
  · right
    refine ⟨c - q, ?_⟩
    have : c * k = q * k + (c - q) * k := by
      rw [← add_mul]; congr 1; omega
    rw [ho, this]; ring

/-- Below a node whose counter is less than `k`, every aligned run of `k` blocks
meets a run that is handed out. -/
theorem busy_of_lt {m : List Nat} {k j : Nat} (hk : k = 2 ^ j) : ∀ {d i : Nat} (o o1 c : Nat),
    WF m d i → j ≤ d → rd m i < k → o1 = o + c * k → o1 + k ≤ o + 2 ^ d →
    ∃ e ∈ allocs m d i o, ¬ (e.1 + e.2 ≤ o1 ∨ o1 + k ≤ e.1)
  | 0, i, o, o1, c, h, hj, hlt, ho, hin => by
    have hj0 : j = 0 := by omega
    subst hj0
    simp only [pow_zero] at hk hin
    subst hk
    refine ⟨(o, 1), ?_, ?_⟩
    · simp only [allocs]; rw [if_pos (by omega)]; simp
    · simp only; omega
  | d + 1, i, o, o1, c, h, hj, hlt, ho, hin => by
    have hk1 : 0 < k := hk ▸ two_pow_pos j
    have hp := two_pow_pos d
    by_cases hkd : 2 ^ (d + 1) = k
    · have hne : allocs m (d + 1) i o ≠ [] := fun hc => by
        have := (allocs_eq_nil_iff o h).1 hc; omega
      obtain ⟨e, he⟩ := List.exists_mem_of_ne_nil _ hne
      obtain ⟨h1, h2, j1, c1, _, hk2, _⟩ := allocs_mem he
      have : 0 < e.2 := hk2 ▸ two_pow_pos j1
      refine ⟨e, he, ?_⟩
      have : o ≤ o1 := by rw [ho]; omega
      omega
    · have hjd : j ≤ d := by
        rcases Nat.lt_or_ge d j with hlt' | hge'
        · exfalso; apply hkd; rw [hk]; congr 1; omega
        · exact hge'
      have hkd2 : k ≤ 2 ^ d := hk ▸ Nat.pow_le_pow_right (by decide) hjd
      have hq : 2 ^ d = 2 ^ (d - j) * k := by rw [hk, ← pow_add]; congr 1; omega
      obtain ⟨hl, hr, hloc⟩ := id h
      rcases hloc with ⟨a1, a2, a3 | a3⟩ | ⟨a1, a2⟩
      · rw [pow_succ] at a3; omega
      · refine ⟨(o, 2 ^ (d + 1)), ?_, ?_⟩
        · simp only [allocs]
          rw [if_neg (by have := two_pow_pos (d + 1); omega), if_pos ⟨a3, a1, a2⟩]
          simp
        · have : o ≤ o1 := by rw [ho]; omega
          simp only; omega
      · rw [allocs_node o h (Or.inr a1)]
        rcases @aligned_split k (2 ^ (d - j)) o o1 c ho with hs | ⟨c1, hs⟩
        · rw [← hq] at hs
          obtain ⟨e, he, hov⟩ := busy_of_lt hk o o1 c hl hjd (by omega) ho hs
          exact ⟨e, List.mem_append_left _ he, hov⟩
        · rw [← hq] at hs
          obtain ⟨e, he, hov⟩ := busy_of_lt hk (o + 2 ^ d) o1 c1 hr hjd (by omega) hs
            (by rw [pow_succ] at hin; omega)
          exact ⟨e, List.mem_append_right _ he, hov⟩

/-- First fit: every aligned run of `k` blocks in front of the chosen one meets a
run that is handed out. -/
theorem first_fit {m : List Nat} {k j : Nat} (hk : k = 2 ^ j) : ∀ {d i : Nat} (o o1 c : Nat),
    WF m d i → j ≤ d → k ≤ rd m i → o1 = o + c * k → o1 < targetOff m k d i o →
    ∃ e ∈ allocs m d i o, ¬ (e.1 + e.2 ≤ o1 ∨ o1 + k ≤ e.1)
  | 0, i, o, o1, c, h, hj, hge, ho, hlt => by
    simp only [targetOff] at hlt; omega
  | d + 1, i, o, o1, c, h, hj, hge, ho, hlt => by
    have hk1 : 0 < k := hk ▸ two_pow_pos j
    by_cases hkd : 2 ^ (d + 1) = k
    · simp only [targetOff, if_pos hkd] at hlt; omega
    · have hjd : j ≤ d := by
        rcases Nat.lt_or_ge d j with hlt' | hge'
        · exfalso; apply hkd; rw [hk]; congr 1; omega
        · exact hge'
      have hq : 2 ^ d = 2 ^ (d - j) * k := by rw [hk, ← pow_add]; congr 1; omega
      obtain ⟨hwc, hgec⟩ := pick_ok h hk hjd hge
      rw [allocs_node o h (Or.inl (by omega))]
      obtain ⟨hl, hr, hloc⟩ := h
      simp only [targetOff, if_neg hkd] at hlt
      rcases pick_cases m k i with ⟨hL, e⟩ | ⟨hL, e⟩
      · rw [e, if_pos hL] at hlt
        rw [e] at hwc hgec
        obtain ⟨x, hx, hov⟩ := first_fit hk o o1 c hwc hjd hgec ho hlt
        exact ⟨x, List.mem_append_left _ hx, hov⟩
      · rw [e, if_neg (by omega)] at hlt
        rw [e] at hwc hgec
        rcases @aligned_split k (2 ^ (d - j)) o o1 c ho with hs | ⟨c1, hs⟩
        · rw [← hq] at hs
          obtain ⟨x, hx, hov⟩ := busy_of_lt hk o o1 c hl hjd hL ho hs
          exact ⟨x, List.mem_append_left _ hx, hov⟩
        · rw [← hq] at hs
          obtain ⟨x, hx, hov⟩ := first_fit hk (o + 2 ^ d) o1 c1 hwc hjd hgec hs hlt
          exact ⟨x, List.mem_append_right _ hx, hov⟩

theorem bit_length_eq : ∀ (n v : Nat), v < 2 ^ n → v ≠ 0 → bit_length n v = Nat.log2 v + 1
  | 0, v, h, h0 => by simp at h; omega
  | n + 1, v, h, h0 => by
    simp only [bit_length, if_neg h0]
    rw [Nat.log2]
    by_cases h2 : 2 ≤ v
    · rw [if_pos h2, bit_length_eq n (v / 2) (by rw [pow_succ] at h; omega) (by omega)]
    · rw [if_neg h2]
      have : v / 2 = 0 := by omega
      rw [this]
      cases n <;> simp [bit_length]

theorem builtin_clz_eq {c : Nat} (hc : c < 4294967296) (h0 : c ≠ 0) :
    builtin_clz c = some (31 - Nat.log2 c) := by
  unfold builtin_clz
  rw [if_neg h0, bit_length_eq 32 c (by norm_num; exact hc) h0]
  congr 1; omega

theorem roundup_blocks_pow {bs size e : Nat} (h : (size + bs - 1) / bs = 2 ^ e) :
    roundup_blocks bs size = 2 ^ e := by
  unfold roundup_blocks; rw [h, Nat.clog_pow 2 e (by decide)]

/-- The value of `roundup_power_of_2` on a value up to `2 ^ 31` that is not a
power of two: the least power of two above it. -/
theorem roundup_power_of_2_eq {c : Nat} (hc : c ≤ 2147483648) (hnp : IS_POWER_OF_2 c = false)
    (h0 : c ≠ 0) : roundup_power_of_2 c = some (2 ^ Nat.clog 2 c) ∧ Nat.clog 2 c ≤ 31 := by
  have hc1 : c < 4294967296 := by omega
  have hp31 : IS_POWER_OF_2 2147483648 = true := IS_POWER_OF_2_pow 31
  have hne31 : c ≠ 2147483648 := fun e => by
    rw [e, hp31] at hnp; exact Bool.noConfusion hnp
  have hlog : Nat.log2 c < 31 := (Nat.log2_lt h0).2 (by norm_num; omega)
  have hsh : (32 - (31 - Nat.log2 c)) % 32 = Nat.log2 c + 1 := by omega
  have hlt : 2 ^ (Nat.log2 c + 1) < 4294967296 := by
    calc 2 ^ (Nat.log2 c + 1) ≤ 2 ^ 31 := Nat.pow_le_pow_right (by decide) (by omega)
      _ < 4294967296 := by norm_num
  have hlow : 2 ^ Nat.log2 c ≤ c := Nat.log2_self_le h0
  have hne : 2 ^ Nat.log2 c ≠ c := fun e => by
    have := (IS_POWER_OF_2_iff c).2 ⟨_, e.symm⟩
    rw [this] at hnp; exact Bool.noConfusion hnp
  have hup : c < 2 ^ (Nat.log2 c + 1) := (Nat.log2_lt h0).1 (Nat.lt_succ_self _)
  have h1 : Nat.log2 c < Nat.clog 2 c :=
    (Nat.pow_lt_iff_lt_clog (by decide)).1 (lt_of_le_of_ne hlow hne)
  have h2 : Nat.clog 2 c ≤ Nat.log2 c + 1 :=
    (Nat.le_pow_iff_clog_le (by decide)).1 hup.le
  have e : Nat.clog 2 c = Nat.log2 c + 1 := by omega
  unfold roundup_power_of_2
  rw [builtin_clz_eq hc1 h0]
  simp only
  rw [hsh, Nat.one_shiftLeft, u32_of_lt hlt, e]
  exact ⟨rfl, by omega⟩

/-- The value of `roundup_power_of_2` above `2 ^ 31`: the shift count is 32 and
the result is 1. -/
theorem roundup_power_of_2_big {c : Nat} (h1 : 2147483648 < c) (hc : c < 4294967296) :
    roundup_power_of_2 c = some 1 := by
  have h0 : c ≠ 0 := by omega
  have hlog : Nat.log2 c < 32 := (Nat.log2_lt h0).2 hc
  have hlog1 : ¬ Nat.log2 c < 31 := fun h => by
    have := (Nat.log2_lt h0).1 h
    norm_num at this
    omega
  have hsh : (32 - (31 - Nat.log2 c)) % 32 = 0 := by omega
  unfold roundup_power_of_2
  rw [builtin_clz_eq hc h0]
  simp only
  rw [hsh]
  rfl

/-- A 32-bit value above `2 ^ 31` is not a power of two. -/
theorem not_pow_of_big {c : Nat} (h1 : 2147483648 < c) (hc : c < 4294967296) :
    IS_POWER_OF_2 c = false := by
  cases hp : IS_POWER_OF_2 c with
  | false => rfl
  | true =>
    exfalso
    obtain ⟨e, he⟩ := (IS_POWER_OF_2_iff c).1 hp
    have h2 : 2 ^ e < 2 ^ 32 := by rw [← he]; exact hc
    have h3 := (Nat.pow_lt_pow_iff_right (by decide : 1 < 2)).1 h2
    have h4 : 2 ^ e ≤ 2 ^ 31 := Nat.pow_le_pow_right (by decide) (by omega)
    norm_num at h4
    omega

/-- The quotient of a 32-bit request is a 32-bit value. -/
theorem ceil_div_le {bs size : Nat} (hb : bs ≠ 0) : (size + bs - 1) / bs ≤ size := by
  rcases Nat.eq_zero_or_pos size with h0 | h0
  · subst h0
    rw [Nat.div_eq_of_lt (by omega)]
  · calc (size + bs - 1) / bs ≤ (size * bs) / bs := by
          apply Nat.div_le_div_right
          obtain ⟨s, rfl⟩ : ∃ s, size = s + 1 := ⟨size - 1, by omega⟩
          obtain ⟨t, rfl⟩ : ∃ t, bs = t + 1 := ⟨bs - 1, by omega⟩
          have : (s + 1) * (t + 1) = s * t + s + t + 1 := by ring
          omega
      _ = size := Nat.mul_div_cancel _ (by omega)

/-- The rounding of `priskv_buddy_alloc`: where it is defined it yields a power of
two; for a request of at most `2 ^ 31` blocks this is the number of blocks of the
specification, for a larger request it is one block. -/
theorem alloc_alignup_eq {bs size k : Nat} (hs : size < 4294967296)
    (h : alloc_alignup bs size = some k) :
    bs ≠ 0 ∧ (∃ j, j ≤ 31 ∧ k = 2 ^ j) ∧
    ((size + bs - 1) / bs ≤ 2147483648 → k = roundup_blocks bs size) ∧
    (2147483648 < (size + bs - 1) / bs → k = 1) := by
  unfold alloc_alignup at h
  by_cases hb : bs = 0
  · simp [hb] at h
  · simp only [hb, if_false] at h
    have hq : (size + bs - 1) / bs ≤ size := ceil_div_le hb
    have hc : (size + bs - 1) / bs < 4294967296 := by omega
    rw [u32_of_lt hc] at h
    split at h
    · rename_i hp
      obtain ⟨e, he⟩ := (IS_POWER_OF_2_iff _).1 hp
      simp only [Option.some.injEq] at h
      have h2 : 2 ^ e < 2 ^ 32 := by rw [← he]; exact hc
      have h3 := (Nat.pow_lt_pow_iff_right (by decide : 1 < 2)).1 h2
      have h4 : 2 ^ e ≤ 2 ^ 31 := Nat.pow_le_pow_right (by decide) (by omega)
      norm_num at h4
      refine ⟨hb, ⟨e, by omega, by rw [← h, he]⟩, fun _ => by rw [← h, roundup_blocks_pow he, he],
        fun hbig => by omega⟩
    · rename_i hp
      have hnp : IS_POWER_OF_2 ((size + bs - 1) / bs) = false := by simpa using hp
      rcases Nat.lt_or_ge 2147483648 ((size + bs - 1) / bs) with hbig | hsmall
      · rw [roundup_power_of_2_big hbig hc] at h
        simp only [Option.some.injEq] at h
        exact ⟨hb, ⟨0, by omega, by rw [← h]; rfl⟩, fun _ => by omega, fun _ => h.symm⟩
      · have h0 : (size + bs - 1) / bs ≠ 0 := fun e0 => by
          rw [e0] at h
          simp [roundup_power_of_2, builtin_clz] at h
        obtain ⟨h1, h2⟩ := roundup_power_of_2_eq hsmall hnp h0
        rw [h1] at h
        simp only [Option.some.injEq] at h
        exact ⟨hb, ⟨_, h2, h.symm⟩, fun _ => h.symm, fun _ => by omega⟩

/-- The rounding is defined for every request of at least one byte that does not
need more than `2 ^ 31` blocks. -/
theorem alloc_alignup_defined {bs size : Nat} (hb : bs ≠ 0) (hs : size < 4294967296)
    (h1 : 1 ≤ size) (h2 : (size + bs - 1) / bs ≤ 2147483648) :
    alloc_alignup bs size = some (roundup_blocks bs size) := by
  have hc : (size + bs - 1) / bs < 4294967296 := by omega
  have hpos : 1 ≤ (size + bs - 1) / bs := by
    rw [Nat.le_div_iff_mul_le (by omega)]; omega
  have key : ∃ k, alloc_alignup bs size = some k := by
    unfold alloc_alignup
    simp only [hb, if_false]
    rw [u32_of_lt hc]
    split
    · exact ⟨_, rfl⟩
    · rename_i hp
      exact ⟨_, (roundup_power_of_2_eq h2 (by simpa using hp) (by omega)).1⟩
  obtain ⟨k, hk⟩ := key
  rw [hk, (alloc_alignup_eq hs hk).2.2.1 h2]

/-- A request of more than `2 ^ 31` blocks is rounded to one block. -/
theorem alloc_alignup_big {bs size : Nat} (hb : bs ≠ 0) (hs : size < 4294967296)
    (h2 : 2147483648 < (size + bs - 1) / bs) : alloc_alignup bs size = some 1 := by
  have hq : (size + bs - 1) / bs ≤ size := ceil_div_le hb
  have hc : (size + bs - 1) / bs < 4294967296 := by omega
  unfold alloc_alignup
  simp only [hb, if_false]
  rw [u32_of_lt hc, not_pow_of_big h2 hc]
  simp only [Bool.false_eq_true, if_false]
  exact roundup_power_of_2_big h2 hc

/-- With blocks of two bytes or more no 32-bit request needs more than `2 ^ 31`
blocks. -/
theorem ceil_div_small {bs size : Nat} (hb : 2 ≤ bs) (hs : size < 4294967296) :
    (size + bs - 1) / bs ≤ 2147483648 := by
  rw [Nat.div_le_iff_le_mul_add_pred (by omega)]
  have : 2147483648 * 2 ≤ 2147483648 * bs := Nat.mul_le_mul_left _ hb
  rw [Nat.mul_comm bs]
  omega

/-- Every result of `roundup_power_of_2` is a power of two of 32 bits. -/
theorem roundup_power_of_2_pow {c r : Nat} (h : roundup_power_of_2 c = some r) :
    ∃ j, j ≤ 31 ∧ r = 2 ^ j := by
  unfold roundup_power_of_2 at h
  split at h
  · simp at h
  · rename_i z _
    simp only [Option.some.injEq] at h
    refine ⟨(32 - z) % 32, by omega, ?_⟩
    rw [← h, Nat.one_shiftLeft]
    have h1 : 2 ^ ((32 - z) % 32) < 2 ^ 32 := Nat.pow_lt_pow_right (by decide) (by omega)
    exact u32_of_lt (by norm_num at h1; exact h1)

/-- The number of blocks of a request that needs more than `2 ^ 31` blocks is
`2 ^ 32`. -/
theorem roundup_blocks_big {bs size : Nat} (h1 : 2147483648 < (size + bs - 1) / bs)
    (h2 : (size + bs - 1) / bs ≤ 4294967296) : roundup_blocks bs size = 4294967296 := by
  unfold roundup_blocks
  generalize (size + bs - 1) / bs = c at h1 h2
  have e : Nat.clog 2 c = 32 := by
    apply le_antisymm
    · exact (Nat.le_pow_iff_clog_le (by decide)).1 (by norm_num; exact h2)
    · exact (Nat.pow_lt_iff_lt_clog (by decide)).1 (by norm_num; exact h1)
  rw [e]
  norm_num

/-- The number of blocks of a request of `2 ^ 31 + 1` bytes with blocks of one
byte is `2 ^ 32`. -/
theorem roundup_blocks_byte : roundup_blocks 1 2147483649 = 4294967296 :=
  roundup_blocks_big (by norm_num) (by norm_num)

theorem Fits.index_lt {m : List Nat} {d i : Nat} (hlen : m.length < 4294967296)
    (h : Fits m (d + 1) i) : i < 2147483647 := by
  unfold Fits at h
  have : 1 ≤ 2 ^ d := two_pow_pos d
  have : (i + 2) * 2 ≤ (i + 2) * 2 ^ (d + 1) := by
    apply Nat.mul_le_mul_left; rw [pow_succ]; omega
  omega

/-- The descent loop ends on the node `target`. -/
theorem alloc_descend_eq {m : List Nat} {k j : Nat} (hk : k = 2 ^ j)
    (hlen : m.length < 4294967296) : ∀ (d i F : Nat), Fits m d i → j ≤ d → d < F →
    alloc_descend m k F (2 ^ d) i = some (target m k d i, k)
  | 0, i, F, hfit, hj, hF => by
    obtain ⟨F', rfl⟩ : ∃ F', F = F' + 1 := ⟨F - 1, by omega⟩
    have hj0 : j = 0 := by omega
    subst hj0
    simp only [pow_zero] at hk
    subst hk
    simp [alloc_descend, target]
  | d + 1, i, F, hfit, hj, hF => by
    obtain ⟨F', rfl⟩ : ∃ F', F = F' + 1 := ⟨F - 1, by omega⟩
    by_cases hkd : 2 ^ (d + 1) = k
    · simp only [alloc_descend, target, if_pos hkd]
      rw [hkd]
    · have hjd : j ≤ d := by
        rcases Nat.lt_or_ge d j with hlt | hge'
        · exfalso; apply hkd; rw [hk]; congr 1; omega
        · exact hge'
      have hi := hfit.index_lt hlen
      have hl := hfit.child_left.lt
      simp only [alloc_descend, target, if_neg hkd, L_LEAF_eq hi, R_LEAF_eq hi,
        getElem?_eq_rd hl]
      have h2 : 2 ^ (d + 1) / 2 = 2 ^ d := by rw [pow_succ]; omega
      rw [h2]
      have := alloc_descend_eq hk hlen d (pick m k i) F' (Fits_pick hfit) hjd (by omega)
      unfold pick at this
      exact this

theorem alloc_update_zero (G : Nat) (m : List Nat) : alloc_update (G + 1) m 0 = some m := by
  simp [alloc_update]

/-- The upward loop of `priskv_buddy_alloc`, started at the node found, does what
the recursion `allocRec` does. -/
theorem alloc_update_eq {m : List Nat} {k : Nat} (hlen : m.length < 4294967296) :
    ∀ (d i : Nat), Fits m d i → ∃ s, s ≤ d ∧ ∀ G,
      alloc_update (G + s) (m.set (target m k d i) 0) (target m k d i) =
      alloc_update G (allocRec m k d i) i
  | 0, i, hfit => ⟨0, le_rfl, fun G => by simp [target, allocRec]⟩
  | d + 1, i, hfit => by
    by_cases hkd : 2 ^ (d + 1) = k
    · exact ⟨0, Nat.zero_le _, fun G => by simp [target, allocRec, hkd]⟩
    · obtain ⟨s, hs, ih⟩ := alloc_update_eq (k := k) hlen d (pick m k i) (Fits_pick hfit)
      refine ⟨s + 1, by omega, fun G => ?_⟩
      have hi := hfit.index_lt hlen
      have e1 : G + (s + 1) = (G + 1) + s := by omega
      simp only [target, allocRec, if_neg hkd]
      rw [e1, ih (G + 1)]
      set m1 := allocRec m k d (pick m k i) with hm1
      have hlen1 : m1.length = m.length := allocRec_length d _
      have hl : 2 * i + 1 < m1.length := hlen1 ▸ hfit.child_left.lt
      have hr : 2 * i + 2 < m1.length := hlen1 ▸ hfit.child_right.lt
      have hpar : PARENT (pick m k i) = i := by
        rcases pick_cases m k i with ⟨_, e⟩ | ⟨_, e⟩ <;> rw [e]
        · exact PARENT_left hi
        · exact PARENT_right hi
      have hne : pick m k i ≠ 0 := by
        rcases pick_cases m k i with ⟨_, e⟩ | ⟨_, e⟩ <;> rw [e] <;> omega
      simp only [alloc_update, if_neg hne, hpar, L_LEAF_eq hi, R_LEAF_eq hi,
        getElem?_eq_rd hl, getElem?_eq_rd hr]
      rw [if_pos (by omega)]

theorem Valid.fits {b : buddy} {D : Nat} (h : Valid b D) : Fits b.meta D 0 := by
  obtain ⟨_, _, hl, _⟩ := h
  unfold Fits
  have := two_pow_pos (D + 1)
  rw [hl, pow_succ]; omega

theorem Valid.length_lt {b : buddy} {D : Nat} (h : Valid b D) : b.meta.length < 4294967296 := by
  obtain ⟨hD, _, hl, _⟩ := h
  have : 2 ^ (D + 1) ≤ 2 ^ 31 := Nat.pow_le_pow_right (by decide) (by omega)
  rw [hl]; norm_num at this ⊢; omega

/-- What `priskv_buddy_alloc` does on a buddy of the right shape: `NULL` and no
change when the root counter is below the request, else the run found by the
descent, with the counters updated as `allocRec` says. It never faults. -/
theorem alloc_code {b : buddy} {D size k j : Nat} (hv : Valid b D)
    (ha : alloc_alignup b.size size = some k) (hk : k = 2 ^ j) :
    priskv_buddy_alloc b size =
      if rd b.meta 0 < k then some (none, b)
      else some (some (b.base + targetOff b.meta k D 0 0 * b.size),
        { b with meta := allocRec b.meta k D 0, inuse := u32 (b.inuse + k) }) := by
  have hfit := hv.fits
  have hlen := hv.length_lt
  obtain ⟨hD, hn, hl, hwf⟩ := hv
  have h0 : 0 < b.meta.length := hfit.lt
  unfold priskv_buddy_alloc
  simp only [ha, getElem?_eq_rd h0]
  by_cases hlt : rd b.meta 0 < k
  · simp [hlt]
  · simp only [hlt, if_false]
    have hge : k ≤ rd b.meta 0 := by omega
    have hle := WF_le hwf
    have hjD : j ≤ D := by
      rcases Nat.lt_or_ge D j with h | h
      · exfalso
        have : 2 ^ D < 2 ^ j := Nat.pow_lt_pow_right (by decide) h
        omega
      · exact h
    have hk1 : 0 < k := hk ▸ two_pow_pos j
    obtain ⟨t1, t2, t3⟩ := target_spec hk 0 hwf hfit hjD hge
    obtain ⟨_, _, p3⟩ := allocRec_spec hk 0 hwf hfit hjD hge
    have hmem : (targetOff b.meta k D 0 0, k) ∈ allocs (allocRec b.meta k D 0) D 0 0 :=
      p3.symm.subset (List.mem_cons_self _ _)
    have hb := (allocs_mem hmem).2.1
    simp only [zero_add] at hb
    rw [hn, alloc_descend_eq hk hlen D 0 64 hfit hjD (by omega)]
    simp only [getElem?_eq_rd t2, t1]
    rw [if_neg (by omega)]
    obtain ⟨s, hs, hup⟩ := alloc_update_eq (k := k) hlen D 0 hfit
    have e64 : 64 = (63 - s) + 1 + s := by omega
    rw [e64, hup, alloc_update_zero]
    have hD31 : 2 ^ D ≤ 2 ^ 30 := Nat.pow_le_pow_right (by decide) hD
    norm_num at hD31
    simp only [one_mul, add_zero, zero_add] at t3
    have hu1 : u32 ((target b.meta k D 0 + 1) * k) = 2 ^ D + targetOff b.meta k D 0 0 := by
      rw [t3]; exact u32_of_lt (by omega)
    have hu2 : u32 (2 ^ D + targetOff b.meta k D 0 0 + 4294967296 - 2 ^ D) =
        targetOff b.meta k D 0 0 := by
      have : 2 ^ D + targetOff b.meta k D 0 0 + 4294967296 - 2 ^ D =
          targetOff b.meta k D 0 0 + 4294967296 := by omega
      rw [this]; unfold u32; omega
    simp only [hu1, hu2]

/-- Below a wholly free node the upward search of `priskv_buddy_free` meets no
zero counter. -/
theorem freeRec_full {m : List Nat} : ∀ {d i : Nat} (r : Nat), WF m d i → rd m i = 2 ^ d →
    freeRec m d i r = none
  | 0, i, r, h, hf => by
    simp only [freeRec]
    rw [if_neg (by simp at hf; omega)]
  | d + 1, i, r, h, hf => by
    obtain ⟨h1, h2⟩ := WF_full_children h hf
    obtain ⟨hl, hr, _⟩ := h
    have hp := two_pow_pos (d + 1)
    simp only [freeRec]
    by_cases hlt : r < 2 ^ d
    · simp only [hlt, if_true]
      rw [freeRec_full _ hl h1]
      simp only
      rw [if_neg (by omega)]
    · simp only [hlt, if_false]
      rw [freeRec_full _ hr h2]
      simp only
      rw [if_neg (by omega)]

/-- The recursion `freeRec` keeps the length and changes no counter outside the
subtree it works in. -/
theorem freeRec_frame {m : List Nat} : ∀ {d i r n : Nat} {m1 : List Nat},
    freeRec m d i r = some (m1, n) →
    m1.length = m.length ∧ ∀ x, ¬ Sub i x → rd m1 x = rd m x
  | 0, i, r, n, m1, h => by
    simp only [freeRec] at h
    split at h
    · simp only [Option.some.injEq, Prod.mk.injEq] at h
      obtain ⟨rfl, _⟩ := h
      exact ⟨by simp, fun x hx => rd_set_ne (fun e => hx (e ▸ Sub.refl i))⟩
    · simp at h
  | d + 1, i, r, n, m1, h => by
    simp only [freeRec] at h
    split at h
    · rename_i m2 n2 hrec
      simp only [Option.some.injEq, Prod.mk.injEq] at h
      obtain ⟨rfl, _⟩ := h
      obtain ⟨hlen, hfr⟩ := freeRec_frame hrec
      refine ⟨by simp [hlen], fun x hx => ?_⟩
      have hne : i ≠ x := fun e => hx (e ▸ Sub.refl i)
      rw [rd_set_ne hne]
      apply hfr
      intro hs
      apply hx
      by_cases hlt : r < 2 ^ d
      · simp only [hlt, if_true] at hs; exact hs.of_left
      · simp only [hlt, if_false] at hs; exact hs.of_right
    · split at h
      · simp only [Option.some.injEq, Prod.mk.injEq] at h
        obtain ⟨rfl, _⟩ := h
        exact ⟨by simp, fun x hx => rd_set_ne (fun e => hx (e ▸ Sub.refl i))⟩
      · simp at h

/-- The counter that `priskv_buddy_free` writes into a node above the run given
back keeps the shape of the tree. -/
theorem WF_merge {m1 : List Nat} {d i : Nat} (hi : i < m1.length)
    (hl : WF m1 d (2 * i + 1)) (hr : WF m1 d (2 * i + 2)) (hd : d ≤ 30) :
    WF (m1.set i (if u32 (rd m1 (2 * i + 1) + rd m1 (2 * i + 2)) = 2 ^ (d + 1) then 2 ^ (d + 1)
        else MAX (rd m1 (2 * i + 1)) (rd m1 (2 * i + 2)))) (d + 1) i ∧
    (rd (m1.set i (if u32 (rd m1 (2 * i + 1) + rd m1 (2 * i + 2)) = 2 ^ (d + 1) then 2 ^ (d + 1)
        else MAX (rd m1 (2 * i + 1)) (rd m1 (2 * i + 2)))) i ≠ 0 ∨
      ¬ (rd m1 (2 * i + 1) = 2 ^ d ∧ rd m1 (2 * i + 2) = 2 ^ d)) := by
  set v := (if u32 (rd m1 (2 * i + 1) + rd m1 (2 * i + 2)) = 2 ^ (d + 1) then 2 ^ (d + 1)
        else MAX (rd m1 (2 * i + 1)) (rd m1 (2 * i + 2))) with hv
  have fl : ∀ x, Sub (2 * i + 1) x → rd (m1.set i v) x = rd m1 x := fun x hx =>
    rd_set_ne (fun e => not_Sub_child_self_left i (e ▸ hx))
  have fr : ∀ x, Sub (2 * i + 2) x → rd (m1.set i v) x = rd m1 x := fun x hx =>
    rd_set_ne (fun e => not_Sub_child_self_right i (e ▸ hx))
  have b1 := WF_le hl
  have b2 := WF_le hr
  have hp := two_pow_pos d
  have hD : 2 ^ d ≤ 2 ^ 30 := Nat.pow_le_pow_right (by decide) hd
  norm_num at hD
  have hu : u32 (rd m1 (2 * i + 1) + rd m1 (2 * i + 2)) =
      rd m1 (2 * i + 1) + rd m1 (2 * i + 2) := u32_of_lt (by omega)
  rw [hu] at hv
  have h2 : 2 ^ (d + 1) = 2 * 2 ^ d := by rw [pow_succ]; omega
  by_cases hc : rd m1 (2 * i + 1) + rd m1 (2 * i + 2) = 2 ^ (d + 1)
  · rw [if_pos hc] at hv
    refine ⟨⟨WF_frame fl hl, WF_frame fr hr, Or.inl ?_⟩, Or.inl ?_⟩
    · rw [fl _ (Sub.refl _), fr _ (Sub.refl _), rd_set_self hi]
      exact ⟨by omega, by omega, Or.inl hv⟩
    · rw [rd_set_self hi, hv]; omega
  · rw [if_neg hc, MAX_eq_max] at hv
    have hnb : ¬ (rd m1 (2 * i + 1) = 2 ^ d ∧ rd m1 (2 * i + 2) = 2 ^ d) := fun h => by omega
    refine ⟨⟨WF_frame fl hl, WF_frame fr hr, Or.inr ?_⟩, Or.inr hnb⟩
    rw [fl _ (Sub.refl _), fr _ (Sub.refl _), rd_set_self hi]
    exact ⟨hnb, hv⟩

/-- The effect of `priskv_buddy_free` on the tree: for a run that is handed out,
the search finds its node, the shape is kept and exactly this run leaves the
list. -/
theorem freeRec_spec {m : List Nat} : ∀ {d i : Nat} (o : Nat) {e : Nat × Nat},
    WF m d i → Fits m d i → d ≤ 31 → e ∈ allocs m d i o →
    ∃ m1, freeRec m d i (e.1 - o) = some (m1, e.2) ∧ WF m1 d i ∧
      (allocs m d i o).Perm (e :: allocs m1 d i o)
  | 0, i, o, e, h, hfit, hd, he => by
    simp only [allocs] at he
    split at he
    · rename_i h0
      simp only [List.mem_singleton] at he
      subst he
      have hi := hfit.lt
      refine ⟨m.set i 1, by simp [freeRec, h0], ?_, ?_⟩
      · simp only [WF, rd_set_self hi]; exact le_rfl
      · simp only [allocs, rd_set_self hi, h0]; simp
    · simp at he
  | d + 1, i, o, e, h, hfit, hd, he => by
    have hi := hfit.lt
    have hp := two_pow_pos d
    obtain ⟨hl, hr, hloc⟩ := id h
    have hmem := he
    simp only [allocs] at he
    split at he
    · simp at he
    · rename_i hnf
      split at he
      · rename_i ha
        simp only [List.mem_singleton] at he
        subst he
        have fl : ∀ x, Sub (2 * i + 1) x → rd (m.set i (2 ^ (d + 1))) x = rd m x := fun x hx =>
          rd_set_ne (fun e => not_Sub_child_self_left i (e ▸ hx))
        have fr : ∀ x, Sub (2 * i + 2) x → rd (m.set i (2 ^ (d + 1))) x = rd m x := fun x hx =>
          rd_set_ne (fun e => not_Sub_child_self_right i (e ▸ hx))
        refine ⟨m.set i (2 ^ (d + 1)), ?_, ?_, ?_⟩
        · simp only [freeRec, Nat.sub_self, hp, if_true]
          rw [freeRec_full 0 hl ha.2.1]
          simp only
          rw [if_pos ha.1]
        · refine ⟨WF_frame fl hl, WF_frame fr hr, Or.inl ?_⟩
          rw [fl _ (Sub.refl _), fr _ (Sub.refl _), rd_set_self hi]
          exact ⟨ha.2.1, ha.2.2, Or.inl rfl⟩
        · have hnew : allocs (m.set i (2 ^ (d + 1))) (d + 1) i o = [] := by
            simp only [allocs]; rw [rd_set_self hi, if_pos rfl]
          rw [hnew]
          simp only [allocs]
          rw [if_neg hnf, if_pos ha]
      · rename_i hna
        rw [List.mem_append] at he
        have hnode : allocs m (d + 1) i o =
            allocs m d (2 * i + 1) o ++ allocs m d (2 * i + 2) (o + 2 ^ d) := by
          simp only [allocs]; rw [if_neg hnf, if_neg hna]
        rcases he with he | he
        · obtain ⟨b1, b2, j, c, _, hk2, _⟩ := allocs_mem he
          have hk1 : 0 < e.2 := hk2 ▸ two_pow_pos j
          have hlt : e.1 - o < 2 ^ d := by omega
          obtain ⟨m1, q1, q2, q3⟩ := freeRec_spec o hl hfit.child_left (by omega) he
          obtain ⟨hlen, hfr⟩ := freeRec_frame q1
          have fs : ∀ x, Sub (2 * i + 2) x → rd m1 x = rd m x := fun x hx =>
            hfr x (fun hs => Sub.not_sibling hs hx)
          have wr : WF m1 d (2 * i + 2) := WF_frame fs hr
          obtain ⟨hW, hne⟩ := WF_merge (hlen ▸ hi) q2 wr (by omega)
          refine ⟨_, ?_, hW, ?_⟩
          · simp only [freeRec, hlt, if_true, q1]
          · have fl : ∀ v x, Sub (2 * i + 1) x → rd (m1.set i v) x = rd m1 x := fun v x hx =>
              rd_set_ne (fun e => not_Sub_child_self_left i (e ▸ hx))
            have fr : ∀ v x, Sub (2 * i + 2) x → rd (m1.set i v) x = rd m1 x := fun v x hx =>
              rd_set_ne (fun e => not_Sub_child_self_right i (e ▸ hx))
            rw [allocs_node o hW (by
              rw [fl _ _ (Sub.refl _), fr _ _ (Sub.refl _)]; exact hne), hnode,
              allocs_frame o (fl _), allocs_frame _ (fr _), allocs_frame _ fs]
            exact List.Perm.append_right _ q3
        · obtain ⟨b1, b2, j, c, _, hk2, _⟩ := allocs_mem he
          have hk1 : 0 < e.2 := hk2 ▸ two_pow_pos j
          have hlt : ¬ e.1 - o < 2 ^ d := by omega
          have hsub : e.1 - o - 2 ^ d = e.1 - (o + 2 ^ d) := by omega
          obtain ⟨m1, q1, q2, q3⟩ := freeRec_spec (o + 2 ^ d) hr hfit.child_right (by omega) he
          obtain ⟨hlen, hfr⟩ := freeRec_frame q1
          have fs : ∀ x, Sub (2 * i + 1) x → rd m1 x = rd m x := fun x hx =>
            hfr x (fun hs => Sub.not_sibling hx hs)
          have wl : WF m1 d (2 * i + 1) := WF_frame fs hl
          obtain ⟨hW, hne⟩ := WF_merge (hlen ▸ hi) wl q2 (by omega)
          refine ⟨_, ?_, hW, ?_⟩
          · simp only [freeRec, hlt, if_false, hsub, q1]
          · have fl : ∀ v x, Sub (2 * i + 1) x → rd (m1.set i v) x = rd m1 x := fun v x hx =>
              rd_set_ne (fun e => not_Sub_child_self_left i (e ▸ hx))
            have fr : ∀ v x, Sub (2 * i + 2) x → rd (m1.set i v) x = rd m1 x := fun v x hx =>
              rd_set_ne (fun e => not_Sub_child_self_right i (e ▸ hx))
            rw [allocs_node o hW (by
              rw [fl _ _ (Sub.refl _), fr _ _ (Sub.refl _)]; exact hne), hnode,
              allocs_frame o (fl _), allocs_frame _ (fr _), allocs_frame _ fs]
            exact (List.Perm.append_left _ q3).trans List.perm_middle

theorem free_update_zero (G : Nat) (m : List Nat) (n : Nat) :
    free_update (G + 1) m n 0 = some m := by
  simp [free_update]

theorem two_pow_lt_u32 {d : Nat} (hd : d ≤ 31) : 2 ^ d < 4294967296 := by
  have : 2 ^ d ≤ 2 ^ 31 := Nat.pow_le_pow_right (by decide) hd
  norm_num at this; omega

/-- The loops of `priskv_buddy_free` do what the recursion `freeRec` does: the
search from the leaf either passes node `i`, or it stops on a zero counter below
`i` and the upward loop from there arrives at `i` with the counters of `freeRec`. -/
theorem free_bridge {m : List Nat} (hlen : m.length < 4294967296) : ∀ (d i r : Nat),
    Fits m d i → r < 2 ^ d → d ≤ 30 →
    (freeRec m d i r = none → ∀ F, free_ascend m (F + d + 1) 1 ((i + 1) * 2 ^ d - 1 + r) =
        if i = 0 then some none else free_ascend m F (2 ^ (d + 1)) (PARENT i)) ∧
    (∀ m1 n, freeRec m d i r = some (m1, n) → ∃ z s, s ≤ d ∧ z < m.length ∧
        (∀ F, free_ascend m (F + d + 1) 1 ((i + 1) * 2 ^ d - 1 + r) = some (some (z, n))) ∧
        ∀ G, free_update (G + s) (m.set z n) n z = free_update G m1 (2 ^ d) i)
  | 0, i, r, hfit, hr, hd => by
    have hi := hfit.lt
    have hr0 : r = 0 := by simpa using hr
    subst hr0
    have hleaf : (i + 1) * 2 ^ 0 - 1 + 0 = i := by simp
    rw [hleaf]
    constructor
    · intro h F
      simp only [freeRec] at h
      split at h
      · simp at h
      · rename_i h0
        simp only [free_ascend, getElem?_eq_rd hi, if_neg h0]
        have : u32 (1 * 2) = 2 ^ (0 + 1) := by decide
        rw [this]
    · intro m1 n h
      simp only [freeRec] at h
      split at h
      · rename_i h0
        simp only [Option.some.injEq, Prod.mk.injEq] at h
        obtain ⟨rfl, rfl⟩ := h
        refine ⟨i, 0, le_rfl, hi, fun F => ?_, fun G => ?_⟩
        · simp only [free_ascend, getElem?_eq_rd hi, if_pos h0]
        · simp
      · simp at h
  | d + 1, i, r, hfit, hr, hd => by
    have hi := hfit.lt
    have hi31 := hfit.index_lt hlen
    have hp := two_pow_pos d
    have h2 : 2 ^ (d + 1) = 2 * 2 ^ d := by rw [pow_succ]; omega
    have hu : u32 (2 ^ (d + 1) * 2) = 2 ^ (d + 1 + 1) := by
      rw [← pow_succ]; exact u32_of_lt (two_pow_lt_u32 (by omega))
    have hu' : u32 (2 ^ d * 2) = 2 ^ (d + 1) := by
      rw [← pow_succ]; exact u32_of_lt (two_pow_lt_u32 (by omega))
    -- the child on the way to the leaf, and the leaf seen from it
    obtain ⟨c, r1, hc, hr1, hcfit, hleaf, hpar, hcne, hrec⟩ : ∃ c r1,
        (c = 2 * i + 1 ∨ c = 2 * i + 2) ∧ r1 < 2 ^ d ∧ Fits m d c ∧
        (i + 1) * 2 ^ (d + 1) - 1 + r = (c + 1) * 2 ^ d - 1 + r1 ∧ PARENT c = i ∧ c ≠ 0 ∧
        freeRec m (d + 1) i r =
          match freeRec m d c r1 with
          | some (m1, n) =>
            some (m1.set i (if u32 (rd m1 (2 * i + 1) + rd m1 (2 * i + 2)) = 2 ^ (d + 1) then
                              2 ^ (d + 1)
                            else MAX (rd m1 (2 * i + 1)) (rd m1 (2 * i + 2))), n)
          | none => if rd m i = 0 then some (m.set i (2 ^ (d + 1)), 2 ^ (d + 1)) else none := by
      by_cases hlt : r < 2 ^ d
      · refine ⟨2 * i + 1, r, Or.inl rfl, hlt, hfit.child_left, ?_, PARENT_left hi31, by omega, ?_⟩
        · have : (2 * i + 1 + 1) * 2 ^ d = (i + 1) * 2 ^ (d + 1) := by rw [pow_succ]; ring
          rw [this]
        · simp only [freeRec, hlt, if_true]
      · refine ⟨2 * i + 2, r - 2 ^ d, Or.inr rfl, by omega, hfit.child_right, ?_,
          PARENT_right hi31, by omega, ?_⟩
        · have : (2 * i + 2 + 1) * 2 ^ d = (i + 1) * 2 ^ (d + 1) + 2 ^ d := by
            rw [pow_succ]; ring
          have : 1 ≤ (i + 1) * 2 ^ (d + 1) := Nat.mul_pos (by omega) (two_pow_pos _)
          omega
        · simp only [freeRec, hlt, if_false]
    obtain ⟨ih1, ih2⟩ := free_bridge hlen d c r1 hcfit hr1 (by omega)
    rw [hleaf, hrec]
    constructor
    · intro h F
      cases hq : freeRec m d c r1 with
      | some p => rw [hq] at h; simp at h
      | none =>
        rw [hq] at h
        simp only at h
        have h0 : rd m i ≠ 0 := fun e => by simp [e] at h
        have e1 : F + (d + 1) + 1 = (F + 1) + d + 1 := by omega
        rw [e1, ih1 hq (F + 1), if_neg hcne, hpar]
        simp only [free_ascend, getElem?_eq_rd hi, if_neg h0, hu]
    · intro m1 n h
      cases hq : freeRec m d c r1 with
      | some p =>
        obtain ⟨m2, n2⟩ := p
        rw [hq] at h
        simp only [Option.some.injEq, Prod.mk.injEq] at h
        obtain ⟨rfl, rfl⟩ := h
        obtain ⟨z, s, hs, hz, ha, hup⟩ := ih2 m2 n2 hq
        obtain ⟨hlen2, _⟩ := freeRec_frame hq
        refine ⟨z, s + 1, by omega, hz, fun F => ?_, fun G => ?_⟩
        · have e1 : F + (d + 1) + 1 = (F + 1) + d + 1 := by omega
          rw [e1, ha]
        · have e1 : G + (s + 1) = (G + 1) + s := by omega
          rw [e1, hup (G + 1)]
          have hl2 : 2 * i + 1 < m2.length := hlen2 ▸ hfit.child_left.lt
          have hr2 : 2 * i + 2 < m2.length := hlen2 ▸ hfit.child_right.lt
          simp only [free_update, if_neg hcne, hpar, L_LEAF_eq hi31, R_LEAF_eq hi31,
            getElem?_eq_rd hl2, getElem?_eq_rd hr2, hu']
          rw [if_pos (by omega)]
      | none =>
        rw [hq] at h
        simp only at h
        split at h
        · rename_i h0
          simp only [Option.some.injEq, Prod.mk.injEq] at h
          obtain ⟨rfl, rfl⟩ := h
          refine ⟨i, 0, Nat.zero_le _, hi, fun F => ?_, fun G => by simp⟩
          have e1 : F + (d + 1) + 1 = (F + 1) + d + 1 := by omega
          rw [e1, ih1 hq (F + 1), if_neg hcne, hpar]
          simp only [free_ascend, getElem?_eq_rd hi, if_pos h0]
        · simp at h

/-- What `priskv_buddy_free` does on a buddy of the right shape for the address
of block `o`: it never faults, and its result is the one of `freeRec`. -/
theorem free_code {b : buddy} {D o : Nat} (hv : Valid b D) (hs : b.size ≠ 0) (ho : o < 2 ^ D) :
    priskv_buddy_free b (b.base + o * b.size) =
      match freeRec b.meta D 0 o with
      | none => some b
      | some (m1, n) => some { b with meta := m1, inuse := u32 (b.inuse + 4294967296 - n) } := by
  have hfit := hv.fits
  have hlen := hv.length_lt
  obtain ⟨hD, hn, hl, hwf⟩ := hv
  have hD30 : 2 ^ D ≤ 2 ^ 30 := Nat.pow_le_pow_right (by decide) hD
  norm_num at hD30
  have h2 : 2 ^ (D + 1) = 2 * 2 ^ D := by rw [pow_succ]; omega
  unfold priskv_buddy_free
  rw [if_neg hs, if_neg (by omega)]
  have hoff : (b.base + o * b.size - b.base) / b.size = o := by
    rw [Nat.add_sub_cancel_left, Nat.mul_div_cancel _ (by omega)]
  simp only [hoff]
  rw [if_neg (by simp; omega)]
  have hidx : u32 (o + b.nmemb + 4294967296 - 1) = (0 + 1) * 2 ^ D - 1 + o := by
    rw [hn]; unfold u32; omega
  have hnm : u32 (2 * b.nmemb) = 2 * 2 ^ D := by rw [hn]; exact u32_of_lt (by omega)
  rw [hidx, hnm]
  rw [if_neg (by simp; omega)]
  obtain ⟨br1, br2⟩ := free_bridge hlen D 0 o hfit ho hD
  have e64 : 63 - D + D + 1 = 64 := by omega
  cases hq : freeRec b.meta D 0 o with
  | none =>
    have h1 := br1 hq (63 - D)
    rw [e64] at h1
    rw [h1]; simp
  | some p =>
    obtain ⟨m1, n⟩ := p
    obtain ⟨z, s, hs', hz, ha, hup⟩ := br2 m1 n hq
    have h1 := ha (63 - D)
    rw [e64] at h1
    have h3 := hup (63 - s + 1)
    rw [show 63 - s + 1 + s = 64 by omega, free_update_zero] at h3
    rw [h1]
    simp only
    rw [if_neg (by omega), if_neg (by omega), h3]

theorem Level_zero {i x : Nat} : Level i 0 x ↔ x = i := by
  unfold Level; simp; omega

theorem Level_succ {i t x : Nat} :
    Level i (t + 1) x ↔ Level (2 * i + 1) t x ∨ Level (2 * i + 2) t x := by
  unfold Level
  have e1 : (i + 1) * 2 ^ (t + 1) = 2 * (i * 2 ^ t) + 2 * 2 ^ t := by rw [pow_succ]; ring
  have e2 : (i + 2) * 2 ^ (t + 1) = 2 * (i * 2 ^ t) + 4 * 2 ^ t := by rw [pow_succ]; ring
  have e3 : (2 * i + 1 + 1) * 2 ^ t = 2 * (i * 2 ^ t) + 2 * 2 ^ t := by ring
  have e4 : (2 * i + 1 + 2) * 2 ^ t = 2 * (i * 2 ^ t) + 3 * 2 ^ t := by ring
  have e6 : (2 * i + 2 + 2) * 2 ^ t = 2 * (i * 2 ^ t) + 4 * 2 ^ t := by ring
  rw [e1, e2, e3, e4, e6]
  omega

/-- Below a wholly free node every counter is full. -/
theorem full_below {m : List Nat} : ∀ (t : Nat) {d i x : Nat}, WF m d i → rd m i = 2 ^ d →
    t ≤ d → Level i t x → rd m x = 2 ^ (d - t)
  | 0, d, i, x, _, hf, _, hx => by
    rw [Level_zero.1 hx, hf]; rfl
  | t + 1, d, i, x, h, hf, ht, hx => by
    obtain ⟨d', rfl⟩ : ∃ d', d = d' + 1 := ⟨d - 1, by omega⟩
    obtain ⟨h1, h2⟩ := WF_full_children h hf
    obtain ⟨hl, hr, _⟩ := h
    have e : d' + 1 - (t + 1) = d' - t := by omega
    rw [e]
    rcases Level_succ.1 hx with hx | hx
    · exact full_below t hl h1 (by omega) hx
    · exact full_below t hr h2 (by omega) hx

/-- Every index of the array lies on some level below the root. -/
theorem exists_level {D x : Nat} (hx : x < 2 ^ (D + 1) - 1) : ∃ t, t ≤ D ∧ Level 0 t x := by
  refine ⟨Nat.log2 (x + 1), ?_, ?_, ?_⟩
  · have : Nat.log2 (x + 1) < D + 1 := (Nat.log2_lt (by omega)).2 (by omega)
    omega
  · simpa using Nat.log2_self_le (n := x + 1) (by omega)
  · have := (Nat.log2_lt (n := x + 1) (k := Nat.log2 (x + 1) + 1) (by omega)).1 (by omega)
    rw [pow_succ] at this; omega

/-- Two arrays of counters in which every counter is full are equal. -/
theorem eq_of_full {m m1 : List Nat} {D : Nat} (hl : m.length = 2 ^ (D + 1) - 1)
    (hl1 : m1.length = 2 ^ (D + 1) - 1)
    (hf : ∀ t x, t ≤ D → Level 0 t x → rd m x = 2 ^ (D - t))
    (hf1 : ∀ t x, t ≤ D → Level 0 t x → rd m1 x = 2 ^ (D - t)) : m = m1 := by
  apply List.ext_getElem?
  intro x
  by_cases hx : x < 2 ^ (D + 1) - 1
  · obtain ⟨t, ht, hlv⟩ := exists_level hx
    rw [getElem?_eq_rd (hl ▸ hx), getElem?_eq_rd (hl1 ▸ hx), hf t x ht hlv, hf1 t x ht hlv]
  · rw [List.getElem?_eq_none (by omega), List.getElem?_eq_none (by omega)]

/-- An array in which every counter is full has the shape `WF`. -/
theorem WF_of_full {m : List Nat} {D : Nat}
    (hf : ∀ t x, t ≤ D → Level 0 t x → rd m x = 2 ^ (D - t)) :
    ∀ (d i : Nat), d ≤ D → Level 0 (D - d) i → WF m d i ∧ rd m i = 2 ^ d
  | 0, i, hd, hi => by
    have := hf (D - 0) i (by omega) hi
    have e : D - (D - 0) = 0 := by omega
    rw [e] at this
    exact ⟨by simp [WF, this], this⟩
  | d + 1, i, hd, hi => by
    have hv := hf (D - (d + 1)) i (by omega) hi
    have e : D - (D - (d + 1)) = d + 1 := by omega
    rw [e] at hv
    have e2 : D - d = D - (d + 1) + 1 := by omega
    have hL : Level 0 (D - d) (2 * i + 1) := by
      rw [e2]; unfold Level at hi ⊢; rw [pow_succ]; omega
    have hR : Level 0 (D - d) (2 * i + 2) := by
      rw [e2]; unfold Level at hi ⊢; rw [pow_succ]; omega
    obtain ⟨w1, f1⟩ := WF_of_full hf d (2 * i + 1) (by omega) hL
    obtain ⟨w2, f2⟩ := WF_of_full hf d (2 * i + 2) (by omega) hR
    exact ⟨⟨w1, w2, Or.inl ⟨f1, f2, Or.inl hv⟩⟩, hv⟩

theorem size_succ (i : Nat) :
    Nat.size (i + 1) = Nat.size i + if IS_POWER_OF_2 (i + 1) then 1 else 0 := by
  have hi : i < 2 ^ Nat.size i := Nat.lt_size_self i
  by_cases hp : i + 1 = 2 ^ Nat.size i
  · have : IS_POWER_OF_2 (i + 1) = true := (IS_POWER_OF_2_iff _).2 ⟨_, hp⟩
    rw [this, if_pos rfl]
    apply le_antisymm
    · apply Nat.size_le.2
      rw [pow_succ]; omega
    · apply Nat.lt_size.2; omega
  · have hnp : IS_POWER_OF_2 (i + 1) = false := by
      rcases h : IS_POWER_OF_2 (i + 1) with _ | _
      · rfl
      · exfalso
        obtain ⟨e, he⟩ := (IS_POWER_OF_2_iff _).1 h
        rcases Nat.lt_or_ge e (Nat.size i) with hlt | hge
        · have h1 : e < Nat.size i := hlt
          have h2 : 2 ^ e ≤ i := Nat.lt_size.1 h1
          omega
        · have : 2 ^ Nat.size i ≤ 2 ^ e := Nat.pow_le_pow_right (by decide) hge
          omega
    rw [hnp]
    simp only [Bool.false_eq_true, if_false, add_zero]
    apply le_antisymm
    · apply Nat.size_le.2; omega
    · exact Nat.size_le_size (Nat.le_succ i)

/-- The counters that the loop of `priskv_buddy_create` writes. -/
theorem create_loop_get (N : Nat) : ∀ (cnt i nodes p : Nat), nodes = N / 2 ^ Nat.size i →
    p < cnt → (create_loop cnt i nodes)[p]? = some (N / 2 ^ Nat.size (i + p + 1))
  | 0, _, _, _, _, hp => by omega
  | cnt + 1, i, nodes, p, hn, hp => by
    have hn' : (if IS_POWER_OF_2 (i + 1) then nodes / 2 else nodes) =
        N / 2 ^ Nat.size (i + 1) := by
      rw [size_succ, hn]
      split
      · rw [pow_succ, Nat.div_div_eq_div_mul]
      · rfl
    simp only [create_loop]
    cases p with
    | zero => simp [hn']
    | succ p =>
      simp only [List.getElem?_cons_succ]
      rw [create_loop_get N cnt (i + 1) _ p hn' (by omega)]
      have e : i + 1 + p + 1 = i + (p + 1) + 1 := by omega
      rw [e]

theorem create_loop_length : ∀ (cnt i nodes : Nat), (create_loop cnt i nodes).length = cnt
  | 0, _, _ => rfl
  | cnt + 1, i, nodes => by simp [create_loop, create_loop_length cnt]

theorem create_loop_full (D : Nat) : ∀ t x, t ≤ D → Level 0 t x →
    rd (create_loop (2 ^ D * 2 - 1) 0 (2 ^ D * 2)) x = 2 ^ (D - t) := by
  intro t x ht hx
  unfold Level at hx
  have hpt : 2 ^ (t + 1) ≤ 2 ^ (D + 1) := Nat.pow_le_pow_right (by decide) (by omega)
  rw [pow_succ] at hpt
  have hxl : x < 2 ^ D * 2 - 1 := by rw [pow_succ] at hpt; omega
  have := create_loop_get (2 ^ D * 2) (2 ^ D * 2 - 1) 0 (2 ^ D * 2) x (by simp) hxl
  rw [rd_of_getElem? this]
  have hs : Nat.size (0 + x + 1) = t + 1 := by
    apply le_antisymm
    · apply Nat.size_le.2; rw [pow_succ]; omega
    · apply Nat.lt_size.2; omega
  rw [hs, ← pow_succ, Nat.pow_div (by omega) (by decide)]
  congr 1; omega

/-- A buddy of at most `2 ^ 30` blocks that `priskv_buddy_create` returns has the
right shape and all its counters full. -/
theorem create_valid {base nmemb size : Nat} {b : buddy} (hn : nmemb * 2 < 4294967296)
    (h : priskv_buddy_create base nmemb size = some b) :
    ∃ D, Valid b D ∧ rd b.meta 0 = 2 ^ D ∧ b.inuse = 0 ∧ b.base = base ∧ b.size = size ∧
      b.nmemb = nmemb ∧ base ≠ 0 := by
  unfold priskv_buddy_create at h
  split at h
  · simp at h
  · rename_i hb
    split at h
    · simp at h
    · rename_i hp
      obtain ⟨D, rfl⟩ := (IS_POWER_OF_2_iff nmemb).1 (by simpa using hp)
      have hpos := two_pow_pos D
      have e1 : u32 (2 ^ D * 2) = 2 ^ D * 2 := u32_of_lt hn
      have e2 : u32 (2 ^ D * 2 + 4294967296 - 1) = 2 ^ D * 2 - 1 := by
        unfold u32
        omega
      rw [e1, e2] at h
      simp only [Option.some.injEq] at h
      subst h
      have hD : D ≤ 30 := by
        by_contra hc
        have : 2 ^ 31 ≤ 2 ^ D := Nat.pow_le_pow_right (by decide) (by omega)
        norm_num at this; omega
      obtain ⟨hw, hf⟩ := WF_of_full (create_loop_full D) D 0 le_rfl
        (by unfold Level; simp)
      refine ⟨D, ⟨hD, rfl, ?_, hw⟩, hf, rfl, rfl, rfl, rfl, hb⟩
      simp only [create_loop_length]
      rw [pow_succ]

/-- The loop of `priskv_buddy_create` writes zeros once `nodes` is zero. -/
theorem create_loop_zero : ∀ (n i x : Nat), rd (create_loop n i 0) x = 0
  | 0, _, x => by simp [create_loop, rd]
  | n + 1, i, 0 => by
    simp only [create_loop, Nat.zero_div, ite_self]
    rfl
  | n + 1, i, x + 1 => by
    simp only [create_loop, Nat.zero_div, ite_self]
    exact create_loop_zero n (i + 1) x

/-- A number of blocks that `priskv_buddy_create` accepts is at most `2 ^ 30`,
or it is `2 ^ 31`. -/
theorem create_cases {base nmemb size : Nat} {b : buddy} (hn : nmemb < 4294967296)
    (h : priskv_buddy_create base nmemb size = some b) :
    nmemb * 2 < 4294967296 ∨ nmemb = 2147483648 := by
  unfold priskv_buddy_create at h
  split at h
  · simp at h
  · split at h
    · simp at h
    · rename_i hp
      obtain ⟨D, rfl⟩ := (IS_POWER_OF_2_iff nmemb).1 (by simpa using hp)
      by_cases hD : D ≤ 30
      · left
        have : 2 ^ D ≤ 2 ^ 30 := Nat.pow_le_pow_right (by decide) hD
        norm_num at this
        omega
      · right
        have h31 : D = 31 := by
          by_contra hne
          have : 2 ^ 32 ≤ 2 ^ D := Nat.pow_le_pow_right (by decide) (by omega)
          norm_num at this
          omega
        rw [h31]
        norm_num

/-- The buddy of `2 ^ 31` blocks that `priskv_buddy_create` returns. -/
theorem create_wrapped {base size : Nat} {b : buddy}
    (h : priskv_buddy_create base 2147483648 size = some b) :
    Wrapped b ∧ b.size = size ∧ b.base = base := by
  unfold priskv_buddy_create at h
  split at h
  · simp at h
  · rename_i hb
    have hp : IS_POWER_OF_2 2147483648 = true := by decide
    have e1 : u32 (2147483648 * 2) = 0 := by decide
    have e2 : u32 (0 + 4294967296 - 1) = 4294967295 := by decide
    simp only [hp, Bool.not_true, Bool.false_eq_true, if_false, e1, e2,
      Option.some.injEq] at h
    subst h
    exact ⟨⟨rfl, rfl, hb, rfl⟩, rfl, rfl⟩

/-- Two lists that are cut at the same bound are equal part by part. -/
theorem append_eq_of_sep {c : Nat} : ∀ {l1 l2 r1 r2 : List (Nat × Nat)},
    l1 ++ r1 = l2 ++ r2 → (∀ e ∈ l1, e.1 < c) → (∀ e ∈ l2, e.1 < c) →
    (∀ e ∈ r1, c ≤ e.1) → (∀ e ∈ r2, c ≤ e.1) → l1 = l2 ∧ r1 = r2
  | [], [], _, _, h, _, _, _, _ => ⟨rfl, by simpa using h⟩
  | [], a :: l2, r1, r2, h, _, h2, h3, _ => by
    exfalso
    have ha : a ∈ r1 := by
      simp only [List.nil_append] at h
      rw [h]; simp
    have := h3 a ha
    have := h2 a (List.mem_cons_self _ _)
    omega
  | a :: l1, [], r1, r2, h, h1, _, _, h4 => by
    exfalso
    have ha : a ∈ r2 := by
      simp only [List.nil_append] at h
      rw [← h]; simp
    have := h4 a ha
    have := h1 a (List.mem_cons_self _ _)
    omega
  | a :: l1, a' :: l2, r1, r2, h, h1, h2, h3, h4 => by
    simp only [List.cons_append, List.cons.injEq] at h
    obtain ⟨rfl, h⟩ := h
    obtain ⟨e1, e2⟩ := append_eq_of_sep h (fun e he => h1 e (List.mem_cons_of_mem _ he))
      (fun e he => h2 e (List.mem_cons_of_mem _ he)) h3 h4
    exact ⟨by rw [e1], e2⟩

theorem allocs_left_lt {m : List Nat} {d i o : Nat} {e : Nat × Nat} (h : e ∈ allocs m d i o) :
    e.1 < o + 2 ^ d := by
  obtain ⟨_, h2, j, _, _, hk, _⟩ := allocs_mem h
  have := two_pow_pos j
  omega

/-- The counters of a subtree are determined by the runs handed out below it. -/
theorem WF_unique {m m1 : List Nat} : ∀ {d i : Nat} (o : Nat), WF m d i → WF m1 d i →
    allocs m d i o = allocs m1 d i o → ∀ t x, t ≤ d → Level i t x → rd m x = rd m1 x
  | 0, i, o, h, h1, he, t, x, ht, hx => by
    have ht0 : t = 0 := by omega
    subst ht0
    rw [Level_zero.1 hx]
    simp only [WF] at h h1
    simp only [allocs] at he
    by_cases a : rd m i = 0 <;> by_cases a1 : rd m1 i = 0 <;> simp [a, a1] at he <;> omega
  | d + 1, i, o, h, h1, he, t, x, ht, hx => by
    have hp := two_pow_pos d
    have hfull := allocs_eq_nil_iff o h
    have hfull1 := allocs_eq_nil_iff o h1
    by_cases hf : rd m i = 2 ^ (d + 1)
    · have hf1 : rd m1 i = 2 ^ (d + 1) := hfull1.1 (he ▸ hfull.2 hf)
      rw [full_below t h hf ht hx, full_below t h1 hf1 ht hx]
    · have hf1 : rd m1 i ≠ 2 ^ (d + 1) := fun c => hf (hfull.1 (he.symm ▸ hfull1.2 c))
      -- a node is handed out as a whole exactly when its list is the single whole run
      have whole : ∀ {n : List Nat}, WF n (d + 1) i → rd n i ≠ 2 ^ (d + 1) →
          ((rd n i = 0 ∧ rd n (2 * i + 1) = 2 ^ d ∧ rd n (2 * i + 2) = 2 ^ d) ↔
            (o, 2 ^ (d + 1)) ∈ allocs n (d + 1) i o) := by
        intro n hn hnf
        constructor
        · intro ha
          simp only [allocs]; rw [if_neg hnf, if_pos ha]; simp
        · intro hmem
          by_contra ha
          simp only [allocs] at hmem
          rw [if_neg hnf, if_neg ha, List.mem_append] at hmem
          rcases hmem with hm | hm
          · have := (allocs_mem hm).2.1
            simp only at this
            rw [pow_succ] at this; omega
          · have := (allocs_mem hm).1
            simp only at this
            omega
      have split : ∀ {n : List Nat}, WF n (d + 1) i → rd n i ≠ 2 ^ (d + 1) →
          ¬ (rd n i = 0 ∧ rd n (2 * i + 1) = 2 ^ d ∧ rd n (2 * i + 2) = 2 ^ d) →
          rd n i = max (rd n (2 * i + 1)) (rd n (2 * i + 2)) := by
        intro n hn hnf hna
        obtain ⟨_, _, hloc⟩ := hn
        rcases hloc with ⟨a1, a2, a3 | a3⟩ | ⟨_, a2⟩
        · exact absurd a3 hnf
        · exact absurd ⟨a3, a1, a2⟩ hna
        · exact a2
      by_cases ha : rd m i = 0 ∧ rd m (2 * i + 1) = 2 ^ d ∧ rd m (2 * i + 2) = 2 ^ d
      · have ha1 : rd m1 i = 0 ∧ rd m1 (2 * i + 1) = 2 ^ d ∧ rd m1 (2 * i + 2) = 2 ^ d :=
          (whole h1 hf1).2 (he ▸ (whole h hf).1 ha)
        obtain ⟨hl, hr, _⟩ := h
        obtain ⟨hl1, hr1, _⟩ := h1
        cases t with
        | zero => rw [Level_zero.1 hx, ha.1, ha1.1]
        | succ t =>
          rcases Level_succ.1 hx with hx | hx
          · rw [full_below t hl ha.2.1 (by omega) hx, full_below t hl1 ha1.2.1 (by omega) hx]
          · rw [full_below t hr ha.2.2 (by omega) hx, full_below t hr1 ha1.2.2 (by omega) hx]
      · have ha1 : ¬ (rd m1 i = 0 ∧ rd m1 (2 * i + 1) = 2 ^ d ∧ rd m1 (2 * i + 2) = 2 ^ d) :=
          fun c => ha ((whole h hf).2 (he.symm ▸ (whole h1 hf1).1 c))
        have hv := split h hf ha
        have hv1 := split h1 hf1 ha1
        obtain ⟨hl, hr, _⟩ := h
        obtain ⟨hl1, hr1, _⟩ := h1
        simp only [allocs] at he
        rw [if_neg hf, if_neg ha, if_neg hf1, if_neg ha1] at he
        obtain ⟨el, er⟩ := append_eq_of_sep (c := o + 2 ^ d) he
          (fun e he => allocs_left_lt he) (fun e he => allocs_left_lt he)
          (fun e he => (allocs_mem he).1) (fun e he => (allocs_mem he).1)
        have il := WF_unique o hl hl1 el
        have ir := WF_unique (o + 2 ^ d) hr hr1 er
        cases t with
        | zero =>
          rw [Level_zero.1 hx, hv, hv1, il 0 _ (Nat.zero_le _) (Level_zero.2 rfl),
            ir 0 _ (Nat.zero_le _) (Level_zero.2 rfl)]
        | succ t =>
          rcases Level_succ.1 hx with hx | hx
          · exact il t x (by omega) hx
          · exact ir t x (by omega) hx

/-- Two buddies of the right shape with the same runs handed out have the same
counters. -/
theorem meta_eq_of_allocs {m m1 : List Nat} {D : Nat} (hl : m.length = 2 ^ (D + 1) - 1)
    (hl1 : m1.length = 2 ^ (D + 1) - 1) (h : WF m D 0) (h1 : WF m1 D 0)
    (hp : (allocs m D 0 0).Perm (allocs m1 D 0 0)) : m = m1 := by
  have he : allocs m D 0 0 = allocs m1 D 0 0 := by
    haveI : IsAntisymm (Nat × Nat) (fun e f => e.1 + e.2 ≤ f.1) :=
      ⟨fun a b h1 h2 => by
        apply Prod.ext <;> omega⟩
    exact List.eq_of_perm_of_sorted hp (allocs_sorted D 0 0) (allocs_sorted D 0 0)
  apply List.ext_getElem?
  intro x
  by_cases hx : x < 2 ^ (D + 1) - 1
  · obtain ⟨t, ht, hlv⟩ := exists_level hx
    rw [getElem?_eq_rd (hl ▸ hx), getElem?_eq_rd (hl1 ▸ hx), WF_unique 0 h h1 he t x ht hlv]
  · rw [List.getElem?_eq_none (by omega), List.getElem?_eq_none (by omega)]

/-- A `NULL` result of `priskv_buddy_alloc` leaves the buddy as it was. -/
theorem alloc_null_unchanged {b b1 : buddy} {size : Nat}
    (h : priskv_buddy_alloc b size = some (none, b1)) : b1 = b := by
  unfold priskv_buddy_alloc at h
  split at h
  · simp at h
  · split at h
    · simp at h
    · split at h
      · simp only [Option.some.injEq, Prod.mk.injEq, true_and] at h; exact h.symm
      · split at h
        · simp at h
        · split at h
          · simp at h
          · split at h
            · simp only [Option.some.injEq, Prod.mk.injEq, true_and] at h; exact h.symm
            · split at h <;> simp at h

/-- What a successful `priskv_buddy_alloc` does in a state with the invariant,
with `k` the number of blocks that the rounding yields. -/
theorem alloc_some_k {b b1 : buddy} {D size addr : Nat} (hv : Valid b D)
    (hs : size < 4294967296) (h : priskv_buddy_alloc b size = some (some addr, b1)) :
    ∃ k j, alloc_alignup b.size size = some k ∧ k = 2 ^ j ∧ j ≤ D ∧ b.size ≠ 0 ∧
      k ≤ rd b.meta 0 ∧
      addr = b.base + targetOff b.meta k D 0 0 * b.size ∧
      b1 = { b with meta := allocRec b.meta k D 0, inuse := u32 (b.inuse + k) } := by
  cases ha : alloc_alignup b.size size with
  | none => simp [priskv_buddy_alloc, ha] at h
  | some k =>
    obtain ⟨hbs, ⟨j, hj, hkj⟩, _, _⟩ := alloc_alignup_eq hs ha
    rw [alloc_code hv ha hkj] at h
    split at h
    · simp at h
    · rename_i hge
      simp only [Option.some.injEq, Prod.mk.injEq] at h
      obtain ⟨h1, h2⟩ := h
      have hle := WF_le hv.2.2.2
      have hjD : j ≤ D := by
        rcases Nat.lt_or_ge D j with hc | hc
        · exfalso
          have : 2 ^ D < 2 ^ j := Nat.pow_lt_pow_right (by decide) hc
          omega
        · exact hc
      exact ⟨k, j, rfl, hkj, hjD, hbs, by omega, h1.symm, h2.symm⟩

/-- What a successful `priskv_buddy_alloc` of a request of at most `2 ^ 31`
blocks does in a state with the invariant. -/
theorem alloc_some {b b1 : buddy} {D size addr : Nat} (hv : Valid b D)
    (hs : size < 4294967296) (hq : (size + b.size - 1) / b.size ≤ 2147483648)
    (h : priskv_buddy_alloc b size = some (some addr, b1)) :
    ∃ j, roundup_blocks b.size size = 2 ^ j ∧ j ≤ D ∧ b.size ≠ 0 ∧
      alloc_alignup b.size size = some (roundup_blocks b.size size) ∧
      roundup_blocks b.size size ≤ rd b.meta 0 ∧
      addr = b.base + targetOff b.meta (roundup_blocks b.size size) D 0 0 * b.size ∧
      b1 = { b with meta := allocRec b.meta (roundup_blocks b.size size) D 0,
                    inuse := u32 (b.inuse + roundup_blocks b.size size) } := by
  obtain ⟨k, j, ha, hkj, hjD, hbs, hge, hadr, hb1⟩ := alloc_some_k hv hs h
  have hk := (alloc_alignup_eq hs ha).2.2.1 hq
  rw [← hk]
  exact ⟨j, hkj, hjD, hbs, ha, hge, hadr, hb1⟩

theorem map_snd_to_addr (b : buddy) (l : List (Nat × Nat)) :
    (l.map (to_addr b)).map Prod.snd = l.map Prod.snd := by
  rw [List.map_map]; rfl

theorem remove_perm {a : Nat × Nat} : ∀ {l : List (Nat × Nat)}, a ∈ l →
    l.Perm (a :: remove a l)
  | [], h => by simp at h
  | x :: l, h => by
    simp only [remove]
    by_cases hx : x = a
    · rw [if_pos hx, hx]
    · rw [if_neg hx]
      have hl : a ∈ l := by
        rcases List.mem_cons.1 h with h | h
        · exact absurd h.symm hx
        · exact h
      exact ((remove_perm hl).cons x).trans (List.Perm.swap a x _)

theorem Valid.unique {b : buddy} {D D1 : Nat} (h : Valid b D) (h1 : Valid b D1) : D = D1 :=
  Nat.pow_right_injective (le_refl 2) (h.2.1.symm.trans h1.2.1)

/-- The invariant after a successful allocation. -/
theorem Inv.alloc {b b1 : buddy} {out : List (Nat × Nat)} {size addr k : Nat} (hi : Inv b out)
    (hs : size < 4294967296) (hk0 : alloc_alignup b.size size = some k)
    (h : priskv_buddy_alloc b size = some (some addr, b1)) :
    Inv b1 ((addr, k) :: out) := by
  obtain ⟨D, hv, hp, hu, hz, hb⟩ := hi
  obtain ⟨k1, j, hk1, hk, hjD, hbs, hge, ha, hb1⟩ := alloc_some_k hv hs h
  rw [hk0] at hk1
  simp only [Option.some.injEq] at hk1
  subst hk1
  obtain ⟨w1, _, w3⟩ := allocRec_spec hk 0 hv.2.2.2 hv.fits hjD hge
  have hsum := allocs_sum_le (m := allocRec b.meta k D 0) D 0 0
  have hsum2 := w3.map Prod.snd |>.sum_eq
  simp only [List.map_cons, List.sum_cons] at hsum2
  have hD : 2 ^ D ≤ 2 ^ 30 := Nat.pow_le_pow_right (by decide) hv.1
  norm_num at hD
  subst hb1
  refine ⟨D, ⟨hv.1, hv.2.1, ?_, w1⟩, ?_, ?_, ?_, hb⟩
  · simp only [allocRec_length]; exact hv.2.2.1
  · have := (w3.map (to_addr b)).symm
    simp only [List.map_cons] at this
    refine List.Perm.trans ?_ this
    rw [ha]
    exact List.Perm.cons _ hp
  · have e1 : b.inuse + k =
        ((allocs (allocRec b.meta k D 0) D 0 0).map Prod.snd).sum := by
      rw [hsum2, hu]; omega
    simp only
    rw [e1]
    exact u32_of_lt (by omega)
  · intro h0; exact absurd h0 hbs

/-- What `priskv_buddy_free` of an outstanding address does in a state with the
invariant: it does not fault, and the invariant holds afterwards. -/
theorem Inv.free {b : buddy} {out : List (Nat × Nat)} {addr k : Nat} (hi : Inv b out)
    (hm : (addr, k) ∈ out) :
    ∃ b1, priskv_buddy_free b addr = some b1 ∧ Inv b1 (remove (addr, k) out) ∧
      b1.inuse + k = b.inuse ∧ b1.nmemb = b.nmemb ∧ b1.size = b.size ∧ b1.base = b.base := by
  obtain ⟨D, hv, hp, hu, hz, hb⟩ := hi
  have hbs : b.size ≠ 0 := fun h0 => by rw [hz h0] at hm; simp at hm
  obtain ⟨e, he, hea⟩ := List.mem_map.1 (hp.subset hm)
  simp only [to_addr, Prod.mk.injEq] at hea
  obtain ⟨ha, hk⟩ := hea
  obtain ⟨_, b2, j, _, _, hkj, _⟩ := allocs_mem he
  have hk1 := two_pow_pos j
  simp only [zero_add] at b2
  obtain ⟨m1, q1, q2, q3⟩ := freeRec_spec 0 hv.2.2.2 hv.fits (by have := hv.1; omega) he
  simp only [Nat.sub_zero] at q1
  obtain ⟨hlen, _⟩ := freeRec_frame q1
  have hcode := free_code (o := e.1) hv hbs (by omega)
  rw [q1, ha] at hcode
  simp only at hcode
  have hsum := allocs_sum_le (m := b.meta) D 0 0
  have hsum2 := q3.map Prod.snd |>.sum_eq
  simp only [List.map_cons, List.sum_cons] at hsum2
  have hD : 2 ^ D ≤ 2 ^ 30 := Nat.pow_le_pow_right (by decide) hv.1
  norm_num at hD
  have hin : u32 (b.inuse + 4294967296 - e.2) = ((allocs m1 D 0 0).map Prod.snd).sum := by
    rw [hu, hsum2]; unfold u32; omega
  refine ⟨_, hcode, ⟨D, ⟨hv.1, hv.2.1, ?_, q2⟩, ?_, hin, ?_, hb⟩, ?_, rfl, rfl, rfl⟩
  · simp only [hlen]; exact hv.2.2.1
  · have h1 : out.Perm (to_addr b e :: (allocs m1 D 0 0).map (to_addr b)) :=
      hp.trans (q3.map (to_addr b))
    have e1 : to_addr b e = (addr, k) := by simp [to_addr, ha, hk]
    rw [e1] at h1
    exact ((remove_perm hm).symm.trans h1).cons_inv
  · intro h0; exact absurd h0 hbs
  · simp only; rw [hin, hu, hsum2, hk]; omega

/-- The rounded-up block count of a request is at least one. -/
theorem alloc_alignup_pos {bs size k : Nat} (h : alloc_alignup bs size = some k) : 0 < k := by
  unfold alloc_alignup at h
  split at h
  · simp at h
  · simp only at h
    split at h
    · rename_i hp
      simp only [Option.some.injEq] at h
      obtain ⟨j, hj⟩ := (IS_POWER_OF_2_iff _).1 hp
      rw [← h, hj]
      exact two_pow_pos j
    · obtain ⟨j, _, hj⟩ := roundup_power_of_2_pow h
      rw [hj]
      exact two_pow_pos j

/-- The first counter of the buddy of `2 ^ 31` blocks is zero. -/
theorem Wrapped.root {b : buddy} (hw : Wrapped b) : b.meta[0]? = some 0 := by
  have h : ∀ n i : Nat, (create_loop (n + 1) i 0)[0]? = some 0 := fun n i => by
    simp only [create_loop, Nat.zero_div, ite_self, List.getElem?_cons_zero]
  rw [hw.2.2.2]
  exact h 4294967294 0

/-- On the buddy of `2 ^ 31` blocks every request whose block count is defined
gets `NULL`. -/
theorem Wrapped.alloc_eq {b : buddy} {size k : Nat} (hw : Wrapped b)
    (ha : alloc_alignup b.size size = some k) : priskv_buddy_alloc b size = some (none, b) := by
  unfold priskv_buddy_alloc
  simp only [ha, hw.root, alloc_alignup_pos ha, if_true]

/-- On the buddy of `2 ^ 31` blocks no request gets an address. -/
theorem Wrapped.alloc_fails {b b1 : buddy} {size : Nat} {r : Option Nat} (hw : Wrapped b)
    (h : priskv_buddy_alloc b size = some (r, b1)) : r = none ∧ b1 = b := by
  cases ha : alloc_alignup b.size size with
  | none =>
    unfold priskv_buddy_alloc at h
    simp only [ha] at h
    exact Option.noConfusion h
  | some k =>
    rw [hw.alloc_eq ha] at h
    simp only [Option.some.injEq, Prod.mk.injEq] at h
    exact ⟨h.1.symm, h.2.symm⟩

/-- Every reachable state has the invariant, or it is the buddy of `2 ^ 31`
blocks with nothing outstanding. -/
theorem Reach.inv {b : buddy} {out : List (Nat × Nat)} (h : Reach b out) :
    Inv b out ∨ (Wrapped b ∧ out = []) := by
  induction h with
  | create hs hn hc =>
    rcases create_cases hn hc with h1 | h1
    · left
      obtain ⟨D, hv, hf, hi, hbase, _, _, hb⟩ := create_valid h1 hc
      have hal := allocs_of_full 0 hv.2.2.2 hf
      exact ⟨D, hv, by rw [hal]; exact List.Perm.refl _, by rw [hal, hi]; rfl, fun _ => rfl,
        hbase ▸ hb⟩
    · subst h1
      exact Or.inr ⟨(create_wrapped hc).1, rfl⟩
  | alloc _ hs hk ha ih =>
    rcases ih with ih | ⟨hw, _⟩
    · exact Or.inl (ih.alloc hs hk ha)
    · exact absurd (hw.alloc_fails ha).1 (fun e => Option.noConfusion e)
  | alloc_null _ _ ha ih => rw [alloc_null_unchanged ha]; exact ih
  | free _ hm hf ih =>
    rcases ih with ih | ⟨_, he⟩
    · left
      obtain ⟨b2, h1, h2, _⟩ := ih.free hm
      rw [h1] at hf
      simp only [Option.some.injEq] at hf
      exact hf ▸ h2
    · rw [he] at hm
      exact absurd hm (List.not_mem_nil _)

/-! ## The slab allocator: bits -/

theorem u64_of_lt {x : Nat} (h : x < 18446744073709551616) : u64 x = x := Nat.mod_eq_of_lt h

theorem two_pow_lt_u64 {b : Nat} (hb : b < 64) : 2 ^ b < 18446744073709551616 := by
  have : 2 ^ b < 2 ^ 64 := Nat.pow_lt_pow_right (by decide) hb
  norm_num at this; exact this

theorem testBit_of_lt_u64 {w t : Nat} (hw : w < 18446744073709551616) (ht : 64 ≤ t) :
    w.testBit t = false := by
  apply Nat.testBit_lt_two_pow
  have : 2 ^ 64 ≤ 2 ^ t := Nat.pow_le_pow_right (by decide) ht
  norm_num at this; omega

theorem set_bit_eq {w b : Nat} (hw : w < 18446744073709551616) (hb : b < 64) :
    set_bit w b = w ||| 2 ^ b := by
  unfold set_bit
  rw [Nat.one_shiftLeft, u64_of_lt (two_pow_lt_u64 hb)]
  apply u64_of_lt
  have := @Nat.or_lt_two_pow w (2 ^ b) 64 (by norm_num; exact hw) (by norm_num; exact two_pow_lt_u64 hb)
  norm_num at this; exact this

theorem set_bit_lt {w b : Nat} (hw : w < 18446744073709551616) (hb : b < 64) :
    set_bit w b < 18446744073709551616 := by
  rw [set_bit_eq hw hb]
  have := @Nat.or_lt_two_pow w (2 ^ b) 64 (by norm_num; exact hw) (by norm_num; exact two_pow_lt_u64 hb)
  norm_num at this; exact this

theorem testBit_set_bit {w b : Nat} (hw : w < 18446744073709551616) (hb : b < 64) (t : Nat) :
    (set_bit w b).testBit t = (w.testBit t || decide (t = b)) := by
  rw [set_bit_eq hw hb, Nat.testBit_or, Nat.testBit_two_pow]
  congr 1
  by_cases h : b = t <;> simp [h, eq_comm]

theorem clear_bit_eq {w b : Nat} (hb : b < 64) :
    clear_bit w b = w &&& (2 ^ 64 - (2 ^ b + 1)) := by
  unfold clear_bit
  rw [Nat.one_shiftLeft, u64_of_lt (two_pow_lt_u64 hb)]
  congr 1
  norm_num
  omega

theorem clear_bit_lt {w b : Nat} (hb : b < 64) : clear_bit w b < 18446744073709551616 := by
  rw [clear_bit_eq hb]
  have := @Nat.and_lt_two_pow w (2 ^ 64 - (2 ^ b + 1)) 64 (by
    have := two_pow_pos b; omega)
  norm_num at this ⊢; exact this

theorem testBit_clear_bit {w b : Nat} (hw : w < 18446744073709551616) (hb : b < 64) (t : Nat) :
    (clear_bit w b).testBit t = (w.testBit t && !decide (t = b)) := by
  rw [clear_bit_eq hb, Nat.testBit_and,
    Nat.testBit_two_pow_sub_succ (by norm_num; exact two_pow_lt_u64 hb), Nat.testBit_two_pow]
  by_cases ht : t < 64
  · by_cases h : b = t <;> simp [h, ht, eq_comm]
  · rw [testBit_of_lt_u64 hw (by omega)]; simp

/-- The search for the lowest set bit finds it. -/
theorem ffs_loop_spec : ∀ (fuel x pos : Nat), x ≠ 0 → x < 2 ^ fuel →
    ∃ b, b < fuel ∧ ffs_loop fuel x pos = pos + b + 1 ∧ x.testBit b = true ∧
      ∀ t, t < b → x.testBit t = false
  | 0, x, pos, h0, hlt => by simp at hlt; omega
  | fuel + 1, x, pos, h0, hlt => by
    by_cases h1 : x % 2 = 1
    · refine ⟨0, by omega, by simp [ffs_loop, h1], by simp [h1], fun t ht => by omega⟩
    · obtain ⟨b, hb, he, hbit, hlow⟩ := ffs_loop_spec fuel (x / 2) (pos + 1) (by omega)
        (by rw [pow_succ] at hlt; omega)
      refine ⟨b + 1, by omega, ?_, ?_, ?_⟩
      · simp only [ffs_loop, if_neg h1, he]; omega
      · rw [Nat.testBit_succ]; exact hbit
      · intro t ht
        cases t with
        | zero => simp; omega
        | succ t => rw [Nat.testBit_succ]; exact hlow t (by omega)

theorem builtin_ffsl_spec {w : Nat} (h0 : w ≠ 0) (hw : w < 18446744073709551616) :
    ∃ b, b < 64 ∧ builtin_ffsl w = b + 1 ∧ w.testBit b = true ∧
      ∀ t, t < b → w.testBit t = false := by
  obtain ⟨b, hb, he, h1, h2⟩ := ffs_loop_spec 64 w 0 h0 (by norm_num; exact hw)
  exact ⟨b, hb, by unfold builtin_ffsl; rw [he]; omega, h1, h2⟩

theorem word_eq_zero_iff {w : Nat} : w = 0 ↔ ∀ t, w.testBit t = false := by
  constructor
  · intro h t; rw [h]; exact Nat.zero_testBit t
  · intro h
    by_contra hne
    obtain ⟨i, hi⟩ := Nat.ne_zero_implies_bit_true hne
    rw [h i] at hi; exact Bool.noConfusion hi

/-! ## The slab allocator: slots -/

theorem slot_free_set {s s1 : priskv_slab} {wi w1 : Nat} (hwi : wi < s.bitmap.length)
    (hb : s1.bitmap = s.bitmap.set wi w1) (j : Nat) :
    slot_free s1 j = if j / 64 = wi then w1.testBit (j % 64) else slot_free s j := by
  unfold slot_free
  rw [hb]
  by_cases h : j / 64 = wi
  · rw [if_pos h, h]
    simp [List.getD_eq_getElem?_getD, List.getElem?_set_self hwi]
  · rw [if_neg h]
    simp [List.getD_eq_getElem?_getD, List.getElem?_set_ne (Ne.symm h)]

theorem word_lt {s : priskv_slab} (h : SWF s) (x : Nat) :
    s.bitmap.getD x 0 < 18446744073709551616 := by
  by_cases hx : x < s.bitmap.length
  · rw [List.getD_eq_getElem?_getD, List.getElem?_eq_getElem hx]
    exact h.2.2.2.2.2.1 _ (List.getElem_mem hx)
  · rw [List.getD_eq_getElem?_getD, List.getElem?_eq_none (by omega)]
    decide

theorem slot_lt_length {s : priskv_slab} (h : SWF s) {i : Nat} (hi : i < s.objects) :
    i / 64 < s.bitmap.length := by
  rw [h.2.2.2.2.1]; omega

theorem getElem?_word {s : priskv_slab} {x : Nat} (hx : x < s.bitmap.length) :
    s.bitmap[x]? = some (s.bitmap.getD x 0) := by
  simp [List.getD_eq_getElem?_getD, List.getElem?_eq_getElem hx]

/-- After slot `i` is taken, it is not free and every other slot is as before. -/
theorem slot_free_take {s : priskv_slab} (h : SWF s) {i : Nat} (hi : i < s.objects) (j : Nat) :
    slot_free (take_slot s i) j = (slot_free s j && !decide (j = i)) := by
  rw [slot_free_set (slot_lt_length h hi) (rfl : (take_slot s i).bitmap = _)]
  by_cases hw : j / 64 = i / 64
  · rw [if_pos hw, testBit_clear_bit (word_lt h _) (Nat.mod_lt _ (by decide))]
    have hd : decide (j % 64 = i % 64) = decide (j = i) :=
      decide_eq_decide.2 ⟨fun e => by omega, fun e => by omega⟩
    unfold slot_free
    rw [hw, hd]
  · rw [if_neg hw]
    have : j ≠ i := fun e => hw (by rw [e])
    simp [this]

/-- After slot `i` is given back, it is free and every other slot is as before. -/
theorem slot_free_give {s : priskv_slab} (h : SWF s) {i : Nat} (hi : i < s.objects) (j : Nat) :
    slot_free (give_slot s i) j = (slot_free s j || decide (j = i)) := by
  rw [slot_free_set (slot_lt_length h hi) (rfl : (give_slot s i).bitmap = _)]
  by_cases hw : j / 64 = i / 64
  · rw [if_pos hw, testBit_set_bit (word_lt h _) (Nat.mod_lt _ (by decide))]
    have hd : decide (j % 64 = i % 64) = decide (j = i) :=
      decide_eq_decide.2 ⟨fun e => by omega, fun e => by omega⟩
    unfold slot_free
    rw [hw, hd]
  · rw [if_neg hw]
    have : j ≠ i := fun e => hw (by rw [e])
    simp [this]

theorem mem_set_lt {bm : List Nat} {wi w1 : Nat} (hb : ∀ w ∈ bm, w < 18446744073709551616)
    (h1 : w1 < 18446744073709551616) : ∀ w ∈ bm.set wi w1, w < 18446744073709551616 := by
  intro w hw
  rcases List.mem_or_eq_of_mem_set hw with h | h
  · exact hb w h
  · rw [h]; exact h1

/-- Taking a free slot keeps the shape of the state. -/
theorem SWF_take {s : priskv_slab} (h : SWF s) {i : Nat} (hi : i < s.objects) (l : Nat)
    (hl : l < s.bitmap.length) : SWF { take_slot s i with lindex := l } := by
  have hf := slot_free_take h hi
  obtain ⟨h1, h2, h3, h4, h5, h6, h7, h8⟩ := h
  refine ⟨h1, h2, h3, h4, ?_, ?_, ?_, ?_⟩
  · simp [take_slot, h5]
  · exact mem_set_lt h6 (clear_bit_lt (Nat.mod_lt _ (by decide)))
  · simp [take_slot]; exact hl
  · intro j hj
    have e : slot_free { take_slot s i with lindex := l } j = slot_free (take_slot s i) j := rfl
    rw [e, hf] at hj
    simp only [Bool.and_eq_true] at hj
    exact h8 j hj.1

/-- Giving a slot back keeps the shape of the state. -/
theorem SWF_give {s : priskv_slab} (h : SWF s) {i : Nat} (hi : i < s.objects) :
    SWF (give_slot s i) := by
  have hf := slot_free_give h hi
  have hw := word_lt h (i / 64)
  obtain ⟨h1, h2, h3, h4, h5, h6, h7, h8⟩ := h
  refine ⟨h1, h2, h3, h4, ?_, ?_, ?_, ?_⟩
  · simp [give_slot, h5]
  · exact mem_set_lt h6 (set_bit_lt hw (Nat.mod_lt _ (by decide)))
  · simp [give_slot]; exact h7
  · intro j hj
    rw [hf] at hj
    simp only [Bool.or_eq_true, decide_eq_true_eq] at hj
    rcases hj with hj | hj
    · exact h8 j hj
    · rw [hj]; exact hi

theorem taken_take {s : priskv_slab} (h : SWF s) {i : Nat} (hi : i < s.objects)
    (hfree : slot_free s i = true) (l : Nat) :
    taken { take_slot s i with lindex := l } = insert i (taken s) ∧ i ∉ taken s := by
  have hf := slot_free_take h hi
  constructor
  · ext j
    have e : slot_free { take_slot s i with lindex := l } j = slot_free (take_slot s i) j := rfl
    simp only [taken, Finset.mem_filter, Finset.mem_range, Finset.mem_insert, e, hf]
    have eo : (take_slot s i).objects = s.objects := rfl
    by_cases hji : j = i
    · subst hji; simp [hi, eo]
    · simp [hji, eo]
  · simp [taken, hfree]

theorem taken_give {s : priskv_slab} (h : SWF s) {i : Nat} (hi : i ∈ taken s) :
    taken (give_slot s i) = (taken s).erase i := by
  have hio : i < s.objects := by
    simp only [taken, Finset.mem_filter, Finset.mem_range] at hi; exact hi.1
  have hf := slot_free_give h hio
  ext j
  simp only [taken, Finset.mem_filter, Finset.mem_range, Finset.mem_erase, hf]
  have eo : (give_slot s i).objects = s.objects := rfl
  by_cases hji : j = i
  · subst hji; simp
  · simp [hji, eo]

theorem taken_card_le (s : priskv_slab) : (taken s).card ≤ s.objects := by
  have := Finset.card_filter_le (Finset.range s.objects) (fun i => slot_free s i = false)
  simpa [taken] using this

/-! ## The slab allocator: what the functions do -/

theorem slot_free_word (s : priskv_slab) (x t : Nat) (ht : t < 64) :
    slot_free s (64 * x + t) = (s.bitmap.getD x 0).testBit t := by
  unfold slot_free
  have e1 : (64 * x + t) / 64 = x := by omega
  have e2 : (64 * x + t) % 64 = t := by omega
  rw [e1, e2]

theorem slot_free_of_word_zero {s : priskv_slab} {j : Nat} (h : s.bitmap.getD (j / 64) 0 = 0) :
    slot_free s j = false := by
  unfold slot_free; rw [h]; exact Nat.zero_testBit _

theorem take_slot_word (s : priskv_slab) (x b : Nat) (hb : b < 64) :
    take_slot s (64 * x + b) =
      { s with bitmap := s.bitmap.set x (clear_bit (s.bitmap.getD x 0) b),
               inuse := s.inuse + 1 } := by
  unfold take_slot
  have e1 : (64 * x + b) / 64 = x := by omega
  have e2 : (64 * x + b) % 64 = b := by omega
  rw [e1, e2]

/-- What `__slab_alloc` does on a word that is not zero: it takes the lowest free
slot of the word. -/
theorem slab_alloc_word {s : priskv_slab} (h : SWF s) (hin : s.inuse ≤ s.objects) {x : Nat}
    (hx : x < s.bitmap.length) (h0 : s.bitmap.getD x 0 ≠ 0) :
    ∃ b, b < 64 ∧ slot_free s (64 * x + b) = true ∧
      (∀ t, t < b → slot_free s (64 * x + t) = false) ∧
      __slab_alloc s x = some (s.base + (64 * x + b) * s.size, take_slot s (64 * x + b)) := by
  obtain ⟨b, hb, he, hbit, hlow⟩ := builtin_ffsl_spec h0 (word_lt h x)
  have hfree : slot_free s (64 * x + b) = true := by rw [slot_free_word s x b hb]; exact hbit
  have hobj := h.2.2.2.2.2.2.2 _ hfree
  have h4 := h.2.2.2.1
  refine ⟨b, hb, hfree, fun t ht => by rw [slot_free_word s x t (by omega)]; exact hlow t ht, ?_⟩
  unfold __slab_alloc
  rw [getElem?_word hx]
  simp only [he, BITS_OF_UL]
  have hf : u32 (b + 1 + 4294967296 - 1) = b := by unfold u32; omega
  have hu : u64 (x * 64 + b) = 64 * x + b := by unfold u64; omega
  rw [hf, hu, if_neg (by omega), if_neg (by omega), take_slot_word s x b hb,
    u32_of_lt (by omega)]

/-- What a scanning loop of `priskv_slab_alloc` does: it takes the lowest free
slot of the first word that is not zero, or finds all words zero. -/
theorem slab_scan_spec {s : priskv_slab} (h : SWF s) (hin : s.inuse ≤ s.objects) {bound : Nat}
    (hb : bound ≤ s.bitmap.length) : ∀ (fuel index : Nat), bound ≤ index + fuel →
    ((∀ y, index ≤ y → y < bound → s.bitmap.getD y 0 = 0) ∧
      slab_scan s bound fuel index = some none) ∨
    ∃ x b, index ≤ x ∧ x < bound ∧ b < 64 ∧
      (∀ y, index ≤ y → y < x → s.bitmap.getD y 0 = 0) ∧
      slot_free s (64 * x + b) = true ∧ (∀ t, t < b → slot_free s (64 * x + t) = false) ∧
      slab_scan s bound fuel index =
        some (some (s.base + (64 * x + b) * s.size, x, take_slot s (64 * x + b)))
  | 0, index, hf => by
    left
    refine ⟨fun y h1 h2 => by omega, ?_⟩
    simp only [slab_scan]; rw [if_neg (by omega)]
  | fuel + 1, index, hf => by
    by_cases hi : index < bound
    · simp only [slab_scan, hi, not_true_eq_false, if_false, getElem?_word (lt_of_lt_of_le hi hb)]
      by_cases h0 : s.bitmap.getD index 0 = 0
      · rw [if_pos h0]
        rcases slab_scan_spec h hin hb fuel (index + 1) (by omega) with ⟨hz, he⟩ | ⟨x, b, h1, h2, h3, h4, h5, h6, h7⟩
        · left
          refine ⟨fun y hy1 hy2 => ?_, he⟩
          rcases Nat.eq_or_lt_of_le hy1 with e | e
          · rw [← e]; exact h0
          · exact hz y (by omega) hy2
        · right
          refine ⟨x, b, by omega, h2, h3, fun y hy1 hy2 => ?_, h5, h6, h7⟩
          rcases Nat.eq_or_lt_of_le hy1 with e | e
          · rw [← e]; exact h0
          · exact h4 y (by omega) hy2
      · rw [if_neg h0]
        obtain ⟨b, hb1, hb2, hb3, hb4⟩ := slab_alloc_word h hin (lt_of_lt_of_le hi hb) h0
        right
        refine ⟨index, b, le_rfl, hi, hb1, fun y hy1 hy2 => by omega, hb2, hb3, ?_⟩
        rw [hb4]
    · left
      refine ⟨fun y h1 h2 => by omega, ?_⟩
      simp only [slab_scan, hi, not_false_eq_true, if_true]

theorem slab_words (s : priskv_slab) (h : SWF s) :
    u32 (ALIGN_UP s.objects BITS_OF_UL) / BITS_OF_UL = s.bitmap.length := by
  have h4 := h.2.2.2.1
  unfold ALIGN_UP BITS_OF_UL
  have e : (s.objects + 64 - 1) / 64 * 64 < 4294967296 := by omega
  rw [u32_of_lt e, Nat.mul_div_cancel _ (by decide), h.2.2.2.2.1]
  congr 1

/-- What `priskv_slab_alloc` does: `NULL` and no change when no slot is free, else
it takes the first free slot in the cyclic order that starts with the word
`lindex`, and moves `lindex` to the word of that slot. It never faults. -/
theorem slab_alloc_spec {s : priskv_slab} (h : SWF s) (hin : s.inuse ≤ s.objects) :
    ((∀ j, slot_free s j = false) ∧ priskv_slab_alloc s = some (none, s)) ∨
    ∃ i, slot_free s i = true ∧
      ((64 * s.lindex ≤ i ∧ ∀ j, 64 * s.lindex ≤ j → j < i → slot_free s j = false) ∨
       (i < 64 * s.lindex ∧ (∀ j, 64 * s.lindex ≤ j → slot_free s j = false) ∧
         ∀ j, j < i → slot_free s j = false)) ∧
      priskv_slab_alloc s =
        some (some (s.base + i * s.size), { take_slot s i with lindex := i / 64 }) := by
  have hl := h.2.2.2.2.2.2.1
  have hout : ∀ y, s.bitmap.length ≤ y → s.bitmap.getD y 0 = 0 := fun y hy => by
    rw [List.getD_eq_getElem?_getD, List.getElem?_eq_none hy]; rfl
  unfold priskv_slab_alloc
  simp only [slab_words s h]
  rcases slab_scan_spec h hin (le_refl s.bitmap.length) s.bitmap.length s.lindex (by omega) with
    ⟨hz, he⟩ | ⟨x, b, h1, h2, h3, h4, h5, h6, h7⟩
  · have hz' : ∀ j, 64 * s.lindex ≤ j → slot_free s j = false := fun j hj => by
      apply slot_free_of_word_zero
      by_cases hjl : j / 64 < s.bitmap.length
      · exact hz _ (by omega) hjl
      · exact hout _ (by omega)
    rw [he]
    rcases slab_scan_spec h hin (le_of_lt hl) s.lindex 0 (by omega) with
      ⟨hz2, he2⟩ | ⟨x, b, h1, h2, h3, h4, h5, h6, h7⟩
    · left
      rw [he2]
      refine ⟨fun j => ?_, rfl⟩
      by_cases hj : 64 * s.lindex ≤ j
      · exact hz' j hj
      · exact slot_free_of_word_zero (hz2 _ (Nat.zero_le _) (by omega))
    · right
      rw [h7]
      refine ⟨64 * x + b, h5, Or.inr ⟨by omega, hz', fun j hj => ?_⟩, ?_⟩
      · by_cases hjx : j / 64 < x
        · exact slot_free_of_word_zero (h4 _ (Nat.zero_le _) hjx)
        · have e : j = 64 * x + j % 64 := by omega
          rw [e]; exact h6 _ (by omega)
      · have e : (64 * x + b) / 64 = x := by omega
        simp only [e]
  · right
    rw [h7]
    refine ⟨64 * x + b, h5, Or.inl ⟨by omega, fun j hj1 hj2 => ?_⟩, ?_⟩
    · by_cases hjx : j / 64 < x
      · exact slot_free_of_word_zero (h4 _ (by omega) hjx)
      · have e : j = 64 * x + j % 64 := by omega
        rw [e]; exact h6 _ (by omega)
    · have e : (64 * x + b) / 64 = x := by omega
      simp only [e]

theorem int32_of_small {i : Nat} (hi : i < 2147483648) : int32_of (i : Int) = (i : Int) := by
  unfold int32_of; omega

theorem int32_of_large {i : Nat} (h1 : 2147483648 ≤ i) (h2 : i < 4294967296) :
    int32_of (i : Int) = (i : Int) - 4294967296 := by
  unfold int32_of; omega

/-- The index that `__priskv_slab_index` computes for the address of slot `i`. -/
theorem slab_index_slot {s : priskv_slab} (hs : s.size ≠ 0) {i : Nat} (hi : i < s.objects) :
    __priskv_slab_index s (s.base + i * s.size) = some (int32_of (i : Int)) := by
  unfold __priskv_slab_index
  have hd : ((s.base + i * s.size : Nat) : Int) - (s.base : Int) = (i : Int) * (s.size : Int) := by
    push_cast; ring
  have hsz : (s.size : Int) ≠ 0 := by exact_mod_cast hs
  rw [if_neg hs, hd, Int.mul_tmod_left, Int.mul_tdiv_cancel _ hsz]
  simp only [ne_eq, not_true_eq_false, if_false]
  rw [if_neg (by simp; exact hi)]

/-- What `priskv_slab_free` does for the address of a slot that is taken and whose
number fits an `int`. -/
theorem slab_free_spec {s : priskv_slab} (h : SWF s) (hin : s.inuse = (taken s).card) {i : Nat}
    (hi : i ∈ taken s) (h31 : i < 2147483648) :
    priskv_slab_free s (s.base + i * s.size) = slab_result.ok (give_slot s i) := by
  have hio : i < s.objects := by
    simp only [taken, Finset.mem_filter, Finset.mem_range] at hi; exact hi.1
  have hpos : 0 < (taken s).card := Finset.card_pos.2 ⟨i, hi⟩
  have hle := taken_card_le s
  have h4 := h.2.2.2.1
  unfold priskv_slab_free
  rw [slab_index_slot h.1 hio, int32_of_small h31]
  simp only [Int.toNat_ofNat, BITS_OF_UL]
  rw [if_neg (by omega), getElem?_word (slot_lt_length h hio)]
  have hu : u32 (s.inuse + 4294967296 - 1) = s.inuse - 1 := by unfold u32; omega
  simp only [hu]
  rw [if_neg (by simp only [not_not]; omega)]
  rfl

/-- What `priskv_slab_reserve` does for a slot below `objects`. -/
theorem slab_reserve_spec {s : priskv_slab} (h : SWF s) (hin : s.inuse ≤ s.objects) {i : Nat}
    (hi : i < s.objects) :
    priskv_slab_reserve s (i : Int) = some (s.base + i * s.size, take_slot s i) := by
  have h4 := h.2.2.2.1
  unfold priskv_slab_reserve
  rw [if_neg (by omega)]
  simp only [Int.toNat_ofNat, BITS_OF_UL]
  rw [if_neg (by simp only [not_not]; exact hi), getElem?_word (slot_lt_length h hi),
    u32_of_lt (by omega)]
  rfl

/-! ## The slab allocator: creation and the invariant -/

theorem bit_at_set {bm : List Nat} {wi w1 : Nat} (hwi : wi < bm.length) (j : Nat) :
    bit_at (bm.set wi w1) j = if j / 64 = wi then w1.testBit (j % 64) else bit_at bm j := by
  unfold bit_at
  by_cases h : j / 64 = wi
  · rw [if_pos h, h]
    simp [List.getD_eq_getElem?_getD, List.getElem?_set_self hwi]
  · rw [if_neg h]
    simp [List.getD_eq_getElem?_getD, List.getElem?_set_ne (Ne.symm h)]

/-- The loop of `priskv_slab_create` sets the bits of the slots it runs through;
it runs only if the last of them has a word in the bitmap. -/
theorem slab_create_loop_spec : ∀ (n index : Nat) (bm bm1 : List Nat),
    (∀ w ∈ bm, w < 18446744073709551616) → slab_create_loop n index bm = some bm1 →
    bm1.length = bm.length ∧ (∀ w ∈ bm1, w < 18446744073709551616) ∧
    (0 < n → (index + n - 1) / 64 < bm.length) ∧
    ∀ j, bit_at bm1 j = (bit_at bm j || decide (index ≤ j ∧ j < index + n))
  | 0, index, bm, bm1, hb, h => by
    simp only [slab_create_loop, Option.some.injEq] at h
    subst h
    refine ⟨rfl, hb, fun h0 => by omega, fun j => ?_⟩
    have : ¬ (index ≤ j ∧ j < index + 0) := by omega
    simp [this]
  | n + 1, index, bm, bm1, hb, h => by
    simp only [slab_create_loop, BITS_OF_UL] at h
    cases hw : bm[index / 64]? with
    | none => rw [hw] at h; simp at h
    | some w =>
      rw [hw] at h
      simp only at h
      have hlen : index / 64 < bm.length := by
        by_contra hc
        rw [List.getElem?_eq_none (by omega)] at hw
        exact Option.noConfusion hw
      have hwlt : w < 18446744073709551616 := by
        rw [List.getElem?_eq_getElem hlen] at hw
        simp only [Option.some.injEq] at hw
        rw [← hw]; exact hb _ (List.getElem_mem hlen)
      have hset := set_bit_lt hwlt (Nat.mod_lt index (by decide : 0 < 64))
      obtain ⟨h1, h2, h3, h4⟩ := slab_create_loop_spec n (index + 1) _ bm1 (mem_set_lt hb hset) h
      rw [List.length_set] at h1 h3
      refine ⟨h1, h2, fun _ => ?_, fun j => ?_⟩
      · rcases Nat.eq_zero_or_pos n with h0 | h0
        · subst h0; exact hlen
        · have := h3 h0
          have e : index + (n + 1) - 1 = index + 1 + n - 1 := by omega
          rw [e]; exact this
      · rw [h4, bit_at_set hlen]
        have hgw : bm.getD (index / 64) 0 = w := by
          simp [List.getD_eq_getElem?_getD, hw]
        by_cases hj : j / 64 = index / 64
        · rw [if_pos hj, testBit_set_bit hwlt (Nat.mod_lt _ (by decide))]
          have e1 : bit_at bm j = w.testBit (j % 64) := by
            unfold bit_at; rw [hj, hgw]
          rw [e1]
          by_cases hji : j = index
          · subst hji; simp
          · have : ¬ j % 64 = index % 64 := fun e => hji (by omega)
            simp only [this, decide_False, Bool.or_false]
            congr 1
            exact decide_eq_decide.2 ⟨fun e => by omega, fun e => by omega⟩
        · rw [if_neg hj]
          have hji : j ≠ index := fun e => hj (by rw [e])
          congr 1
          exact decide_eq_decide.2 ⟨fun e => by omega, fun e => by omega⟩

theorem slab_create_loop_some : ∀ (n index : Nat) (bm : List Nat), index + n ≤ 64 * bm.length →
    ∃ bm1, slab_create_loop n index bm = some bm1
  | 0, index, bm, _ => ⟨bm, rfl⟩
  | n + 1, index, bm, h => by
    have hlen : index / 64 < bm.length := by omega
    simp only [slab_create_loop, BITS_OF_UL,
      List.getElem?_eq_getElem hlen]
    exact slab_create_loop_some n (index + 1) _ (by rw [List.length_set]; omega)

theorem bit_at_replicate (n j : Nat) : bit_at (List.replicate n 0) j = false := by
  unfold bit_at
  have : (List.replicate n 0).getD (j / 64) 0 = 0 := by
    rw [List.getD_eq_getElem?_getD]
    by_cases h : j / 64 < n
    · simp [List.getElem?_replicate, h]
    · simp [List.getElem?_replicate, h]
  rw [this]; exact Nat.zero_testBit _

/-- A slab that `priskv_slab_create` returns is the fresh state: every slot below
`objects` is free and nothing is in use. -/
theorem slab_create_spec {base size objects : Nat} {s : priskv_slab}
    (h : priskv_slab_create base size objects = some s) : Fresh base size objects 0 s := by
  unfold priskv_slab_create at h
  split at h
  · simp at h
  · rename_i hb
    split at h
    · simp at h
    · rename_i hs
      split at h
      · simp at h
      · rename_i ho
        simp only at h
        cases hl : slab_create_loop objects 0
            (List.replicate (u32 (ALIGN_UP objects BITS_OF_UL) / 8 / 8) 0) with
        | none => rw [hl] at h; simp at h
        | some bm =>
          rw [hl] at h
          simp only [Option.some.injEq] at h
          subst h
          obtain ⟨h1, h2, h3, h4⟩ := slab_create_loop_spec objects 0 _ bm
            (fun w hw => by rw [List.eq_of_mem_replicate hw]; decide) hl
          rw [List.length_replicate] at h1 h3
          have h3' := h3 (by omega)
          -- the rounded size did not wrap
          have hA : ALIGN_UP objects BITS_OF_UL = (objects + 63) / 64 * 64 := by
            unfold ALIGN_UP BITS_OF_UL; rfl
          have hnw : objects + 63 < 4294967296 := by
            by_contra hc
            rw [hA] at h3'
            unfold u32 at h3'
            omega
          have hbits : u32 (ALIGN_UP objects BITS_OF_UL) / 8 / 8 = (objects + 63) / 64 := by
            rw [hA, u32_of_lt (by omega)]; omega
          rw [hbits] at h1
          have hfree : ∀ i, slot_free (priskv_slab.mk size 0 objects base 0 bm) i =
              decide (i < objects) := by
            intro i
            have e : slot_free (priskv_slab.mk size 0 objects base 0 bm) i = bit_at bm i := rfl
            rw [e, h4, bit_at_replicate]
            simp
          refine ⟨⟨hs, hb, Nat.pos_of_ne_zero ho, hnw, h1, h2, ?_, fun i hi => ?_⟩, rfl,
            fun i => ?_, by simp,
            rfl, rfl, rfl⟩
          · show 0 < bm.length
            rw [h1]; omega
          · rw [hfree] at hi; simpa using hi
          · rw [hfree]; simp

theorem slab_create_some {base size objects : Nat} (hb : base ≠ 0) (hs : size ≠ 0)
    (ho : 0 < objects) (hlt : objects + 63 < 4294967296) :
    ∃ s, priskv_slab_create base size objects = some s := by
  unfold priskv_slab_create
  rw [if_neg hb, if_neg hs, if_neg (by omega)]
  have hA : ALIGN_UP objects BITS_OF_UL = (objects + 63) / 64 * 64 := by
    unfold ALIGN_UP BITS_OF_UL; rfl
  have hbits : u32 (ALIGN_UP objects BITS_OF_UL) / 8 / 8 = (objects + 63) / 64 := by
    rw [hA, u32_of_lt (by omega)]; omega
  simp only [hbits]
  obtain ⟨bm, hbm⟩ := slab_create_loop_some objects 0 (List.replicate ((objects + 63) / 64) 0)
    (by rw [List.length_replicate]; omega)
  rw [hbm]
  exact ⟨_, rfl⟩

theorem Fresh.taken_eq {base size objects j : Nat} {s : priskv_slab}
    (h : Fresh base size objects j s) (hj : j ≤ objects) : taken s = Finset.range j := by
  obtain ⟨_, _, hf, _, _, _, ho⟩ := h
  ext i
  simp only [taken, Finset.mem_filter, Finset.mem_range, ho]
  have := hf i
  constructor
  · rintro ⟨h1, h2⟩
    by_contra hc
    have : slot_free s i = true := (hf i).2 ⟨by omega, h1⟩
    rw [h2] at this; exact Bool.noConfusion this
  · intro hi
    refine ⟨by omega, ?_⟩
    cases hsf : slot_free s i with
    | false => rfl
    | true => have := (hf i).1 hsf; omega

/-- From the fresh state after `j` allocations the next allocation returns slot
`j`. -/
theorem Fresh.step {base size objects j : Nat} {s : priskv_slab}
    (h : Fresh base size objects j s) (hj : j < objects) :
    ∃ s1, priskv_slab_alloc s = some (some (base + j * size), s1) ∧
      Fresh base size objects (j + 1) s1 := by
  obtain ⟨hw, hin, hf, hl, hb, hs, ho⟩ := h
  have hjf : slot_free s j = true := (hf j).2 ⟨le_rfl, hj⟩
  rcases slab_alloc_spec hw (by omega) with ⟨hz, _⟩ | ⟨i, hi, hfirst, he⟩
  · rw [hz j] at hjf; exact Bool.noConfusion hjf
  · have hij := (hf i).1 hi
    have hieq : i = j := by
      rcases hfirst with ⟨_, hlow⟩ | ⟨_, hhigh, _⟩
      · by_contra hne
        have := hlow j hl (by omega)
        rw [this] at hjf; exact Bool.noConfusion hjf
      · have := hhigh j hl
        rw [this] at hjf; exact Bool.noConfusion hjf
    subst hieq
    have hio : i < s.objects := by omega
    refine ⟨_, by rw [he, hb, hs], SWF_take hw hio _ (slot_lt_length hw hio), ?_, fun x => ?_, ?_,
      hb, hs, ho⟩
    · show s.inuse + 1 = i + 1
      omega
    · have e : slot_free { take_slot s i with lindex := i / 64 } x = slot_free (take_slot s i) x :=
        rfl
      rw [e, slot_free_take hw hio]
      simp only [Bool.and_eq_true, Bool.not_eq_true', decide_eq_false_iff_not]
      rw [hf x]
      omega
    · show 64 * (i / 64) ≤ i + 1
      omega

/-! ## The slab allocator: the invariant of the reachable states -/

theorem addr_inj {base size i j : Nat} (hs : size ≠ 0) (h : base + i * size = base + j * size) :
    i = j := by
  have : i * size = j * size := by omega
  exact Nat.eq_of_mul_eq_mul_right (Nat.pos_of_ne_zero hs) this

theorem mem_remove_addr {a x : Nat} : ∀ {l : List Nat}, l.Nodup →
    (x ∈ remove_addr a l ↔ x ∈ l ∧ x ≠ a)
  | [], _ => by simp [remove_addr]
  | y :: l, h => by
    rw [List.nodup_cons] at h
    simp only [remove_addr]
    by_cases hy : y = a
    · rw [if_pos hy]
      subst hy
      constructor
      · intro hx
        exact ⟨List.mem_cons_of_mem _ hx, fun e => h.1 (e ▸ hx)⟩
      · rintro ⟨hx, hne⟩
        rcases List.mem_cons.1 hx with e | e
        · exact absurd e hne
        · exact e
    · rw [if_neg hy, List.mem_cons, mem_remove_addr h.2, List.mem_cons]
      constructor
      · rintro (e | ⟨e1, e2⟩)
        · exact ⟨Or.inl e, e ▸ hy⟩
        · exact ⟨Or.inr e1, e2⟩
      · rintro ⟨e | e, hne⟩
        · exact Or.inl e
        · exact Or.inr ⟨e, hne⟩

theorem nodup_remove_addr {a : Nat} : ∀ {l : List Nat}, l.Nodup → (remove_addr a l).Nodup
  | [], _ => by simp [remove_addr]
  | y :: l, h => by
    have h' := List.nodup_cons.1 h
    simp only [remove_addr]
    by_cases hy : y = a
    · rw [if_pos hy]; exact h'.2
    · rw [if_neg hy, List.nodup_cons]
      exact ⟨fun hm => h'.1 ((mem_remove_addr h'.2).1 hm).1, nodup_remove_addr h'.2⟩

theorem SInv.inuse_le {s : priskv_slab} {out : List Nat} (h : SInv s out) :
    s.inuse ≤ s.objects := by
  rw [h.2.1]; exact taken_card_le s

/-- The invariant after a free slot is taken. -/
theorem SInv.slab_take {s : priskv_slab} {out : List Nat} (h : SInv s out) {i : Nat}
    (hi : i < s.objects) (hf : slot_free s i = true) {l : Nat} (hl : l < s.bitmap.length) :
    SInv { take_slot s i with lindex := l } ((s.base + i * s.size) :: out) ∧
      s.base + i * s.size ∉ out := by
  obtain ⟨hw, hin, hnd, hmem⟩ := h
  obtain ⟨ht, hnt⟩ := taken_take hw hi hf l
  have hnot : s.base + i * s.size ∉ out := fun hm => by
    obtain ⟨j, hj, he⟩ := (hmem _).1 hm
    rw [addr_inj hw.1 he] at hnt
    exact hnt hj
  refine ⟨⟨SWF_take hw hi l hl, ?_, List.nodup_cons.2 ⟨hnot, hnd⟩, fun a => ?_⟩, hnot⟩
  · rw [ht, Finset.card_insert_of_not_mem hnt, ← hin]; rfl
  · rw [ht, List.mem_cons, hmem]
    show _ ↔ ∃ j, j ∈ insert i (taken s) ∧ a = s.base + j * s.size
    constructor
    · rintro (e | ⟨j, hj, e⟩)
      · exact ⟨i, Finset.mem_insert_self _ _, e⟩
      · exact ⟨j, Finset.mem_insert_of_mem hj, e⟩
    · rintro ⟨j, hj, e⟩
      rcases Finset.mem_insert.1 hj with e1 | e1
      · left; rw [e, e1]
      · right; exact ⟨j, e1, e⟩

/-- What a successful `priskv_slab_alloc` does in a state with the invariant. -/
theorem SInv.slab_alloc {s s1 : priskv_slab} {out : List Nat} {addr : Nat} (h : SInv s out)
    (ha : priskv_slab_alloc s = some (some addr, s1)) :
    ∃ i, i < s.objects ∧ slot_free s i = true ∧ addr = s.base + i * s.size ∧
      s1 = { take_slot s i with lindex := i / 64 } ∧ addr ∉ out ∧ SInv s1 (addr :: out) := by
  rcases slab_alloc_spec h.1 h.inuse_le with ⟨_, he⟩ | ⟨i, hi, _, he⟩
  · rw [he] at ha; simp at ha
  · rw [he] at ha
    simp only [Option.some.injEq, Prod.mk.injEq] at ha
    obtain ⟨ha1, ha2⟩ := ha
    have hio := h.1.2.2.2.2.2.2.2 i hi
    obtain ⟨h1, h2⟩ := h.slab_take hio hi (slot_lt_length h.1 hio)
    exact ⟨i, hio, hi, ha1.symm, ha2.symm, ha1 ▸ h2, ha1 ▸ ha2 ▸ h1⟩

/-- An allocation that returns `NULL` leaves the slab as it was. -/
theorem SInv.slab_alloc_null {s s1 : priskv_slab} {out : List Nat} (h : SInv s out)
    (ha : priskv_slab_alloc s = some (none, s1)) : s1 = s ∧ ∀ j, slot_free s j = false := by
  rcases slab_alloc_spec h.1 h.inuse_le with ⟨hz, he⟩ | ⟨i, hi, _, he⟩
  · rw [he] at ha
    simp only [Option.some.injEq, Prod.mk.injEq, true_and] at ha
    exact ⟨ha.symm, hz⟩
  · rw [he] at ha; simp at ha

/-- What `priskv_slab_free` of an outstanding address does in a state with the
invariant. -/
theorem SInv.slab_free {s : priskv_slab} {out : List Nat} {addr : Nat} (h : SInv s out)
    (hm : addr ∈ out) :
    ∃ i, i ∈ taken s ∧ i < s.objects ∧ addr = s.base + i * s.size ∧
      (i < 2147483648 → priskv_slab_free s addr = slab_result.ok (give_slot s i) ∧
        SInv (give_slot s i) (remove_addr addr out)) ∧
      (2147483648 ≤ i → priskv_slab_free s addr = slab_result.fault s) := by
  obtain ⟨hw, hin, hnd, hmem⟩ := h
  obtain ⟨i, hi, he⟩ := (hmem _).1 hm
  have hio : i < s.objects := by
    simp only [taken, Finset.mem_filter, Finset.mem_range] at hi; exact hi.1
  refine ⟨i, hi, hio, he, fun h31 => ⟨by rw [he]; exact slab_free_spec hw hin hi h31, ?_⟩,
    fun h31 => ?_⟩
  · have ht := taken_give hw hi
    refine ⟨SWF_give hw hio, ?_, nodup_remove_addr hnd, fun a => ?_⟩
    · rw [ht, Finset.card_erase_of_mem hi, ← hin]; rfl
    · rw [ht, mem_remove_addr hnd, hmem]
      show _ ↔ ∃ j, j ∈ (taken s).erase i ∧ a = s.base + j * s.size
      constructor
      · rintro ⟨⟨j, hj, e⟩, hne⟩
        refine ⟨j, Finset.mem_erase.2 ⟨fun e1 => hne ?_, hj⟩, e⟩
        rw [e, e1, he]
      · rintro ⟨j, hj, e⟩
        obtain ⟨hji, hjt⟩ := Finset.mem_erase.1 hj
        refine ⟨⟨j, hjt, e⟩, fun e1 => hji ?_⟩
        rw [e, he] at e1
        exact addr_inj hw.1 e1
  · have h4 := hw.2.2.2.1
    unfold priskv_slab_free
    rw [he, slab_index_slot hw.1 hio, int32_of_large h31 (by omega)]
    simp only
    rw [if_pos (by omega)]

/-- Every call keeps the invariant. -/
theorem SStep.keeps_inv {s s1 : priskv_slab} {out out1 : List Nat} {op : slab_op}
    (hs : SStep s out op s1 out1) (h : SInv s out) : SInv s1 out1 := by
  cases hs with
  | alloc ha =>
    obtain ⟨_, _, _, _, _, _, h1⟩ := h.slab_alloc ha
    exact h1
  | alloc_null ha => rw [(h.slab_alloc_null ha).1]; exact h
  | reserve hi hf hr =>
    rw [slab_reserve_spec h.1 h.inuse_le hi] at hr
    simp only [Option.some.injEq, Prod.mk.injEq] at hr
    obtain ⟨e1, e2⟩ := hr
    have := (h.slab_take hi hf h.1.2.2.2.2.2.2.1).1
    rw [← e1, ← e2]
    exact this
  | free hm hf =>
    obtain ⟨i, _, _, _, h1, h2⟩ := h.slab_free hm
    by_cases h31 : i < 2147483648
    · obtain ⟨e, hinv⟩ := h1 h31
      rw [e] at hf
      simp only [slab_result.ok.injEq] at hf
      exact hf ▸ hinv
    · rw [h2 (by omega)] at hf
      exact slab_result.noConfusion hf

/-- Every reachable state of a slab has the invariant. -/
theorem SReach.slab_inv {s : priskv_slab} {out : List Nat} (h : SReach s out) : SInv s out := by
  induction h with
  | create _ _ hc =>
    have hf := slab_create_spec hc
    have ht := hf.taken_eq (Nat.zero_le _)
    refine ⟨hf.1, by rw [ht, hf.2.1]; rfl, List.nodup_nil, fun a => ?_⟩
    rw [ht]; simp
  | step _ hs ih => exact hs.keeps_inv ih

/-- While an address is not passed to `priskv_slab_free` it stays outstanding. -/
theorem SUntilFree.keeps {a : Nat} {s s1 : priskv_slab} {out out1 : List Nat}
    (h : SUntilFree a s out s1 out1) (hr : SReach s out) (ha : a ∈ out) :
    SReach s1 out1 ∧ a ∈ out1 := by
  induction h with
  | refl => exact ⟨hr, ha⟩
  | step _ hs hne ih =>
    obtain ⟨hr1, ha1⟩ := ih hr ha
    refine ⟨SReach.step hr1 hs, ?_⟩
    cases hs with
    | alloc _ => exact List.mem_cons_of_mem _ ha1
    | alloc_null _ => exact ha1
    | reserve _ _ _ => exact List.mem_cons_of_mem _ ha1
    | free hm hf =>
      refine (mem_remove_addr hr1.slab_inv.2.2.1).2 ⟨ha1, fun e => hne ?_⟩
      rw [e]

/-- The allocations from the fresh state return the slots in order. -/
theorem Fresh.run {base size objects : Nat} : ∀ (n j : Nat) {s : priskv_slab},
    Fresh base size objects j s → j + n ≤ objects →
    ∃ s1, slab_alloc_n n s = some ((List.range' j n).map (fun i => some (base + i * size)), s1) ∧
      Fresh base size objects (j + n) s1
  | 0, j, s, h, _ => ⟨s, rfl, h⟩
  | n + 1, j, s, h, hj => by
    obtain ⟨s1, h1, h2⟩ := h.step (by omega)
    obtain ⟨s2, h3, h4⟩ := Fresh.run n (j + 1) h2 (by omega)
    refine ⟨s2, ?_, by rw [show j + (n + 1) = j + 1 + n by omega]; exact h4⟩
    simp only [slab_alloc_n, h1, h3, List.range'_succ, List.map_cons]

/-- The fresh state after `j` allocations is reachable, with the first `j` slots
outstanding. -/
theorem Fresh.reach {base size objects : Nat} {s0 : priskv_slab} (hs : size < 4294967296)
    (ho : objects < 4294967296) (hc : priskv_slab_create base size objects = some s0) :
    ∀ j, j ≤ objects → ∃ s out, SReach s out ∧ Fresh base size objects j s ∧
      ∀ i, i < j → base + i * size ∈ out
  | 0, _ => ⟨s0, [], SReach.create hs ho hc, slab_create_spec hc, fun i hi => by omega⟩
  | j + 1, hj => by
    obtain ⟨s, out, hr, hf, hout⟩ := Fresh.reach hs ho hc j (by omega)
    obtain ⟨s1, h1, h2⟩ := hf.step (by omega)
    refine ⟨s1, _, SReach.step hr (SStep.alloc h1), h2, fun i hi => ?_⟩
    rcases Nat.eq_or_lt_of_le (Nat.le_of_lt_succ hi) with e | e
    · rw [e]; exact List.mem_cons_self _ _
    · exact List.mem_cons_of_mem _ (hout i e)

/-! ## The slab allocator: the calls in the reachable states -/

/-- When no slot is free, every word of the bitmap is zero. -/
theorem words_zero {s : priskv_slab} (h : SWF s) (hz : ∀ j, slot_free s j = false) :
    ∀ w ∈ s.bitmap, w = 0 := by
  intro w hw
  obtain ⟨x, hx, e⟩ := List.getElem_of_mem hw
  have hg : s.bitmap.getD x 0 = w := by
    rw [List.getD_eq_getElem?_getD, List.getElem?_eq_getElem hx, e]; rfl
  refine word_eq_zero_iff.2 fun t => ?_
  by_cases ht : t < 64
  · rw [← hg, ← slot_free_word s x t ht]; exact hz _
  · exact testBit_of_lt_u64 (h.2.2.2.2.2.1 w hw) (by omega)

/-- A successful allocation in a reachable state: the address is that of a slot
that was free, it is not outstanding, and `priskv_slab_index` of it is the slot
number cut to an `int`. -/
theorem slab_alloc_fresh {s s1 : priskv_slab} {out : List Nat} {addr : Nat} (hr : SReach s out)
    (ha : priskv_slab_alloc s = some (some addr, s1)) :
    ∃ i, i < s.objects ∧ addr = s.base + i * s.size ∧ addr ∉ out ∧
      priskv_slab_index s1 addr = some (int32_of (i : Int)) ∧
      (i < 2147483648 → priskv_slab_index s1 addr = some (i : Int)) := by
  obtain ⟨i, hi, _, he, hs1, hno, _⟩ := hr.slab_inv.slab_alloc ha
  have hx : priskv_slab_index s1 addr = some (int32_of (i : Int)) := by
    have := @slab_index_slot s1 (by rw [hs1]; exact hr.slab_inv.1.1) i (by rw [hs1]; exact hi)
    rw [he]
    rw [hs1] at this ⊢
    exact this
  exact ⟨i, hi, he, hno, hx, fun h31 => by rw [hx, int32_of_small h31]⟩

/-- An address that is outstanding is not returned by an allocation. -/
theorem slab_alloc_not_outstanding {s s1 : priskv_slab} {out : List Nat} {a : Option Nat}
    (hr : SReach s out) (ha : priskv_slab_alloc s = some (a, s1)) {addr : Nat} (hm : addr ∈ out) :
    a ≠ some addr := by
  rintro rfl
  obtain ⟨_, _, _, hno, _⟩ := slab_alloc_fresh hr ha
  exact hno hm

/-- The release of an outstanding address whose slot number fits an `int`. -/
theorem slab_free_outstanding {s : priskv_slab} {out : List Nat} {addr : Nat} (hr : SReach s out)
    (hm : addr ∈ out) :
    ∃ i, i < s.objects ∧ addr = s.base + i * s.size ∧ slot_free s i = false ∧
      (i < 2147483648 → ∃ s1, priskv_slab_free s addr = slab_result.ok s1 ∧
        slot_free s1 i = true ∧ s1.inuse + 1 = s.inuse ∧
        (∀ j, j ≠ i → slot_free s1 j = slot_free s j) ∧
        SReach s1 (remove_addr addr out)) := by
  have hinv := hr.slab_inv
  obtain ⟨i, hit, hi, he, h1, _⟩ := hinv.slab_free hm
  have hsf : slot_free s i = false := by
    simp only [taken, Finset.mem_filter] at hit; exact hit.2
  refine ⟨i, hi, he, hsf, fun h31 => ?_⟩
  obtain ⟨hf, _⟩ := h1 h31
  have hpos : 0 < (taken s).card := Finset.card_pos.2 ⟨i, hit⟩
  refine ⟨give_slot s i, hf, ?_, ?_, fun j hj => ?_, SReach.step hr (SStep.free hm hf)⟩
  · rw [slot_free_give hinv.1 hi]; simp
  · show s.inuse - 1 + 1 = s.inuse
    rw [hinv.2.1]; omega
  · rw [slot_free_give hinv.1 hi]; simp [hj]

/-- The release of an address that is not at a slot boundary: `priskv_slab_index`
returns `-1`, and `priskv_slab_free` stops at its first assertion with the state
as it was. -/
theorem slab_free_misaligned (s : priskv_slab) (addr : Nat) (hs : s.size ≠ 0)
    (hm : Int.tmod ((addr : Int) - (s.base : Int)) (s.size : Int) ≠ 0) :
    priskv_slab_index s addr = some (-1) ∧ priskv_slab_free s addr = slab_result.fault s := by
  have hx : __priskv_slab_index s addr = some (-1) := by
    unfold __priskv_slab_index
    rw [if_neg hs, if_pos hm]
  refine ⟨hx, ?_⟩
  unfold priskv_slab_free
  rw [hx]
  rfl

/-- The slab of 2147483649 objects of one byte at address 4096, after `j`
allocations. -/
theorem big_slab_reach (j : Nat) (hj : j ≤ 2147483649) :
    ∃ s out, SReach s out ∧ Fresh 4096 1 2147483649 j s ∧ ∀ i, i < j → 4096 + i * 1 ∈ out := by
  obtain ⟨s0, hc⟩ := @slab_create_some 4096 1 2147483649 (by decide) (by decide) (by decide)
    (by decide)
  exact Fresh.reach (by decide) (by decide) hc j hj

/-! ## The buddy allocator: a second `free`, the first counter -/

/-- Whether `freeRec` finds a zero counter depends on the counters of the subtree
only. -/
theorem freeRec_none_congr {m m1 : List Nat} : ∀ (d i r : Nat),
    (∀ x, Sub i x → rd m1 x = rd m x) → freeRec m d i r = none → freeRec m1 d i r = none
  | 0, i, r, h, hn => by
    simp only [freeRec] at hn ⊢
    rw [h i (Sub.refl i)]
    split at hn
    · exact Option.noConfusion hn
    · rename_i h0
      rw [if_neg h0]
  | d + 1, i, r, h, hn => by
    simp only [freeRec] at hn ⊢
    rw [h i (Sub.refl i)]
    cases hc : freeRec m d (if r < 2 ^ d then 2 * i + 1 else 2 * i + 2)
        (if r < 2 ^ d then r else r - 2 ^ d) with
    | some p =>
      rw [hc] at hn
      exact Option.noConfusion hn
    | none =>
      rw [hc] at hn
      have hs : ∀ x, Sub (if r < 2 ^ d then 2 * i + 1 else 2 * i + 2) x → rd m1 x = rd m x := by
        intro x hx
        apply h
        by_cases hr : r < 2 ^ d
        · rw [if_pos hr] at hx
          exact hx.of_left
        · rw [if_neg hr] at hx
          exact hx.of_right
      rw [freeRec_none_congr d _ _ hs hc]
      simp only at hn ⊢
      split at hn
      · exact Option.noConfusion hn
      · rename_i h0
        rw [if_neg h0]

/-- After `freeRec` gave a run back, no counter on the way from the leaf up to
the node is zero: a second `freeRec` finds nothing to give back. -/
theorem freeRec_twice {m : List Nat} : ∀ (d i r : Nat) {m1 : List Nat} {n : Nat},
    Fits m d i → freeRec m d i r = some (m1, n) → freeRec m1 d i r = none ∧ rd m1 i ≠ 0
  | 0, i, r, m1, n, hfit, h => by
    have hi := hfit.lt
    simp only [freeRec] at h
    split at h
    · simp only [Option.some.injEq, Prod.mk.injEq] at h
      obtain ⟨rfl, _⟩ := h
      have e : rd (m.set i 1) i = 1 := rd_set_self hi
      simp only [freeRec, e]
      exact ⟨by rw [if_neg (by decide)], by decide⟩
    · exact Option.noConfusion h
  | d + 1, i, r, m1, n, hfit, h => by
    have hi := hfit.lt
    simp only [freeRec] at h
    have hfc : Fits m d (if r < 2 ^ d then 2 * i + 1 else 2 * i + 2) := by
      by_cases hr : r < 2 ^ d
      · rw [if_pos hr]; exact hfit.child_left
      · rw [if_neg hr]; exact hfit.child_right
    have hsub : ∀ x, Sub (if r < 2 ^ d then 2 * i + 1 else 2 * i + 2) x → x ≠ i := by
      intro x hx e
      rw [e] at hx
      by_cases hr : r < 2 ^ d
      · rw [if_pos hr] at hx
        exact not_Sub_child_self_left i hx
      · rw [if_neg hr] at hx
        exact not_Sub_child_self_right i hx
    cases hc : freeRec m d (if r < 2 ^ d then 2 * i + 1 else 2 * i + 2)
        (if r < 2 ^ d then r else r - 2 ^ d) with
    | some p =>
      obtain ⟨m2, n2⟩ := p
      rw [hc] at h
      simp only [Option.some.injEq, Prod.mk.injEq] at h
      obtain ⟨hm1, _⟩ := h
      obtain ⟨ih1, ih2⟩ := freeRec_twice d _ _ hfc hc
      have hlen : m2.length = m.length := (freeRec_frame hc).1
      have hpos := two_pow_pos (d + 1)
      have hv : rd m1 i ≠ 0 := by
        rw [← hm1, rd_set_self (by rw [hlen]; exact hi)]
        split
        · omega
        · rw [MAX_eq_max]
          by_cases hr : r < 2 ^ d
          · rw [if_pos hr] at ih2
            have := le_max_left (rd m2 (2 * i + 1)) (rd m2 (2 * i + 2))
            omega
          · rw [if_neg hr] at ih2
            have := le_max_right (rd m2 (2 * i + 1)) (rd m2 (2 * i + 2))
            omega
      refine ⟨?_, hv⟩
      have hcg : freeRec m1 d (if r < 2 ^ d then 2 * i + 1 else 2 * i + 2)
          (if r < 2 ^ d then r else r - 2 ^ d) = none := by
        apply freeRec_none_congr d _ _ _ ih1
        intro x hx
        rw [← hm1]
        exact rd_set_ne (fun e => hsub x hx e.symm)
      simp only [freeRec, hcg, if_neg hv]
    | none =>
      rw [hc] at h
      simp only at h
      split at h
      · simp only [Option.some.injEq, Prod.mk.injEq] at h
        obtain ⟨hm1, _⟩ := h
        have hpos := two_pow_pos (d + 1)
        have hv : rd m1 i ≠ 0 := by
          rw [← hm1, rd_set_self hi]
          omega
        refine ⟨?_, hv⟩
        have hcg : freeRec m1 d (if r < 2 ^ d then 2 * i + 1 else 2 * i + 2)
            (if r < 2 ^ d then r else r - 2 ^ d) = none := by
          apply freeRec_none_congr d _ _ _ hc
          intro x hx
          rw [← hm1]
          exact rd_set_ne (fun e => hsub x hx e.symm)
        simp only [freeRec, hcg, if_neg hv]
      · exact Option.noConfusion h

theorem ex_reach : Reach ex_buddy ex_out := by
  have h0 : Reach (buddy.mk 4 0 128 1000 [4, 2, 2, 1, 1, 1, 1]) [] :=
    @Reach.create 1000 4 128 _ (by decide) (by decide) (by decide)
  have h1 := @Reach.alloc _ (buddy.mk 4 1 128 1000 [2, 1, 2, 0, 1, 1, 1]) _ 128 1000 1 h0
    (by decide) (by decide) (by decide)
  exact @Reach.alloc _ ex_buddy _ 256 1256 2 h1 (by decide) (by decide) (by decide)

/-- The buddy of four blocks of one byte is a state that `priskv_buddy_create`
returns. -/
theorem byte_reach : Reach byte_buddy [] :=
  @Reach.create 4096 4 1 _ (by decide) (by decide) (by decide)

theorem run_of_to_addr {b : buddy} (hs : b.size ≠ 0) (e : Nat × Nat) :
    run_of b (to_addr b e) = e := by
  unfold run_of block_of to_addr
  simp only [Nat.add_sub_cancel_left]
  rw [Nat.mul_div_cancel _ (by omega)]

/-- A successful allocation in a reachable state leads to a reachable state in
which the new allocation is outstanding with the number of blocks that the call
took: the rounded-up block count of the request when the request needs at most
`2 ^ 31` blocks, and one block otherwise. -/
theorem Reach.alloc_blocks {b b1 : buddy} {out : List (Nat × Nat)} {size addr : Nat}
    (h : Reach b out) (hs : size < 4294967296)
    (ha : priskv_buddy_alloc b size = some (some addr, b1)) :
    ∃ k, alloc_alignup b.size size = some k ∧ Reach b1 ((addr, k) :: out) ∧
      priskv_buddy_inuse b1 = priskv_buddy_inuse b + k ∧
      ((size + b.size - 1) / b.size ≤ 2147483648 → k = roundup_blocks b.size size) ∧
      (2147483648 < (size + b.size - 1) / b.size → k = 1) := by
  rcases h.inv with hi | ⟨hw, _⟩
  swap
  · exact absurd (hw.alloc_fails ha).1 (fun e => Option.noConfusion e)
  have hi0 := hi
  obtain ⟨D, hv, hp, hu, hz, hb⟩ := hi
  obtain ⟨k, j, hka, hk, hjD, hbs, hge, hadr, hb1⟩ := alloc_some_k hv hs ha
  obtain ⟨_, _, e1, e2⟩ := alloc_alignup_eq hs hka
  obtain ⟨D1, hv1, hp1, hu1, _, _⟩ := hi0.alloc hs hka ha
  refine ⟨k, hka, Reach.alloc h hs hka ha, ?_, e1, e2⟩
  have hsum := allocs_sum_le (m := b1.meta) D1 0 0
  have i1 : b1.inuse = ((out.map Prod.snd).sum) + k := by
    rw [hu1, ← map_snd_to_addr b1, ← (hp1.map Prod.snd).sum_eq]
    simp only [List.map_cons, List.sum_cons]
    omega
  have i2 : b.inuse = (out.map Prod.snd).sum := by
    rw [hu, ← map_snd_to_addr b, ← (hp.map Prod.snd).sum_eq]
  unfold priskv_buddy_inuse
  rw [i1, i2]

/-- C1: in every state reached from `priskv_buddy_create` by `priskv_buddy_alloc`
and by `priskv_buddy_free` of outstanding addresses, an outstanding allocation
`(address, k)`, with `k` the number of blocks that the call took, occupies the
`k` blocks from block `o` on, where `address = base + o * size`, `k` is a power
of two, `o` is a multiple of `k` and `o + k ≤ nmemb`, and the runs of two
outstanding allocations have no block in common. The `k` of a new allocation is
the rounded-up block count of the request when the request needs at most
`2 ^ 31` blocks, and 1 when it needs more. On the buddy of four blocks of one
byte `alloc(2 ^ 31 + 1)` returns the base with one block taken, while the
rounded-up block count is `2 ^ 32` and a run of that length does not lie in
the buddy. -/
theorem buddy_outstanding_runs :
    (∀ (b : buddy) (out : List (Nat × Nat)), Reach b out →
      (∀ e ∈ out, ∃ o j, e.1 = b.base + o * b.size ∧ block_of b e.1 = o ∧ e.2 = 2 ^ j ∧
          e.2 ∣ o ∧ o + e.2 ≤ b.nmemb) ∧
      out.Pairwise (fun e f => runs_disjoint (run_of b e) (run_of b f))) ∧
    (∀ (b : buddy) (out : List (Nat × Nat)) (size addr : Nat) (b1 : buddy), Reach b out →
      size < 4294967296 → priskv_buddy_alloc b size = some (some addr, b1) →
      ∃ k, Reach b1 ((addr, k) :: out) ∧
        ((size + b.size - 1) / b.size ≤ 2147483648 → k = roundup_blocks b.size size) ∧
        (2147483648 < (size + b.size - 1) / b.size → k = 1)) ∧
    (priskv_buddy_create 4096 4 1 = some byte_buddy ∧
     priskv_buddy_alloc byte_buddy 2147483649 = some (some 4096, byte_buddy_taken) ∧
     Reach byte_buddy_taken [(4096, 1)] ∧
     roundup_blocks byte_buddy.size 2147483649 = 4294967296 ∧
     ¬ block_of byte_buddy 4096 + roundup_blocks byte_buddy.size 2147483649 ≤
        byte_buddy.nmemb) := by
  refine ⟨?_, ?_, by decide, by decide,
    @Reach.alloc _ _ _ 2147483649 4096 1 byte_reach (by decide) (by decide) (by decide),
    roundup_blocks_byte, ?_⟩
  · intro b out h
    rcases h.inv with hi | ⟨_, he⟩
    swap
    · rw [he]
      exact ⟨fun e h0 => absurd h0 (List.not_mem_nil _), List.Pairwise.nil⟩
    obtain ⟨D, hv, hp, hu, hz, hb⟩ := hi
    by_cases hs : b.size = 0
    · rw [hz hs]; simp
    constructor
    · intro e he
      obtain ⟨a, ha, rfl⟩ := List.mem_map.1 (hp.subset he)
      obtain ⟨_, h2, j, c, _, hk, hc⟩ := allocs_mem ha
      simp only [zero_add] at h2 hc
      refine ⟨a.1, j, rfl, ?_, hk, ?_, ?_⟩
      · have := run_of_to_addr hs a
        simp only [run_of, Prod.ext_iff] at this
        exact this.1
      · simp only [to_addr]; rw [hk]; exact ⟨c, by rw [hc]; ring⟩
      · rw [hv.2.1]; exact h2
    · refine hp.symm.pairwise ?_ (fun {x y} hxy => hxy.symm)
      rw [List.pairwise_map]
      refine (allocs_sorted D 0 0).imp ?_
      intro x y hxy
      rw [run_of_to_addr hs, run_of_to_addr hs]
      exact Or.inl hxy
  · intro b out size addr b1 h hs ha
    obtain ⟨k, _, hr, _, e1, e2⟩ := h.alloc_blocks hs ha
    exact ⟨k, hr, e1, e2⟩
  · have e : roundup_blocks byte_buddy.size 2147483649 = 4294967296 := roundup_blocks_byte
    rw [e]
    decide

theorem buddy_outstanding_runs_witness : Reach ex_buddy ex_out ∧
    ex_out.Pairwise (fun e f => runs_disjoint (run_of ex_buddy e) (run_of ex_buddy f)) :=
  ⟨ex_reach, (buddy_outstanding_runs.1 ex_buddy ex_out ex_reach).2⟩

/-- C2: in every state reached from `priskv_buddy_create` by `priskv_buddy_alloc`
and by `priskv_buddy_free` of outstanding addresses, `priskv_buddy_inuse` is the
sum of the numbers of blocks that the outstanding allocations took; it is `0`
when none is outstanding, and an allocation that returns `NULL` does not change
it. A successful allocation of a request that needs at most `2 ^ 31` blocks
adds the rounded-up block count of the request. On the buddy of four blocks of
one byte `alloc(2 ^ 31 + 1)` succeeds and `priskv_buddy_inuse` is then 1, while
the rounded-up block count of the one outstanding allocation is `2 ^ 32`. -/
theorem buddy_inuse_sum :
    (∀ (b : buddy) (out : List (Nat × Nat)), Reach b out →
      priskv_buddy_inuse b = (out.map Prod.snd).sum ∧
      (out = [] → priskv_buddy_inuse b = 0) ∧
      ∀ size b1, priskv_buddy_alloc b size = some (none, b1) →
        priskv_buddy_inuse b1 = priskv_buddy_inuse b) ∧
    (∀ (b : buddy) (out : List (Nat × Nat)) (size addr : Nat) (b1 : buddy), Reach b out →
      size < 4294967296 → (size + b.size - 1) / b.size ≤ 2147483648 →
      priskv_buddy_alloc b size = some (some addr, b1) →
      Reach b1 ((addr, roundup_blocks b.size size) :: out) ∧
      priskv_buddy_inuse b1 = priskv_buddy_inuse b + roundup_blocks b.size size) ∧
    (priskv_buddy_create 4096 4 1 = some byte_buddy ∧
     priskv_buddy_alloc byte_buddy 2147483649 = some (some 4096, byte_buddy_taken) ∧
     priskv_buddy_inuse byte_buddy_taken = 1 ∧
     roundup_blocks byte_buddy.size 2147483649 = 4294967296) := by
  refine ⟨?_, ?_, by decide, by decide, by decide, roundup_blocks_byte⟩
  · intro b out h
    rcases h.inv with hi | ⟨hw, he⟩
    swap
    · rw [he]
      exact ⟨hw.2.1, fun _ => hw.2.1, fun size b1 ha => by rw [alloc_null_unchanged ha]⟩
    obtain ⟨D, hv, hp, hu, hz, hb⟩ := hi
    have hsum : priskv_buddy_inuse b = (out.map Prod.snd).sum := by
      rw [(hp.map Prod.snd).sum_eq, map_snd_to_addr]; exact hu
    refine ⟨hsum, fun he => by rw [hsum, he]; rfl, fun size b1 ha => ?_⟩
    rw [alloc_null_unchanged ha]
  · intro b out size addr b1 h hs hq ha
    obtain ⟨k, _, hr, hin, e1, _⟩ := h.alloc_blocks hs ha
    rw [← e1 hq]
    exact ⟨hr, hin⟩

theorem buddy_inuse_sum_witness : Reach ex_buddy ex_out ∧
    priskv_buddy_inuse ex_buddy = (ex_out.map Prod.snd).sum :=
  ⟨ex_reach, (buddy_inuse_sum.1 ex_buddy ex_out ex_reach).1⟩

theorem runs_disjoint_symm {e f : Nat × Nat} (h : runs_disjoint e f) : runs_disjoint f e :=
  Or.symm h

/-- C3: in every reachable state a successful `priskv_buddy_alloc(size)` takes
`k` blocks, and it returns `base + o * block_size` where `o` is a multiple of
`k`, the blocks `[o, o + k)` lie in the buddy and meet no outstanding
allocation, and every multiple of `k` below `o` starts a run of `k` blocks that
meets an outstanding allocation (address-ordered first fit); `k` is the least
power of two that is not below `ceil(size / block_size)` when the request needs
at most `2 ^ 31` blocks. On a fresh buddy of 32 blocks of 128 bytes:
`alloc(128)` gives offset 0, `alloc(256)` offset 256, `alloc(384)` offset 512,
`alloc(128)` offset 128, and after `free` of offset 256, `alloc(256)` gives
offset 256. On the buddy of four blocks of one byte `alloc(2 ^ 31 + 1)`
succeeds at offset 0, while the least power of two not below the quotient is
`2 ^ 32` and no multiple `o` of it has `[o, o + 2 ^ 32)` inside the buddy. -/
theorem buddy_alloc_first_fit :
    (∀ (b : buddy) (out : List (Nat × Nat)) (size addr : Nat) (b1 : buddy), Reach b out →
      size < 4294967296 → priskv_buddy_alloc b size = some (some addr, b1) →
      ∃ k, alloc_alignup b.size size = some k ∧
        ((size + b.size - 1) / b.size ≤ 2147483648 → k = roundup_blocks b.size size) ∧
        ∃ o, addr = b.base + o * b.size ∧ k ∣ o ∧ o + k ≤ b.nmemb ∧
          (∀ e ∈ out, runs_disjoint (run_of b e) (o, k)) ∧
          (∀ o1, k ∣ o1 → o1 < o → ∃ e ∈ out, ¬ runs_disjoint (run_of b e) (o1, k))) ∧
    ((priskv_buddy_create 1000000 32 128).bind (fun b => run_ops b
        [buddy_op.alloc 128, buddy_op.alloc 256, buddy_op.alloc 384, buddy_op.alloc 128,
         buddy_op.free 1000256, buddy_op.alloc 256])).map (fun r => r.1) =
      some [some 1000000, some 1000256, some 1000512, some 1000128, some 1000256] ∧
    (priskv_buddy_create 4096 4 1 = some byte_buddy ∧
     priskv_buddy_alloc byte_buddy 2147483649 = some (some 4096, byte_buddy_taken) ∧
     roundup_blocks byte_buddy.size 2147483649 = 4294967296 ∧
     ∀ o, ¬ o + roundup_blocks byte_buddy.size 2147483649 ≤ byte_buddy.nmemb) := by
  refine ⟨?_, by decide, by decide, by decide, roundup_blocks_byte, fun o => ?_⟩
  swap
  · have e : roundup_blocks byte_buddy.size 2147483649 = 4294967296 := roundup_blocks_byte
    have n : byte_buddy.nmemb = 4 := rfl
    rw [e, n]
    omega
  intro b out size addr b1 h hs ha
  rcases h.inv with hi | ⟨hw, _⟩
  swap
  · exact absurd (hw.alloc_fails ha).1 (fun e => Option.noConfusion e)
  obtain ⟨D, hv, hp, hu, hz, hb⟩ := hi
  obtain ⟨k, j, hka, hk, hjD, hbs, hge, hadr, hb1⟩ := alloc_some_k hv hs ha
  obtain ⟨w1, _, w3⟩ := allocRec_spec hk 0 hv.2.2.2 hv.fits hjD hge
  have hmem : (targetOff b.meta k D 0 0, k) ∈ allocs (allocRec b.meta k D 0) D 0 0 :=
    w3.symm.subset (List.mem_cons_self _ _)
  obtain ⟨_, h2, j1, c, _, hk1, hc⟩ := allocs_mem hmem
  simp only [zero_add] at h2 hc
  have hpw : ((targetOff b.meta k D 0 0, k) :: allocs b.meta D 0 0).Pairwise runs_disjoint :=
    w3.pairwise ((allocs_sorted D 0 0).imp (fun h => Or.inl h)) (fun {x y} h => h.symm)
  rw [List.pairwise_cons] at hpw
  simp only at hk1
  refine ⟨k, hka, (alloc_alignup_eq hs hka).2.2.1, _, hadr,
    ⟨c, hc.trans (by rw [hk1, Nat.mul_comm])⟩, by rw [hv.2.1]; exact h2, ?_, ?_⟩
  · intro e he
    obtain ⟨a, ha', rfl⟩ := List.mem_map.1 (hp.subset he)
    rw [run_of_to_addr hbs]
    exact runs_disjoint_symm (hpw.1 a ha')
  · intro o1 ⟨c1, hc1⟩ hlt
    obtain ⟨a, ha', hov⟩ := first_fit hk 0 o1 c1 hv.2.2.2 hjD hge
      (by rw [hc1]; ring) hlt
    refine ⟨to_addr b a, hp.symm.subset (List.mem_map_of_mem _ ha'), ?_⟩
    rw [run_of_to_addr hbs]
    exact hov

theorem buddy_alloc_first_fit_witness :
    Reach ex_buddy ex_out ∧ priskv_buddy_alloc ex_buddy 128 =
      some (some 1128, buddy.mk 4 4 128 1000 [0, 0, 0, 0, 0, 1, 1]) ∧
    ∃ k, alloc_alignup ex_buddy.size 128 = some k ∧
      ((128 + ex_buddy.size - 1) / ex_buddy.size ≤ 2147483648 →
        k = roundup_blocks ex_buddy.size 128) ∧
      ∃ o, 1128 = ex_buddy.base + o * ex_buddy.size ∧ k ∣ o ∧ o + k ≤ ex_buddy.nmemb ∧
        (∀ e ∈ ex_out, runs_disjoint (run_of ex_buddy e) (o, k)) ∧
        (∀ o1, k ∣ o1 → o1 < o → ∃ e ∈ ex_out, ¬ runs_disjoint (run_of ex_buddy e) (o1, k)) :=
  ⟨ex_reach, by decide,
    buddy_alloc_first_fit.1 ex_buddy ex_out 128 1128 (buddy.mk 4 4 128 1000 [0, 0, 0, 0, 0, 1, 1])
      ex_reach (by decide) (by decide)⟩

/-- C4: for a 32-bit request of at least one byte that needs at most `2 ^ 31`
blocks, `priskv_buddy_alloc` returns `NULL` and leaves the buddy (counters and
`inuse`) as it was whenever the root counter `meta[0]` is below the rounded-up
block count of the request, the least power of two not below
`ceil(size / block_size)`. On the buddy of 32 blocks with 28 blocks in use of
the test, `alloc` of 6 and of 15 blocks return `NULL` and `inuse` stays 28. On
the buddy of four blocks of one byte the root counter 4 is below the rounded-up
block count `2 ^ 32` of a request of `2 ^ 31 + 1` bytes, and
`priskv_buddy_alloc` returns the base and takes a block. -/
theorem buddy_alloc_null :
    (∀ (b : buddy) (size root : Nat), b.size ≠ 0 → 1 ≤ size → size < 4294967296 →
      (size + b.size - 1) / b.size ≤ 2147483648 →
      b.meta[0]? = some root → root < roundup_blocks b.size size →
      priskv_buddy_alloc b size = some (none, b)) ∧
    (((priskv_buddy_create 1000000 32 128).bind (fun b => run_ops b
        [buddy_op.alloc 128, buddy_op.alloc 256, buddy_op.alloc 384, buddy_op.alloc 128,
         buddy_op.free 1000256, buddy_op.alloc 256, buddy_op.alloc 512, buddy_op.alloc 1024,
         buddy_op.alloc 768])).map (fun r => (r.2.inuse, rd r.2.meta 0)) = some (28, 4) ∧
     ((priskv_buddy_create 1000000 32 128).bind (fun b => run_ops b
        [buddy_op.alloc 128, buddy_op.alloc 256, buddy_op.alloc 384, buddy_op.alloc 128,
         buddy_op.free 1000256, buddy_op.alloc 256, buddy_op.alloc 512, buddy_op.alloc 1024,
         buddy_op.alloc 768, buddy_op.alloc 768, buddy_op.alloc 1920])).map
          (fun r => (r.1.drop 8, r.2.inuse)) = some ([none, none], 28) ∧
     ((priskv_buddy_create 1000000 32 128).bind (fun b => run_ops b
        [buddy_op.alloc 128, buddy_op.alloc 256, buddy_op.alloc 384, buddy_op.alloc 128,
         buddy_op.free 1000256, buddy_op.alloc 256, buddy_op.alloc 512, buddy_op.alloc 1024,
         buddy_op.alloc 768, buddy_op.alloc 768, buddy_op.alloc 1920])).map (fun r => r.2) =
     ((priskv_buddy_create 1000000 32 128).bind (fun b => run_ops b
        [buddy_op.alloc 128, buddy_op.alloc 256, buddy_op.alloc 384, buddy_op.alloc 128,
         buddy_op.free 1000256, buddy_op.alloc 256, buddy_op.alloc 512, buddy_op.alloc 1024,
         buddy_op.alloc 768])).map (fun r => r.2)) ∧
    (priskv_buddy_create 4096 4 1 = some byte_buddy ∧
     byte_buddy.meta[0]? = some 4 ∧ 4 < roundup_blocks byte_buddy.size 2147483649 ∧
     priskv_buddy_alloc byte_buddy 2147483649 = some (some 4096, byte_buddy_taken) ∧
     byte_buddy_taken.meta ≠ byte_buddy.meta ∧ byte_buddy_taken.inuse ≠ byte_buddy.inuse) := by
  refine ⟨?_, by decide, by decide, by decide, ?_, by decide, by decide, by decide⟩
  · intro b size root hb h1 hs hq hr hlt
    have ha := alloc_alignup_defined hb hs h1 hq
    unfold priskv_buddy_alloc
    simp only [ha, hr, hlt, if_true]
  · have e : roundup_blocks byte_buddy.size 2147483649 = 4294967296 := roundup_blocks_byte
    rw [e]
    decide

theorem buddy_alloc_null_witness :
    ex_buddy.meta[0]? = some 1 ∧ 1 < roundup_blocks ex_buddy.size 256 ∧
    priskv_buddy_alloc ex_buddy 256 = some (none, ex_buddy) :=
  have e : roundup_blocks ex_buddy.size 256 = 2 := @roundup_blocks_pow 128 256 1 (by decide)
  ⟨by decide, by rw [e]; decide,
    buddy_alloc_null.1 ex_buddy 256 1 (by decide) (by decide) (by decide) (by decide)
      (by decide) (by rw [e]; decide)⟩

theorem targetOff_root (m : List Nat) (d i o : Nat) : targetOff m (2 ^ d) d i o = o := by
  cases d with
  | zero => rfl
  | succ d => simp [targetOff]

/-- A reachable state without outstanding allocations is the state that
`priskv_buddy_create` returns; with at most `2 ^ 30` blocks all its counters are
full. -/
theorem reach_nil_eq_create {b : buddy} (h : Reach b []) :
    priskv_buddy_create b.base b.nmemb b.size = some b ∧ b.inuse = 0 ∧
    (b.nmemb * 2 < 4294967296 → ∃ D, Valid b D ∧ rd b.meta 0 = 2 ^ D) := by
  rcases h.inv with hi | ⟨hw, _⟩
  swap
  · obtain ⟨h1, h2, h3, h4⟩ := hw
    refine ⟨?_, h2, fun hlt => by rw [h1] at hlt; exact absurd hlt (by decide)⟩
    obtain ⟨nmemb, inuse, size, base, meta⟩ := b
    simp only at h1 h2 h3 h4
    subst h1 h2 h4
    unfold priskv_buddy_create
    have hp : IS_POWER_OF_2 2147483648 = true := by decide
    have e1 : u32 (2147483648 * 2) = 0 := by decide
    have e2 : u32 (0 + 4294967296 - 1) = 4294967295 := by decide
    simp only [if_neg h3, hp, Bool.not_true, Bool.false_eq_true, if_false, e1, e2]
  obtain ⟨D, hv, hp, hu, hz, hb⟩ := hi
  have hal : allocs b.meta D 0 0 = [] := by
    have := hp.symm.eq_nil
    simpa using this
  have hf := (allocs_eq_nil_iff 0 hv.2.2.2).1 hal
  have hi : b.inuse = 0 := by rw [hu, hal]; rfl
  refine ⟨?_, hi, fun _ => ⟨D, hv, hf⟩⟩
  have hm : b.meta = create_loop (2 ^ D * 2 - 1) 0 (2 ^ D * 2) :=
    eq_of_full hv.2.2.1 (by rw [create_loop_length, pow_succ])
      (fun t x ht hx => by
        have := full_below t hv.2.2.2 hf ht hx
        exact this)
      (create_loop_full D)
  have hD : 2 ^ D ≤ 2 ^ 30 := Nat.pow_le_pow_right (by decide) hv.1
  norm_num at hD
  obtain ⟨nmemb, inuse, size, base, meta⟩ := b
  simp only at hm hi hb
  have hn : nmemb = 2 ^ D := hv.2.1
  subst hm hi hn
  have hpos := two_pow_pos D
  have e1 : u32 (2 ^ D * 2) = 2 ^ D * 2 := u32_of_lt (by omega)
  have e2 : u32 (2 ^ D * 2 + 4294967296 - 1) = 2 ^ D * 2 - 1 := by
    unfold u32
    omega
  unfold priskv_buddy_create
  rw [if_neg hb, IS_POWER_OF_2_pow]
  simp only [Bool.not_true, Bool.false_eq_true, if_false, e1, e2]

/-- Freeing all outstanding addresses, in any order, never faults and ends in a
reachable state without outstanding allocations. -/
theorem free_all_reach : ∀ (l : List Nat) {b : buddy} {out : List (Nat × Nat)}, Reach b out →
    l.Perm (out.map Prod.fst) →
    ∃ b1, free_all b l = some b1 ∧ Reach b1 [] ∧ b1.base = b.base ∧ b1.nmemb = b.nmemb ∧
      b1.size = b.size
  | [], b, out, h, hp => by
    have : out = [] := by
      have := hp.symm.eq_nil
      simpa using this
    subst this
    exact ⟨b, rfl, h, rfl, rfl, rfl⟩
  | a :: l, b, out, h, hp => by
    have ha : a ∈ out.map Prod.fst := hp.subset (List.mem_cons_self _ _)
    obtain ⟨⟨a', k⟩, hm, rfl⟩ := List.mem_map.1 ha
    have hinv : Inv b out := by
      rcases h.inv with hi | ⟨_, he⟩
      · exact hi
      · rw [he] at hm
        exact absurd hm (List.not_mem_nil _)
    obtain ⟨b1, hf, _, _, e1, e2, e3⟩ := hinv.free hm
    have hr := Reach.free h hm hf
    have hp2 : l.Perm ((remove (a', k) out).map Prod.fst) := by
      have := (remove_perm hm).map Prod.fst
      simp only [List.map_cons] at this
      exact (hp.trans this).cons_inv
    obtain ⟨b2, h1, h2, h3, h4, h5⟩ := free_all_reach l hr hp2
    refine ⟨b2, ?_, h2, by rw [h3, e3], by rw [h4, e1], by rw [h5, e2]⟩
    simp only [free_all, hf]
    exact h1

/-- On a buddy with all blocks free a request for the whole memory gets the
first block. -/
theorem alloc_whole {b : buddy} {D : Nat} (hv : Valid b D) (hf : rd b.meta 0 = 2 ^ D)
    (hs : b.size ≠ 0) (hlt : b.nmemb * b.size < 4294967296) :
    ∃ b2, priskv_buddy_alloc b (b.nmemb * b.size) = some (some b.base, b2) := by
  have hD : 2 ^ D ≤ 2 ^ 30 := Nat.pow_le_pow_right (by decide) hv.1
  norm_num at hD
  have hn := hv.2.1
  have hp := two_pow_pos D
  have hq : (b.nmemb * b.size + b.size - 1) / b.size = 2 ^ D := by
    rw [hn]
    have e : 2 ^ D * b.size + b.size - 1 = (b.size - 1) + 2 ^ D * b.size := by omega
    rw [e, Nat.add_mul_div_right _ _ (by omega), Nat.div_eq_of_lt (by omega)]
    omega
  have h1 : 1 ≤ b.nmemb * b.size := Nat.mul_pos (by omega) (by omega)
  have ha := alloc_alignup_defined hs hlt h1 (by rw [hq]; omega)
  rw [roundup_blocks_pow hq] at ha
  rw [alloc_code hv ha rfl, if_neg (by omega), targetOff_root, Nat.zero_mul, Nat.add_zero]
  exact ⟨_, rfl⟩

/-- C5: from every reachable state, `priskv_buddy_free` of all outstanding
addresses, in any order, runs without a fault and ends in the state that
`priskv_buddy_create` produces, with `inuse = 0`; in a buddy of at most
`2 ^ 30` blocks `alloc(nmemb * block_size)`, when that size is a 32-bit value,
then succeeds at offset 0; and `priskv_buddy_free` of the address that a
successful `priskv_buddy_alloc` just returned restores the state before the
allocation. In the buddy of `2 ^ 31` blocks of one byte, as
`priskv_buddy_create` returns it, the first counter is 0 and
`alloc(nmemb * block_size)` returns `NULL`: the 32-bit `nmemb * 2` of
`priskv_buddy_create` is zero. -/
theorem buddy_free_restores (b : buddy) (out : List (Nat × Nat)) (h : Reach b out) :
    (∀ l : List Nat, l.Perm (out.map Prod.fst) →
      ∃ b1, free_all b l = some b1 ∧
        priskv_buddy_create b.base b.nmemb b.size = some b1 ∧ priskv_buddy_inuse b1 = 0 ∧
        (b.size ≠ 0 → b.nmemb * b.size < 4294967296 → b.nmemb * 2 < 4294967296 →
          ∃ b2, priskv_buddy_alloc b1 (b.nmemb * b.size) = some (some b.base, b2))) ∧
    (∀ (size addr : Nat) (b1 : buddy), size < 4294967296 →
      priskv_buddy_alloc b size = some (some addr, b1) → priskv_buddy_free b1 addr = some b) ∧
    (∃ b0, priskv_buddy_create 4096 2147483648 1 = some b0 ∧ Reach b0 [] ∧
      rd b0.meta 0 = 0 ∧ priskv_buddy_alloc b0 (2147483648 * 1) = some (none, b0)) := by
  refine ⟨?_, ?_, ?_⟩
  · intro l hl
    obtain ⟨b1, h1, h2, e1, e2, e3⟩ := free_all_reach l h hl
    obtain ⟨hc, hi0, hfull⟩ := reach_nil_eq_create h2
    rw [e1, e2, e3] at hc
    refine ⟨b1, h1, hc, hi0, fun hs hlt hn => ?_⟩
    obtain ⟨D, hv, hf⟩ := hfull (by rw [e2]; exact hn)
    have := alloc_whole hv hf (e3 ▸ hs) (by rw [e2, e3]; exact hlt)
    rw [e1, e2, e3] at this
    exact this
  swap
  · have hc : priskv_buddy_create 4096 2147483648 1 =
        some ⟨2147483648, 0, 1, 4096, create_loop 4294967295 0 0⟩ := by
      unfold priskv_buddy_create
      have hp : IS_POWER_OF_2 2147483648 = true := by decide
      have e1 : u32 (2147483648 * 2) = 0 := by decide
      have e2 : u32 (0 + 4294967296 - 1) = 4294967295 := by decide
      simp only [hp, Bool.not_true, Bool.false_eq_true, if_false, e1, e2]
      rfl
    have hw : Wrapped ⟨2147483648, 0, 1, 4096, create_loop 4294967295 0 0⟩ :=
      ⟨rfl, rfl, by decide, rfl⟩
    exact ⟨_, hc, Reach.create (by decide) (by decide) hc, rd_of_getElem? hw.root,
      hw.alloc_eq (k := 2147483648) (by decide)⟩
  · intro size addr b1 hs ha
    have hi : Inv b out := by
      rcases h.inv with hi | ⟨hw, _⟩
      · exact hi
      · exact absurd (hw.alloc_fails ha).1 (fun e => Option.noConfusion e)
    have hi0 := hi
    obtain ⟨D, hv, hp, hu, hz, hb⟩ := hi
    obtain ⟨k, j, hka, hk, hjD, hbs, hge, hadr, hb1⟩ := alloc_some_k hv hs ha
    have hi1 := hi0.alloc hs hka ha
    obtain ⟨b2, hf, hi2, hin, e1, e2, e3⟩ := hi1.free (List.mem_cons_self _ _)
    simp only [remove, if_true] at hi2
    rw [hf]
    congr 1
    obtain ⟨D2, hv2, hp2, hu2, _, _⟩ := hi2
    have hn : b2.nmemb = b.nmemb := by rw [e1, hb1]
    have hsz : b2.size = b.size := by rw [e2, hb1]
    have hbase : b2.base = b.base := by rw [e3, hb1]
    have hD : D2 = D := Nat.pow_right_injective (le_refl 2) (by
      show 2 ^ D2 = 2 ^ D
      rw [← hv2.2.1, ← hv.2.1, hn])
    subst hD
    have hto : to_addr b2 = to_addr b := by
      funext e; simp [to_addr, hsz, hbase]
    rw [hto] at hp2
    have hperm : (allocs b2.meta D2 0 0).Perm (allocs b.meta D2 0 0) := by
      have := (hp2.symm.trans hp).map (run_of b)
      simp only [List.map_map] at this
      have hid : (run_of b ∘ to_addr b) = id := by
        funext e; exact run_of_to_addr hbs e
      rw [hid, List.map_id, List.map_id] at this
      exact this
    have hmeta := meta_eq_of_allocs hv2.2.2.1 hv.2.2.1 hv2.2.2.2 hv.2.2.2 hperm
    have hinuse : b2.inuse = b.inuse := by
      rw [hu2, hu, hmeta]
    obtain ⟨n2, i2, s2, ba2, m2⟩ := b2
    obtain ⟨n, i, s, ba, m⟩ := b
    simp only at hn hsz hbase hmeta hinuse
    subst hn hsz hbase hmeta hinuse
    rfl

theorem buddy_free_restores_witness : Reach ex_buddy ex_out ∧
    priskv_buddy_alloc ex_buddy 128 = some (some 1128, buddy.mk 4 4 128 1000 [0, 0, 0, 0, 0, 1, 1]) ∧
    priskv_buddy_free (buddy.mk 4 4 128 1000 [0, 0, 0, 0, 0, 1, 1]) 1128 = some ex_buddy :=
  ⟨ex_reach, by decide,
    (buddy_free_restores ex_buddy ex_out ex_reach).2.1 128 1128 _ (by decide) (by decide)⟩

theorem ceil_mul_ge {size bs : Nat} (hb : bs ≠ 0) : size ≤ (size + bs - 1) / bs * bs := by
  have h1 := Nat.div_add_mod (size + bs - 1) bs
  have h2 := Nat.mod_lt (size + bs - 1) (Nat.pos_of_ne_zero hb)
  rw [Nat.mul_comm] at h1
  omega

/-- C6: for a successful `priskv_buddy_alloc(size)` of a 32-bit size of at least
one byte in a reachable state, when the request needs at most `2 ^ 31` blocks
(every 32-bit request does when the block size is 2 or more): the block size is
at least 1, the quotient `ceil(size / block_size)` fits 32 bits (it is not
changed by the conversion to `uint32_t`), the allocation reserves `k` blocks
(`inuse` grows by `k` and the run of `k` blocks becomes outstanding), where `k`
is the least power of two not below the quotient, and `k * block_size ≥ size`.
With `nmemb = 1` and `block_size = UINT32_MAX`, `alloc(UINT32_MAX)` returns the
base and after the `free` `inuse` is 0. On the buddy of four blocks of one byte
`alloc(2 ^ 31 + 1)` succeeds and reserves one block of one byte, which is less
than the request and less than the least power of two not below the quotient,
`2 ^ 32`. -/
theorem buddy_alloc_capacity :
    (∀ (b : buddy) (out : List (Nat × Nat)) (size addr : Nat) (b1 : buddy), Reach b out →
      1 ≤ size → size < 4294967296 → (size + b.size - 1) / b.size ≤ 2147483648 →
      priskv_buddy_alloc b size = some (some addr, b1) →
      1 ≤ b.size ∧ u32 ((size + b.size - 1) / b.size) = (size + b.size - 1) / b.size ∧
      (∃ j, roundup_blocks b.size size = 2 ^ j) ∧
      (size + b.size - 1) / b.size ≤ roundup_blocks b.size size ∧
      (∀ j, (size + b.size - 1) / b.size ≤ 2 ^ j → roundup_blocks b.size size ≤ 2 ^ j) ∧
      size ≤ roundup_blocks b.size size * b.size ∧
      priskv_buddy_inuse b1 = priskv_buddy_inuse b + roundup_blocks b.size size ∧
      Reach b1 ((addr, roundup_blocks b.size size) :: out)) ∧
    (∀ bsize size : Nat, 2 ≤ bsize → size < 4294967296 →
      (size + bsize - 1) / bsize ≤ 2147483648) ∧
    ((priskv_buddy_create 1000 1 4294967295).bind (fun b => run_ops b
        [buddy_op.alloc 4294967295, buddy_op.free 1000])).map (fun r => (r.1, r.2.inuse)) =
      some ([some 1000], 0) ∧
    (priskv_buddy_create 4096 4 1 = some byte_buddy ∧
     priskv_buddy_alloc byte_buddy 2147483649 = some (some 4096, byte_buddy_taken) ∧
     priskv_buddy_inuse byte_buddy_taken = priskv_buddy_inuse byte_buddy + 1 ∧
     1 * byte_buddy.size < 2147483649 ∧
     roundup_blocks byte_buddy.size 2147483649 = 4294967296) := by
  refine ⟨?_, fun bsize size hb hs => ceil_div_small hb hs, by decide, by decide, by decide,
    by decide, by decide, roundup_blocks_byte⟩
  intro b out size addr b1 h h1 hs hq ha
  obtain ⟨k, hka, hr, hin, e1, _⟩ := h.alloc_blocks hs ha
  have hk := e1 hq
  subst hk
  obtain ⟨hbs, ⟨j, _, hj⟩, _, _⟩ := alloc_alignup_eq hs hka
  have hceil := @ceil_mul_ge size b.size hbs
  have hle : (size + b.size - 1) / b.size ≤ roundup_blocks b.size size :=
    Nat.le_pow_clog (by decide) _
  have hq1 : (size + b.size - 1) / b.size ≤ size := ceil_div_le hbs
  refine ⟨by omega, u32_of_lt (by omega), ⟨j, hj⟩, hle, fun j1 hj1 => ?_, ?_, hin, hr⟩
  · exact Nat.pow_le_pow_right (by decide) ((Nat.le_pow_iff_clog_le (by decide)).1 hj1)
  · exact le_trans hceil (Nat.mul_le_mul_right _ hle)

theorem buddy_alloc_capacity_witness : Reach ex_buddy ex_out ∧
    priskv_buddy_alloc ex_buddy 100 = some (some 1128, buddy.mk 4 4 128 1000 [0, 0, 0, 0, 0, 1, 1]) ∧
    100 ≤ roundup_blocks ex_buddy.size 100 * ex_buddy.size :=
  ⟨ex_reach, by decide,
    (buddy_alloc_capacity.1 ex_buddy ex_out 100 1128 (buddy.mk 4 4 128 1000 [0, 0, 0, 0, 0, 1, 1])
      ex_reach (by decide) (by decide) (by decide) (by decide)).2.2.2.2.2.1⟩

/-! ## The claims on the slab allocator -/

/-- C7: in a slab of 2147483649 objects of one byte at address 4096, reached from
`priskv_slab_create` by allocations alone, `priskv_slab_alloc` returns the address
of slot 2147483648, and `priskv_slab_index` of that address returns -2147483648,
not the slot number: `__priskv_slab_index` returns its 64-bit index through an
`int`. -/
theorem slab_index_narrowed :
    ∃ s out s1, SReach s out ∧ s.base = 4096 ∧ s.size = 1 ∧ s.objects = 2147483649 ∧
      priskv_slab_alloc s = some (some (4096 + 2147483648 * 1), s1) ∧
      priskv_slab_index s1 (4096 + 2147483648 * 1) = some (-2147483648) := by
  obtain ⟨s, out, hr, hf, _⟩ := big_slab_reach 2147483648 (by decide)
  obtain ⟨s1, ha, _⟩ := hf.step (by decide)
  obtain ⟨_, _, _, _, hb, hs, ho⟩ := hf
  refine ⟨s, out, s1, hr, hb, hs, ho, ha, ?_⟩
  obtain ⟨i, _, he, _, hx, _⟩ := slab_alloc_fresh hr ha
  rw [hb, hs] at he
  have hi : i = 2147483648 := by omega
  rw [hx, hi]
  rfl

/-- C8: after `priskv_slab_create` with `objects` slots, `objects` calls of
`priskv_slab_alloc` in a row return the addresses `base + i * size` for
`i = 0, ..., objects - 1`, each once; then `inuse` is `objects`, every word of the
bitmap is zero, and one more call returns `NULL` and changes nothing. -/
theorem slab_alloc_all (base size objects : Nat) (s0 : priskv_slab)
    (hc : priskv_slab_create base size objects = some s0) :
    ∃ s1, slab_alloc_n objects s0 =
        some ((List.range objects).map (fun i => some (base + i * size)), s1) ∧
      ((List.range objects).map (fun i => base + i * size)).Nodup ∧
      priskv_slab_inuse s1 = objects ∧ s1.objects = objects ∧ (∀ w ∈ s1.bitmap, w = 0) ∧
      priskv_slab_alloc s1 = some (none, s1) := by
  have hf0 := slab_create_spec hc
  obtain ⟨s1, hn, hf⟩ := Fresh.run objects 0 hf0 (by omega)
  rw [Nat.zero_add] at hf
  have hz : ∀ j, slot_free s1 j = false := fun j => by
    cases hsf : slot_free s1 j with
    | false => rfl
    | true => have := (hf.2.2.1 j).1 hsf; omega
  have hsize : size ≠ 0 := by rw [← hf.2.2.2.2.2.1]; exact hf.1.1
  refine ⟨s1, by rw [hn, List.range_eq_range'], ?_, hf.2.1, hf.2.2.2.2.2.2, words_zero hf.1 hz, ?_⟩
  · exact List.Nodup.map (fun i j e => addr_inj hsize e) (List.nodup_range _)
  · rcases slab_alloc_spec hf.1 (by rw [hf.2.1, hf.2.2.2.2.2.2]) with ⟨_, he⟩ | ⟨i, hi, _⟩
    · exact he
    · rw [hz i] at hi; exact Bool.noConfusion hi

set_option maxRecDepth 4000 in
theorem slab_alloc_all_witness :
    priskv_slab_create 1000 16 70 =
        some (priskv_slab.mk 16 0 70 1000 0 [18446744073709551615, 63]) ∧
      ∃ s1, slab_alloc_n 70 (priskv_slab.mk 16 0 70 1000 0 [18446744073709551615, 63]) =
          some ((List.range 70).map (fun i => some (1000 + i * 16)), s1) ∧
        ((List.range 70).map (fun i => 1000 + i * 16)).Nodup ∧
        priskv_slab_inuse s1 = 70 ∧ s1.objects = 70 ∧ (∀ w ∈ s1.bitmap, w = 0) ∧
        priskv_slab_alloc s1 = some (none, s1) :=
  ⟨by decide, slab_alloc_all 1000 16 70 _ (by decide)⟩

/-- C9: in a slab of 2147483649 objects of one byte at address 4096, reached from
`priskv_slab_create` by allocations alone, the address of slot 2147483648 is
outstanding and `priskv_slab_free` of it stops at the assertion `index >= 0` with
the state as it was: the index that `__priskv_slab_index` returns through an `int`
is negative. -/
theorem slab_free_narrowed :
    ∃ s out, SReach s out ∧ s.base = 4096 ∧ s.size = 1 ∧ s.objects = 2147483649 ∧
      4096 + 2147483648 * 1 ∈ out ∧
      priskv_slab_index s (4096 + 2147483648 * 1) = some (-2147483648) ∧
      priskv_slab_free s (4096 + 2147483648 * 1) = slab_result.fault s := by
  obtain ⟨s, out, hr, hf, hout⟩ := big_slab_reach 2147483649 (by decide)
  have hm := hout 2147483648 (by decide)
  obtain ⟨_, _, _, _, hb, hs, ho⟩ := hf
  refine ⟨s, out, hr, hb, hs, ho, hm, ?_, ?_⟩
  · have := @slab_index_slot s (by rw [hs]; decide) 2147483648 (by rw [ho]; decide)
    rw [hb, hs] at this
    exact this
  · obtain ⟨i, _, _, he, _, h2⟩ := hr.slab_inv.slab_free hm
    rw [hb, hs] at he
    exact h2 (by omega)

/-- C10: in a reachable state, `priskv_slab_reserve` of a free slot `i` below
`objects` returns `base + i * size`, clears the bit of slot `i`, adds one to
`inuse` and leaves every other bit as it was; and as long as that address is not
passed to `priskv_slab_free`, no call of `priskv_slab_alloc` returns it. -/
theorem slab_reserve_slot (s : priskv_slab) (out : List Nat) (i : Nat) (hr : SReach s out)
    (hi : i < s.objects) (hf : slot_free s i = true) :
    ∃ s1, priskv_slab_reserve s (i : Int) = some (s.base + i * s.size, s1) ∧
      slot_free s1 i = false ∧ priskv_slab_inuse s1 = priskv_slab_inuse s + 1 ∧
      (∀ j, j ≠ i → slot_free s1 j = slot_free s j) ∧
      s1.bitmap.length = s.bitmap.length ∧
      s1.base = s.base ∧ s1.size = s.size ∧ s1.objects = s.objects ∧
      ∀ s2 out2, SUntilFree (s.base + i * s.size) s1 ((s.base + i * s.size) :: out) s2 out2 →
        ∀ a s3, priskv_slab_alloc s2 = some (a, s3) → a ≠ some (s.base + i * s.size) := by
  have hinv := hr.slab_inv
  have he := slab_reserve_spec hinv.1 hinv.inuse_le hi
  refine ⟨take_slot s i, he, ?_, rfl, fun j hj => ?_, ?_, rfl, rfl, rfl, ?_⟩
  · rw [slot_free_take hinv.1 hi]; simp
  · rw [slot_free_take hinv.1 hi]; simp [hj]
  · simp [take_slot]
  · intro s2 out2 hu a s3 ha
    have hr1 : SReach (take_slot s i) ((s.base + i * s.size) :: out) :=
      SReach.step hr (SStep.reserve hi hf he)
    obtain ⟨hr2, hm⟩ := hu.keeps hr1 (List.mem_cons_self _ _)
    exact slab_alloc_not_outstanding hr2 ha hm

set_option maxRecDepth 4000 in
theorem slab_reserve_slot_witness :
    ∃ s1, priskv_slab_reserve (priskv_slab.mk 16 0 70 1000 0 [18446744073709551615, 63])
          ((65 : Nat) : Int) = some (1000 + 65 * 16, s1) ∧
      slot_free s1 65 = false ∧
      priskv_slab_inuse s1 =
        priskv_slab_inuse (priskv_slab.mk 16 0 70 1000 0 [18446744073709551615, 63]) + 1 ∧
      (∀ j, j ≠ 65 → slot_free s1 j =
        slot_free (priskv_slab.mk 16 0 70 1000 0 [18446744073709551615, 63]) j) ∧
      s1.bitmap.length = 2 ∧ s1.base = 1000 ∧ s1.size = 16 ∧ s1.objects = 70 ∧
      ∀ s2 out2, SUntilFree (1000 + 65 * 16) s1 ((1000 + 65 * 16) :: []) s2 out2 →
        ∀ a s3, priskv_slab_alloc s2 = some (a, s3) → a ≠ some (1000 + 65 * 16) :=
  slab_reserve_slot (priskv_slab.mk 16 0 70 1000 0 [18446744073709551615, 63]) [] 65
    (@SReach.create 1000 16 70 _ (by decide) (by decide) (by decide)) (by decide) (by decide)

/-- A counter is zero or a power of two. -/
theorem WF_value {m : List Nat} : ∀ {d i : Nat}, WF m d i →
    rd m i = 0 ∨ ∃ j, j ≤ d ∧ rd m i = 2 ^ j
  | 0, i, h => by
    simp only [WF] at h
    rcases Nat.eq_zero_or_pos (rd m i) with h0 | h0
    · exact Or.inl h0
    · exact Or.inr ⟨0, le_rfl, by simp only [pow_zero]; omega⟩
  | d + 1, i, h => by
    obtain ⟨hl, hr, hc⟩ := h
    rcases hc with ⟨_, _, h3⟩ | ⟨_, h3⟩
    · rcases h3 with h3 | h3
      · exact Or.inr ⟨d + 1, le_rfl, h3⟩
      · exact Or.inl h3
    · rw [h3]
      rcases le_total (rd m (2 * i + 1)) (rd m (2 * i + 2)) with hle | hle
      · rw [max_eq_right hle]
        rcases WF_value hr with h0 | ⟨j, hj, h0⟩
        · exact Or.inl h0
        · exact Or.inr ⟨j, by omega, h0⟩
      · rw [max_eq_left hle]
        rcases WF_value hl with h0 | ⟨j, hj, h0⟩
        · exact Or.inl h0
        · exact Or.inr ⟨j, by omega, h0⟩

/-- The rounded-up block count of a request is a power of two. -/
theorem alloc_alignup_pow {bs size k : Nat} (h : alloc_alignup bs size = some k) :
    ∃ j, k = 2 ^ j := by
  unfold alloc_alignup at h
  split at h
  · simp at h
  · simp only at h
    split at h
    · rename_i hp
      simp only [Option.some.injEq] at h
      rw [← h]
      exact (IS_POWER_OF_2_iff _).1 hp
    · obtain ⟨j, _, hj⟩ := roundup_power_of_2_pow h
      exact ⟨j, hj⟩

/-- In a state with the invariant every aligned run of `2 ^ j` blocks inside the
buddy that meets no outstanding allocation is at most as long as the first
counter says. -/
theorem Inv.free_run_le {b : buddy} {out : List (Nat × Nat)} (hi : Inv b out) {j o : Nat}
    (hd : 2 ^ j ∣ o) (hin : o + 2 ^ j ≤ b.nmemb)
    (hfree : ∀ e ∈ out, runs_disjoint (run_of b e) (o, 2 ^ j)) : 2 ^ j ≤ rd b.meta 0 := by
  obtain ⟨D, hv, hp, hu, hz, hb⟩ := hi
  by_contra hlt
  have hjD : j ≤ D := by
    by_contra hc
    have : 2 ^ (D + 1) ≤ 2 ^ j := Nat.pow_le_pow_right (by decide) (by omega)
    rw [hv.2.1, pow_succ] at *
    have := two_pow_pos D
    omega
  obtain ⟨c, hc⟩ := hd
  obtain ⟨e, he, hov⟩ := busy_of_lt (k := 2 ^ j) rfl 0 o c hv.2.2.2 hjD (by omega)
    (by rw [hc]; ring) (by rw [← hv.2.1]; omega)
  have hbs : b.size ≠ 0 := by
    intro h0
    have := hp.symm.subset (List.mem_map_of_mem (to_addr b) he)
    rw [hz h0] at this
    exact absurd this (List.not_mem_nil _)
  have hmem : to_addr b e ∈ out := hp.symm.subset (List.mem_map_of_mem _ he)
  have := hfree _ hmem
  rw [run_of_to_addr hbs] at this
  exact hov this

/-- In a state with the invariant whose first counter is not zero an aligned run
of that many blocks meets no outstanding allocation. -/
theorem Inv.free_run_root {b : buddy} {out : List (Nat × Nat)} (hi : Inv b out)
    (h0 : rd b.meta 0 ≠ 0) :
    ∃ j o, rd b.meta 0 = 2 ^ j ∧ 2 ^ j ∣ o ∧ o + 2 ^ j ≤ b.nmemb ∧
      ∀ e ∈ out, runs_disjoint (run_of b e) (o, 2 ^ j) := by
  obtain ⟨D, hv, hp, hu, hz, hb⟩ := hi
  rcases WF_value hv.2.2.2 with hz0 | ⟨j, hjD, hj⟩
  · exact absurd hz0 h0
  · obtain ⟨_, _, w3⟩ := allocRec_spec (k := 2 ^ j) rfl 0 hv.2.2.2 hv.fits hjD (by rw [hj])
    have hmem : (targetOff b.meta (2 ^ j) D 0 0, 2 ^ j) ∈
        allocs (allocRec b.meta (2 ^ j) D 0) D 0 0 := w3.symm.subset (List.mem_cons_self _ _)
    obtain ⟨_, h2, j1, c, _, hk1, hc⟩ := allocs_mem hmem
    simp only [zero_add] at h2 hc
    have hpw : ((targetOff b.meta (2 ^ j) D 0 0, 2 ^ j) :: allocs b.meta D 0 0).Pairwise
        runs_disjoint :=
      w3.pairwise ((allocs_sorted D 0 0).imp (fun h => Or.inl h)) (fun {x y} h => h.symm)
    rw [List.pairwise_cons] at hpw
    simp only at hk1
    refine ⟨j, targetOff b.meta (2 ^ j) D 0 0, hj, ⟨c, ?_⟩, by rw [hv.2.1]; exact h2, ?_⟩
    · rw [hc, ← hk1, Nat.mul_comm]
    · intro e he
      obtain ⟨a, ha', rfl⟩ := List.mem_map.1 (hp.subset he)
      have hbs : b.size ≠ 0 := by
        intro hs0
        rw [hz hs0] at he
        exact absurd he (List.not_mem_nil _)
      rw [run_of_to_addr hbs]
      exact Or.symm (hpw.1 a ha')

/-- In a state with the invariant a request whose block count `k` is not above
the first counter: the descent ends on a node whose counter is `k`, and the
request gets an address. -/
theorem Inv.descent {b : buddy} {out : List (Nat × Nat)} (hi : Inv b out) {size k : Nat}
    (ha : alloc_alignup b.size size = some k) (hge : k ≤ rd b.meta 0) :
    (∃ index, alloc_descend b.meta k 64 b.nmemb 0 = some (index, k) ∧ rd b.meta index = k ∧
      rd b.meta index ≠ 0) ∧
    ∃ addr b1, priskv_buddy_alloc b size = some (some addr, b1) := by
  obtain ⟨D, hv, hp, hu, hz, hb⟩ := hi
  obtain ⟨j, hk⟩ := alloc_alignup_pow ha
  have hkpos := alloc_alignup_pos ha
  have hjD : j ≤ D := by
    by_contra hc
    have h1 : 2 ^ (D + 1) ≤ 2 ^ j := Nat.pow_le_pow_right (by decide) (by omega)
    have h2 := WF_le hv.2.2.2
    rw [pow_succ] at h1
    have := two_pow_pos D
    omega
  have hD := hv.1
  obtain ⟨t1, _, _⟩ := target_spec hk 0 hv.2.2.2 hv.fits hjD hge
  refine ⟨⟨target b.meta k D 0, ?_, t1, by omega⟩, ?_⟩
  · rw [hv.2.1]
    exact alloc_descend_eq hk hv.length_lt D 0 64 hv.fits hjD (by omega)
  · rw [alloc_code hv ha hk, if_neg (by omega)]
    exact ⟨_, _, rfl⟩

/-- In a state with the invariant a request that gets `NULL` has a block count
`k` such that every aligned run of `k` blocks in the buddy meets an outstanding
allocation. -/
theorem Inv.null_busy {b b1 : buddy} {out : List (Nat × Nat)} (hi : Inv b out) {size k : Nat}
    (ha : alloc_alignup b.size size = some k)
    (hn : priskv_buddy_alloc b size = some (none, b1)) {o : Nat} (hd : k ∣ o)
    (hin : o + k ≤ b.nmemb) : ∃ e ∈ out, ¬ runs_disjoint (run_of b e) (o, k) := by
  obtain ⟨j, hk⟩ := alloc_alignup_pow ha
  have hlt : rd b.meta 0 < k := by
    by_contra hge
    obtain ⟨_, addr, b2, h2⟩ := hi.descent ha (by omega)
    rw [h2] at hn
    simp only [Option.some.injEq, Prod.mk.injEq] at hn
    exact Option.noConfusion hn.1
  by_contra hne
  have hfree : ∀ e ∈ out, runs_disjoint (run_of b e) (o, 2 ^ j) := by
    intro e he
    by_contra hc
    exact hne ⟨e, he, by rw [hk]; exact hc⟩
  have := hi.free_run_le (by rw [← hk]; exact hd) (by rw [← hk]; exact hin) hfree
  omega

/-- C36: in every reachable state of a buddy of at most `2 ^ 30` blocks the
first counter is the length of the longest aligned power-of-two run that meets
no outstanding allocation (no such run is longer, and when the counter is not
zero a run of that length exists); when the counter is at least the block count
`k` of a request the descent of `priskv_buddy_alloc` ends on a node whose
counter is `k` and not zero, and the request gets an address; a request that
gets `NULL` has no free aligned run of `k` blocks. In the buddy of `2 ^ 31`
blocks of one byte, as `priskv_buddy_create` returns it, all blocks are free,
the first counter is 0 and `alloc(1)` returns `NULL`. -/
theorem buddy_root_counter :
    (∀ (b : buddy) (out : List (Nat × Nat)), Reach b out → b.nmemb * 2 < 4294967296 →
      (∀ j o, 2 ^ j ∣ o → o + 2 ^ j ≤ b.nmemb →
        (∀ e ∈ out, runs_disjoint (run_of b e) (o, 2 ^ j)) → 2 ^ j ≤ rd b.meta 0) ∧
      (rd b.meta 0 ≠ 0 → ∃ j o, rd b.meta 0 = 2 ^ j ∧ 2 ^ j ∣ o ∧ o + 2 ^ j ≤ b.nmemb ∧
        ∀ e ∈ out, runs_disjoint (run_of b e) (o, 2 ^ j)) ∧
      (∀ size k, alloc_alignup b.size size = some k → k ≤ rd b.meta 0 →
        (∃ index, alloc_descend b.meta k 64 b.nmemb 0 = some (index, k) ∧
          rd b.meta index = k ∧ rd b.meta index ≠ 0) ∧
        ∃ addr b1, priskv_buddy_alloc b size = some (some addr, b1)) ∧
      (∀ size k b1, alloc_alignup b.size size = some k →
        priskv_buddy_alloc b size = some (none, b1) →
        ∀ o, k ∣ o → o + k ≤ b.nmemb → ∃ e ∈ out, ¬ runs_disjoint (run_of b e) (o, k))) ∧
    (∃ b0, priskv_buddy_create 4096 2147483648 1 = some b0 ∧ Reach b0 [] ∧
      rd b0.meta 0 = 0 ∧ alloc_alignup b0.size 1 = some 1 ∧ 0 + 1 ≤ b0.nmemb ∧
      priskv_buddy_alloc b0 1 = some (none, b0)) := by
  refine ⟨fun b out h hn => ?_, ?_⟩
  · have hi : Inv b out := by
      rcases h.inv with hi | ⟨hw, _⟩
      · exact hi
      · have := hw.1
        omega
    exact ⟨fun j o hd hin hf => hi.free_run_le hd hin hf, hi.free_run_root,
      fun size k ha hge => hi.descent ha hge,
      fun size k b1 ha hnull o hd hin => hi.null_busy ha hnull hd hin⟩
  · have hc : priskv_buddy_create 4096 2147483648 1 =
        some ⟨2147483648, 0, 1, 4096, create_loop 4294967295 0 0⟩ := by
      unfold priskv_buddy_create
      have hp : IS_POWER_OF_2 2147483648 = true := by decide
      have e1 : u32 (2147483648 * 2) = 0 := by decide
      have e2 : u32 (0 + 4294967296 - 1) = 4294967295 := by decide
      simp only [hp, Bool.not_true, Bool.false_eq_true, if_false, e1, e2]
      rfl
    have hw : Wrapped ⟨2147483648, 0, 1, 4096, create_loop 4294967295 0 0⟩ :=
      ⟨rfl, rfl, by decide, rfl⟩
    exact ⟨_, hc, Reach.create (by decide) (by decide) hc, rd_of_getElem? hw.root,
      by decide, by decide, hw.alloc_eq (k := 1) (by decide)⟩

/-- The root counter of the example buddy is 1 and a request of one block gets
an address. -/
theorem buddy_root_counter_witness :
    Reach ex_buddy ex_out ∧ ex_buddy.nmemb * 2 < 4294967296 ∧
      alloc_alignup ex_buddy.size 100 = some 1 ∧ 1 ≤ rd ex_buddy.meta 0 ∧
      ∃ addr b1, priskv_buddy_alloc ex_buddy 100 = some (some addr, b1) :=
  ⟨ex_reach, by decide, by decide, by decide,
    ((buddy_root_counter.1 ex_buddy ex_out ex_reach (by decide)).2.2.1 100 1
      (by decide) (by decide)).2⟩

/-- C37: in every reachable state `priskv_buddy_free` of an outstanding address
returns a state in which a second `priskv_buddy_free` of the same address does
not fault and returns that state unchanged, counters and `inuse` included: the
search from the leaf passes non-zero counters up to the root and leaves. -/
theorem buddy_free_twice (b : buddy) (out : List (Nat × Nat)) (addr k : Nat)
    (h : Reach b out) (hm : (addr, k) ∈ out) :
    ∃ b1, priskv_buddy_free b addr = some b1 ∧ priskv_buddy_free b1 addr = some b1 ∧
      free_ascend b1.meta 64 1 (u32 ((addr - b1.base) / b1.size + b1.nmemb + 4294967296 - 1)) =
        some none := by
  rcases h.inv with hi | ⟨_, he⟩
  swap
  · rw [he] at hm
    exact absurd hm (List.not_mem_nil _)
  obtain ⟨D, hv, hp, hu, hz, hb⟩ := hi
  have hbs : b.size ≠ 0 := fun h0 => by rw [hz h0] at hm; simp at hm
  obtain ⟨e, he, hea⟩ := List.mem_map.1 (hp.subset hm)
  simp only [to_addr, Prod.mk.injEq] at hea
  obtain ⟨ha, hk⟩ := hea
  obtain ⟨_, b2, j, _, _, hkj, _⟩ := allocs_mem he
  have hk1 := two_pow_pos j
  simp only [zero_add] at b2
  obtain ⟨m1, q1, q2, q3⟩ := freeRec_spec 0 hv.2.2.2 hv.fits (by have := hv.1; omega) he
  simp only [Nat.sub_zero] at q1
  obtain ⟨hlen, _⟩ := freeRec_frame q1
  have hcode := free_code (o := e.1) hv hbs (by omega)
  rw [q1, ha] at hcode
  simp only at hcode
  have hv1 : Valid { b with meta := m1, inuse := u32 (b.inuse + 4294967296 - e.2) } D :=
    ⟨hv.1, hv.2.1, by simp only [hlen]; exact hv.2.2.1, q2⟩
  obtain ⟨hnone, _⟩ := freeRec_twice D 0 e.1 hv.fits q1
  have hcode1 := free_code (o := e.1) hv1 hbs (by omega)
  simp only [hnone, ha] at hcode1
  refine ⟨_, hcode, hcode1, ?_⟩
  have hD := hv.1
  have hD2 : 2 ^ D ≤ 2 ^ 30 := Nat.pow_le_pow_right (by decide) hv.1
  norm_num at hD2
  have hbr := (free_bridge hv1.length_lt D 0 e.1 hv1.fits (by omega) hv.1).1 hnone (63 - D)
  simp only [if_true] at hbr
  have e1 : 63 - D + D + 1 = 64 := by omega
  have e2 : (addr - b.base) / b.size = e.1 := by
    rw [← ha, Nat.add_sub_cancel_left, Nat.mul_div_cancel _ (Nat.pos_of_ne_zero hbs)]
  have e3 : u32 (e.1 + b.nmemb + 4294967296 - 1) = (0 + 1) * 2 ^ D - 1 + e.1 := by
    rw [hv.2.1]
    unfold u32
    omega
  rw [e1] at hbr
  simp only [e2, e3]
  exact hbr

/-- In the example buddy a second `priskv_buddy_free(1256)` changes nothing. -/
theorem buddy_free_twice_witness :
    (1256, 2) ∈ ex_out ∧
      ∃ b1, priskv_buddy_free ex_buddy 1256 = some b1 ∧ priskv_buddy_free b1 1256 = some b1 ∧
        free_ascend b1.meta 64 1
          (u32 ((1256 - b1.base) / b1.size + b1.nmemb + 4294967296 - 1)) = some none :=
  ⟨by decide, buddy_free_twice ex_buddy ex_out 1256 2 ex_reach (by decide)⟩

/-- With `nmemb = size = UINT32_MAX` the 64-bit product of
`priskv_buddy_mem_size` wraps: the result is smaller than the blocks alone. -/
theorem buddy_mem_size_counterexample :
    1 ≤ 4294967295 ∧ priskv_buddy_mem_size 4294967295 4294967295 = 25769803769 ∧
      priskv_buddy_mem_size 4294967295 4294967295 < 4294967295 * 4294967295 ∧
      ¬ (4294967295 * 4294967295 + (2 * 4294967295 - 1) * 4 ≤
        priskv_buddy_mem_size 4294967295 4294967295) := by
  refine ⟨by decide, ?_, ?_, ?_⟩ <;> simp [priskv_buddy_mem_size, u64]

/-- C40: for `nmemb >= 1` and a 32-bit block size the value of
`priskv_buddy_mem_size` is the product `nmemb * (size + 8)` exactly when that
product is below `2 ^ 64`, which holds for every `nmemb <= 2 ^ 31`; it is then at
least `nmemb * size + (2 * nmemb - 1) * 4`. Every 32-bit `nmemb` that
`priskv_buddy_create` accepts is at most `2 ^ 31`, and the counters written are
`2 * nmemb - 1`. -/
theorem buddy_mem_size_holds (nmemb size : Nat) (h1 : 1 ≤ nmemb) (hn : nmemb < 4294967296)
    (hs : size < 4294967296) :
    (priskv_buddy_mem_size nmemb size = nmemb * (size + 8) ↔
      nmemb * (size + 8) < 18446744073709551616) ∧
    (nmemb ≤ 2147483648 → nmemb * (size + 8) < 18446744073709551616) ∧
    (nmemb * (size + 8) < 18446744073709551616 →
      nmemb * size + (2 * nmemb - 1) * 4 ≤ priskv_buddy_mem_size nmemb size) ∧
    (∀ base b, priskv_buddy_create base nmemb size = some b →
      nmemb ≤ 2147483648 ∧ b.meta.length = 2 * nmemb - 1 ∧ b.nmemb = nmemb ∧ b.size = size) := by
  have e8 : u64 (size + 4 * 2) = size + 8 := by unfold u64; omega
  have hms : priskv_buddy_mem_size nmemb size = nmemb * (size + 8) % 18446744073709551616 := by
    unfold priskv_buddy_mem_size
    rw [e8]
    rfl
  have hsmall : nmemb ≤ 2147483648 → nmemb * (size + 8) < 18446744073709551616 := by
    intro hle
    calc nmemb * (size + 8) ≤ 2147483648 * (size + 8) := Nat.mul_le_mul_right _ hle
      _ < 18446744073709551616 := by omega
  refine ⟨?_, hsmall, ?_, ?_⟩
  · rw [hms]
    constructor
    · intro h
      rw [← h]
      exact Nat.mod_lt _ (by decide)
    · intro h
      exact Nat.mod_eq_of_lt h
  · intro h
    rw [hms, Nat.mod_eq_of_lt h, Nat.mul_add]
    omega
  · intro base b hc
    rcases create_cases hn hc with h2 | h2
    · refine ⟨by omega, ?_⟩
      unfold priskv_buddy_create at hc
      split at hc
      · simp at hc
      · split at hc
        · simp at hc
        · simp only [Option.some.injEq] at hc
          rw [← hc]
          simp only [create_loop_length, true_and, and_true]
          unfold u32
          omega
    · subst h2
      obtain ⟨hw, e1, e2⟩ := create_wrapped hc
      refine ⟨le_rfl, ?_, hw.1, e1⟩
      rw [hw.2.2.2, create_loop_length]

/-- The case of the test: one block of `UINT32_MAX` bytes. -/
theorem buddy_mem_size_holds_witness :
    priskv_buddy_mem_size 1 4294967295 = 4294967303 ∧
      1 * 4294967295 + (2 * 1 - 1) * 4 ≤ priskv_buddy_mem_size 1 4294967295 :=
  ⟨by
    have h := (buddy_mem_size_holds 1 4294967295 (by decide) (by decide) (by decide)).1.2
      (by decide)
    exact h,
   (buddy_mem_size_holds 1 4294967295 (by decide) (by decide) (by decide)).2.2.1 (by decide)⟩

/-- What `priskv_slab_alloc` does, word by word: `NULL` and no change when every
word is zero; else it takes the lowest set bit `b` of the first word `w` that is
not zero in the cyclic order that starts at `lindex`. -/
theorem slab_alloc_words {s : priskv_slab} (h : SWF s) (hin : s.inuse ≤ s.objects) :
    ((∀ w ∈ s.bitmap, w = 0) ∧ priskv_slab_alloc s = some (none, s)) ∨
    ∃ w b, w < s.bitmap.length ∧ b < 64 ∧ s.bitmap.getD w 0 ≠ 0 ∧
      ((s.lindex ≤ w ∧ ∀ y, s.lindex ≤ y → y < w → s.bitmap.getD y 0 = 0) ∨
       (w < s.lindex ∧ (∀ y, s.lindex ≤ y → y < s.bitmap.length → s.bitmap.getD y 0 = 0) ∧
         ∀ y, y < w → s.bitmap.getD y 0 = 0)) ∧
      (s.bitmap.getD w 0).testBit b = true ∧
      (∀ t, t < b → (s.bitmap.getD w 0).testBit t = false) ∧
      64 * w + b < s.objects ∧
      priskv_slab_alloc s = some (some (s.base + (64 * w + b) * s.size),
        { s with bitmap := s.bitmap.set w (clear_bit (s.bitmap.getD w 0) b),
                 inuse := s.inuse + 1, lindex := w }) := by
  have hl := h.2.2.2.2.2.2.1
  have hnz : ∀ {x b : Nat}, b < 64 → slot_free s (64 * x + b) = true →
      s.bitmap.getD x 0 ≠ 0 := fun {x b} hb hf h0 => by
    rw [slot_free_word s x b hb, h0, Nat.zero_testBit] at hf
    exact Bool.noConfusion hf
  unfold priskv_slab_alloc
  simp only [slab_words s h]
  rcases slab_scan_spec h hin (le_refl s.bitmap.length) s.bitmap.length s.lindex (by omega) with
    ⟨hz, he⟩ | ⟨x, b, h1, h2, h3, h4, h5, h6, h7⟩
  · rw [he]
    rcases slab_scan_spec h hin (le_of_lt hl) s.lindex 0 (by omega) with
      ⟨hz2, he2⟩ | ⟨x, b, h1, h2, h3, h4, h5, h6, h7⟩
    · left
      rw [he2]
      refine ⟨fun w hw => ?_, rfl⟩
      obtain ⟨x, hx, e⟩ := List.getElem_of_mem hw
      have hg : s.bitmap.getD x 0 = w := by
        rw [List.getD_eq_getElem?_getD, List.getElem?_eq_getElem hx, e]; rfl
      rw [← hg]
      by_cases hxl : s.lindex ≤ x
      · exact hz x hxl hx
      · exact hz2 x (Nat.zero_le _) (by omega)
    · right
      rw [h7]
      refine ⟨x, b, by omega, h3, hnz h3 h5,
        Or.inr ⟨h2, hz, fun y hy => h4 y (Nat.zero_le _) hy⟩, ?_, fun t ht => ?_,
        h.2.2.2.2.2.2.2 _ h5, ?_⟩
      · rw [← slot_free_word s x b h3]; exact h5
      · rw [← slot_free_word s x t (by omega)]; exact h6 t ht
      · rw [take_slot_word s x b h3]
  · right
    rw [h7]
    refine ⟨x, b, h2, h3, hnz h3 h5, Or.inl ⟨h1, h4⟩, ?_, fun t ht => ?_,
      h.2.2.2.2.2.2.2 _ h5, ?_⟩
    · rw [← slot_free_word s x b h3]; exact h5
    · rw [← slot_free_word s x t (by omega)]; exact h6 t ht
    · rw [take_slot_word s x b h3]

/-- A free slot has a word that is not zero in the bitmap. -/
theorem word_of_slot_free {s : priskv_slab} {i : Nat} (hf : slot_free s i = true) :
    ∃ w ∈ s.bitmap, w ≠ 0 := by
  unfold slot_free at hf
  by_cases hx : i / 64 < s.bitmap.length
  · refine ⟨s.bitmap.getD (i / 64) 0, ?_, fun h0 => ?_⟩
    · rw [List.getD_eq_getElem?_getD, List.getElem?_eq_getElem hx]
      exact List.getElem_mem hx
    · rw [h0, Nat.zero_testBit] at hf
      exact Bool.noConfusion hf
  · rw [List.getD_eq_getElem?_getD, List.getElem?_eq_none (by omega)] at hf
    simp at hf

/-- C35: in every reachable state of a slab the bitmap has `ceil(objects / 64)`
words and `priskv_slab_alloc` does not fault. Either every word is zero, the
result is `NULL` and the state is unchanged, `lindex` included; or the result is
the address of slot `64 * w + b`, where `w` is the first word that is not zero in
the cyclic order `lindex, ..., W - 1, 0, ..., lindex - 1` and `b` its lowest set
bit, that bit is cleared, `inuse` grows by one and `lindex` becomes `w`. So the
result is `NULL` exactly when every word is zero, and never while a slot is free. -/
theorem slab_alloc_cyclic (s : priskv_slab) (out : List Nat) (hr : SReach s out) :
    s.bitmap.length = (s.objects + 63) / 64 ∧
    (((∀ w ∈ s.bitmap, w = 0) ∧ priskv_slab_alloc s = some (none, s)) ∨
     ∃ w b, w < s.bitmap.length ∧ b < 64 ∧ s.bitmap.getD w 0 ≠ 0 ∧
      ((s.lindex ≤ w ∧ ∀ y, s.lindex ≤ y → y < w → s.bitmap.getD y 0 = 0) ∨
       (w < s.lindex ∧ (∀ y, s.lindex ≤ y → y < s.bitmap.length → s.bitmap.getD y 0 = 0) ∧
         ∀ y, y < w → s.bitmap.getD y 0 = 0)) ∧
      (s.bitmap.getD w 0).testBit b = true ∧
      (∀ t, t < b → (s.bitmap.getD w 0).testBit t = false) ∧
      64 * w + b < s.objects ∧
      priskv_slab_alloc s = some (some (s.base + (64 * w + b) * s.size),
        { s with bitmap := s.bitmap.set w (clear_bit (s.bitmap.getD w 0) b),
                 inuse := s.inuse + 1, lindex := w })) ∧
    (∀ a s1, priskv_slab_alloc s = some (a, s1) → (a = none ↔ ∀ w ∈ s.bitmap, w = 0)) ∧
    (∀ i, slot_free s i = true → ∃ addr s1, priskv_slab_alloc s = some (some addr, s1)) := by
  have hinv := hr.slab_inv
  have hsp := slab_alloc_words hinv.1 hinv.inuse_le
  refine ⟨hinv.1.2.2.2.2.1, hsp, fun a s1 ha => ?_, fun i hf => ?_⟩
  · rcases hsp with ⟨hz, he⟩ | ⟨w, b, hw, _, h0, _, _, _, _, he⟩
    · rw [he] at ha
      simp only [Option.some.injEq, Prod.mk.injEq] at ha
      exact ⟨fun _ => hz, fun _ => ha.1.symm⟩
    · rw [he] at ha
      simp only [Option.some.injEq, Prod.mk.injEq] at ha
      constructor
      · intro hn
        rw [hn] at ha
        exact Option.noConfusion ha.1
      · intro hz
        exfalso
        apply h0
        rw [List.getD_eq_getElem?_getD, List.getElem?_eq_getElem hw]
        exact hz _ (List.getElem_mem hw)
  · rcases hsp with ⟨hz, _⟩ | ⟨w, b, _, _, _, _, _, _, _, he⟩
    · obtain ⟨w, hw, hne⟩ := word_of_slot_free hf
      exact absurd (hz w hw) hne
    · exact ⟨_, _, he⟩

set_option maxRecDepth 4000 in
/-- In the fresh slab of 70 objects slot 0 is free and the allocation gets an
address. -/
theorem slab_alloc_cyclic_witness :
    slot_free (priskv_slab.mk 16 0 70 1000 0 [18446744073709551615, 63]) 0 = true ∧
      ∃ addr s1, priskv_slab_alloc (priskv_slab.mk 16 0 70 1000 0 [18446744073709551615, 63]) =
        some (some addr, s1) :=
  ⟨by decide,
    (slab_alloc_cyclic (priskv_slab.mk 16 0 70 1000 0 [18446744073709551615, 63]) []
      (@SReach.create 1000 16 70 _ (by decide) (by decide) (by decide))).2.2.2 0 (by decide)⟩

set_option maxRecDepth 4000 in
/-- In a fresh slab of one object `priskv_slab_reserve(0)` twice leaves `inuse`
at 2 with one slot taken; in a fresh slab of two objects two allocations and two
calls of `priskv_slab_free` with the first address leave `inuse` at 0 with one
slot taken. -/
theorem slab_inuse_counterexample :
    (∃ s0 a1 s1 a2 s2, priskv_slab_create 4096 1 1 = some s0 ∧
      priskv_slab_reserve s0 0 = some (a1, s1) ∧ priskv_slab_reserve s1 0 = some (a2, s2) ∧
      priskv_slab_inuse s2 = 2 ∧ s2.objects = 1 ∧
      ((Finset.range s2.objects).filter (fun i => slot_free s2 i = false)).card = 1) ∧
    (∃ s0 a1 s1 a2 s2 s3 s4, priskv_slab_create 4096 1 2 = some s0 ∧
      priskv_slab_alloc s0 = some (some a1, s1) ∧ priskv_slab_alloc s1 = some (some a2, s2) ∧
      priskv_slab_free s2 a1 = slab_result.ok s3 ∧ priskv_slab_free s3 a1 = slab_result.ok s4 ∧
      priskv_slab_inuse s4 = 0 ∧
      ((Finset.range s4.objects).filter (fun i => slot_free s4 i = false)).card = 1) := by
  refine ⟨⟨⟨1, 0, 1, 4096, 0, [1]⟩, 4096, ⟨1, 1, 1, 4096, 0, [0]⟩, 4096,
      ⟨1, 2, 1, 4096, 0, [0]⟩, by decide, by decide, by decide, by decide, by decide,
      by decide⟩,
    ⟨⟨1, 0, 2, 4096, 0, [3]⟩, 4096, ⟨1, 1, 2, 4096, 0, [2]⟩, 4097, ⟨1, 2, 2, 4096, 0, [0]⟩,
      ⟨1, 1, 2, 4096, 0, [1]⟩, ⟨1, 0, 2, 4096, 0, [1]⟩, by decide, by decide, by decide,
      by decide, by decide, by decide, by decide⟩⟩

/-- C38: in every state reached from `priskv_slab_create` by calls of
`priskv_slab_alloc`, of `priskv_slab_reserve` for a free slot below `objects` and
of `priskv_slab_free` for an outstanding address, `priskv_slab_inuse` is the
number of slots below `objects` whose bit is clear, it is at most `objects`, and
it is the number of outstanding addresses. -/
theorem slab_inuse_counts (s : priskv_slab) (out : List Nat) (hr : SReach s out) :
    priskv_slab_inuse s =
      ((Finset.range s.objects).filter (fun i => slot_free s i = false)).card ∧
    priskv_slab_inuse s ≤ s.objects ∧ priskv_slab_inuse s = out.length := by
  have hinv := hr.slab_inv
  refine ⟨hinv.2.1, hinv.inuse_le, ?_⟩
  have hs := hinv.1.1
  have hset : out.toFinset = (taken s).image (fun i => s.base + i * s.size) := by
    ext a
    simp only [List.mem_toFinset, Finset.mem_image, hinv.2.2.2 a]
    constructor
    · rintro ⟨i, hi, e⟩
      exact ⟨i, hi, e.symm⟩
    · rintro ⟨i, hi, e⟩
      exact ⟨i, hi, e.symm⟩
  have hc := List.toFinset_card_of_nodup hinv.2.2.1
  rw [hset, Finset.card_image_of_injective _ (fun i j e => addr_inj hs e)] at hc
  show s.inuse = out.length
  rw [hinv.2.1, hc]

/-- The slab of four objects after `priskv_slab_alloc`, which returns slot 0,
`priskv_slab_reserve(2)` and `priskv_slab_free` of the address of slot 0: one
address is outstanding, `inuse` is 1 and one slot, slot 2, is taken. -/
theorem slab_inuse_counts_witness :
    priskv_slab_create 4096 16 4 = some (priskv_slab.mk 16 0 4 4096 0 [15]) ∧
    priskv_slab_alloc (priskv_slab.mk 16 0 4 4096 0 [15]) =
      some (some 4096, priskv_slab.mk 16 1 4 4096 0 [14]) ∧
    priskv_slab_reserve (priskv_slab.mk 16 1 4 4096 0 [14]) 2 =
      some (4128, priskv_slab.mk 16 2 4 4096 0 [10]) ∧
    priskv_slab_free (priskv_slab.mk 16 2 4 4096 0 [10]) 4096 =
      slab_result.ok (priskv_slab.mk 16 1 4 4096 0 [11]) ∧
    SReach (priskv_slab.mk 16 1 4 4096 0 [11]) [4128] ∧
    (priskv_slab_inuse (priskv_slab.mk 16 1 4 4096 0 [11]) =
      ((Finset.range (priskv_slab.mk 16 1 4 4096 0 [11]).objects).filter (fun i =>
        slot_free (priskv_slab.mk 16 1 4 4096 0 [11]) i = false)).card ∧
     priskv_slab_inuse (priskv_slab.mk 16 1 4 4096 0 [11]) ≤
      (priskv_slab.mk 16 1 4 4096 0 [11]).objects ∧
     priskv_slab_inuse (priskv_slab.mk 16 1 4 4096 0 [11]) = [4128].length) ∧
    priskv_slab_inuse (priskv_slab.mk 16 1 4 4096 0 [11]) = 1 :=
  have h0 : SReach (priskv_slab.mk 16 0 4 4096 0 [15]) [] :=
    @SReach.create 4096 16 4 _ (by decide) (by decide) (by decide)
  have h1 : SReach (priskv_slab.mk 16 1 4 4096 0 [14]) [4096] :=
    SReach.step h0 (@SStep.alloc _ _ [] 4096 (by decide))
  have h2 : SReach (priskv_slab.mk 16 2 4 4096 0 [10]) [4128, 4096] :=
    SReach.step h1 (@SStep.reserve _ _ [4096] 2 4128 (by decide) (by decide) (by decide))
  have h3 : SReach (priskv_slab.mk 16 1 4 4096 0 [11]) [4128] :=
    SReach.step h2 (@SStep.free _ (priskv_slab.mk 16 1 4 4096 0 [11]) [4128, 4096] 4096
      (by decide) (by decide))
  ⟨by decide, by decide, by decide, by decide, h3,
    slab_inuse_counts (priskv_slab.mk 16 1 4 4096 0 [11]) [4128] h3, by decide⟩

/-! ## The LRU policy: the recency list and the hash table -/

theorem list_del_of_not_mem {k : String} : ∀ {l : List String}, k ∉ l → list_del k l = l
  | [], _ => rfl
  | x :: l, h => by
    have h1 : x ≠ k := fun e => h (e ▸ List.mem_cons_self _ _)
    have h2 : k ∉ l := fun hm => h (List.mem_cons_of_mem _ hm)
    simp only [list_del, if_neg h1, list_del_of_not_mem h2]

theorem list_del_eq_filter {k : String} : ∀ {l : List String}, l.Nodup →
    list_del k l = l.filter (fun x => decide (x ≠ k))
  | [], _ => rfl
  | x :: l, h => by
    have h' := List.nodup_cons.1 h
    simp only [list_del]
    by_cases hx : x = k
    · subst hx
      rw [if_pos rfl, List.filter_cons_of_neg (by simp)]
      rw [← list_del_eq_filter h'.2, list_del_of_not_mem h'.1]
    · rw [if_neg hx, List.filter_cons_of_pos (by simpa using hx), list_del_eq_filter h'.2]

theorem mem_list_del {k x : String} {l : List String} (h : l.Nodup) :
    x ∈ list_del k l ↔ x ∈ l ∧ x ≠ k := by
  rw [list_del_eq_filter h, List.mem_filter]; simp

theorem nodup_list_del {k : String} {l : List String} (h : l.Nodup) : (list_del k l).Nodup := by
  rw [list_del_eq_filter h]; exact h.filter _

theorem HASH_FIND_STR_some {k : String} {n : priskv_lru_node} :
    ∀ {hm : List priskv_lru_node}, HASH_FIND_STR hm k = some n → n.key = k ∧ n ∈ hm
  | [], h => by simp [HASH_FIND_STR] at h
  | m :: hm, h => by
    simp only [HASH_FIND_STR] at h
    by_cases hk : m.key = k
    · rw [if_pos hk] at h
      cases h
      exact ⟨hk, List.mem_cons_self _ _⟩
    · rw [if_neg hk] at h
      exact ⟨(HASH_FIND_STR_some h).1, List.mem_cons_of_mem _ (HASH_FIND_STR_some h).2⟩

theorem HASH_FIND_STR_none {k : String} :
    ∀ {hm : List priskv_lru_node}, HASH_FIND_STR hm k = none ↔ k ∉ hm.map priskv_lru_node.key
  | [] => by simp [HASH_FIND_STR]
  | m :: hm => by
    simp only [HASH_FIND_STR, List.map_cons, List.mem_cons, not_or]
    by_cases hk : m.key = k
    · rw [if_pos hk]; simp [hk]
    · rw [if_neg hk, HASH_FIND_STR_none]
      exact ⟨fun h => ⟨fun e => hk e.symm, h⟩, fun h => h.2⟩

theorem HASH_FIND_STR_isSome {k : String} {hm : List priskv_lru_node}
    (h : k ∈ hm.map priskv_lru_node.key) : ∃ n, HASH_FIND_STR hm k = some n := by
  cases hf : HASH_FIND_STR hm k with
  | none => exact absurd h (HASH_FIND_STR_none.1 hf)
  | some n => exact ⟨n, rfl⟩

theorem HASH_FIND_STR_append {k : String} {n : priskv_lru_node} :
    ∀ {hm : List priskv_lru_node}, HASH_FIND_STR (hm ++ [n]) k =
      match HASH_FIND_STR hm k with
      | some m => some m
      | none => if n.key = k then some n else none
  | [] => by simp [HASH_FIND_STR]
  | m :: hm => by
    show HASH_FIND_STR (m :: (hm ++ [n])) k = _
    simp only [HASH_FIND_STR]
    by_cases hk : m.key = k
    · simp only [if_pos hk]
    · simp only [if_neg hk]
      exact HASH_FIND_STR_append

theorem HASH_DEL_keys {k : String} : ∀ {hm : List priskv_lru_node},
    (HASH_DEL hm k).map priskv_lru_node.key = list_del k (hm.map priskv_lru_node.key)
  | [] => rfl
  | m :: hm => by
    simp only [HASH_DEL, List.map_cons, list_del]
    by_cases hk : m.key = k
    · rw [if_pos hk, if_pos hk]
    · rw [if_neg hk, if_neg hk, List.map_cons, HASH_DEL_keys]

theorem HASH_DEL_subset {k : String} : ∀ {hm : List priskv_lru_node} {n : priskv_lru_node},
    n ∈ HASH_DEL hm k → n ∈ hm
  | [], _, h => by simp [HASH_DEL] at h
  | m :: hm, n, h => by
    simp only [HASH_DEL] at h
    by_cases hk : m.key = k
    · rw [if_pos hk] at h; exact List.mem_cons_of_mem _ h
    · rw [if_neg hk] at h
      rcases List.mem_cons.1 h with e | e
      · exact e ▸ List.mem_cons_self _ _
      · exact List.mem_cons_of_mem _ (HASH_DEL_subset e)

theorem HASH_FIND_STR_del {k x : String} : ∀ {hm : List priskv_lru_node},
    (hm.map priskv_lru_node.key).Nodup →
    HASH_FIND_STR (HASH_DEL hm k) x = if x = k then none else HASH_FIND_STR hm x
  | [], _ => by simp [HASH_DEL, HASH_FIND_STR]
  | m :: hm, h => by
    rw [List.map_cons, List.nodup_cons] at h
    simp only [HASH_DEL]
    by_cases hk : m.key = k
    · rw [if_pos hk]
      by_cases hx : x = k
      · rw [if_pos hx, HASH_FIND_STR_none, hx, ← hk]; exact h.1
      · rw [if_neg hx]
        simp only [HASH_FIND_STR]
        rw [if_neg (fun e => hx (by rw [← e, hk]))]
    · rw [if_neg hk]
      simp only [HASH_FIND_STR]
      by_cases hm1 : m.key = x
      · rw [if_pos hm1, if_pos hm1, if_neg (fun e => hk (by rw [hm1, e]))]
      · rw [if_neg hm1, if_neg hm1, HASH_FIND_STR_del h.2]

theorem set_ref_count_keys {k : String} {v : Int} : ∀ {hm : List priskv_lru_node},
    (set_ref_count hm k v).map priskv_lru_node.key = hm.map priskv_lru_node.key
  | [] => rfl
  | m :: hm => by
    simp only [set_ref_count]
    by_cases hk : m.key = k
    · rw [if_pos hk]; rfl
    · rw [if_neg hk, List.map_cons, List.map_cons, set_ref_count_keys]

theorem mem_set_ref_count {k : String} {v : Int} : ∀ {hm : List priskv_lru_node}
    {n : priskv_lru_node}, n ∈ set_ref_count hm k v → n ∈ hm ∨ n.ref_count = v
  | [], _, h => by simp [set_ref_count] at h
  | m :: hm, n, h => by
    simp only [set_ref_count] at h
    by_cases hk : m.key = k
    · rw [if_pos hk] at h
      rcases List.mem_cons.1 h with e | e
      · right; rw [e]
      · left; exact List.mem_cons_of_mem _ e
    · rw [if_neg hk] at h
      rcases List.mem_cons.1 h with e | e
      · left; exact e ▸ List.mem_cons_self _ _
      · rcases mem_set_ref_count e with e1 | e1
        · left; exact List.mem_cons_of_mem _ e1
        · right; exact e1

theorem HASH_FIND_STR_set {k x : String} {v : Int} : ∀ {hm : List priskv_lru_node},
    HASH_FIND_STR (set_ref_count hm k v) x =
      if x = k then (HASH_FIND_STR hm x).map (fun n => { n with ref_count := v })
      else HASH_FIND_STR hm x
  | [] => by simp [set_ref_count, HASH_FIND_STR]
  | m :: hm => by
    simp only [set_ref_count]
    by_cases hk : m.key = k
    · rw [if_pos hk]
      simp only [HASH_FIND_STR]
      by_cases hx : x = k
      · rw [if_pos hx, if_pos (by rw [hk, hx]), if_pos (by rw [hk, hx])]; rfl
      · rw [if_neg hx, if_neg (fun e => hx (by rw [← e, hk])),
          if_neg (fun e => hx (by rw [← e, hk]))]
    · rw [if_neg hk]
      simp only [HASH_FIND_STR]
      by_cases hm1 : m.key = x
      · rw [if_pos hm1, if_pos hm1, if_neg (fun e => hk (by rw [hm1, e]))]
      · rw [if_neg hm1, if_neg hm1, HASH_FIND_STR_set]

/-! ## The LRU policy: what the functions do -/

theorem LInv.find_of_mem {lru : priskv_policy_lru} (h : LInv lru) {k : String}
    (hk : k ∈ lru.head) : ∃ n, HASH_FIND_STR lru.hashmap k = some n ∧ n.key = k ∧
      0 ≤ n.ref_count ∧ n.ref_count ≤ 2147483647 := by
  obtain ⟨n, hn⟩ := HASH_FIND_STR_isSome ((h.2.2.1 k).1 hk)
  obtain ⟨h1, h2⟩ := HASH_FIND_STR_some hn
  exact ⟨n, hn, h1, h.2.2.2 n h2⟩

theorem LInv.find_of_not_mem {lru : priskv_policy_lru} (h : LInv lru) {k : String}
    (hk : k ∉ lru.head) : HASH_FIND_STR lru.hashmap k = none :=
  HASH_FIND_STR_none.2 fun hm => hk ((h.2.2.1 k).2 hm)

theorem LInv.mem_of_find {lru : priskv_policy_lru} (h : LInv lru) {k : String}
    {n : priskv_lru_node} (hn : HASH_FIND_STR lru.hashmap k = some n) : k ∈ lru.head := by
  by_contra hk
  rw [h.find_of_not_mem hk] at hn
  exact Option.noConfusion hn

theorem ref_of_of_find {lru : priskv_policy_lru} {k : String} {n : priskv_lru_node}
    (hn : HASH_FIND_STR lru.hashmap k = some n) : ref_of lru k = n.ref_count := by
  unfold ref_of; rw [hn]

theorem ref_of_eq (lru : priskv_policy_lru) (k : String) :
    ref_of lru k = ((HASH_FIND_STR lru.hashmap k).map priskv_lru_node.ref_count).getD 0 := by
  unfold ref_of
  cases HASH_FIND_STR lru.hashmap k <;> rfl

theorem LInv.ref_of_absent {lru : priskv_policy_lru} (h : LInv lru) {k : String}
    (hk : k ∉ lru.head) : ref_of lru k = 0 := by
  unfold ref_of; rw [h.find_of_not_mem hk]

theorem LInv.ref_of_range {lru : priskv_policy_lru} (h : LInv lru) (k : String) :
    0 ≤ ref_of lru k ∧ ref_of lru k ≤ 2147483647 := by
  by_cases hk : k ∈ lru.head
  · obtain ⟨n, hn, _, h1⟩ := h.find_of_mem hk
    rw [ref_of_of_find hn]; exact h1
  · rw [h.ref_of_absent hk]; decide

/-- The entries are the keys of the recency list, each with its reference count. -/
theorem entries_eq {lru : priskv_policy_lru} (h : LInv lru) :
    entries lru = lru.head.map (fun k => { key := k, ref_count := ref_of lru k }) := by
  unfold entries
  have : ∀ l : List String, (∀ k ∈ l, k ∈ lru.head) →
      l.filterMap (HASH_FIND_STR lru.hashmap) =
        l.map (fun k => { key := k, ref_count := ref_of lru k }) := by
    intro l
    induction l with
    | nil => intro _; rfl
    | cons k l ih =>
      intro hl
      obtain ⟨n, hn, hkey, _⟩ := h.find_of_mem (hl k (List.mem_cons_self _ _))
      rw [List.filterMap_cons, hn, List.map_cons, ref_of_of_find hn,
        ih (fun x hx => hl x (List.mem_cons_of_mem _ hx))]
      simp only [List.cons.injEq, and_true]
      rw [← hkey]
  exact this _ (fun _ hk => hk)

theorem filter_ne_of_not_mem {k : String} {l : List String} (h : k ∉ l) :
    l.filter (fun x => decide (x ≠ k)) = l := by
  rw [List.filter_eq_self]
  intro x hx
  have hne : x ≠ k := by rintro rfl; exact h hx
  simp [hne]

/-- What `lru_policy_access` does: the key goes to the front of the recency list
and no reference count changes. -/
theorem access_spec {lru : priskv_policy_lru} (h : LInv lru) (key : String) :
    (lru_policy_access lru key).head = key :: lru.head.filter (fun x => decide (x ≠ key)) ∧
    (∀ x, ref_of (lru_policy_access lru key) x = ref_of lru x) ∧
    LInv (lru_policy_access lru key) := by
  obtain ⟨h1, h2, h3, h4⟩ := h
  cases hf : HASH_FIND_STR lru.hashmap key with
  | some node =>
    obtain ⟨hk, _⟩ := HASH_FIND_STR_some hf
    have hmem : key ∈ lru.head := LInv.mem_of_find ⟨h1, h2, h3, h4⟩ hf
    have e : lru_policy_access lru key =
        { lru with head := key :: list_del key lru.head } := by
      unfold lru_policy_access; rw [hf]; simp only [list_add, hk]
    rw [e]
    refine ⟨by rw [list_del_eq_filter h1], fun x => rfl, ?_, h2, fun x => ?_, h4⟩
    · exact List.nodup_cons.2 ⟨fun hm => ((mem_list_del h1).1 hm).2 rfl, nodup_list_del h1⟩
    · rw [← h3 x]
      show x ∈ key :: list_del key lru.head ↔ _
      rw [List.mem_cons, mem_list_del h1]
      constructor
      · rintro (e1 | e1)
        · rw [e1]; exact hmem
        · exact e1.1
      · intro hx
        by_cases e1 : x = key
        · exact Or.inl e1
        · exact Or.inr ⟨hx, e1⟩
  | none =>
    have hnk := HASH_FIND_STR_none.1 hf
    have hmem : key ∉ lru.head := fun hm => hnk ((h3 key).1 hm)
    have e : lru_policy_access lru key =
        { head := key :: lru.head,
          hashmap := lru.hashmap ++ [priskv_lru_node.mk key 0] } := by
      unfold lru_policy_access; rw [hf]; rfl
    rw [e]
    refine ⟨by rw [filter_ne_of_not_mem hmem], fun x => ?_, ?_, ?_, fun x => ?_, fun n hn => ?_⟩
    · rw [ref_of_eq, ref_of_eq]
      show ((HASH_FIND_STR (lru.hashmap ++ [priskv_lru_node.mk key 0]) x).map _).getD 0 = _
      rw [HASH_FIND_STR_append]
      cases hx : HASH_FIND_STR lru.hashmap x with
      | some m => rfl
      | none =>
        by_cases e1 : key = x
        · simp [e1]
        · simp [e1]
    · exact List.nodup_cons.2 ⟨hmem, h1⟩
    · show ((lru.hashmap ++ [priskv_lru_node.mk key 0]).map priskv_lru_node.key).Nodup
      rw [List.map_append, List.nodup_append]
      refine ⟨h2, by simp, ?_⟩
      intro a ha hb
      simp only [List.map_cons, List.map_nil, List.mem_singleton] at hb
      exact hnk (hb ▸ ha)
    · show x ∈ key :: lru.head ↔
        x ∈ (lru.hashmap ++ [priskv_lru_node.mk key 0]).map priskv_lru_node.key
      rw [List.map_append, List.mem_append, List.mem_cons, h3 x]
      simp only [List.map_cons, List.map_nil, List.mem_singleton]
      exact Or.comm
    · rcases List.mem_append.1 hn with e1 | e1
      · exact h4 n e1
      · rw [List.mem_singleton] at e1
        subst e1; exact ⟨le_refl _, by show (0 : Int) ≤ 2147483647; decide⟩

/-- What `lru_policy_del_key` does: the key leaves the recency list and the hash
table, and nothing else changes. -/
theorem del_key_spec {lru : priskv_policy_lru} (h : LInv lru) (key : String) :
    (lru_policy_del_key lru key).head = lru.head.filter (fun x => decide (x ≠ key)) ∧
    (∀ x, ref_of (lru_policy_del_key lru key) x = if x = key then 0 else ref_of lru x) ∧
    LInv (lru_policy_del_key lru key) := by
  obtain ⟨h1, h2, h3, h4⟩ := h
  cases hf : HASH_FIND_STR lru.hashmap key with
  | some node =>
    obtain ⟨hk, _⟩ := HASH_FIND_STR_some hf
    have e : lru_policy_del_key lru key =
        { head := list_del key lru.head, hashmap := HASH_DEL lru.hashmap key } := by
      unfold lru_policy_del_key; rw [hf]; simp only [hk]
    rw [e]
    refine ⟨list_del_eq_filter h1, fun x => ?_, nodup_list_del h1, ?_, fun x => ?_,
      fun n hn => h4 n (HASH_DEL_subset hn)⟩
    · rw [ref_of_eq]
      show ((HASH_FIND_STR (HASH_DEL lru.hashmap key) x).map _).getD 0 = _
      rw [HASH_FIND_STR_del h2]
      by_cases e1 : x = key
      · rw [if_pos e1, if_pos e1]; rfl
      · rw [if_neg e1, if_neg e1, ref_of_eq]
    · show ((HASH_DEL lru.hashmap key).map priskv_lru_node.key).Nodup
      rw [HASH_DEL_keys]; exact nodup_list_del h2
    · show x ∈ list_del key lru.head ↔ x ∈ (HASH_DEL lru.hashmap key).map priskv_lru_node.key
      rw [HASH_DEL_keys, mem_list_del h1, mem_list_del h2, h3 x]
  | none =>
    have hnk := HASH_FIND_STR_none.1 hf
    have hmem : key ∉ lru.head := fun hm => hnk ((h3 key).1 hm)
    have e : lru_policy_del_key lru key = lru := by
      unfold lru_policy_del_key; rw [hf]
    rw [e]
    refine ⟨(filter_ne_of_not_mem hmem).symm, fun x => ?_, h1, h2, h3, h4⟩
    by_cases e1 : x = key
    · rw [if_pos e1, e1]; unfold ref_of; rw [hf]
    · rw [if_neg e1]

theorem del_key_absent {lru : priskv_policy_lru} (h : LInv lru) {key : String}
    (hk : key ∉ lru.head) : lru_policy_del_key lru key = lru := by
  unfold lru_policy_del_key; rw [h.find_of_not_mem hk]

/-- The invariant after a key of the list is moved to its front and the hash
table keeps its keys. -/
theorem LInv_promote {lru : priskv_policy_lru} (h : LInv lru) {key : String}
    (hk : key ∈ lru.head) {hm : List priskv_lru_node}
    (hkeys : hm.map priskv_lru_node.key = lru.hashmap.map priskv_lru_node.key)
    (hb : ∀ n ∈ hm, 0 ≤ n.ref_count ∧ n.ref_count ≤ 2147483647) :
    LInv { head := key :: list_del key lru.head, hashmap := hm } := by
  obtain ⟨h1, h2, h3, _⟩ := h
  refine ⟨?_, by rw [hkeys]; exact h2, fun x => ?_, hb⟩
  · exact List.nodup_cons.2 ⟨fun hm => ((mem_list_del h1).1 hm).2 rfl, nodup_list_del h1⟩
  · show x ∈ key :: list_del key lru.head ↔ x ∈ hm.map priskv_lru_node.key
    rw [hkeys, ← h3 x, List.mem_cons, mem_list_del h1]
    constructor
    · rintro (e1 | e1)
      · rw [e1]; exact hk
      · exact e1.1
    · intro hx
      by_cases e1 : x = key
      · exact Or.inl e1
      · exact Or.inr ⟨hx, e1⟩

theorem ref_of_set {lru : priskv_policy_lru} {key : String} {v : Int} {hd : List String}
    {n : priskv_lru_node} (hn : HASH_FIND_STR lru.hashmap key = some n) (x : String) :
    ref_of { head := hd, hashmap := set_ref_count lru.hashmap key v } x =
      if x = key then v else ref_of lru x := by
  rw [ref_of_eq]
  show ((HASH_FIND_STR (set_ref_count lru.hashmap key v) x).map _).getD 0 = _
  rw [HASH_FIND_STR_set]
  by_cases e1 : x = key
  · rw [if_pos e1, if_pos e1, e1, hn]; rfl
  · rw [if_neg e1, if_neg e1, ref_of_eq]

/-- What `lru_policy_try_ref_key` does for a key that is present and whose
reference count is below `INT_MAX`. -/
theorem try_ref_present {lru : priskv_policy_lru} (h : LInv lru) {key : String}
    (hk : key ∈ lru.head) (hr : ref_of lru key < 2147483647) :
    ∃ lru1, lru_policy_try_ref_key lru key = some (true, lru1) ∧
      lru1.head = key :: lru.head.filter (fun x => decide (x ≠ key)) ∧
      (∀ x, ref_of lru1 x = if x = key then ref_of lru key + 1 else ref_of lru x) ∧
      LInv lru1 := by
  obtain ⟨n, hn, hkey, hb0, _⟩ := h.find_of_mem hk
  have hrn := ref_of_of_find hn
  rw [hrn] at hr
  refine ⟨{ head := key :: list_del key lru.head,
            hashmap := set_ref_count lru.hashmap key (n.ref_count + 1) }, ?_, ?_, ?_, ?_⟩
  · unfold lru_policy_try_ref_key
    rw [hn]
    simp only [list_add, hkey]
    rw [if_neg (by omega)]
  · show key :: list_del key lru.head = _
    rw [list_del_eq_filter h.1]
  · intro x
    rw [ref_of_set hn, hrn]
  · refine LInv_promote h hk set_ref_count_keys fun m hm => ?_
    rcases mem_set_ref_count hm with e | e
    · exact h.2.2.2 m e
    · rw [e]; omega

/-- The call `lru_policy_try_ref_key` for a key that is absent returns false and
changes nothing. -/
theorem try_ref_absent {lru : priskv_policy_lru} (h : LInv lru) {key : String}
    (hk : key ∉ lru.head) : lru_policy_try_ref_key lru key = some (false, lru) := by
  unfold lru_policy_try_ref_key; rw [h.find_of_not_mem hk]

/-- The two ways in which `lru_policy_try_ref_key` returns. -/
theorem try_ref_cases {lru lru1 : priskv_policy_lru} (h : LInv lru) {key : String} {b : Bool}
    (ht : lru_policy_try_ref_key lru key = some (b, lru1)) :
    (b = true ∧ key ∈ lru.head ∧ ref_of lru key < 2147483647) ∨
    (b = false ∧ key ∉ lru.head ∧ lru1 = lru) := by
  by_cases hk : key ∈ lru.head
  · left
    obtain ⟨n, hn, _, _, hb1⟩ := h.find_of_mem hk
    have hrn := ref_of_of_find hn
    unfold lru_policy_try_ref_key at ht
    rw [hn] at ht
    simp only at ht
    by_cases e : n.ref_count = 2147483647
    · rw [if_pos e] at ht; exact Option.noConfusion ht
    · rw [if_neg e] at ht
      simp only [Option.some.injEq, Prod.mk.injEq] at ht
      exact ⟨ht.1.symm, hk, by rw [hrn]; omega⟩
  · right
    rw [try_ref_absent h hk] at ht
    simp only [Option.some.injEq, Prod.mk.injEq] at ht
    exact ⟨ht.1.symm, hk, ht.2.symm⟩

/-- What `lru_policy_unref_key` does: the reference count of the key falls by one
when it is above zero, and nothing else changes. -/
theorem unref_spec {lru : priskv_policy_lru} (h : LInv lru) (key : String) :
    (lru_policy_unref_key lru key).head = lru.head ∧
    (∀ x, ref_of (lru_policy_unref_key lru key) x =
      if x = key ∧ 0 < ref_of lru x then ref_of lru x - 1 else ref_of lru x) ∧
    LInv (lru_policy_unref_key lru key) := by
  cases hf : HASH_FIND_STR lru.hashmap key with
  | some n =>
    obtain ⟨hkey, hmem⟩ := HASH_FIND_STR_some hf
    have hrn := ref_of_of_find hf
    have hb := h.2.2.2 n hmem
    by_cases hp : n.ref_count > 0
    · have e : lru_policy_unref_key lru key =
          { head := lru.head, hashmap := set_ref_count lru.hashmap key (n.ref_count - 1) } := by
        unfold lru_policy_unref_key; rw [hf]; simp only [hkey]; rw [if_pos hp]
      rw [e]
      refine ⟨rfl, fun x => ?_, h.1, by rw [set_ref_count_keys]; exact h.2.1, fun x => ?_,
        fun m hm => ?_⟩
      · rw [ref_of_set hf]
        by_cases e1 : x = key
        · rw [if_pos e1, e1, hrn, if_pos ⟨rfl, hp⟩]
        · rw [if_neg e1, if_neg (fun e2 => e1 e2.1)]
      · show x ∈ lru.head ↔ x ∈ (set_ref_count lru.hashmap key _).map priskv_lru_node.key
        rw [set_ref_count_keys]; exact h.2.2.1 x
      · rcases mem_set_ref_count hm with e1 | e1
        · exact h.2.2.2 m e1
        · rw [e1]; omega
    · have e : lru_policy_unref_key lru key = lru := by
        unfold lru_policy_unref_key; rw [hf]; simp only; rw [if_neg hp]
      rw [e]
      refine ⟨rfl, fun x => ?_, h⟩
      by_cases e1 : x = key
      · rw [e1, hrn, if_neg (fun e2 => hp e2.2)]
      · rw [if_neg (fun e2 => e1 e2.1)]
  | none =>
    have e : lru_policy_unref_key lru key = lru := by
      unfold lru_policy_unref_key; rw [hf]
    rw [e]
    refine ⟨rfl, fun x => ?_, h⟩
    by_cases e1 : x = key
    · have : ref_of lru x = 0 := by unfold ref_of; rw [e1, hf]
      rw [this]; simp
    · rw [if_neg (fun e2 => e1 e2.1)]

/-- What the loop of `lru_policy_evict` does on the nodes it can reach: it stops
at the first one without a reference among the first `max_attempts`, and removes
it as `lru_policy_del_key` does. -/
theorem evict_loop_spec {lru : priskv_policy_lru} (h : LInv lru) :
    ∀ (l : List String) (m : Int), (∀ k ∈ l, k ∈ lru.head) → 0 ≤ m →
      evict_loop lru l m =
        some (match (l.take m.toNat).find? (fun k => decide (ref_of lru k = 0)) with
          | some k => (some k, lru_policy_del_key lru k)
          | none => (none, lru))
  | [], m, _, _ => by simp [evict_loop]
  | k :: l, m, hl, hm => by
    unfold evict_loop
    by_cases hp : m > 0
    · rw [if_neg (not_not.2 hp)]
      obtain ⟨n, hn, hkey, _⟩ := h.find_of_mem (hl k (List.mem_cons_self _ _))
      have hrn := ref_of_of_find hn
      have e : m.toNat = (m - 1).toNat + 1 := by omega
      rw [hn, e, List.take_succ_cons, List.find?_cons]
      simp only
      by_cases hz : n.ref_count = 0
      · rw [if_pos hz]
        have : decide (ref_of lru k = 0) = true := by rw [hrn]; simpa using hz
        rw [this]
        simp only [Option.some.injEq, Prod.mk.injEq]
        refine ⟨by rw [hkey], ?_⟩
        unfold lru_policy_del_key
        rw [hn]; simp only [hkey]
      · rw [if_neg hz]
        have : decide (ref_of lru k = 0) = false := by rw [hrn]; simpa using hz
        rw [this]
        exact evict_loop_spec h l (m - 1) (fun x hx => hl x (List.mem_cons_of_mem _ hx))
          (by omega)
    · rw [if_pos hp]
      have e : m.toNat = 0 := by omega
      rw [e]; rfl

/-- What `lru_policy_evict` does: among the 128 least recent keys it removes the
first one without a reference, as `lru_policy_del_key` does. -/
theorem evict_spec {lru : priskv_policy_lru} (h : LInv lru) :
    lru_policy_evict lru =
      some (match (lru.head.reverse.take 128).find? (fun k => decide (ref_of lru k = 0)) with
        | some k => (some k, lru_policy_del_key lru k)
        | none => (none, lru)) := by
  unfold lru_policy_evict
  rw [evict_loop_spec h _ 128 (fun k hk => List.mem_reverse.1 hk) (by decide)]
  rfl

/-- A key that `lru_policy_evict` returns was present without a reference, and
the state after the call is that of `lru_policy_del_key`. -/
theorem evict_some {lru lru1 : priskv_policy_lru} (h : LInv lru) {k : String}
    (he : lru_policy_evict lru = some (some k, lru1)) :
    k ∈ lru.head ∧ ref_of lru k = 0 ∧ lru1 = lru_policy_del_key lru k := by
  rw [evict_spec h] at he
  cases hf : (lru.head.reverse.take 128).find? (fun k => decide (ref_of lru k = 0)) with
  | none => rw [hf] at he; simp at he
  | some x =>
    rw [hf] at he
    simp only [Option.some.injEq, Prod.mk.injEq] at he
    obtain ⟨e1, e2⟩ := he
    subst e1
    have h1 := List.find?_some hf
    have h2 := List.mem_of_find?_eq_some hf
    exact ⟨List.mem_reverse.1 (List.mem_of_mem_take h2), by simpa using h1, e2.symm⟩

/-- When `lru_policy_evict` returns `NULL` the state is as it was. -/
theorem evict_none {lru lru1 : priskv_policy_lru} (h : LInv lru)
    (he : lru_policy_evict lru = some (none, lru1)) : lru1 = lru := by
  rw [evict_spec h] at he
  cases hf : (lru.head.reverse.take 128).find? (fun k => decide (ref_of lru k = 0)) with
  | none => rw [hf] at he; simp at he; exact he.symm
  | some x => rw [hf] at he; simp at he

/-! ## The LRU policy: the reachable states and sequences of calls -/

theorem LInv_create : LInv lru_policy_create :=
  ⟨List.nodup_nil, List.nodup_nil, fun _ => Iff.rfl, fun _ hn => absurd hn (List.not_mem_nil _)⟩

/-- Every call without a fault keeps the invariant. -/
theorem lru_call_inv {lru lru1 : priskv_policy_lru} {op : lru_op} {r : lru_ret} (h : LInv lru)
    (hc : lru_call lru op = some (r, lru1)) : LInv lru1 := by
  cases op with
  | access key =>
    simp only [lru_call, Option.some.injEq, Prod.mk.injEq] at hc
    rw [← hc.2]; exact (access_spec h key).2.2
  | evict =>
    simp only [lru_call] at hc
    cases he : lru_policy_evict lru with
    | none => rw [he] at hc; exact Option.noConfusion hc
    | some p =>
      obtain ⟨k, s⟩ := p
      rw [he] at hc
      simp only [Option.some.injEq, Prod.mk.injEq] at hc
      rw [← hc.2]
      cases k with
      | none => rw [evict_none h he]; exact h
      | some k => rw [(evict_some h he).2.2]; exact (del_key_spec h k).2.2
  | del_key key =>
    simp only [lru_call, Option.some.injEq, Prod.mk.injEq] at hc
    rw [← hc.2]; exact (del_key_spec h key).2.2
  | try_ref_key key =>
    simp only [lru_call] at hc
    cases ht : lru_policy_try_ref_key lru key with
    | none => rw [ht] at hc; exact Option.noConfusion hc
    | some p =>
      obtain ⟨b, s⟩ := p
      rw [ht] at hc
      simp only [Option.some.injEq, Prod.mk.injEq] at hc
      rw [← hc.2]
      rcases try_ref_cases h ht with ⟨_, hk, hr⟩ | ⟨_, _, e⟩
      · obtain ⟨s1, h1, _, _, h4⟩ := try_ref_present h hk hr
        rw [ht] at h1
        simp only [Option.some.injEq, Prod.mk.injEq] at h1
        rw [h1.2]; exact h4
      · rw [e]; exact h
  | unref_key key =>
    simp only [lru_call, Option.some.injEq, Prod.mk.injEq] at hc
    rw [← hc.2]; exact (unref_spec h key).2.2

/-- Every reachable state of the LRU policy has the invariant. -/
theorem LReach.linv {lru : priskv_policy_lru} (h : LReach lru) : LInv lru := by
  induction h with
  | create => exact LInv_create
  | step _ hc ih => exact lru_call_inv ih hc

/-- The final state of a sequence of calls from a reachable state is reachable. -/
theorem LReach.of_run {lru : priskv_policy_lru} (h : LReach lru) :
    ∀ (ops : List lru_op) {rs : List lru_ret} {lru1 : priskv_policy_lru},
      lru_run lru ops = some (rs, lru1) → LReach lru1 := by
  intro ops
  induction ops generalizing lru with
  | nil =>
    intro rs lru1 hr
    simp only [lru_run, Option.some.injEq, Prod.mk.injEq] at hr
    rw [← hr.2]; exact h
  | cons op ops ih =>
    intro rs lru1 hr
    simp only [lru_run] at hr
    cases hc : lru_call lru op with
    | none => rw [hc] at hr; exact Option.noConfusion hr
    | some p =>
      obtain ⟨r, s⟩ := p
      rw [hc] at hr
      simp only at hr
      cases hr2 : lru_run s ops with
      | none => rw [hr2] at hr; exact Option.noConfusion hr
      | some q =>
        obtain ⟨rs2, s2⟩ := q
        rw [hr2] at hr
        simp only [Option.some.injEq, Prod.mk.injEq] at hr
        rw [← hr.2]
        exact ih (LReach.step h hc) hr2

/-- A key that is absent stays absent under every call but its `access`, and
`evict` does not return it. -/
theorem lru_call_absent {lru lru1 : priskv_policy_lru} {op : lru_op} {r : lru_ret} (h : LInv lru)
    {key : String} (hk : key ∉ lru.head) (hop : op ≠ lru_op.access key)
    (hc : lru_call lru op = some (r, lru1)) :
    key ∉ lru1.head ∧ r ≠ lru_ret.key (some key) := by
  cases op with
  | access k =>
    simp only [lru_call, Option.some.injEq, Prod.mk.injEq] at hc
    rw [← hc.1, ← hc.2, (access_spec h k).1]
    refine ⟨fun hm => ?_, fun e => lru_ret.noConfusion e⟩
    rcases List.mem_cons.1 hm with e | e
    · exact hop (by rw [e])
    · exact hk (List.mem_filter.1 e).1
  | evict =>
    simp only [lru_call] at hc
    cases he : lru_policy_evict lru with
    | none => rw [he] at hc; exact Option.noConfusion hc
    | some p =>
      obtain ⟨k, s⟩ := p
      rw [he] at hc
      simp only [Option.some.injEq, Prod.mk.injEq] at hc
      rw [← hc.1, ← hc.2]
      cases k with
      | none =>
        rw [evict_none h he]
        exact ⟨hk, fun e => by simp at e⟩
      | some k =>
        obtain ⟨h1, _, h3⟩ := evict_some h he
        rw [h3, (del_key_spec h k).1]
        refine ⟨fun hm => hk (List.mem_filter.1 hm).1, fun e => ?_⟩
        simp only [lru_ret.key.injEq, Option.some.injEq] at e
        exact hk (e ▸ h1)
  | del_key k =>
    simp only [lru_call, Option.some.injEq, Prod.mk.injEq] at hc
    rw [← hc.1, ← hc.2, (del_key_spec h k).1]
    exact ⟨fun hm => hk (List.mem_filter.1 hm).1, fun e => lru_ret.noConfusion e⟩
  | try_ref_key k =>
    simp only [lru_call] at hc
    cases ht : lru_policy_try_ref_key lru k with
    | none => rw [ht] at hc; exact Option.noConfusion hc
    | some p =>
      obtain ⟨b, s⟩ := p
      rw [ht] at hc
      simp only [Option.some.injEq, Prod.mk.injEq] at hc
      rw [← hc.1, ← hc.2]
      refine ⟨?_, fun e => lru_ret.noConfusion e⟩
      rcases try_ref_cases h ht with ⟨_, hk1, hr⟩ | ⟨_, _, e⟩
      · obtain ⟨s1, h1, h2, _, _⟩ := try_ref_present h hk1 hr
        rw [ht] at h1
        simp only [Option.some.injEq, Prod.mk.injEq] at h1
        rw [h1.2, h2]
        intro hm
        rcases List.mem_cons.1 hm with e | e
        · exact hk (e ▸ hk1)
        · exact hk (List.mem_filter.1 e).1
      · rw [e]; exact hk
  | unref_key k =>
    simp only [lru_call, Option.some.injEq, Prod.mk.injEq] at hc
    rw [← hc.1, ← hc.2, (unref_spec h k).1]
    exact ⟨hk, fun e => lru_ret.noConfusion e⟩

/-- A key that is present with a reference stays present under every call but its
`del_key`; its reference count goes up by one with its `try_ref_key` and down by
one with its `unref_key`, and `evict` does not return it. -/
theorem lru_call_pinned {lru lru1 : priskv_policy_lru} {op : lru_op} {r : lru_ret} (h : LInv lru)
    {key : String} (hk : key ∈ lru.head) (hp : 0 < ref_of lru key)
    (hop : op ≠ lru_op.del_key key) (hc : lru_call lru op = some (r, lru1)) :
    key ∈ lru1.head ∧ r ≠ lru_ret.key (some key) ∧
    ref_of lru1 key = ref_of lru key + (if op = lru_op.try_ref_key key then 1 else 0) -
      (if op = lru_op.unref_key key then 1 else 0) := by
  cases op with
  | access k =>
    simp only [lru_call, Option.some.injEq, Prod.mk.injEq] at hc
    obtain ⟨h1, h2, _⟩ := access_spec h k
    rw [← hc.1, ← hc.2, h1, h2]
    refine ⟨?_, fun e => lru_ret.noConfusion e, by simp⟩
    by_cases e : key = k
    · rw [e]; exact List.mem_cons_self _ _
    · exact List.mem_cons_of_mem _ (List.mem_filter.2 ⟨hk, by simpa using e⟩)
  | evict =>
    simp only [lru_call] at hc
    cases he : lru_policy_evict lru with
    | none => rw [he] at hc; exact Option.noConfusion hc
    | some p =>
      obtain ⟨k, s⟩ := p
      rw [he] at hc
      simp only [Option.some.injEq, Prod.mk.injEq] at hc
      rw [← hc.1, ← hc.2]
      cases k with
      | none =>
        rw [evict_none h he]
        exact ⟨hk, fun e => by simp at e, by simp⟩
      | some k =>
        obtain ⟨_, h2, h3⟩ := evict_some h he
        have hne : key ≠ k := fun e => by rw [e, h2] at hp; exact lt_irrefl _ hp
        obtain ⟨d1, d2, _⟩ := del_key_spec h k
        rw [h3, d1, d2, if_neg hne]
        refine ⟨List.mem_filter.2 ⟨hk, by simpa using hne⟩, fun e => ?_, by simp⟩
        simp only [lru_ret.key.injEq, Option.some.injEq] at e
        exact hne e.symm
  | del_key k =>
    simp only [lru_call, Option.some.injEq, Prod.mk.injEq] at hc
    have hne : key ≠ k := fun e => hop (by rw [e])
    obtain ⟨d1, d2, _⟩ := del_key_spec h k
    rw [← hc.1, ← hc.2, d1, d2, if_neg hne]
    exact ⟨List.mem_filter.2 ⟨hk, by simpa using hne⟩, fun e => lru_ret.noConfusion e, by simp⟩
  | try_ref_key k =>
    simp only [lru_call] at hc
    cases ht : lru_policy_try_ref_key lru k with
    | none => rw [ht] at hc; exact Option.noConfusion hc
    | some p =>
      obtain ⟨b, s⟩ := p
      rw [ht] at hc
      simp only [Option.some.injEq, Prod.mk.injEq] at hc
      rw [← hc.1, ← hc.2]
      refine ⟨?_, fun e => lru_ret.noConfusion e, ?_⟩
      · rcases try_ref_cases h ht with ⟨_, hk1, hr⟩ | ⟨_, _, e⟩
        · obtain ⟨s1, h1, h2, _, _⟩ := try_ref_present h hk1 hr
          rw [ht] at h1
          simp only [Option.some.injEq, Prod.mk.injEq] at h1
          rw [h1.2, h2]
          by_cases e : key = k
          · rw [e]; exact List.mem_cons_self _ _
          · exact List.mem_cons_of_mem _ (List.mem_filter.2 ⟨hk, by simpa using e⟩)
        · rw [e]; exact hk
      · rcases try_ref_cases h ht with ⟨_, hk1, hr⟩ | ⟨_, hk1, e⟩
        · obtain ⟨s1, h1, _, h3, _⟩ := try_ref_present h hk1 hr
          rw [ht] at h1
          simp only [Option.some.injEq, Prod.mk.injEq] at h1
          rw [h1.2, h3]
          by_cases e : key = k
          · subst e; simp
          · have : lru_op.try_ref_key k ≠ lru_op.try_ref_key key := fun e1 => by
              simp only [lru_op.try_ref_key.injEq] at e1; exact e e1.symm
            rw [if_neg e, if_neg this]; simp
        · have : lru_op.try_ref_key k ≠ lru_op.try_ref_key key := fun e1 => by
            simp only [lru_op.try_ref_key.injEq] at e1; exact hk1 (e1 ▸ hk)
          rw [e, if_neg this]; simp
  | unref_key k =>
    simp only [lru_call, Option.some.injEq, Prod.mk.injEq] at hc
    obtain ⟨u1, u2, _⟩ := unref_spec h k
    rw [← hc.1, ← hc.2, u1, u2]
    refine ⟨hk, fun e => lru_ret.noConfusion e, ?_⟩
    by_cases e : key = k
    · subst e; rw [if_pos ⟨rfl, hp⟩]; simp
    · have : lru_op.unref_key k ≠ lru_op.unref_key key := fun e1 => by
        simp only [lru_op.unref_key.injEq] at e1; exact e e1.symm
      rw [if_neg (fun e2 => e e2.1), if_neg this]; simp

/-! ## The LRU policy: the entries in recency order -/

theorem entries_keys {lru : priskv_policy_lru} (h : LInv lru) :
    (entries lru).map priskv_lru_node.key = lru.head := by
  rw [entries_eq h, List.map_map]
  exact List.map_id _

/-- The entries of a state, from its recency list and its reference counts. -/
theorem entries_of {lru lru1 : priskv_policy_lru} (h1 : LInv lru1) {p : String → Bool}
    {g : String → Int} (hh : lru1.head = lru.head.filter p)
    (hg : ∀ x, p x = true → ref_of lru1 x = g x) :
    entries lru1 = (lru.head.filter p).map (fun k => { key := k, ref_count := g k }) := by
  rw [entries_eq h1, hh]
  apply List.map_congr_left
  intro x hx
  rw [hg x (List.mem_filter.1 hx).2]

theorem map_filter_key (l : List String) (k : String) (f : String → Int) :
    (l.filter (fun x => decide (x ≠ k))).map (fun x => priskv_lru_node.mk x (f x)) =
      (l.map (fun x => priskv_lru_node.mk x (f x))).filter (fun n => decide (n.key ≠ k)) := by
  rw [List.filter_map]
  rfl

/-- The entries after `lru_policy_access`. -/
theorem entries_access {lru : priskv_policy_lru} (h : LInv lru) (key : String) :
    entries (lru_policy_access lru key) =
      { key := key, ref_count := ref_of lru key } ::
        (entries lru).filter (fun n => decide (n.key ≠ key)) := by
  obtain ⟨h1, h2, h3⟩ := access_spec h key
  rw [entries_eq h3, h1, entries_eq h, List.map_cons, h2, ← map_filter_key]
  congr 1
  apply List.map_congr_left
  intro x _
  rw [h2]

/-- The entries after `lru_policy_del_key`. -/
theorem entries_del_key {lru : priskv_policy_lru} (h : LInv lru) (key : String) :
    entries (lru_policy_del_key lru key) =
      (entries lru).filter (fun n => decide (n.key ≠ key)) := by
  obtain ⟨h1, h2, h3⟩ := del_key_spec h key
  rw [entries_eq h3, h1, entries_eq h, ← map_filter_key]
  apply List.map_congr_left
  intro x hx
  have hne : x ≠ key := by simpa using (List.mem_filter.1 hx).2
  rw [h2, if_neg hne]

/-- The entries after a successful `lru_policy_try_ref_key`. -/
theorem entries_try_ref {lru lru1 : priskv_policy_lru} (h : LInv lru) {key : String}
    (ht : lru_policy_try_ref_key lru key = some (true, lru1)) :
    entries lru1 =
      { key := key, ref_count := ref_of lru key + 1 } ::
        (entries lru).filter (fun n => decide (n.key ≠ key)) := by
  rcases try_ref_cases h ht with ⟨_, hk, hr⟩ | ⟨e, _, _⟩
  · obtain ⟨s1, t1, t2, t3, t4⟩ := try_ref_present h hk hr
    rw [ht] at t1
    simp only [Option.some.injEq, Prod.mk.injEq, true_and] at t1
    subst t1
    rw [entries_eq t4, t2, entries_eq h, List.map_cons, t3, if_pos rfl, ← map_filter_key]
    congr 1
    apply List.map_congr_left
    intro x hx
    have hne : x ≠ key := by simpa using (List.mem_filter.1 hx).2
    rw [t3, if_neg hne]
  · exact Bool.noConfusion e

/-- The entries after `lru_policy_unref_key`. -/
theorem entries_unref {lru : priskv_policy_lru} (h : LInv lru) (key : String) :
    entries (lru_policy_unref_key lru key) =
      (entries lru).map (fun n =>
        if n.key = key ∧ 0 < n.ref_count then { n with ref_count := n.ref_count - 1 } else n) := by
  obtain ⟨h1, h2, h3⟩ := unref_spec h key
  rw [entries_eq h3, h1, entries_eq h, List.map_map]
  apply List.map_congr_left
  intro x _
  rw [h2]
  simp only [Function.comp]
  by_cases e : x = key ∧ 0 < ref_of lru x
  · rw [if_pos e, if_pos e]
  · rw [if_neg e, if_neg e]

theorem filter_key_append {pre post : List priskv_lru_node} {n : priskv_lru_node}
    (h : ((pre ++ n :: post).map priskv_lru_node.key).Nodup) :
    (pre ++ n :: post).filter (fun m => decide (m.key ≠ n.key)) = pre ++ post := by
  rw [List.map_append, List.map_cons, List.nodup_append] at h
  obtain ⟨_, h2, h3⟩ := h
  rw [List.nodup_cons] at h2
  rw [List.filter_append, List.filter_cons_of_neg (by simp), List.filter_eq_self.2,
    List.filter_eq_self.2]
  · intro m hm
    have : m.key ≠ n.key := fun e => h2.1 (e ▸ List.mem_map_of_mem _ hm)
    simpa using this
  · intro m hm
    have : m.key ≠ n.key := fun e =>
      h3 (List.mem_map_of_mem _ hm) (by rw [e]; exact List.mem_cons_self _ _)
    simpa using this

/-- The node that `lru_policy_evict` takes: the first one without a reference
among the 128 least recent ones. -/
theorem evict_first {lru : priskv_policy_lru} (h : LInv lru) {pre post : List priskv_lru_node}
    {n : priskv_lru_node} (he : (entries lru).reverse = pre ++ n :: post)
    (hl : pre.length < 128) (hp : ∀ m ∈ pre, m.ref_count ≠ 0) (hn : n.ref_count = 0) :
    lru_policy_evict lru = some (some n.key, lru_policy_del_key lru n.key) ∧
      (entries (lru_policy_del_key lru n.key)).reverse = pre ++ post := by
  have hk := entries_keys h
  have hnd : ((pre ++ n :: post).map priskv_lru_node.key).Nodup := by
    rw [← he, List.map_reverse, hk]; exact List.nodup_reverse.2 h.1
  have hrev : lru.head.reverse = (pre ++ n :: post).map priskv_lru_node.key := by
    rw [← he, List.map_reverse, hk]
  have href : ∀ m ∈ pre ++ n :: post, ref_of lru m.key = m.ref_count := by
    intro m hm
    rw [← he, List.mem_reverse, entries_eq h, List.mem_map] at hm
    obtain ⟨x, _, e⟩ := hm
    rw [← e]
  refine ⟨?_, by rw [entries_del_key h, ← List.filter_reverse, he, filter_key_append hnd]⟩
  rw [evict_spec h, hrev, List.map_append, List.map_cons, List.take_append_eq_append_take,
    List.find?_append]
  have h1 : List.find? (fun k => decide (ref_of lru k = 0))
      (List.take 128 (pre.map priskv_lru_node.key)) = none := by
    rw [List.find?_eq_none]
    intro x hx
    obtain ⟨m, hm, e⟩ := List.mem_map.1 (List.mem_of_mem_take hx)
    rw [← e, href m (List.mem_append_left _ hm)]
    simpa using hp m hm
  have h2 : 128 - (pre.map priskv_lru_node.key).length = (127 - pre.length) + 1 := by
    rw [List.length_map]; omega
  rw [h1, h2, List.take_succ_cons, List.find?_cons]
  have h3 : decide (ref_of lru n.key = 0) = true := by
    rw [href n (List.mem_append_right _ (List.mem_cons_self _ _))]; simpa using hn
  rw [h3]
  rfl

/-- When the 128 least recent nodes all have a reference, `lru_policy_evict`
returns `NULL` and changes nothing. -/
theorem evict_all_pinned {lru : priskv_policy_lru} (h : LInv lru)
    (hp : ∀ m ∈ (entries lru).reverse.take 128, m.ref_count ≠ 0) :
    lru_policy_evict lru = some (none, lru) := by
  have h1 : List.find? (fun k => decide (ref_of lru k = 0)) (lru.head.reverse.take 128) = none := by
    rw [List.find?_eq_none]
    intro x hx
    have hm : priskv_lru_node.mk x (ref_of lru x) ∈ (entries lru).reverse.take 128 := by
      rw [entries_eq h, ← List.map_reverse, ← List.map_take]
      exact List.mem_map_of_mem _ hx
    simpa using hp _ hm
  rw [evict_spec h, h1]

theorem length_filter_ne {l : List String} (h : l.Nodup) {k : String} (hk : k ∈ l) :
    (l.filter (fun x => decide (x ≠ k))).length + 1 = l.length := by
  rw [← list_del_eq_filter h]
  induction l with
  | nil => exact absurd hk (List.not_mem_nil _)
  | cons x l ih =>
    have h' := List.nodup_cons.1 h
    simp only [list_del]
    by_cases e : x = k
    · rw [if_pos e]; rfl
    · rw [if_neg e]
      have hk1 : k ∈ l := by
        rcases List.mem_cons.1 hk with e1 | e1
        · exact absurd e1.symm e
        · exact e1
      simp only [List.length_cons]
      rw [ih h'.2 hk1]

/-! ## The LRU policy: sequences of calls -/

theorem lru_run_cons {lru lru2 : priskv_policy_lru} {op : lru_op} {ops : List lru_op}
    {rs : List lru_ret} (h : lru_run lru (op :: ops) = some (rs, lru2)) :
    ∃ r lru1 rs1, lru_call lru op = some (r, lru1) ∧ lru_run lru1 ops = some (rs1, lru2) ∧
      rs = r :: rs1 := by
  simp only [lru_run] at h
  cases hc : lru_call lru op with
  | none => rw [hc] at h; exact Option.noConfusion h
  | some p =>
    obtain ⟨r, s⟩ := p
    rw [hc] at h
    simp only at h
    cases hr2 : lru_run s ops with
    | none => rw [hr2] at h; exact Option.noConfusion h
    | some q =>
      obtain ⟨rs2, s2⟩ := q
      rw [hr2] at h
      simp only [Option.some.injEq, Prod.mk.injEq] at h
      exact ⟨r, s, rs2, rfl, by rw [← h.2, hr2], h.1.symm⟩

/-- A key that is absent is not returned by `evict` and stays absent as long as
it is not accessed. -/
theorem lru_run_absent {key : String} : ∀ (ops : List lru_op) {lru lru2 : priskv_policy_lru}
    {rs : List lru_ret}, LInv lru → key ∉ lru.head → lru_op.access key ∉ ops →
    lru_run lru ops = some (rs, lru2) → lru_ret.key (some key) ∉ rs ∧ key ∉ lru2.head
  | [], lru, lru2, rs, _, hk, _, hr => by
    simp only [lru_run, Option.some.injEq, Prod.mk.injEq] at hr
    rw [← hr.1, ← hr.2]
    exact ⟨List.not_mem_nil _, hk⟩
  | op :: ops, lru, lru2, rs, h, hk, ha, hr => by
    obtain ⟨r, lru1, rs1, hc, hr1, e⟩ := lru_run_cons hr
    have hop : op ≠ lru_op.access key := fun e1 => ha (e1 ▸ List.mem_cons_self _ _)
    obtain ⟨h1, h2⟩ := lru_call_absent h hk hop hc
    obtain ⟨h3, h4⟩ := lru_run_absent ops (lru_call_inv h hc) h1
      (fun hm => ha (List.mem_cons_of_mem _ hm)) hr1
    rw [e]
    refine ⟨fun hm => ?_, h4⟩
    rcases List.mem_cons.1 hm with e1 | e1
    · exact h2 e1.symm
    · exact h3 e1

/-- A key that is present stays present and is not returned by `evict` as long as
it is not deleted and, before every call of the sequence, its calls of
`unref_key` are fewer than its reference count at the start plus its calls of
`try_ref_key`. -/
theorem lru_run_pinned {key : String} : ∀ (ops : List lru_op) {lru lru2 : priskv_policy_lru}
    {rs : List lru_ret}, LInv lru → key ∈ lru.head → lru_op.del_key key ∉ ops →
    lru_run lru ops = some (rs, lru2) →
    (∀ n, n < ops.length →
      unpins key (ops.take n) < ref_of lru key + pins key (ops.take n)) →
    lru_ret.key (some key) ∉ rs ∧ key ∈ lru2.head ∧
      ref_of lru2 key = ref_of lru key + pins key ops - unpins key ops
  | [], lru, lru2, rs, _, hk, _, hr, _ => by
    simp only [lru_run, Option.some.injEq, Prod.mk.injEq] at hr
    rw [← hr.1, ← hr.2]
    exact ⟨List.not_mem_nil _, hk, by simp [pins, unpins]⟩
  | op :: ops, lru, lru2, rs, h, hk, hd, hr, hp => by
    obtain ⟨r, lru1, rs1, hc, hr1, e⟩ := lru_run_cons hr
    have hop : op ≠ lru_op.del_key key := fun e1 => hd (e1 ▸ List.mem_cons_self _ _)
    have h0 : 0 < ref_of lru key := by
      have := hp 0 (Nat.succ_pos _)
      simpa [pins, unpins] using this
    obtain ⟨h1, h2, h3⟩ := lru_call_pinned h hk h0 hop hc
    have hp1 : ∀ n, n < ops.length →
        unpins key (ops.take n) < ref_of lru1 key + pins key (ops.take n) := by
      intro n hn
      have := hp (n + 1) (Nat.succ_lt_succ hn)
      simp only [List.take_succ_cons, pins, unpins] at this
      rw [h3]; omega
    obtain ⟨h4, h5, h6⟩ := lru_run_pinned ops (lru_call_inv h hc) h1
      (fun hm => hd (List.mem_cons_of_mem _ hm)) hr1 hp1
    rw [e]
    refine ⟨fun hm => ?_, h5, ?_⟩
    · rcases List.mem_cons.1 hm with e1 | e1
      · exact h2 e1.symm
      · exact h4 e1
    · rw [h6, h3]; simp only [pins, unpins]; omega

/-! ## The backend chain: what `priskv_backend_get` does -/

theorem below_tier (e : backend_call) : e.below.tier = e.tier + 1 := by
  cases e <;> rfl

/-- The function `priskv_backend_get` when the driver's `get` reports `OK`. -/
theorem get_hit {σ : Type} (fuel : Nat) (bdrv : priskv_backend_driver σ) (data : σ)
    (child : Option (priskv_backend_device σ)) (key : String) (val : List Nat) (valuelen : Nat)
    (h : (bdrv.get data key val valuelen).1.status = PRISKV_BACKEND_STATUS_OK) :
    priskv_backend_get fuel (.mk bdrv data child) key val valuelen =
      some { cbs := [(PRISKV_BACKEND_STATUS_OK, (bdrv.get data key val valuelen).1.length)],
             val := (bdrv.get data key val valuelen).2,
             bdev := .mk bdrv (bdrv.get data key val valuelen).1.data child,
             calls := [backend_call.get 0 key val valuelen] } := by
  cases child with
  | none => simp only [priskv_backend_get, h]
  | some c => simp only [priskv_backend_get, h, if_true]

/-- The function `priskv_backend_get` on a device without a child. -/
theorem get_leaf {σ : Type} (fuel : Nat) (bdrv : priskv_backend_driver σ) (data : σ)
    (key : String) (val : List Nat) (valuelen : Nat) :
    priskv_backend_get fuel (.mk bdrv data none) key val valuelen =
      some { cbs := [((bdrv.get data key val valuelen).1.status,
                      (bdrv.get data key val valuelen).1.length)],
             val := (bdrv.get data key val valuelen).2,
             bdev := .mk bdrv (bdrv.get data key val valuelen).1.data none,
             calls := [backend_call.get 0 key val valuelen] } := by
  simp only [priskv_backend_get]

/-- The function `priskv_backend_get` when the driver's `get` does not report `OK`
and the callback of the child chain is invoked once. -/
theorem get_miss {σ : Type} (fuel : Nat) (bdrv : priskv_backend_driver σ) (data : σ)
    (c : priskv_backend_device σ) (key : String) (val : List Nat) (valuelen : Nat)
    (h : (bdrv.get data key val valuelen).1.status ≠ PRISKV_BACKEND_STATUS_OK)
    {rc : backend_done σ} {status : priskv_backend_status} {length : Nat}
    (hc : priskv_backend_get fuel c key (bdrv.get data key val valuelen).2 valuelen = some rc)
    (hcb : rc.cbs = [(status, length)]) :
    priskv_backend_get fuel (.mk bdrv data (some c)) key val valuelen =
      (priskv_backend_child_get_cb fuel bdrv (bdrv.get data key val valuelen).1.data
          key rc.val valuelen status length).map (fun p =>
        { cbs := p.1, val := rc.val, bdev := .mk bdrv p.2.1 (some rc.bdev),
          calls := backend_call.get 0 key val valuelen ::
            (rc.calls.map backend_call.below ++ p.2.2) }) := by
  simp only [priskv_backend_get, if_neg h, hc, hcb]
  cases priskv_backend_child_get_cb fuel bdrv (bdrv.get data key val valuelen).1.data
      key rc.val valuelen status length with
  | none => rfl
  | some p => rfl

/-- The first call of `priskv_backend_get` is the `get` of the driver of its
device. -/
theorem get_calls_head {σ : Type} (fuel : Nat) (d : priskv_backend_device σ) (key : String)
    (val : List Nat) (valuelen : Nat) {res : backend_done σ}
    (h : priskv_backend_get fuel d key val valuelen = some res) :
    ∃ rest, res.calls = backend_call.get 0 key val valuelen :: rest := by
  cases d with
  | mk bdrv data child =>
    cases child with
    | none =>
      rw [get_leaf] at h
      simp only [Option.some.injEq] at h
      exact ⟨[], by rw [← h]⟩
    | some c =>
      by_cases hs : (bdrv.get data key val valuelen).1.status = PRISKV_BACKEND_STATUS_OK
      · rw [get_hit fuel bdrv data _ key val valuelen hs] at h
        simp only [Option.some.injEq] at h
        exact ⟨[], by rw [← h]⟩
      · simp only [priskv_backend_get, if_neg hs] at h
        cases hc : priskv_backend_get fuel c key (bdrv.get data key val valuelen).2 valuelen with
        | none => rw [hc] at h; exact Option.noConfusion h
        | some rc =>
          rw [hc] at h
          simp only at h
          split at h
          · simp only [Option.some.injEq] at h
            exact ⟨_, by rw [← h]⟩
          · split at h
            · exact Option.noConfusion h
            · simp only [Option.some.injEq] at h
              exact ⟨_, by rw [← h]⟩
          · exact Option.noConfusion h

/-- The loop of `priskv_backend_freeup` on a device that is cacheable. -/
theorem freeup_cacheable {σ : Type} (fuel : Nat) (bdrv : priskv_backend_driver σ) (data : σ)
    (valuelen : Nat) (h : bdrv.is_cacheable data valuelen = true) :
    priskv_backend_freeup (fuel + 1) bdrv data valuelen =
      some (PRISKV_BACKEND_STATUS_OK, u32 valuelen, data,
        [backend_call.is_cacheable 0 valuelen]) := by
  simp only [priskv_backend_freeup, _priskv_backend_freeup, h, not_true_eq_false, if_false]

/-- The loop of `priskv_backend_freeup` when the evict fails. -/
theorem freeup_evict_fails {σ : Type} (fuel : Nat) (bdrv : priskv_backend_driver σ) (data : σ)
    (valuelen : Nat) (h : bdrv.is_cacheable data valuelen = false)
    (he : (bdrv.evict data).status ≠ PRISKV_BACKEND_STATUS_OK) :
    priskv_backend_freeup (fuel + 1) bdrv data valuelen =
      some ((bdrv.evict data).status, u32 valuelen, (bdrv.evict data).data,
        [backend_call.is_cacheable 0 valuelen, backend_call.evict 0]) := by
  simp only [priskv_backend_freeup, _priskv_backend_freeup, h, he, Bool.false_eq_true,
    not_false_eq_true, if_true, ne_eq]

/-- What the loop of `priskv_backend_freeup` yields: the 32-bit length, calls of
`is_cacheable` and `evict` on its own device only, and a status other than `OK`
only after an evict. -/
theorem freeup_spec {σ : Type} (bdrv : priskv_backend_driver σ) (valuelen : Nat) :
    ∀ (fuel : Nat) (data : σ) {status : priskv_backend_status} {length : Nat} {data1 : σ}
      {calls : List backend_call},
      _priskv_backend_freeup bdrv valuelen fuel data = some (status, length, data1, calls) →
      length = u32 valuelen ∧
      (∀ e ∈ calls, e = backend_call.is_cacheable 0 valuelen ∨ e = backend_call.evict 0) ∧
      (status ≠ PRISKV_BACKEND_STATUS_OK → backend_call.evict 0 ∈ calls) ∧
      (status = PRISKV_BACKEND_STATUS_OK → bdrv.is_cacheable data1 valuelen = true)
  | 0, _, _, _, _, _, h => by simp [_priskv_backend_freeup] at h
  | fuel + 1, data, status, length, data1, calls, h => by
    simp only [_priskv_backend_freeup] at h
    cases hcv : bdrv.is_cacheable data valuelen with
    | true =>
      rw [hcv] at h
      simp only [not_true_eq_false, if_false, Option.some.injEq, Prod.mk.injEq] at h
      obtain ⟨h1, h2, h3, h4⟩ := h
      subst h1 h2 h3 h4
      exact ⟨rfl, fun e he => Or.inl (List.mem_singleton.1 he), fun hne => absurd rfl hne,
        fun _ => hcv⟩
    | false =>
      rw [hcv] at h
      simp only [Bool.false_eq_true, not_false_eq_true, if_true] at h
      by_cases he : (bdrv.evict data).status = PRISKV_BACKEND_STATUS_OK
      · simp only [he, ne_eq, not_true_eq_false, if_false] at h
        cases hr : _priskv_backend_freeup bdrv valuelen fuel (bdrv.evict data).data with
        | none => rw [hr] at h; exact Option.noConfusion h
        | some p =>
          obtain ⟨s, l, d, cl⟩ := p
          rw [hr] at h
          simp only [Option.some.injEq, Prod.mk.injEq] at h
          obtain ⟨h1, h2, h3, h4⟩ := h
          subst h1 h2 h3 h4
          obtain ⟨i1, i2, i3, i4⟩ := freeup_spec bdrv valuelen fuel _ hr
          refine ⟨i1, fun e hm => ?_, fun _ => ?_, i4⟩
          · rcases List.mem_cons.1 hm with e1 | e1
            · exact Or.inl e1
            · rcases List.mem_cons.1 e1 with e2 | e2
              · exact Or.inr e2
              · exact i2 e e2
          · exact List.mem_cons_of_mem _ (List.mem_cons_self _ _)
      · simp only [he, ne_eq, not_false_eq_true, if_true, Option.some.injEq,
          Prod.mk.injEq] at h
        obtain ⟨h1, h2, h3, h4⟩ := h
        subst h1 h2 h3 h4
        refine ⟨rfl, fun e hm => ?_, fun _ => ?_, fun e1 => absurd e1 he⟩
        · rcases List.mem_cons.1 hm with e1 | e1
          · exact Or.inl e1
          · exact Or.inr (List.mem_singleton.1 e1)
        · exact List.mem_cons_of_mem _ (List.mem_cons_self _ _)

/-! ## The backend chain: what `set`, `del` and `test` do -/

/-- No call of the child chain is a call on the device itself. -/
theorem filter_below_tier (l : List backend_call) :
    (l.map backend_call.below).filter (fun e => decide (e.tier = 0)) = [] := by
  rw [List.filter_eq_nil_iff]
  intro e he
  obtain ⟨x, _, hx⟩ := List.mem_map.1 he
  have := below_tier x
  rw [hx] at this
  simp only [decide_eq_true_eq]
  omega

/-- The function `priskv_backend_set` on a device without a child. -/
theorem set_leaf {σ : Type} (bdrv : priskv_backend_driver σ) (data : σ) (key : String)
    (val : List Nat) (valuelen timeout : Nat) :
    priskv_backend_set (.mk bdrv data none) key val valuelen timeout =
      some { cbs := [((bdrv.set data key val valuelen timeout).status,
                      (bdrv.set data key val valuelen timeout).length)],
             val := val,
             bdev := .mk bdrv (bdrv.set data key val valuelen timeout).data none,
             calls := [backend_call.set 0 key val valuelen timeout] } := by
  simp only [priskv_backend_set, priskv_backend_set_cb]

/-- The function `priskv_backend_set` on a device with a child whose chain invokes
its callback once. -/
theorem set_child {σ : Type} (bdrv : priskv_backend_driver σ) (data : σ)
    (c : priskv_backend_device σ) (key : String) (val : List Nat) (valuelen timeout : Nat)
    {rc : backend_done σ} {status : priskv_backend_status} {length : Nat}
    (hc : priskv_backend_set c key val valuelen timeout = some rc)
    (hcb : rc.cbs = [(status, length)]) :
    priskv_backend_set (.mk bdrv data (some c)) key val valuelen timeout =
      some { cbs := (priskv_backend_child_set_cb bdrv data key status length).1,
             val := rc.val,
             bdev := .mk bdrv (priskv_backend_child_set_cb bdrv data key status length).2.1
               (some rc.bdev),
             calls := rc.calls.map backend_call.below ++
               (priskv_backend_child_set_cb bdrv data key status length).2.2 } := by
  simp only [priskv_backend_set, hc, hcb]

/-- The function `priskv_backend_set` returns, and it invokes the callback of its
caller once. -/
theorem set_returns {σ : Type} (key : String) (val : List Nat) (valuelen timeout : Nat) :
    ∀ d : priskv_backend_device σ, ∃ rc s l,
      priskv_backend_set d key val valuelen timeout = some rc ∧ rc.cbs = [(s, l)]
  | .mk bdrv data none => ⟨_, _, _, set_leaf bdrv data key val valuelen timeout, rfl⟩
  | .mk bdrv data (some c) => by
    obtain ⟨rc, s, l, hc, hcb⟩ := set_returns key val valuelen timeout c
    by_cases hs : s = PRISKV_BACKEND_STATUS_OK
    · exact ⟨_, (bdrv.del data key).status, (bdrv.del data key).length,
        set_child bdrv data c key val valuelen timeout hc hcb,
        by simp only [priskv_backend_child_set_cb, hs, if_true, priskv_backend_set_cb]⟩
    · exact ⟨_, s, l, set_child bdrv data c key val valuelen timeout hc hcb,
        by simp only [priskv_backend_child_set_cb, hs, if_false]⟩

/-- The function `priskv_backend_del` on a device without a child. -/
theorem del_leaf {σ : Type} (bdrv : priskv_backend_driver σ) (data : σ) (key : String) :
    priskv_backend_del (.mk bdrv data none) key =
      some { cbs := [((bdrv.del data key).status, (bdrv.del data key).length)],
             val := [],
             bdev := .mk bdrv (bdrv.del data key).data none,
             calls := [backend_call.del 0 key] } := by
  simp only [priskv_backend_del, priskv_backend_del_cb]

/-- The function `priskv_backend_del` on a device with a child whose chain invokes
its callback once. -/
theorem del_child {σ : Type} (bdrv : priskv_backend_driver σ) (data : σ)
    (c : priskv_backend_device σ) (key : String)
    {rc : backend_done σ} {status : priskv_backend_status} {length : Nat}
    (hc : priskv_backend_del c key = some rc) (hcb : rc.cbs = [(status, length)]) :
    priskv_backend_del (.mk bdrv data (some c)) key =
      some { cbs := (priskv_backend_child_del_cb bdrv data key status length).1,
             val := [],
             bdev := .mk bdrv (priskv_backend_child_del_cb bdrv data key status length).2.1
               (some rc.bdev),
             calls := rc.calls.map backend_call.below ++
               (priskv_backend_child_del_cb bdrv data key status length).2.2 } := by
  simp only [priskv_backend_del, hc, hcb]

/-- The function `priskv_backend_del` returns, and it invokes the callback of its
caller once. -/
theorem del_returns {σ : Type} (key : String) :
    ∀ d : priskv_backend_device σ, ∃ rc s l,
      priskv_backend_del d key = some rc ∧ rc.cbs = [(s, l)]
  | .mk bdrv data none => ⟨_, _, _, del_leaf bdrv data key, rfl⟩
  | .mk bdrv data (some c) => by
    obtain ⟨rc, s, l, hc, hcb⟩ := del_returns key c
    by_cases hs : s = PRISKV_BACKEND_STATUS_OK
    · exact ⟨_, (bdrv.del data key).status, (bdrv.del data key).length,
        del_child bdrv data c key hc hcb,
        by simp only [priskv_backend_child_del_cb, hs, if_true, priskv_backend_del_cb]⟩
    · exact ⟨_, s, l, del_child bdrv data c key hc hcb,
        by simp only [priskv_backend_child_del_cb, hs, if_false]⟩

/-- The function `priskv_backend_test` when the driver's `test` reports `OK`. -/
theorem test_hit {σ : Type} (bdrv : priskv_backend_driver σ) (data : σ)
    (child : Option (priskv_backend_device σ)) (key : String)
    (h : (bdrv.test data key).status = PRISKV_BACKEND_STATUS_OK) :
    priskv_backend_test (.mk bdrv data child) key =
      { cbs := [(PRISKV_BACKEND_STATUS_OK, (bdrv.test data key).length)],
        val := [],
        bdev := .mk bdrv (bdrv.test data key).data child,
        calls := [backend_call.test 0 key] } := by
  cases child with
  | none => simp only [priskv_backend_test, h]
  | some c => simp only [priskv_backend_test, h, if_true]

/-- The function `priskv_backend_test` on a device with a child when the driver's
`test` does not report `OK`. -/
theorem test_miss {σ : Type} (bdrv : priskv_backend_driver σ) (data : σ)
    (c : priskv_backend_device σ) (key : String)
    (h : (bdrv.test data key).status ≠ PRISKV_BACKEND_STATUS_OK) :
    priskv_backend_test (.mk bdrv data (some c)) key =
      { cbs := (priskv_backend_test c key).cbs,
        val := [],
        bdev := .mk bdrv (bdrv.test data key).data (some (priskv_backend_test c key).bdev),
        calls := backend_call.test 0 key ::
          (priskv_backend_test c key).calls.map backend_call.below } := by
  simp only [priskv_backend_test, if_neg h]

/-- The function `priskv_backend_test` calls no driver function but `test`, with
its key. -/
theorem test_calls {σ : Type} (key : String) :
    ∀ d : priskv_backend_device σ, ∀ e ∈ (priskv_backend_test d key).calls,
      ∃ t, e = backend_call.test t key
  | .mk bdrv data none => fun e he => by
    simp only [priskv_backend_test, List.mem_singleton] at he
    exact ⟨0, he⟩
  | .mk bdrv data (some c) => fun e he => by
    by_cases h : (bdrv.test data key).status = PRISKV_BACKEND_STATUS_OK
    · rw [test_hit bdrv data _ key h] at he
      exact ⟨0, List.mem_singleton.1 he⟩
    · rw [test_miss bdrv data c key h] at he
      rcases List.mem_cons.1 he with e1 | e1
      · exact ⟨0, e1⟩
      · obtain ⟨x, hx, hxe⟩ := List.mem_map.1 e1
        obtain ⟨t, ht⟩ := test_calls key c x hx
        exact ⟨t + 1, by rw [← hxe, ht]; rfl⟩

/-- The function `priskv_backend_test` invokes the callback of its caller once. -/
theorem test_once {σ : Type} (key : String) :
    ∀ d : priskv_backend_device σ, ∃ s l, (priskv_backend_test d key).cbs = [(s, l)]
  | .mk bdrv data none => ⟨_, _, rfl⟩
  | .mk bdrv data (some c) => by
    by_cases h : (bdrv.test data key).status = PRISKV_BACKEND_STATUS_OK
    · rw [test_hit bdrv data _ key h]
      exact ⟨_, _, rfl⟩
    · rw [test_miss bdrv data c key h]
      exact test_once key c

/-- The function `priskv_backend_test` leaves the private data of every tier as
they are when the `test` of the drivers of the chain does. -/
theorem test_keeps_data {σ : Type} (key : String) :
    ∀ d : priskv_backend_device σ,
      (∀ b ∈ chain_drivers d, ∀ x, (b.test x key).data = x) →
      chain_data (priskv_backend_test d key).bdev = chain_data d
  | .mk bdrv data none => fun hd => by
    have := hd bdrv (by simp only [chain_drivers, List.mem_singleton]) data
    simp only [priskv_backend_test, chain_data, this]
  | .mk bdrv data (some c) => fun hd => by
    have h0 := hd bdrv (by simp only [chain_drivers, List.mem_cons, true_or]) data
    by_cases h : (bdrv.test data key).status = PRISKV_BACKEND_STATUS_OK
    · rw [test_hit bdrv data _ key h]
      simp only [chain_data, h0]
    · rw [test_miss bdrv data c key h]
      have ih := test_keeps_data key c (fun b hb => hd b (by
        simp only [chain_drivers, List.mem_cons]
        exact Or.inr hb))
      simp only [chain_data, h0, ih]

/-- The private data after one more evict. -/
theorem evicted_succ {σ : Type} (bdrv : priskv_backend_driver σ) :
    ∀ (n : Nat) (data : σ),
      evicted bdrv (n + 1) data = (bdrv.evict (evicted bdrv n data)).data
  | 0, _ => rfl
  | n + 1, data => by
    show evicted bdrv (n + 1) (bdrv.evict data).data = _
    rw [evicted_succ bdrv n]
    rfl

/-- The loop of `priskv_backend_freeup` after `n` rounds in which the device was
not cacheable and the evict reported `OK`. -/
theorem freeup_after_rounds {σ : Type} (bdrv : priskv_backend_driver σ) (L : Nat) :
    ∀ (n fuel : Nat) (data : σ),
      (∀ i, i < n → bdrv.is_cacheable (evicted bdrv i data) L = false ∧
        (bdrv.evict (evicted bdrv i data)).status = PRISKV_BACKEND_STATUS_OK) →
      n < fuel →
      (bdrv.is_cacheable (evicted bdrv n data) L = true →
        _priskv_backend_freeup bdrv L fuel data =
          some (PRISKV_BACKEND_STATUS_OK, u32 L, evicted bdrv n data,
            freeup_rounds L n ++ [backend_call.is_cacheable 0 L])) ∧
      (bdrv.is_cacheable (evicted bdrv n data) L = false →
        (bdrv.evict (evicted bdrv n data)).status ≠ PRISKV_BACKEND_STATUS_OK →
        _priskv_backend_freeup bdrv L fuel data =
          some ((bdrv.evict (evicted bdrv n data)).status, u32 L,
            (bdrv.evict (evicted bdrv n data)).data,
            freeup_rounds L n ++ [backend_call.is_cacheable 0 L, backend_call.evict 0]))
  | 0, 0, _, _, hf => absurd hf (Nat.lt_irrefl 0)
  | 0, fuel + 1, data, _, _ =>
    ⟨fun h => freeup_cacheable fuel bdrv data L h,
      fun h he => freeup_evict_fails fuel bdrv data L h he⟩
  | n + 1, 0, _, _, hf => absurd hf (Nat.not_lt_zero _)
  | n + 1, fuel + 1, data, hn, hf => by
    obtain ⟨h0, e0⟩ := hn 0 (Nat.succ_pos n)
    have ih := freeup_after_rounds bdrv L n fuel (bdrv.evict data).data
      (fun i hi => hn (i + 1) (Nat.succ_lt_succ hi)) (Nat.lt_of_succ_lt_succ hf)
    have h0 : bdrv.is_cacheable data L = false := h0
    have e0 : (bdrv.evict data).status = PRISKV_BACKEND_STATUS_OK := e0
    refine ⟨fun h => ?_, fun h he => ?_⟩
    · have := ih.1 h
      simp only [_priskv_backend_freeup, h0, e0, this, Bool.false_eq_true, not_false_eq_true,
        if_true, ne_eq, not_true_eq_false, if_false]
      rfl
    · have := ih.2 h he
      simp only [_priskv_backend_freeup, h0, e0, this, Bool.false_eq_true, not_false_eq_true,
        if_true, ne_eq, not_true_eq_false, if_false]
      rfl

/-- The function `priskv_backend_child_set_cb` on `OK`. -/
theorem child_set_cb_ok {σ : Type} (bdrv : priskv_backend_driver σ) (data : σ) (key : String)
    (length : Nat) :
    priskv_backend_child_set_cb bdrv data key PRISKV_BACKEND_STATUS_OK length =
      ([((bdrv.del data key).status, (bdrv.del data key).length)], (bdrv.del data key).data,
        [backend_call.del 0 key]) := by
  simp only [priskv_backend_child_set_cb, if_true, priskv_backend_set_cb]

/-- The function `priskv_backend_child_set_cb` on another status. -/
theorem child_set_cb_fails {σ : Type} (bdrv : priskv_backend_driver σ) (data : σ)
    (key : String) {status : priskv_backend_status} (length : Nat)
    (h : status ≠ PRISKV_BACKEND_STATUS_OK) :
    priskv_backend_child_set_cb bdrv data key status length = ([(status, length)], data, []) := by
  simp only [priskv_backend_child_set_cb, if_neg h]

/-- The function `priskv_backend_child_del_cb` on `OK`. -/
theorem child_del_cb_ok {σ : Type} (bdrv : priskv_backend_driver σ) (data : σ) (key : String)
    (length : Nat) :
    priskv_backend_child_del_cb bdrv data key PRISKV_BACKEND_STATUS_OK length =
      ([((bdrv.del data key).status, (bdrv.del data key).length)], (bdrv.del data key).data,
        [backend_call.del 0 key]) := by
  simp only [priskv_backend_child_del_cb, if_true, priskv_backend_del_cb]

/-- The function `priskv_backend_child_del_cb` on another status. -/
theorem child_del_cb_fails {σ : Type} (bdrv : priskv_backend_driver σ) (data : σ)
    (key : String) {status : priskv_backend_status} (length : Nat)
    (h : status ≠ PRISKV_BACKEND_STATUS_OK) :
    priskv_backend_child_del_cb bdrv data key status length = ([(status, length)], data, []) := by
  simp only [priskv_backend_child_del_cb, if_neg h]

/-! ## The backend chain: addresses -/

theorem strchr_of_not_mem (c : Char) : ∀ s : List Char, c ∉ s → strchr s c = none
  | [], _ => rfl
  | x :: s, h => by
    have hx : x ≠ c := fun e => h (by rw [e]; exact List.mem_cons_self _ _)
    have hs : c ∉ s := fun e => h (List.mem_cons_of_mem _ e)
    simp only [strchr, if_neg hx, strchr_of_not_mem c s hs, Option.map_none']

theorem strchr_append (c : Char) (r : List Char) :
    ∀ p : List Char, c ∉ p → strchr (p ++ c :: r) c = some p.length
  | [], _ => by simp only [List.nil_append, strchr, if_true, List.length_nil]
  | x :: p, h => by
    have hx : x ≠ c := fun e => h (by rw [e]; exact List.mem_cons_self _ _)
    have hs : c ∉ p := fun e => h (List.mem_cons_of_mem _ e)
    show strchr (x :: (p ++ c :: r)) c = some (p.length + 1)
    simp only [strchr, if_neg hx, strchr_append c r p hs, Option.map_some']

theorem drop_succ_append (c : Char) (r : List Char) :
    ∀ p : List Char, (p ++ c :: r).drop (p.length + 1) = r
  | [] => rfl
  | _ :: p => by
    simp only [List.cons_append, List.length_cons, List.drop_succ_cons]
    exact drop_succ_append c r p

theorem take_length_append (r : List Char) : ∀ p : List Char, (p ++ r).take p.length = p
  | [] => by simp only [List.nil_append, List.length_nil, List.take_zero]
  | x :: p => by
    simp only [List.cons_append, List.length_cons, List.take_succ_cons, take_length_append r p]

/-- The function `parse_link` on the address of a tier without a child. -/
theorem parse_link_leaf (p a : List Char) (hp : p ≠ []) (hp1 : ':' ∉ p) (hp2 : ';' ∉ p)
    (ha : a ≠ []) (ha2 : ';' ∉ a) :
    parse_link (some (p ++ ':' :: a)) = (0, some ⟨p, a, none⟩) := by
  have hne : p ++ ':' :: a ≠ [] := by
    intro e
    have := congrArg List.length e
    simp only [List.length_append, List.length_cons, List.length_nil] at this
    omega
  have hsemi : ';' ∉ p ++ ':' :: a := by
    intro hm
    rcases List.mem_append.1 hm with h | h
    · exact hp2 h
    · rcases List.mem_cons.1 h with h | h
      · exact absurd h (by decide)
      · exact ha2 h
  have hlp : p.length ≠ 0 := fun e => hp (List.length_eq_zero.1 e)
  have hla : a.length ≠ 0 := fun e => ha (List.length_eq_zero.1 e)
  simp only [parse_link, if_neg hne, strchr_append ':' a p hp1, strchr_of_not_mem ';' _ hsemi,
    strndup, take_length_append, drop_succ_append, hlp, hla, or_self, if_false]

/-- The function `parse_link` on the address of a tier with a child. -/
theorem parse_link_child (p a r : List Char) (hp : p ≠ []) (hp1 : ':' ∉ p) (hp2 : ';' ∉ p)
    (ha : a ≠ []) (ha2 : ';' ∉ a) (hr : r ≠ []) (hlen : a.length < 18446744073709551616) :
    parse_link (some (p ++ ':' :: (a ++ ';' :: r))) = (0, some ⟨p, a, some r⟩) := by
  have hne : p ++ ':' :: (a ++ ';' :: r) ≠ [] := by
    intro e
    have := congrArg List.length e
    simp only [List.length_append, List.length_cons, List.length_nil] at this
    omega
  have hsemi : ';' ∉ p ++ ':' :: a := by
    intro hm
    rcases List.mem_append.1 hm with h | h
    · exact hp2 h
    · rcases List.mem_cons.1 h with h | h
      · exact absurd h (by decide)
      · exact ha2 h
  have hs : strchr (p ++ ':' :: (a ++ ';' :: r)) ';' = some (p.length + 1 + a.length) := by
    have e : p ++ ':' :: (a ++ ';' :: r) = (p ++ ':' :: a) ++ ';' :: r := by
      simp only [List.append_assoc, List.cons_append]
    rw [e, strchr_append ';' r _ hsemi]
    simp only [List.length_append, List.length_cons]
    congr 1
    omega
  have hd : (p ++ ':' :: (a ++ ';' :: r)).drop (p.length + 1 + a.length + 1) = r := by
    have e : p ++ ':' :: (a ++ ';' :: r) = (p ++ ':' :: a) ++ ';' :: r := by
      simp only [List.append_assoc, List.cons_append]
    have e2 : p.length + 1 + a.length = (p ++ ':' :: a).length := by
      simp only [List.length_append, List.length_cons]
      omega
    rw [e, e2]
    exact drop_succ_append ';' r _
  have hn : ((((p.length + 1 + a.length : Nat) : Int) - (p.length : Int) - 1) %
      18446744073709551616).toNat = a.length := by
    have : (((p.length + 1 + a.length : Nat) : Int) - (p.length : Int) - 1) = (a.length : Int) := by
      push_cast
      ring
    rw [this]
    have h2 : (a.length : Int) % 18446744073709551616 = (a.length : Int) :=
      Int.emod_eq_of_lt (Int.natCast_nonneg _) (by exact_mod_cast hlen)
    rw [h2]
    exact Int.toNat_natCast _
  have hlp : p.length ≠ 0 := fun e => hp (List.length_eq_zero.1 e)
  have hla : a.length ≠ 0 := fun e => ha (List.length_eq_zero.1 e)
  have hlr : r.length ≠ 0 := fun e => hr (List.length_eq_zero.1 e)
  simp only [parse_link, if_neg hne, strchr_append ':' _ p hp1, hs, strndup, take_length_append,
    drop_succ_append, hn, hd, hlp, hla, hlr, or_self, if_false]

/-! ## The backend chain: what `priskv_backend_open` and `priskv_backend_close` do -/

/-- The driver that `priskv_backend_find_driver` finds has the name. -/
theorem find_driver_name {σ : Type} (name : List Char) :
    ∀ (drivers : List (priskv_backend_driver σ)) {bdrv : priskv_backend_driver σ},
      priskv_backend_find_driver drivers name = some bdrv → bdrv.name.data = name
  | [], _, h => by simp [priskv_backend_find_driver] at h
  | b :: l, bdrv, h => by
    by_cases hb : b.name.data = name
    · simp only [priskv_backend_find_driver, if_pos hb, Option.some.injEq] at h
      rw [← h]
      exact hb
    · simp only [priskv_backend_find_driver, if_neg hb] at h
      exact find_driver_name name l h

/-- No driver of the name: `priskv_backend_open` returns `NULL`. -/
theorem open_rec_no_driver {σ : Type} (drivers : List (priskv_backend_driver σ)) (epollfd : Int)
    (fuel : Nat) (address : Option (List Char)) {link : priskv_backend_link}
    (hp : (parse_link address).2 = some link)
    (hd : priskv_backend_find_driver drivers link.protocol = none) :
    priskv_backend_open_rec drivers epollfd (fuel + 1) address = some (none, []) := by
  simp only [priskv_backend_open_rec, hp, hd]

/-- The driver does not open: `priskv_backend_open` returns `NULL`. -/
theorem open_rec_open_fails {σ : Type} (drivers : List (priskv_backend_driver σ))
    (epollfd : Int) (fuel : Nat) (address : Option (List Char)) {link : priskv_backend_link}
    {bdrv : priskv_backend_driver σ}
    (hp : (parse_link address).2 = some link)
    (hd : priskv_backend_find_driver drivers link.protocol = some bdrv)
    (ho : (bdrv.bdrv_open link epollfd).1 ≠ 0) :
    priskv_backend_open_rec drivers epollfd (fuel + 1) address =
      some (none, [backend_life.bdrv_open 0 link]) := by
  simp only [priskv_backend_open_rec, hp, hd, ho, ne_eq, not_false_eq_true, if_true]

/-- A tier without a child opens. -/
theorem open_rec_leaf {σ : Type} (drivers : List (priskv_backend_driver σ))
    (epollfd : Int) (fuel : Nat) (address : Option (List Char)) {link : priskv_backend_link}
    {bdrv : priskv_backend_driver σ}
    (hp : (parse_link address).2 = some link)
    (hd : priskv_backend_find_driver drivers link.protocol = some bdrv)
    (ho : (bdrv.bdrv_open link epollfd).1 = 0) (hc : link.childaddr = none) :
    priskv_backend_open_rec drivers epollfd (fuel + 1) address =
      some (some (.mk bdrv (bdrv.bdrv_open link epollfd).2 none),
        [backend_life.bdrv_open 0 link]) := by
  simp only [priskv_backend_open_rec, hp, hd, ho, ne_eq, not_true_eq_false, if_false, hc]

/-- The child chain does not open: the driver is closed and
`priskv_backend_open` returns `NULL`. -/
theorem open_rec_child_fails {σ : Type} (drivers : List (priskv_backend_driver σ))
    (epollfd : Int) (fuel : Nat) (address : Option (List Char)) {link : priskv_backend_link}
    {bdrv : priskv_backend_driver σ} {childaddr : List Char} {calls : List backend_life}
    (hp : (parse_link address).2 = some link)
    (hd : priskv_backend_find_driver drivers link.protocol = some bdrv)
    (ho : (bdrv.bdrv_open link epollfd).1 = 0) (hc : link.childaddr = some childaddr)
    (hr : priskv_backend_open_rec drivers epollfd fuel (some childaddr) = some (none, calls)) :
    priskv_backend_open_rec drivers epollfd (fuel + 1) address =
      some (none, backend_life.bdrv_open 0 link ::
        (calls.map backend_life.below ++ [backend_life.close 0])) := by
  simp only [priskv_backend_open_rec, hp, hd, ho, ne_eq, not_true_eq_false, if_false, hc, hr]

/-- The child chain opens and the `clearup` of the driver fails: the chain is
closed and `priskv_backend_open` returns `NULL`. -/
theorem open_rec_clearup_fails {σ : Type} (drivers : List (priskv_backend_driver σ))
    (epollfd : Int) (fuel : Nat) (address : Option (List Char)) {link : priskv_backend_link}
    {bdrv : priskv_backend_driver σ} {childaddr : List Char} {calls : List backend_life}
    {child : priskv_backend_device σ}
    (hp : (parse_link address).2 = some link)
    (hd : priskv_backend_find_driver drivers link.protocol = some bdrv)
    (ho : (bdrv.bdrv_open link epollfd).1 = 0) (hc : link.childaddr = some childaddr)
    (hr : priskv_backend_open_rec drivers epollfd fuel (some childaddr) =
      some (some child, calls))
    (hu : (bdrv.clearup (bdrv.bdrv_open link epollfd).2).1 ≠ 0) :
    priskv_backend_open_rec drivers epollfd (fuel + 1) address =
      some (none, backend_life.bdrv_open 0 link ::
        (calls.map backend_life.below ++ backend_life.clearup 0 ::
          (priskv_backend_close
            (.mk bdrv (bdrv.clearup (bdrv.bdrv_open link epollfd).2).2 (some child))).2)) := by
  simp only [priskv_backend_open_rec, hp, hd, ho, ne_eq, not_true_eq_false, if_false, hc, hr, hu,
    not_false_eq_true, if_true]

/-- The child chain opens and the `clearup` of the driver returns 0: the device
is returned with its child. -/
theorem open_rec_child {σ : Type} (drivers : List (priskv_backend_driver σ))
    (epollfd : Int) (fuel : Nat) (address : Option (List Char)) {link : priskv_backend_link}
    {bdrv : priskv_backend_driver σ} {childaddr : List Char} {calls : List backend_life}
    {child : priskv_backend_device σ}
    (hp : (parse_link address).2 = some link)
    (hd : priskv_backend_find_driver drivers link.protocol = some bdrv)
    (ho : (bdrv.bdrv_open link epollfd).1 = 0) (hc : link.childaddr = some childaddr)
    (hr : priskv_backend_open_rec drivers epollfd fuel (some childaddr) =
      some (some child, calls))
    (hu : (bdrv.clearup (bdrv.bdrv_open link epollfd).2).1 = 0) :
    priskv_backend_open_rec drivers epollfd (fuel + 1) address =
      some (some (.mk bdrv (bdrv.clearup (bdrv.bdrv_open link epollfd).2).2 (some child)),
        backend_life.bdrv_open 0 link ::
          (calls.map backend_life.below ++ [backend_life.clearup 0])) := by
  simp only [priskv_backend_open_rec, hp, hd, ho, ne_eq, not_true_eq_false, if_false, hc, hr, hu]

/-- The calls of the child chain, seen from the parent. -/
theorem open_calls_below (links : List priskv_backend_link) (k : Nat) :
    (open_calls k links).map backend_life.below = open_calls (k + 1) links := by
  have h1 : ∀ (l : List priskv_backend_link) (k : Nat),
      ((l.enumFrom k).map (fun p => backend_life.bdrv_open p.1 p.2)).map backend_life.below =
        (l.enumFrom (k + 1)).map (fun p => backend_life.bdrv_open p.1 p.2) := by
    intro l
    induction l with
    | nil => intro k; rfl
    | cons x l ih =>
      intro k
      simp only [List.enumFrom_cons, List.map_cons, List.cons.injEq]
      exact ⟨rfl, ih (k + 1)⟩
  simp only [open_calls, List.map_append, h1, List.map_map]
  congr 1
  apply List.map_congr_left
  intro i _
  show backend_life.clearup (k + i + 1) = backend_life.clearup (k + 1 + i)
  rw [Nat.add_right_comm]

/-- The calls when a tier with a child chain opens. -/
theorem open_calls_cons (l0 l1 : priskv_backend_link) (ls : List priskv_backend_link)
    (k : Nat) :
    open_calls k (l0 :: l1 :: ls) =
      backend_life.bdrv_open k l0 ::
        (open_calls (k + 1) (l1 :: ls) ++ [backend_life.clearup k]) := by
  simp only [open_calls, List.enumFrom_cons, List.map_cons, List.length_cons,
    Nat.add_sub_cancel, List.cons_append, List.append_assoc, List.cons.injEq, true_and]
  congr 1
  rw [List.range_succ_eq_map, List.reverse_cons, List.map_append, List.map_reverse,
    List.map_reverse, List.map_map]
  simp only [List.map_cons, List.map_nil, Nat.add_zero]
  congr 2
  apply List.map_congr_left
  intro i _
  show backend_life.clearup (k + (i + 1)) = backend_life.clearup (k + 1 + i)
  rw [Nat.add_assoc, Nat.add_comm 1 i]

/-- What `link_opens` says of a link. -/
theorem link_opens_iff {σ : Type} (drivers : List (priskv_backend_driver σ)) (epollfd : Int)
    (link : priskv_backend_link) :
    link_opens drivers epollfd link = true ↔
      ∃ bdrv, priskv_backend_find_driver drivers link.protocol = some bdrv ∧
        (bdrv.bdrv_open link epollfd).1 = 0 ∧
        (link.childaddr ≠ none → (bdrv.clearup (bdrv.bdrv_open link epollfd).2).1 = 0) := by
  unfold link_opens
  cases hd : priskv_backend_find_driver drivers link.protocol with
  | none => simp
  | some bdrv =>
    cases hc : link.childaddr with
    | none => simp
    | some ca => simp

/-- The chain address of tiers is not empty when the first protocol is not. -/
theorem chain_address_ne_nil (t : List Char × List Char) (l : List (List Char × List Char)) :
    chain_address (t :: l) ≠ [] := by
  cases l with
  | nil =>
    intro e
    have := congrArg List.length e
    simp only [chain_address, List.length_append, List.length_cons, List.length_nil] at this
    omega
  | cons t1 l =>
    intro e
    have := congrArg List.length e
    simp only [chain_address, List.length_append, List.length_cons, List.length_nil] at this
    omega

/-- The function `priskv_backend_open` on the chain address of tiers: it returns,
with the device and the calls of `open_calls` when every tier opens, with `NULL`
when one does not. -/
theorem open_rec_chain {σ : Type} (drivers : List (priskv_backend_driver σ)) (epollfd : Int) :
    ∀ (ts : List (List Char × List Char)) (fuel : Nat), ts ≠ [] → (∀ t ∈ ts, tier_wf t) →
      (chain_address ts).length < 18446744073709551616 →
      (chain_address ts).length < fuel →
      ((∀ link ∈ chain_links ts, link_opens drivers epollfd link = true) →
        ∃ bdev, priskv_backend_open_rec drivers epollfd fuel (some (chain_address ts)) =
            some (some bdev, open_calls 0 (chain_links ts)) ∧
          (chain_names bdev).map String.data = ts.map Prod.fst) ∧
      ((∃ link ∈ chain_links ts, link_opens drivers epollfd link = false) →
        ∃ calls, priskv_backend_open_rec drivers epollfd fuel (some (chain_address ts)) =
          some (none, calls))
  | [], _, h, _, _, _ => absurd rfl h
  | [t], 0, _, _, _, hf => absurd hf (Nat.not_lt_zero _)
  | [t], fuel + 1, _, hwf, _, _ => by
    obtain ⟨hp, hp1, hp2, ha, ha2⟩ := hwf t (List.mem_singleton_self t)
    have hpl : (parse_link (some (chain_address [t]))).2 = some ⟨t.1, t.2, none⟩ := by
      show (parse_link (some (t.1 ++ ':' :: t.2))).2 = _
      rw [parse_link_leaf t.1 t.2 hp hp1 hp2 ha ha2]
    refine ⟨fun hok => ?_, fun hbad => ?_⟩
    · obtain ⟨bdrv, hd, ho, _⟩ := (link_opens_iff drivers epollfd _).1
        (hok ⟨t.1, t.2, none⟩ (List.mem_singleton_self _))
      refine ⟨_, open_rec_leaf drivers epollfd fuel _ hpl hd ho rfl, ?_⟩
      simp only [chain_names, chain_drivers, List.map_cons, List.map_nil,
        find_driver_name _ drivers hd]
    · obtain ⟨link, hl, hb⟩ := hbad
      have hl : link = ⟨t.1, t.2, none⟩ := List.mem_singleton.1 hl
      subst hl
      cases hd : priskv_backend_find_driver drivers t.1 with
      | none => exact ⟨_, open_rec_no_driver drivers epollfd fuel _ hpl hd⟩
      | some bdrv =>
        by_cases ho : (bdrv.bdrv_open ⟨t.1, t.2, none⟩ epollfd).1 = 0
        · have : link_opens drivers epollfd ⟨t.1, t.2, none⟩ = true :=
            (link_opens_iff drivers epollfd _).2 ⟨bdrv, hd, ho, fun h => absurd rfl h⟩
          rw [this] at hb
          exact absurd hb (by decide)
        · exact ⟨_, open_rec_open_fails drivers epollfd fuel _ hpl hd ho⟩
  | t :: t1 :: l, 0, _, _, _, hf => absurd hf (Nat.not_lt_zero _)
  | t :: t1 :: l, fuel + 1, _, hwf, hlen, hf => by
    obtain ⟨hp, hp1, hp2, ha, ha2⟩ := hwf t (List.mem_cons_self _ _)
    have hwf1 : ∀ x ∈ t1 :: l, tier_wf x := fun x hx => hwf x (List.mem_cons_of_mem _ hx)
    have hr : chain_address (t1 :: l) ≠ [] := chain_address_ne_nil t1 l
    have hca : chain_address (t :: t1 :: l) =
        t.1 ++ ':' :: (t.2 ++ ';' :: chain_address (t1 :: l)) := rfl
    have hlens : (chain_address (t :: t1 :: l)).length =
        t.1.length + 1 + (t.2.length + 1 + (chain_address (t1 :: l)).length) := by
      rw [hca]
      simp only [List.length_append, List.length_cons]
      omega
    have hpl : (parse_link (some (chain_address (t :: t1 :: l)))).2 =
        some ⟨t.1, t.2, some (chain_address (t1 :: l))⟩ := by
      rw [hca, parse_link_child t.1 t.2 _ hp hp1 hp2 ha ha2 hr (by omega)]
    have ih := open_rec_chain drivers epollfd (t1 :: l) fuel (List.cons_ne_nil _ _) hwf1
      (by omega) (by omega)
    have hcl : chain_links (t :: t1 :: l) =
        ⟨t.1, t.2, some (chain_address (t1 :: l))⟩ :: chain_links (t1 :: l) := rfl
    have hcl1 : ∃ l1 ls, chain_links (t1 :: l) = l1 :: ls := by
      cases l with
      | nil => exact ⟨_, _, rfl⟩
      | cons t2 l => exact ⟨_, _, rfl⟩
    refine ⟨fun hok => ?_, fun hbad => ?_⟩
    · obtain ⟨bdrv, hd, ho, hu⟩ := (link_opens_iff drivers epollfd _).1
        (hok ⟨t.1, t.2, some (chain_address (t1 :: l))⟩ (by rw [hcl]; exact List.mem_cons_self _ _))
      obtain ⟨child, hc, hn⟩ := ih.1 (fun link hl => hok link (by
        rw [hcl]; exact List.mem_cons_of_mem _ hl))
      refine ⟨.mk bdrv (bdrv.clearup (bdrv.bdrv_open
        ⟨t.1, t.2, some (chain_address (t1 :: l))⟩ epollfd).2).2 (some child), ?_, ?_⟩
      · rw [open_rec_child drivers epollfd fuel _ hpl hd ho rfl hc
          (hu (fun h => Option.noConfusion h))]
        obtain ⟨l1, ls, hls⟩ := hcl1
        rw [hcl, hls, open_calls_cons, ← hls, open_calls_below]
      · have hn : (chain_drivers child).map (fun b => b.name.data) =
            (t1 :: l).map Prod.fst := by
          simpa only [chain_names, List.map_map] using hn
        simp only [chain_names, chain_drivers, List.map_cons, List.map_map,
          find_driver_name _ drivers hd, List.cons.injEq, true_and]
        exact hn
    · by_cases hrest : ∀ link ∈ chain_links (t1 :: l), link_opens drivers epollfd link = true
      · obtain ⟨child, hc, _⟩ := ih.1 hrest
        obtain ⟨link, hl, hb⟩ := hbad
        rw [hcl] at hl
        rcases List.mem_cons.1 hl with h0 | h0
        · subst h0
          cases hd : priskv_backend_find_driver drivers t.1 with
          | none => exact ⟨_, open_rec_no_driver drivers epollfd fuel _ hpl hd⟩
          | some bdrv =>
            by_cases ho : (bdrv.bdrv_open ⟨t.1, t.2, some (chain_address (t1 :: l))⟩
                epollfd).1 = 0
            · by_cases hu : (bdrv.clearup (bdrv.bdrv_open
                  ⟨t.1, t.2, some (chain_address (t1 :: l))⟩ epollfd).2).1 = 0
              · have : link_opens drivers epollfd
                    ⟨t.1, t.2, some (chain_address (t1 :: l))⟩ = true :=
                  (link_opens_iff drivers epollfd _).2 ⟨bdrv, hd, ho, fun _ => hu⟩
                rw [this] at hb
                exact absurd hb (by decide)
              · exact ⟨_, open_rec_clearup_fails drivers epollfd fuel _ hpl hd ho rfl hc hu⟩
            · exact ⟨_, open_rec_open_fails drivers epollfd fuel _ hpl hd ho⟩
        · rw [hrest link h0] at hb
          exact absurd hb (by decide)
      · have hex : ∃ link ∈ chain_links (t1 :: l), link_opens drivers epollfd link = false := by
          by_contra hne
          apply hrest
          intro link hl
          cases hlo : link_opens drivers epollfd link with
          | true => rfl
          | false => exact absurd ⟨link, hl, hlo⟩ hne
        obtain ⟨calls, hc⟩ := ih.2 hex
        cases hd : priskv_backend_find_driver drivers t.1 with
        | none => exact ⟨_, open_rec_no_driver drivers epollfd fuel _ hpl hd⟩
        | some bdrv =>
          by_cases ho : (bdrv.bdrv_open ⟨t.1, t.2, some (chain_address (t1 :: l))⟩
              epollfd).1 = 0
          · exact ⟨_, open_rec_child_fails drivers epollfd fuel _ hpl hd ho rfl hc⟩
          · exact ⟨_, open_rec_open_fails drivers epollfd fuel _ hpl hd ho⟩

/-- The function `priskv_backend_close` when the `close` of every driver returns
0: the drivers are closed once each, the tail first, and 0 is returned. -/
theorem close_all {σ : Type} :
    ∀ d : priskv_backend_device σ, (∀ b ∈ chain_drivers d, ∀ x, b.close x = 0) →
      priskv_backend_close d = (0, close_calls (chain_drivers d).length)
  | .mk bdrv data none => fun h => by
    simp only [priskv_backend_close, h bdrv (by simp only [chain_drivers, List.mem_singleton])]
    rfl
  | .mk bdrv data (some c) => fun h => by
    have ih := close_all c (fun b hb => h b (by
      simp only [chain_drivers, List.mem_cons]
      exact Or.inr hb))
    have h0 := h bdrv (by simp only [chain_drivers, List.mem_cons, true_or]) data
    simp only [priskv_backend_close, ih, ne_eq, not_true_eq_false, if_false, h0, chain_drivers,
      List.length_cons, close_calls, Prod.mk.injEq, true_and]
    rw [List.range_succ_eq_map, List.reverse_cons, List.map_append, List.map_reverse,
      List.map_reverse, List.map_reverse, List.map_map, List.map_map]
    rfl

/-- The lookup `priskv_backend_find_driver` returns `NULL` exactly for a name that
no registered driver has. -/
theorem find_driver_none_iff {σ : Type} (name : List Char) :
    ∀ drivers : List (priskv_backend_driver σ),
      priskv_backend_find_driver drivers name = none ↔ not_registered drivers name
  | [] => by
    simp only [priskv_backend_find_driver, not_registered, true_iff]
    intro d hd
    exact absurd hd (List.not_mem_nil _)
  | b :: l => by
    have ih := find_driver_none_iff name l
    by_cases hb : b.name.data = name
    · simp only [priskv_backend_find_driver, if_pos hb, not_registered]
      constructor
      · intro h; exact Option.noConfusion h
      · intro h; exact absurd hb (h b (List.mem_cons_self _ _))
    · simp only [priskv_backend_find_driver, if_neg hb]
      rw [ih]
      constructor
      · intro h d hd
        rcases List.mem_cons.1 hd with h0 | h0
        · rw [h0]; exact hb
        · exact h d h0
      · intro h d hd
        exact h d (List.mem_cons_of_mem _ hd)

/-- The lookup `priskv_backend_find_driver` returns the registered driver of the
name: the first driver of the list that has it. -/
theorem find_driver_iff {σ : Type} (name : List Char) :
    ∀ (drivers : List (priskv_backend_driver σ)) (bdrv : priskv_backend_driver σ),
      priskv_backend_find_driver drivers name = some bdrv ↔ driver_named drivers name bdrv
  | [], bdrv => by
    simp only [priskv_backend_find_driver, driver_named]
    constructor
    · intro h; exact Option.noConfusion h
    · rintro ⟨before, after, h, _⟩
      cases before <;> exact List.noConfusion h
  | b :: l, bdrv => by
    have ih := find_driver_iff name l bdrv
    by_cases hb : b.name.data = name
    · simp only [priskv_backend_find_driver, if_pos hb, Option.some.injEq]
      constructor
      · intro h
        subst h
        exact ⟨[], l, rfl, hb, fun d hd => absurd hd (List.not_mem_nil _)⟩
      · rintro ⟨before, after, h, _, hn⟩
        cases before with
        | nil =>
          simp only [List.nil_append, List.cons.injEq] at h
          exact h.1
        | cons x before =>
          simp only [List.cons_append, List.cons.injEq] at h
          exact absurd (h.1 ▸ hb) (hn x (List.mem_cons_self _ _))
    · simp only [priskv_backend_find_driver, if_neg hb]
      rw [ih]
      constructor
      · rintro ⟨before, after, h, h1, hn⟩
        refine ⟨b :: before, after, by rw [h]; rfl, h1, fun d hd => ?_⟩
        rcases List.mem_cons.1 hd with h0 | h0
        · rw [h0]; exact hb
        · exact hn d h0
      · rintro ⟨before, after, h, h1, hn⟩
        cases before with
        | nil =>
          simp only [List.nil_append, List.cons.injEq] at h
          exact absurd (h.1 ▸ h1) hb
        | cons x before =>
          simp only [List.cons_append, List.cons.injEq] at h
          exact ⟨before, after, h.2, h1, fun d hd => hn d (List.mem_cons_of_mem _ hd)⟩

/-- A tier opens exactly when its protocol has a registered driver whose
`bdrv_open` returns 0 and, for a tier with a child, whose `clearup` returns 0. -/
theorem link_opens_named {σ : Type} (drivers : List (priskv_backend_driver σ)) (epollfd : Int)
    (link : priskv_backend_link) :
    link_opens drivers epollfd link = true ↔
      ∃ bdrv, driver_named drivers link.protocol bdrv ∧
        (bdrv.bdrv_open link epollfd).1 = 0 ∧
        (link.childaddr ≠ none → (bdrv.clearup (bdrv.bdrv_open link epollfd).2).1 = 0) := by
  rw [link_opens_iff]
  constructor
  · rintro ⟨bdrv, h, h1⟩
    exact ⟨bdrv, (find_driver_iff _ drivers bdrv).1 h, h1⟩
  · rintro ⟨bdrv, h, h1⟩
    exact ⟨bdrv, (find_driver_iff _ drivers bdrv).2 h, h1⟩

/-- A tier does not open when its protocol has no registered driver, or the
`bdrv_open` of its registered driver does not return 0, or it has a child and
the `clearup` does not return 0. -/
theorem link_opens_false {σ : Type} (drivers : List (priskv_backend_driver σ)) (epollfd : Int)
    (link : priskv_backend_link)
    (h : not_registered drivers link.protocol ∨
      ∃ bdrv, driver_named drivers link.protocol bdrv ∧
        ((bdrv.bdrv_open link epollfd).1 ≠ 0 ∨
          (link.childaddr ≠ none ∧ (bdrv.clearup (bdrv.bdrv_open link epollfd).2).1 ≠ 0))) :
    link_opens drivers epollfd link = false := by
  cases hl : link_opens drivers epollfd link with
  | false => rfl
  | true =>
    exfalso
    obtain ⟨bdrv, hd, ho, hu⟩ := (link_opens_iff drivers epollfd link).1 hl
    rcases h with h | ⟨b1, hb1, h⟩
    · rw [(find_driver_none_iff _ drivers).2 h] at hd
      exact Option.noConfusion hd
    · have e := (find_driver_iff _ drivers b1).2 hb1
      rw [hd] at e
      simp only [Option.some.injEq] at e
      subst e
      rcases h with h | ⟨h2, h3⟩
      · exact h ho
      · exact h3 (hu h2)


/-! ## The claims on the LRU policy -/

/-- C11: in a reachable state `lru_policy_evict` looks at the nodes from the least
recent one on, at most 128 of them, returns the key of the first one whose
reference count is zero and removes that node alone, the other entries keeping
their order and reference counts; when the 128 least recent nodes (all nodes, if
there are fewer, none for the empty policy) have a reference, it returns `NULL`
and leaves the state as it was. -/
theorem lru_evict_first_unpinned (lru : priskv_policy_lru) (hr : LReach lru) :
    (∀ pre n post, (entries lru).reverse = pre ++ n :: post → pre.length < 128 →
      (∀ m ∈ pre, m.ref_count ≠ 0) → n.ref_count = 0 →
      ∃ lru1, lru_policy_evict lru = some (some n.key, lru1) ∧
        (entries lru1).reverse = pre ++ post) ∧
    ((∀ m ∈ (entries lru).reverse.take 128, m.ref_count ≠ 0) →
      lru_policy_evict lru = some (none, lru)) := by
  refine ⟨fun pre n post he hl hp hn => ?_, fun hp => evict_all_pinned hr.linv hp⟩
  obtain ⟨h1, h2⟩ := evict_first hr.linv he hl hp hn
  exact ⟨_, h1, h2⟩

theorem lru_evict_first_unpinned_witness :
    lru_run lru_policy_create
        [lru_op.access "a", lru_op.access "b", lru_op.access "c", lru_op.access "d"] =
      some ([lru_ret.done, lru_ret.done, lru_ret.done, lru_ret.done],
        priskv_policy_lru.mk ["d", "c", "b", "a"]
          [⟨"a", 0⟩, ⟨"b", 0⟩, ⟨"c", 0⟩, ⟨"d", 0⟩]) ∧
    ∃ lru1, lru_policy_evict (priskv_policy_lru.mk ["d", "c", "b", "a"]
          [⟨"a", 0⟩, ⟨"b", 0⟩, ⟨"c", 0⟩, ⟨"d", 0⟩]) = some (some "a", lru1) ∧
      (entries lru1).reverse = [⟨"b", 0⟩, ⟨"c", 0⟩, ⟨"d", 0⟩] :=
  ⟨by decide,
    (lru_evict_first_unpinned
      (priskv_policy_lru.mk ["d", "c", "b", "a"] [⟨"a", 0⟩, ⟨"b", 0⟩, ⟨"c", 0⟩, ⟨"d", 0⟩])
      (@LReach.of_run _ LReach.create
        [lru_op.access "a", lru_op.access "b", lru_op.access "c", lru_op.access "d"]
        [lru_ret.done, lru_ret.done, lru_ret.done, lru_ret.done] _ (by decide))).1 [] ⟨"a", 0⟩ [⟨"b", 0⟩, ⟨"c", 0⟩, ⟨"d", 0⟩] (by decide) (by decide)
      (fun m hm => absurd hm (List.not_mem_nil _)) rfl⟩

/-- C12, as the code has it: after a `lru_policy_try_ref_key` of a key that
returned true, in every later sequence of calls without a `del_key` of that key,
as long as the calls of `unref_key` of the key are fewer than its reference count
after that `try_ref_key` plus its later calls of `try_ref_key`, the key stays in
the policy and no `evict` returns it; its reference count is that sum minus the
calls of `unref_key`, so when these are as many the count is zero and an `evict`
that meets the key as the first node without a reference among the 128 least
recent ones returns it. -/
theorem lru_pinned_until_unref (lru lru1 lru2 : priskv_policy_lru) (key : String)
    (ops : List lru_op) (rs : List lru_ret) (hr : LReach lru)
    (ht : lru_policy_try_ref_key lru key = some (true, lru1))
    (hd : lru_op.del_key key ∉ ops) (hrun : lru_run lru1 ops = some (rs, lru2))
    (hp : ∀ n, n < ops.length →
      unpins key (ops.take n) < ref_of lru1 key + pins key (ops.take n)) :
    ref_of lru1 key = ref_of lru key + 1 ∧ lru_ret.key (some key) ∉ rs ∧
    key ∈ (entries lru2).map priskv_lru_node.key ∧
    ref_of lru2 key = ref_of lru1 key + pins key ops - unpins key ops ∧
    (unpins key ops = ref_of lru1 key + pins key ops →
      ∀ pre post, (entries lru2).reverse = pre ++ priskv_lru_node.mk key 0 :: post →
        pre.length < 128 → (∀ m ∈ pre, m.ref_count ≠ 0) →
        ∃ lru3, lru_policy_evict lru2 = some (some key, lru3)) := by
  have h := hr.linv
  rcases try_ref_cases h ht with ⟨_, hk, hlt⟩ | ⟨e, _, _⟩
  · obtain ⟨s1, t1, t2, t3, t4⟩ := try_ref_present h hk hlt
    rw [ht] at t1
    simp only [Option.some.injEq, Prod.mk.injEq, true_and] at t1
    subst t1
    have hk1 : key ∈ lru1.head := by rw [t2]; exact List.mem_cons_self _ _
    obtain ⟨h1, h2, h3⟩ := lru_run_pinned ops t4 hk1 hd hrun hp
    have h2inv : LInv lru2 := (LReach.of_run (LReach.step hr
      (show lru_call lru (lru_op.try_ref_key key) = some (lru_ret.flag true, lru1) by
        simp only [lru_call, ht])) ops hrun).linv
    refine ⟨by rw [t3, if_pos rfl], h1, by rw [entries_keys h2inv]; exact h2, h3, ?_⟩
    intro _ pre post he hl hpre
    exact ⟨_, (evict_first h2inv he hl hpre rfl).1⟩
  · exact Bool.noConfusion e

theorem lru_pinned_until_unref_witness :
    ref_of (priskv_policy_lru.mk ["k", "a"] [⟨"a", 0⟩, ⟨"k", 1⟩]) "k" =
      ref_of (priskv_policy_lru.mk ["k", "a"] [⟨"a", 0⟩, ⟨"k", 0⟩]) "k" + 1 ∧
    lru_ret.key (some "k") ∉
      [lru_ret.key (some "a"), lru_ret.flag true, lru_ret.key none, lru_ret.done, lru_ret.done] ∧
    "k" ∈ (entries (priskv_policy_lru.mk ["k"] [⟨"k", 0⟩])).map priskv_lru_node.key ∧
    ref_of (priskv_policy_lru.mk ["k"] [⟨"k", 0⟩]) "k" =
      ref_of (priskv_policy_lru.mk ["k", "a"] [⟨"a", 0⟩, ⟨"k", 1⟩]) "k" +
        pins "k" [lru_op.evict, lru_op.try_ref_key "k", lru_op.evict, lru_op.unref_key "k",
          lru_op.unref_key "k"] -
        unpins "k" [lru_op.evict, lru_op.try_ref_key "k", lru_op.evict, lru_op.unref_key "k",
          lru_op.unref_key "k"] ∧
    (unpins "k" [lru_op.evict, lru_op.try_ref_key "k", lru_op.evict, lru_op.unref_key "k",
          lru_op.unref_key "k"] =
        ref_of (priskv_policy_lru.mk ["k", "a"] [⟨"a", 0⟩, ⟨"k", 1⟩]) "k" +
          pins "k" [lru_op.evict, lru_op.try_ref_key "k", lru_op.evict, lru_op.unref_key "k",
            lru_op.unref_key "k"] →
      ∀ pre post, (entries (priskv_policy_lru.mk ["k"] [⟨"k", 0⟩])).reverse =
          pre ++ priskv_lru_node.mk "k" 0 :: post →
        pre.length < 128 → (∀ m ∈ pre, m.ref_count ≠ 0) →
        ∃ lru3, lru_policy_evict (priskv_policy_lru.mk ["k"] [⟨"k", 0⟩]) =
          some (some "k", lru3)) :=
  lru_pinned_until_unref (priskv_policy_lru.mk ["k", "a"] [⟨"a", 0⟩, ⟨"k", 0⟩])
    (priskv_policy_lru.mk ["k", "a"] [⟨"a", 0⟩, ⟨"k", 1⟩])
    (priskv_policy_lru.mk ["k"] [⟨"k", 0⟩]) "k"
    [lru_op.evict, lru_op.try_ref_key "k", lru_op.evict, lru_op.unref_key "k",
      lru_op.unref_key "k"]
    [lru_ret.key (some "a"), lru_ret.flag true, lru_ret.key none, lru_ret.done, lru_ret.done]
    (@LReach.of_run _ LReach.create [lru_op.access "a", lru_op.access "k"]
      [lru_ret.done, lru_ret.done] _ (by decide))
    (by decide) (by decide) (by decide) (by decide)

/-- C12, as the claim has it, fails: after `access(k)` and a `try_ref_key(k)`
that returns true, the calls `del_key(k)`, `access(k)`, `evict()` follow without
any `unref_key(k)`, and the `evict` returns `k`. -/
theorem lru_pinned_del_key_counterexample :
    LReach (priskv_policy_lru.mk ["k"] [⟨"k", 0⟩]) ∧
    lru_policy_try_ref_key (priskv_policy_lru.mk ["k"] [⟨"k", 0⟩]) "k" =
      some (true, priskv_policy_lru.mk ["k"] [⟨"k", 1⟩]) ∧
    lru_run (priskv_policy_lru.mk ["k"] [⟨"k", 1⟩])
        [lru_op.del_key "k", lru_op.access "k", lru_op.evict] =
      some ([lru_ret.done, lru_ret.done, lru_ret.key (some "k")],
        priskv_policy_lru.mk [] []) ∧
    unpins "k" [lru_op.del_key "k", lru_op.access "k", lru_op.evict] = 0 :=
  ⟨@LReach.of_run _ LReach.create [lru_op.access "k"] [lru_ret.done] _ (by decide), by decide,
    by decide, by decide⟩

/-- C13: in a reachable state, after `lru_policy_access(key)` the key is the most
recent entry and is present once, the other entries keep their order, and no
reference count changes; when the key was present the number of entries is as
before, otherwise one entry with the reference count 0 is added.
`priskv_policy_access` passes the call on to the policy. -/
theorem lru_access_promotes (lru : priskv_policy_lru) (key : String) (hr : LReach lru) :
    entries (lru_policy_access lru key) =
      { key := key, ref_count := ref_of lru key } ::
        (entries lru).filter (fun n => decide (n.key ≠ key)) ∧
    ((entries (lru_policy_access lru key)).map priskv_lru_node.key).count key = 1 ∧
    (∀ x, ref_of (lru_policy_access lru key) x = ref_of lru x) ∧
    (key ∈ (entries lru).map priskv_lru_node.key →
      (entries (lru_policy_access lru key)).length = (entries lru).length) ∧
    (key ∉ (entries lru).map priskv_lru_node.key →
      ref_of lru key = 0 ∧
      (entries (lru_policy_access lru key)).length = (entries lru).length + 1) ∧
    (priskv_policy_access (some (priskv_policy.mk lru_policy lru)) key).map priskv_policy.data =
      some (lru_policy_access lru key) := by
  have h := hr.linv
  obtain ⟨h1, h2, h3⟩ := access_spec h key
  have hlen : ∀ s, LInv s → (entries s).length = s.head.length := fun s hs => by
    rw [← entries_keys hs, List.length_map]
  refine ⟨entries_access h key, ?_, h2, fun hk => ?_, fun hk => ?_, rfl⟩
  · rw [entries_keys h3]
    exact List.count_eq_one_of_mem h3.1 (by rw [h1]; exact List.mem_cons_self _ _)
  · rw [entries_keys h] at hk
    rw [hlen _ h3, hlen _ h, h1, List.length_cons, length_filter_ne h.1 hk]
  · rw [entries_keys h] at hk
    refine ⟨h.ref_of_absent hk, ?_⟩
    rw [hlen _ h3, hlen _ h, h1, List.length_cons, filter_ne_of_not_mem hk]

theorem lru_access_promotes_witness :
    entries (lru_policy_access (priskv_policy_lru.mk ["c", "b", "a"]
        [⟨"a", 0⟩, ⟨"b", 1⟩, ⟨"c", 0⟩]) "b") =
      { key := "b", ref_count := ref_of (priskv_policy_lru.mk ["c", "b", "a"]
          [⟨"a", 0⟩, ⟨"b", 1⟩, ⟨"c", 0⟩]) "b" } ::
        (entries (priskv_policy_lru.mk ["c", "b", "a"]
          [⟨"a", 0⟩, ⟨"b", 1⟩, ⟨"c", 0⟩])).filter (fun n => decide (n.key ≠ "b")) ∧
    entries (lru_policy_access (priskv_policy_lru.mk ["c", "b", "a"]
        [⟨"a", 0⟩, ⟨"b", 1⟩, ⟨"c", 0⟩]) "b") = [⟨"b", 1⟩, ⟨"c", 0⟩, ⟨"a", 0⟩] :=
  ⟨(lru_access_promotes (priskv_policy_lru.mk ["c", "b", "a"] [⟨"a", 0⟩, ⟨"b", 1⟩, ⟨"c", 0⟩]) "b"
      (@LReach.of_run _ LReach.create
        [lru_op.access "a", lru_op.access "b", lru_op.try_ref_key "b", lru_op.access "c"]
        [lru_ret.done, lru_ret.done, lru_ret.flag true, lru_ret.done] _ (by decide))).1,
    by decide⟩

/-- C14: in a reachable state, `lru_policy_try_ref_key(key)` of a key that is
present, with a reference count below `INT_MAX`, returns true, adds one to the
reference count of the key and makes it the most recent entry, the other entries
keeping their order and reference counts; for a key that is absent it returns
false and changes nothing. `priskv_policy_try_ref_key` on the `NULL` policy
returns false. -/
theorem lru_try_ref_key_pins (lru : priskv_policy_lru) (key : String) (hr : LReach lru) :
    (key ∈ (entries lru).map priskv_lru_node.key → ref_of lru key < 2147483647 →
      ∃ lru1, lru_policy_try_ref_key lru key = some (true, lru1) ∧
        entries lru1 = { key := key, ref_count := ref_of lru key + 1 } ::
          (entries lru).filter (fun n => decide (n.key ≠ key))) ∧
    (key ∉ (entries lru).map priskv_lru_node.key →
      lru_policy_try_ref_key lru key = some (false, lru)) ∧
    priskv_policy_try_ref_key (none : Option (priskv_policy priskv_policy_lru)) key =
      some (false, none) ∧
    (priskv_policy_try_ref_key (some (priskv_policy.mk lru_policy lru)) key).map
        (fun p => (p.1, p.2.map priskv_policy.data)) =
      (lru_policy_try_ref_key lru key).map (fun p => (p.1, some p.2)) := by
  have h := hr.linv
  refine ⟨fun hk hlt => ?_, fun hk => ?_, rfl, ?_⟩
  · rw [entries_keys h] at hk
    obtain ⟨lru1, t1, _⟩ := try_ref_present h hk hlt
    exact ⟨lru1, t1, entries_try_ref h t1⟩
  · rw [entries_keys h] at hk
    exact try_ref_absent h hk
  · simp only [priskv_policy_try_ref_key, lru_policy]
    cases lru_policy_try_ref_key lru key with
    | none => rfl
    | some p => rfl

theorem lru_try_ref_key_pins_witness :
    ∃ lru1, lru_policy_try_ref_key (priskv_policy_lru.mk ["c", "b", "a"]
        [⟨"a", 0⟩, ⟨"b", 1⟩, ⟨"c", 0⟩]) "b" = some (true, lru1) ∧
      entries lru1 = { key := "b", ref_count := ref_of (priskv_policy_lru.mk ["c", "b", "a"]
          [⟨"a", 0⟩, ⟨"b", 1⟩, ⟨"c", 0⟩]) "b" + 1 } ::
        (entries (priskv_policy_lru.mk ["c", "b", "a"]
          [⟨"a", 0⟩, ⟨"b", 1⟩, ⟨"c", 0⟩])).filter (fun n => decide (n.key ≠ "b")) :=
  (lru_try_ref_key_pins (priskv_policy_lru.mk ["c", "b", "a"] [⟨"a", 0⟩, ⟨"b", 1⟩, ⟨"c", 0⟩]) "b"
    (@LReach.of_run _ LReach.create
      [lru_op.access "a", lru_op.access "b", lru_op.try_ref_key "b", lru_op.access "c"]
      [lru_ret.done, lru_ret.done, lru_ret.flag true, lru_ret.done] _ (by decide))).1
    (by decide) (by decide)

/-- C15: in a reachable state, `lru_policy_del_key(key)` removes the key whatever
its reference count and leaves the other entries with their order and reference
counts; afterwards `lru_policy_try_ref_key(key)` returns false, and no `evict`
returns the key in a sequence of calls without an `access` of it; when the key is
absent the state is as it was, so a second `lru_policy_del_key(key)` changes
nothing. -/
theorem lru_del_key_forgets (lru : priskv_policy_lru) (key : String) (hr : LReach lru) :
    entries (lru_policy_del_key lru key) =
      (entries lru).filter (fun n => decide (n.key ≠ key)) ∧
    lru_policy_try_ref_key (lru_policy_del_key lru key) key =
      some (false, lru_policy_del_key lru key) ∧
    (∀ ops rs lru2, lru_op.access key ∉ ops →
      lru_run (lru_policy_del_key lru key) ops = some (rs, lru2) →
      lru_ret.key (some key) ∉ rs ∧ key ∉ (entries lru2).map priskv_lru_node.key) ∧
    (key ∉ (entries lru).map priskv_lru_node.key → lru_policy_del_key lru key = lru) ∧
    lru_policy_del_key (lru_policy_del_key lru key) key = lru_policy_del_key lru key := by
  have h := hr.linv
  obtain ⟨d1, _, d3⟩ := del_key_spec h key
  have hk : key ∉ (lru_policy_del_key lru key).head := by
    rw [d1]; intro hm
    have := (List.mem_filter.1 hm).2
    simp at this
  have hreach : LReach (lru_policy_del_key lru key) :=
    LReach.step hr (show lru_call lru (lru_op.del_key key) = some (lru_ret.done, _) from rfl)
  refine ⟨entries_del_key h key, try_ref_absent d3 hk, fun ops rs lru2 ha hrun => ?_,
    fun hk0 => ?_, del_key_absent d3 hk⟩
  · obtain ⟨h1, h2⟩ := lru_run_absent ops d3 hk ha hrun
    refine ⟨h1, ?_⟩
    rw [entries_keys (hreach.of_run ops hrun).linv]
    exact h2
  · rw [entries_keys h] at hk0
    exact del_key_absent h hk0

theorem lru_del_key_forgets_witness :
    entries (lru_policy_del_key (priskv_policy_lru.mk ["c", "b", "a"]
        [⟨"a", 0⟩, ⟨"b", 1⟩, ⟨"c", 0⟩]) "b") =
      (entries (priskv_policy_lru.mk ["c", "b", "a"]
        [⟨"a", 0⟩, ⟨"b", 1⟩, ⟨"c", 0⟩])).filter (fun n => decide (n.key ≠ "b")) ∧
    entries (lru_policy_del_key (priskv_policy_lru.mk ["c", "b", "a"]
        [⟨"a", 0⟩, ⟨"b", 1⟩, ⟨"c", 0⟩]) "b") = [⟨"c", 0⟩, ⟨"a", 0⟩] :=
  ⟨(lru_del_key_forgets (priskv_policy_lru.mk ["c", "b", "a"] [⟨"a", 0⟩, ⟨"b", 1⟩, ⟨"c", 0⟩]) "b"
      (@LReach.of_run _ LReach.create
        [lru_op.access "a", lru_op.access "b", lru_op.try_ref_key "b", lru_op.access "c"]
        [lru_ret.done, lru_ret.done, lru_ret.flag true, lru_ret.done] _ (by decide))).1,
    by decide⟩

/-- The function `priskv_backend_child_get_cb` after a `freeup` that failed: the
callback of the request is invoked with `OK` and the length of `freeup`, and the
driver's `set` is not called. -/
theorem child_get_cb_freeup_fails {σ : Type} (fuel : Nat) (bdrv : priskv_backend_driver σ)
    (data : σ) (key : String) (val : List Nat) (valuelen L : Nat)
    {s : priskv_backend_status} {l : Nat} {d : σ} {calls : List backend_call}
    (hf : priskv_backend_freeup fuel bdrv data L = some (s, l, d, calls))
    (hs : s ≠ PRISKV_BACKEND_STATUS_OK) :
    priskv_backend_child_get_cb fuel bdrv data key val valuelen PRISKV_BACKEND_STATUS_OK L =
      some ([(PRISKV_BACKEND_STATUS_OK, l)], d, calls) := by
  simp only [priskv_backend_child_get_cb, if_true, hf, priskv_backend_cache, ne_eq, hs,
    not_false_eq_true, List.append_nil]

/-- The function `priskv_backend_child_get_cb` after a `freeup` that succeeded:
the driver's `set` is called with the key, the buffer and `valuelen` of the
request, and the callback of the request is invoked with `OK` and the length that
`set` reports. -/
theorem child_get_cb_set {σ : Type} (fuel : Nat) (bdrv : priskv_backend_driver σ)
    (data : σ) (key : String) (val : List Nat) (valuelen L : Nat)
    {l : Nat} {d : σ} {calls : List backend_call}
    (hf : priskv_backend_freeup fuel bdrv data L = some (PRISKV_BACKEND_STATUS_OK, l, d, calls)) :
    priskv_backend_child_get_cb fuel bdrv data key val valuelen PRISKV_BACKEND_STATUS_OK L =
      some ([(PRISKV_BACKEND_STATUS_OK, (bdrv.set d key val valuelen 0).length)],
        (bdrv.set d key val valuelen 0).data,
        calls ++ [backend_call.set 0 key val valuelen 0]) := by
  simp only [priskv_backend_child_get_cb, if_true, hf, priskv_backend_cache, ne_eq,
    not_true_eq_false, if_false, priskv_backend_cache_cb]

/-- The function `priskv_backend_child_get_cb` for a status other than `OK`. -/
theorem child_get_cb_fails {σ : Type} (fuel : Nat) (bdrv : priskv_backend_driver σ)
    (data : σ) (key : String) (val : List Nat) (valuelen : Nat) {s : priskv_backend_status}
    (l : Nat) (hs : s ≠ PRISKV_BACKEND_STATUS_OK) :
    priskv_backend_child_get_cb fuel bdrv data key val valuelen s l =
      some ([(s, l)], data, []) := by
  simp only [priskv_backend_child_get_cb, if_neg hs]

/-! ## The claims on `priskv_backend_get` -/

/-- C16, as the code has it: `priskv_backend_get` calls the `get` of the driver of
its device first. When that reports `OK` the callback of the caller is invoked
once with `OK` and the length of the driver and no other driver function is
called; when it reports another status and there is no child, the callback is
invoked once with that status and length and no other driver function is called;
when it reports another status, whichever it is, and there is a child, the next
call is the `get` of the driver of the child, with the key, the buffer and
`valuelen` of the request. -/
theorem backend_get_falls_through {σ : Type} (fuel : Nat) (bdrv : priskv_backend_driver σ)
    (data : σ) (child : Option (priskv_backend_device σ)) (key : String) (val : List Nat)
    (valuelen : Nat) :
    ((bdrv.get data key val valuelen).1.status = PRISKV_BACKEND_STATUS_OK →
      ∃ res, priskv_backend_get fuel (.mk bdrv data child) key val valuelen = some res ∧
        res.cbs = [(PRISKV_BACKEND_STATUS_OK, (bdrv.get data key val valuelen).1.length)] ∧
        res.calls = [backend_call.get 0 key val valuelen]) ∧
    ((bdrv.get data key val valuelen).1.status ≠ PRISKV_BACKEND_STATUS_OK → child = none →
      ∃ res, priskv_backend_get fuel (.mk bdrv data child) key val valuelen = some res ∧
        res.cbs = [((bdrv.get data key val valuelen).1.status,
          (bdrv.get data key val valuelen).1.length)] ∧
        res.calls = [backend_call.get 0 key val valuelen]) ∧
    ((bdrv.get data key val valuelen).1.status ≠ PRISKV_BACKEND_STATUS_OK →
      ∀ c res, child = some c →
        priskv_backend_get fuel (.mk bdrv data child) key val valuelen = some res →
        ∃ rest, res.calls = backend_call.get 0 key val valuelen ::
          backend_call.get 1 key (bdrv.get data key val valuelen).2 valuelen :: rest) := by
  refine ⟨fun h => ⟨_, get_hit fuel bdrv data child key val valuelen h, rfl, rfl⟩,
    fun _ hc => ?_, fun h c res hc hr => ?_⟩
  · subst hc
    exact ⟨_, get_leaf fuel bdrv data key val valuelen, rfl, rfl⟩
  · subst hc
    simp only [priskv_backend_get, if_neg h] at hr
    cases hg : priskv_backend_get fuel c key (bdrv.get data key val valuelen).2 valuelen with
    | none => rw [hg] at hr; exact Option.noConfusion hr
    | some rc =>
      obtain ⟨rest, hrest⟩ := get_calls_head fuel c key _ valuelen hg
      rw [hg] at hr
      simp only at hr
      split at hr
      · simp only [Option.some.injEq] at hr
        exact ⟨rest.map backend_call.below, by rw [← hr, hrest]; rfl⟩
      · split at hr
        · exact Option.noConfusion hr
        · simp only [Option.some.injEq] at hr
          exact ⟨_, by rw [← hr, hrest]; rfl⟩
      · exact Option.noConfusion hr

theorem backend_get_falls_through_witness :
    ∃ rest, [backend_call.get 0 "k" (List.replicate 16 0) 16,
        backend_call.get 1 "k" (List.replicate 16 0) 16,
        backend_call.is_cacheable 0 5,
        backend_call.set 0 "k" (hello ++ List.replicate 11 0) 16 0] =
      backend_call.get 0 "k" (List.replicate 16 0) 16 ::
        backend_call.get 1 "k"
          ((table_driver 4).get [] "k" (List.replicate 16 0) 16).2 16 :: rest :=
  (backend_get_falls_through 10 (table_driver 4) []
    (some (.mk (table_driver 1000) [("k", hello)] none)) "k" (List.replicate 16 0) 16).2.2
    (by decide) (.mk (table_driver 1000) [("k", hello)] none)
    { cbs := [(PRISKV_BACKEND_STATUS_OK, 0)], val := hello ++ List.replicate 11 0,
      bdev := .mk (table_driver 4) [("k", hello ++ List.replicate 11 0)]
        (some (.mk (table_driver 1000) [("k", hello)] none)),
      calls := [backend_call.get 0 "k" (List.replicate 16 0) 16,
        backend_call.get 1 "k" (List.replicate 16 0) 16,
        backend_call.is_cacheable 0 5,
        backend_call.set 0 "k" (hello ++ List.replicate 11 0) 16 0] } rfl rfl

/-- C16, as the claim has it, fails: on a chain whose first tier reports `ERROR`
with the length 7 for `get` and whose child reports `OK` with the length 5, the
`get` of the child is called and the callback of the caller is invoked with `OK`
and 5, not with `ERROR` and 7. -/
theorem backend_get_error_counterexample :
    ((fixed_driver PRISKV_BACKEND_STATUS_ERROR 7).get () "k" [] 0).1.status =
      PRISKV_BACKEND_STATUS_ERROR ∧
    (priskv_backend_get 4 (.mk (fixed_driver PRISKV_BACKEND_STATUS_ERROR 7) ()
        (some (.mk (fixed_driver PRISKV_BACKEND_STATUS_OK 5) () none))) "k" [] 0).map
      (fun r => r.calls) =
      some [backend_call.get 0 "k" [] 0, backend_call.get 1 "k" [] 0,
        backend_call.is_cacheable 0 5, backend_call.evict 0] ∧
    (priskv_backend_get 4 (.mk (fixed_driver PRISKV_BACKEND_STATUS_ERROR 7) ()
        (some (.mk (fixed_driver PRISKV_BACKEND_STATUS_OK 5) () none))) "k" [] 0).map
      (fun r => r.cbs) = some [(PRISKV_BACKEND_STATUS_OK, 5)] := by
  refine ⟨rfl, ?_, ?_⟩ <;> decide

/-- C17: on the chain `cache;origin` of the scenario E3, with "hello" under "k" in
the origin and a cache whose `set` reports the length 0, the cache misses, the
origin alone reports `OK` with the length 5, and `priskv_backend_get` with a
buffer of 16 bytes invokes the callback of the caller with `OK` and the length 0:
`priskv_backend_cache_cb` passes on the length that the `set` of the cache
reports. -/
theorem backend_get_length_from_set :
    ((table_driver 4).get [] "k" (List.replicate 16 0) 16).1.status =
      PRISKV_BACKEND_STATUS_NOT_FOUND ∧
    (priskv_backend_get 10 (.mk (table_driver 1000) [("k", hello)] none) "k"
        (List.replicate 16 0) 16).map (fun r => r.cbs) =
      some [(PRISKV_BACKEND_STATUS_OK, 5)] ∧
    (priskv_backend_get 10 e3_chain "k" (List.replicate 16 0) 16).map (fun r => r.cbs) =
      some [(PRISKV_BACKEND_STATUS_OK, 0)] := by
  refine ⟨by decide, ?_, ?_⟩ <;> decide

/-- C18: on the chain `cache;origin` of the scenario E3, `priskv_backend_get` with
a buffer of 16 bytes for the value of 5 bytes calls the `set` of the cache once,
with the key and the buffer of the request and with the length 16, the
`valuelen` of the request; the cache then holds an entry of 16 bytes, and a `get`
on the cache alone reports `OK` with the length 16. -/
theorem backend_get_caches_capacity :
    (priskv_backend_get 10 e3_chain "k" (List.replicate 16 0) 16).map (fun r => r.calls) =
      some [backend_call.get 0 "k" (List.replicate 16 0) 16,
        backend_call.get 1 "k" (List.replicate 16 0) 16,
        backend_call.is_cacheable 0 5,
        backend_call.set 0 "k" (hello ++ List.replicate 11 0) 16 0] ∧
    (priskv_backend_get 10 e3_chain "k" (List.replicate 16 0) 16).map
        (fun r => r.bdev.private_data) = some [("k", hello ++ List.replicate 11 0)] ∧
    (priskv_backend_get 10 (.mk (table_driver 4) [("k", hello ++ List.replicate 11 0)] none)
        "k" (List.replicate 16 0) 16).map (fun r => r.cbs) =
      some [(PRISKV_BACKEND_STATUS_OK, 16)] := by
  refine ⟨?_, ?_, ?_⟩ <;> decide

/-- C19: when the `get` of the driver of a device does not report `OK`, the child
chain invokes its callback with `OK`, and the loop of `priskv_backend_freeup`
comes to its end, `priskv_backend_get` invokes the callback of the caller once,
with `OK`: after an evict that failed in `freeup` without any call of the
driver's `set`, and else after one call of `set`, whatever status that reports. -/
theorem backend_get_hit_reports_ok {σ : Type} (fuel : Nat) (bdrv : priskv_backend_driver σ)
    (data : σ) (c : priskv_backend_device σ) (key : String) (val : List Nat) (valuelen L : Nat)
    (rc : backend_done σ) (s : priskv_backend_status) (l : Nat) (d : σ)
    (calls : List backend_call)
    (h : (bdrv.get data key val valuelen).1.status ≠ PRISKV_BACKEND_STATUS_OK)
    (hc : priskv_backend_get fuel c key (bdrv.get data key val valuelen).2 valuelen = some rc)
    (hcb : rc.cbs = [(PRISKV_BACKEND_STATUS_OK, L)])
    (hf : priskv_backend_freeup fuel bdrv (bdrv.get data key val valuelen).1.data L =
      some (s, l, d, calls)) :
    ∃ res, priskv_backend_get fuel (.mk bdrv data (some c)) key val valuelen = some res ∧
      (∃ len, res.cbs = [(PRISKV_BACKEND_STATUS_OK, len)]) ∧
      (s ≠ PRISKV_BACKEND_STATUS_OK → backend_call.evict 0 ∈ res.calls ∧
        ∀ e ∈ res.calls, ∀ k v n t, e ≠ backend_call.set 0 k v n t) ∧
      (s = PRISKV_BACKEND_STATUS_OK →
        res.calls = backend_call.get 0 key val valuelen ::
          (rc.calls.map backend_call.below ++ calls ++
            [backend_call.set 0 key rc.val valuelen 0]) ∧
        res.cbs = [(PRISKV_BACKEND_STATUS_OK, (bdrv.set d key rc.val valuelen 0).length)]) := by
  obtain ⟨_, f2, f3, _⟩ := freeup_spec bdrv L fuel _ hf
  by_cases hs : s = PRISKV_BACKEND_STATUS_OK
  · subst hs
    refine ⟨_, by rw [get_miss fuel bdrv data c key val valuelen h hc hcb,
      child_get_cb_set fuel bdrv _ key rc.val valuelen L hf]; rfl, ⟨_, rfl⟩,
      fun hne => absurd rfl hne, fun _ => ⟨by simp only [List.append_assoc], rfl⟩⟩
  · refine ⟨_, by rw [get_miss fuel bdrv data c key val valuelen h hc hcb,
      child_get_cb_freeup_fails fuel bdrv _ key rc.val valuelen L hf hs]; rfl, ⟨_, rfl⟩,
      fun _ => ⟨?_, fun e he k v n t heq => ?_⟩, fun e => absurd e hs⟩
    · exact List.mem_cons_of_mem _ (List.mem_append_right _ (f3 hs))
    · subst heq
      rcases List.mem_cons.1 he with e1 | e1
      · exact backend_call.noConfusion e1
      · rcases List.mem_append.1 e1 with e2 | e2
        · obtain ⟨x, _, hx⟩ := List.mem_map.1 e2
          have := below_tier x
          rw [hx] at this
          simp only [backend_call.tier] at this
          omega
        · rcases f2 _ e2 with e3 | e3
          · exact backend_call.noConfusion e3
          · exact backend_call.noConfusion e3

theorem backend_get_hit_reports_ok_witness :
    ∃ res, priskv_backend_get 10 (.mk (table_driver 4) []
        (some (.mk (table_driver 1000) [("k", hello)] none))) "k" (List.replicate 16 0) 16 =
        some res ∧
      (∃ len, res.cbs = [(PRISKV_BACKEND_STATUS_OK, len)]) ∧
      (PRISKV_BACKEND_STATUS_OK ≠ PRISKV_BACKEND_STATUS_OK →
        backend_call.evict 0 ∈ res.calls ∧
        ∀ e ∈ res.calls, ∀ k v n t, e ≠ backend_call.set 0 k v n t) ∧
      (PRISKV_BACKEND_STATUS_OK = PRISKV_BACKEND_STATUS_OK →
        res.calls = backend_call.get 0 "k" (List.replicate 16 0) 16 ::
          ([backend_call.get 0 "k" (List.replicate 16 0) 16].map backend_call.below ++
            [backend_call.is_cacheable 0 5] ++
            [backend_call.set 0 "k" (hello ++ List.replicate 11 0) 16 0]) ∧
        res.cbs = [(PRISKV_BACKEND_STATUS_OK,
          ((table_driver 4).set [] "k" (hello ++ List.replicate 11 0) 16 0).length)]) :=
  backend_get_hit_reports_ok 10 (table_driver 4) [] (.mk (table_driver 1000) [("k", hello)] none)
    "k" (List.replicate 16 0) 16 5
    { cbs := [(PRISKV_BACKEND_STATUS_OK, 5)], val := hello ++ List.replicate 11 0,
      bdev := .mk (table_driver 1000) [("k", hello)] none,
      calls := [backend_call.get 0 "k" (List.replicate 16 0) 16] }
    PRISKV_BACKEND_STATUS_OK 5 [] [backend_call.is_cacheable 0 5]
    (by decide) rfl rfl rfl

/-- C20: when the `get` of the driver of a device does not report `OK` (it
reports `NOT_FOUND`, say) and there is no child, `priskv_backend_get` invokes the
callback of the caller once with the status and the length of the driver; when
there is a child and the child chain invokes its callback with a status other
than `OK` and a length, the callback of the caller is invoked once with that
status and that length, and the only driver function called on the device itself
is that `get`: its private data are as the `get` left them. -/
theorem backend_get_miss_propagates {σ : Type} (fuel : Nat) (bdrv : priskv_backend_driver σ)
    (data : σ) (key : String) (val : List Nat) (valuelen : Nat)
    (h : (bdrv.get data key val valuelen).1.status ≠ PRISKV_BACKEND_STATUS_OK) :
    (∃ res, priskv_backend_get fuel (.mk bdrv data none) key val valuelen = some res ∧
      res.cbs = [((bdrv.get data key val valuelen).1.status,
        (bdrv.get data key val valuelen).1.length)] ∧
      res.calls = [backend_call.get 0 key val valuelen]) ∧
    (∀ c rc s l,
      priskv_backend_get fuel c key (bdrv.get data key val valuelen).2 valuelen = some rc →
      rc.cbs = [(s, l)] → s ≠ PRISKV_BACKEND_STATUS_OK →
      ∃ res, priskv_backend_get fuel (.mk bdrv data (some c)) key val valuelen = some res ∧
        res.cbs = [(s, l)] ∧
        res.calls = backend_call.get 0 key val valuelen :: rc.calls.map backend_call.below ∧
        (∀ e ∈ res.calls, e.tier = 0 → e = backend_call.get 0 key val valuelen) ∧
        res.bdev.private_data = (bdrv.get data key val valuelen).1.data) := by
  refine ⟨⟨_, get_leaf fuel bdrv data key val valuelen, rfl, rfl⟩, fun c rc s l hc hcb hs => ?_⟩
  refine ⟨{ cbs := [(s, l)], val := rc.val,
            bdev := .mk bdrv (bdrv.get data key val valuelen).1.data (some rc.bdev),
            calls := backend_call.get 0 key val valuelen ::
              (rc.calls.map backend_call.below ++ []) },
    by rw [get_miss fuel bdrv data c key val valuelen h hc hcb,
      child_get_cb_fails fuel bdrv _ key rc.val valuelen l hs]; rfl, rfl,
    by simp only [List.append_nil], fun e he ht => ?_, rfl⟩
  simp only [List.append_nil] at he
  rcases List.mem_cons.1 he with e1 | e1
  · exact e1
  · obtain ⟨x, _, hx⟩ := List.mem_map.1 e1
    have := below_tier x
    rw [hx, ht] at this
    omega

theorem backend_get_miss_propagates_witness :
    ∃ res, priskv_backend_get 10 (.mk (table_driver 4) []
        (some (.mk (table_driver 1000) [("k", hello)] none))) "k" [0, 0, 0, 0] 4 = some res ∧
      res.cbs = [(PRISKV_BACKEND_STATUS_VALUE_TOO_BIG, 5)] ∧
      res.calls = backend_call.get 0 "k" [0, 0, 0, 0] 4 ::
        [backend_call.get 0 "k" [0, 0, 0, 0] 4].map backend_call.below ∧
      (∀ e ∈ res.calls, e.tier = 0 → e = backend_call.get 0 "k" [0, 0, 0, 0] 4) ∧
      res.bdev.private_data = ((table_driver 4).get [] "k" [0, 0, 0, 0] 4).1.data :=
  (backend_get_miss_propagates 10 (table_driver 4) [] "k" [0, 0, 0, 0] 4 (by decide)).2
    (.mk (table_driver 1000) [("k", hello)] none)
    { cbs := [(PRISKV_BACKEND_STATUS_VALUE_TOO_BIG, 5)], val := [0, 0, 0, 0],
      bdev := .mk (table_driver 1000) [("k", hello)] none,
      calls := [backend_call.get 0 "k" [0, 0, 0, 0] 4] }
    PRISKV_BACKEND_STATUS_VALUE_TOO_BIG 5 rfl rfl (by decide)

/-- C21: `priskv_backend_set` on a device with a child runs `priskv_backend_set`
on the child with the same key, buffer, length and timeout, and the child chain
invokes its callback once, with a status `s` and a length `l`. The calls of the
child chain come first. When `s` is not `OK` the callback of the caller is
invoked once with `s` and `l`, and no function of the driver of the device is
called: its private data stay. When `s` is `OK` the driver's `del` is called with
the key, once, and that is the only call on the device: its `set` is not called.
On a device without a child the driver's `set` is called with the arguments, and
the callback of the caller is invoked once with its status and length. -/
theorem backend_set_child_first {σ : Type} (bdrv : priskv_backend_driver σ) (data : σ)
    (c : priskv_backend_device σ) (key : String) (val : List Nat) (valuelen timeout : Nat) :
    (∃ rc s l res, priskv_backend_set c key val valuelen timeout = some rc ∧
      rc.cbs = [(s, l)] ∧
      priskv_backend_set (.mk bdrv data (some c)) key val valuelen timeout = some res ∧
      (s ≠ PRISKV_BACKEND_STATUS_OK →
        res.cbs = [(s, l)] ∧ res.calls = rc.calls.map backend_call.below ∧
        res.calls.filter (fun e => decide (e.tier = 0)) = [] ∧
        res.bdev.private_data = data) ∧
      (s = PRISKV_BACKEND_STATUS_OK →
        res.calls = rc.calls.map backend_call.below ++ [backend_call.del 0 key] ∧
        res.calls.filter (fun e => decide (e.tier = 0)) = [backend_call.del 0 key])) ∧
    priskv_backend_set (.mk bdrv data none) key val valuelen timeout =
      some { cbs := [((bdrv.set data key val valuelen timeout).status,
                      (bdrv.set data key val valuelen timeout).length)],
             val := val,
             bdev := .mk bdrv (bdrv.set data key val valuelen timeout).data none,
             calls := [backend_call.set 0 key val valuelen timeout] } := by
  refine ⟨?_, set_leaf bdrv data key val valuelen timeout⟩
  obtain ⟨rc, s, l, hc, hcb⟩ := set_returns key val valuelen timeout c
  refine ⟨rc, s, l, _, hc, hcb, set_child bdrv data c key val valuelen timeout hc hcb,
    fun hs => ?_, fun hs => ?_⟩
  · rw [child_set_cb_fails bdrv data key l hs]
    simp only [List.append_nil, filter_below_tier, priskv_backend_device.private_data, and_self]
  · subst hs
    rw [child_set_cb_ok]
    simp only [List.filter_append, filter_below_tier, List.nil_append, true_and]
    rfl

theorem backend_set_child_first_witness :
    (∃ rc s l res, priskv_backend_set (.mk (table_driver 1000) [] none) "k" hello 5 0 =
        some rc ∧
      rc.cbs = [(s, l)] ∧
      priskv_backend_set (.mk (table_driver 4) [("k", [1])]
        (some (.mk (table_driver 1000) [] none))) "k" hello 5 0 = some res ∧
      (s ≠ PRISKV_BACKEND_STATUS_OK →
        res.cbs = [(s, l)] ∧ res.calls = rc.calls.map backend_call.below ∧
        res.calls.filter (fun e => decide (e.tier = 0)) = [] ∧
        res.bdev.private_data = [("k", [1])]) ∧
      (s = PRISKV_BACKEND_STATUS_OK →
        res.calls = rc.calls.map backend_call.below ++ [backend_call.del 0 "k"] ∧
        res.calls.filter (fun e => decide (e.tier = 0)) = [backend_call.del 0 "k"])) ∧
    priskv_backend_set (.mk (table_driver 4) [("k", [1])] none) "k" hello 5 0 =
      some { cbs := [(((table_driver 4).set [("k", [1])] "k" hello 5 0).status,
                      ((table_driver 4).set [("k", [1])] "k" hello 5 0).length)],
             val := hello,
             bdev := .mk (table_driver 4)
               ((table_driver 4).set [("k", [1])] "k" hello 5 0).data none,
             calls := [backend_call.set 0 "k" hello 5 0] } :=
  backend_set_child_first (table_driver 4) [("k", [1])] (.mk (table_driver 1000) [] none)
    "k" hello 5 0

/-- C22: on the chain `cache;origin` with both tiers empty, `priskv_backend_set`
of the value "hello" for the key "k" calls the `set` of the origin, which reports
`OK`, and then the `del` of the cache, which reports `NOT_FOUND`: the callback of
the caller is invoked once, with `NOT_FOUND`, the status of that `del`, since
`priskv_backend_child_set_cb` hands the callback of the request to the `del`.
The origin holds the value, and a `priskv_backend_get` that follows reports `OK`
and fills the buffer with "hello". -/
theorem backend_set_reports_del_status :
    (priskv_backend_set empty_chain "k" hello 5 0).map (fun r => (r.cbs, r.calls)) =
      some ([(PRISKV_BACKEND_STATUS_NOT_FOUND, 0)],
        [backend_call.set 1 "k" hello 5 0, backend_call.del 0 "k"]) ∧
    ((table_driver 1000).set [] "k" hello 5 0).status = PRISKV_BACKEND_STATUS_OK ∧
    ((table_driver 4).del [] "k").status = PRISKV_BACKEND_STATUS_NOT_FOUND ∧
    (priskv_backend_set empty_chain "k" hello 5 0).map (fun r => chain_data r.bdev) =
      some [[], [("k", hello)]] ∧
    ((priskv_backend_set empty_chain "k" hello 5 0).bind (fun r =>
      priskv_backend_get 10 r.bdev "k" [0, 0, 0, 0, 0] 5)).map (fun r => r.val) =
      some hello := by
  refine ⟨?_, ?_, ?_, ?_, ?_⟩ <;> decide

/-- C23: `priskv_backend_del` on a device with a child runs `priskv_backend_del`
on the child first, and the child chain invokes its callback once, with a status
`s` and a length `l`. The driver's `del` is called on the device if and only if
`s` is `OK`, then once and after the calls of the child chain. When `s` is not
`OK` the callback of the caller is invoked once with `s` and `l`, no function of
the driver of the device is called and its private data stay. On a device without
a child the callback of the caller is invoked once with the status and the length
of the driver's `del`. -/
theorem backend_del_child_first {σ : Type} (bdrv : priskv_backend_driver σ) (data : σ)
    (c : priskv_backend_device σ) (key : String) :
    (∃ rc s l res, priskv_backend_del c key = some rc ∧ rc.cbs = [(s, l)] ∧
      priskv_backend_del (.mk bdrv data (some c)) key = some res ∧
      (backend_call.del 0 key ∈ res.calls ↔ s = PRISKV_BACKEND_STATUS_OK) ∧
      (s ≠ PRISKV_BACKEND_STATUS_OK →
        res.cbs = [(s, l)] ∧ res.calls = rc.calls.map backend_call.below ∧
        res.calls.filter (fun e => decide (e.tier = 0)) = [] ∧
        res.bdev.private_data = data) ∧
      (s = PRISKV_BACKEND_STATUS_OK →
        res.calls = rc.calls.map backend_call.below ++ [backend_call.del 0 key] ∧
        res.cbs = [((bdrv.del data key).status, (bdrv.del data key).length)])) ∧
    priskv_backend_del (.mk bdrv data none) key =
      some { cbs := [((bdrv.del data key).status, (bdrv.del data key).length)],
             val := [],
             bdev := .mk bdrv (bdrv.del data key).data none,
             calls := [backend_call.del 0 key] } := by
  refine ⟨?_, del_leaf bdrv data key⟩
  obtain ⟨rc, s, l, hc, hcb⟩ := del_returns key c
  have hb : backend_call.del 0 key ∉ rc.calls.map backend_call.below := by
    intro hm
    obtain ⟨x, _, hx⟩ := List.mem_map.1 hm
    have := below_tier x
    rw [hx] at this
    simp only [backend_call.tier] at this
    omega
  refine ⟨rc, s, l, _, hc, hcb, del_child bdrv data c key hc hcb, ?_, fun hs => ?_,
    fun hs => ?_⟩
  · by_cases hs : s = PRISKV_BACKEND_STATUS_OK
    · subst hs
      rw [child_del_cb_ok]
      simp only [List.mem_append, List.mem_singleton, or_true]
    · rw [child_del_cb_fails bdrv data key l hs]
      simp only [List.append_nil, hb, hs]
  · rw [child_del_cb_fails bdrv data key l hs]
    simp only [List.append_nil, filter_below_tier, priskv_backend_device.private_data, and_self]
  · subst hs
    rw [child_del_cb_ok]
    exact ⟨rfl, rfl⟩

theorem backend_del_child_first_witness :
    (∃ rc s l res, priskv_backend_del (.mk (table_driver 1000) [] none) "k" = some rc ∧
      rc.cbs = [(s, l)] ∧
      priskv_backend_del (.mk (table_driver 4) [("k", hello)]
        (some (.mk (table_driver 1000) [] none))) "k" = some res ∧
      (backend_call.del 0 "k" ∈ res.calls ↔ s = PRISKV_BACKEND_STATUS_OK) ∧
      (s ≠ PRISKV_BACKEND_STATUS_OK →
        res.cbs = [(s, l)] ∧ res.calls = rc.calls.map backend_call.below ∧
        res.calls.filter (fun e => decide (e.tier = 0)) = [] ∧
        res.bdev.private_data = [("k", hello)]) ∧
      (s = PRISKV_BACKEND_STATUS_OK →
        res.calls = rc.calls.map backend_call.below ++ [backend_call.del 0 "k"] ∧
        res.cbs = [(((table_driver 4).del [("k", hello)] "k").status,
          ((table_driver 4).del [("k", hello)] "k").length)])) ∧
    priskv_backend_del (.mk (table_driver 4) [("k", hello)] none) "k" =
      some { cbs := [(((table_driver 4).del [("k", hello)] "k").status,
                      ((table_driver 4).del [("k", hello)] "k").length)],
             val := [],
             bdev := .mk (table_driver 4) ((table_driver 4).del [("k", hello)] "k").data none,
             calls := [backend_call.del 0 "k"] } :=
  backend_del_child_first (table_driver 4) [("k", hello)] (.mk (table_driver 1000) [] none) "k"

/-- C24: when the driver's `test` reports `OK`, `priskv_backend_test` invokes the
callback of the caller once with `OK` and the length of the driver and calls
nothing on the child; when it reports another status, `NOT_FOUND` say, and there
is a child, the callback of the caller is invoked as `priskv_backend_test` on the
child invokes it, once, after the calls of the child chain; without a child the
callback is invoked once with the status and the length of the driver. The only
driver function that is called on any tier is `test`, with the key, so that the
private data of every tier stay when the `test` of the drivers leaves them. -/
theorem backend_test_falls_through {σ : Type} (bdrv : priskv_backend_driver σ) (data : σ)
    (key : String) :
    (∀ child, (bdrv.test data key).status = PRISKV_BACKEND_STATUS_OK →
      (priskv_backend_test (.mk bdrv data child) key).cbs =
        [(PRISKV_BACKEND_STATUS_OK, (bdrv.test data key).length)] ∧
      (priskv_backend_test (.mk bdrv data child) key).calls = [backend_call.test 0 key]) ∧
    (∀ c, (bdrv.test data key).status ≠ PRISKV_BACKEND_STATUS_OK →
      (priskv_backend_test (.mk bdrv data (some c)) key).cbs = (priskv_backend_test c key).cbs ∧
      (∃ s l, (priskv_backend_test c key).cbs = [(s, l)]) ∧
      (priskv_backend_test (.mk bdrv data (some c)) key).calls =
        backend_call.test 0 key :: (priskv_backend_test c key).calls.map backend_call.below) ∧
    ((priskv_backend_test (.mk bdrv data none) key).cbs =
        [((bdrv.test data key).status, (bdrv.test data key).length)] ∧
      (priskv_backend_test (.mk bdrv data none) key).calls = [backend_call.test 0 key]) ∧
    (∀ d : priskv_backend_device σ,
      (∀ e ∈ (priskv_backend_test d key).calls, ∃ t, e = backend_call.test t key) ∧
      ((∀ b ∈ chain_drivers d, ∀ x, (b.test x key).data = x) →
        chain_data (priskv_backend_test d key).bdev = chain_data d)) := by
  refine ⟨fun child h => ?_, fun c h => ?_, ⟨rfl, rfl⟩, fun d =>
    ⟨test_calls key d, test_keeps_data key d⟩⟩
  · rw [test_hit bdrv data child key h]
    exact ⟨rfl, rfl⟩
  · rw [test_miss bdrv data c key h]
    exact ⟨rfl, test_once key c, rfl⟩

theorem backend_test_falls_through_witness :
    ((table_driver 4).test [] "k").status ≠ PRISKV_BACKEND_STATUS_OK ∧
    (priskv_backend_test e3_chain "k").cbs =
      (priskv_backend_test (.mk (table_driver 1000) [("k", hello)] none) "k").cbs ∧
    (∃ s l, (priskv_backend_test (.mk (table_driver 1000) [("k", hello)] none) "k").cbs =
      [(s, l)]) ∧
    (priskv_backend_test e3_chain "k").calls =
      backend_call.test 0 "k" ::
        (priskv_backend_test (.mk (table_driver 1000) [("k", hello)] none) "k").calls.map
          backend_call.below :=
  ⟨by decide, (backend_test_falls_through (table_driver 4) [] "k").2.1
    (.mk (table_driver 1000) [("k", hello)] none) (by decide)⟩

/-- C25: `priskv_backend_freeup` for the length `L`, when in each of the first `n`
rounds the device is not cacheable for `L` and the evict reports `OK`, and the
loop may run for more than `n` rounds. When the device is then cacheable the
loop completes with `OK` after `n` evicts, each after a test `is_cacheable` that
fails, and a last test (with `n = 0`: a single test and no evict). When it is not
cacheable and the next evict reports another status, the loop completes with
that status after `n + 1` evicts. It completes once: the result is the one
invocation of the completion callback. -/
theorem backend_freeup_evicts_until {σ : Type} (bdrv : priskv_backend_driver σ) (data : σ)
    (L n fuel : Nat)
    (hn : ∀ i, i < n → bdrv.is_cacheable (evicted bdrv i data) L = false ∧
      (bdrv.evict (evicted bdrv i data)).status = PRISKV_BACKEND_STATUS_OK)
    (hf : n < fuel) :
    (bdrv.is_cacheable (evicted bdrv n data) L = true →
      priskv_backend_freeup fuel bdrv data L =
        some (PRISKV_BACKEND_STATUS_OK, u32 L, evicted bdrv n data,
          freeup_rounds L n ++ [backend_call.is_cacheable 0 L])) ∧
    (bdrv.is_cacheable (evicted bdrv n data) L = false →
      (bdrv.evict (evicted bdrv n data)).status ≠ PRISKV_BACKEND_STATUS_OK →
      priskv_backend_freeup fuel bdrv data L =
        some ((bdrv.evict (evicted bdrv n data)).status, u32 L,
          (bdrv.evict (evicted bdrv n data)).data,
          freeup_rounds L n ++ [backend_call.is_cacheable 0 L, backend_call.evict 0])) :=
  freeup_after_rounds bdrv L n fuel data hn hf

theorem backend_freeup_evicts_until_witness :
    (∀ i, i < 2 → (table_driver 1).is_cacheable
        (evicted (table_driver 1) i [("a", [1]), ("b", [2])]) 5 = false ∧
      ((table_driver 1).evict (evicted (table_driver 1) i [("a", [1]), ("b", [2])])).status =
        PRISKV_BACKEND_STATUS_OK) ∧
    (table_driver 1).is_cacheable (evicted (table_driver 1) 2 [("a", [1]), ("b", [2])]) 5 =
      true ∧
    priskv_backend_freeup 3 (table_driver 1) [("a", [1]), ("b", [2])] 5 =
      some (PRISKV_BACKEND_STATUS_OK, u32 5, evicted (table_driver 1) 2 [("a", [1]), ("b", [2])],
        freeup_rounds 5 2 ++ [backend_call.is_cacheable 0 5]) :=
  ⟨by decide, by decide,
    (backend_freeup_evicts_until (table_driver 1) [("a", [1]), ("b", [2])] 5 2 3 (by decide)
      (by decide)).1 (by decide)⟩

/-- C26: `parse_link` on `p ':' a`, with `p` not empty and free of `:` and `;` and
`a` not empty and free of `;`, returns 0 with the protocol `p`, the address `a`
and no child address; on `p ':' a ';' r` with `r` not empty (and `a` shorter than
2^64, as a C string is) it returns 0 with the protocol `p`, the address `a` and
the child address `r`. On the chain address `p1:a1;...;pn:an` of such tiers,
when for every tier a driver with the name of its protocol is registered, its
`bdrv_open` returns 0 and, for a tier with a child, its `clearup` returns 0,
`priskv_backend_open` returns a device with `n` tiers whose drivers have the
names `p1`, ..., `pn` in this order, the head first. -/
theorem backend_open_builds_chain {σ : Type} (drivers : List (priskv_backend_driver σ))
    (epollfd : Int) :
    (∀ p a : List Char, p ≠ [] → ':' ∉ p → ';' ∉ p → a ≠ [] → ';' ∉ a →
      parse_link (some (p ++ ':' :: a)) = (0, some ⟨p, a, none⟩)) ∧
    (∀ p a r : List Char, p ≠ [] → ':' ∉ p → ';' ∉ p → a ≠ [] → ';' ∉ a → r ≠ [] →
      a.length < 18446744073709551616 →
      parse_link (some (p ++ ':' :: (a ++ ';' :: r))) = (0, some ⟨p, a, some r⟩)) ∧
    (∀ ts : List (List Char × List Char), ts ≠ [] → (∀ t ∈ ts, tier_wf t) →
      (chain_address ts).length < 18446744073709551616 →
      (∀ link ∈ chain_links ts, link_opens drivers epollfd link = true) →
      ∃ bdev calls,
        priskv_backend_open drivers (some (chain_address ts)) epollfd =
          some (some bdev, calls) ∧
        (chain_names bdev).map String.data = ts.map Prod.fst ∧
        (chain_drivers bdev).length = ts.length) := by
  refine ⟨parse_link_leaf, parse_link_child, fun ts hts hwf hlen hok => ?_⟩
  obtain ⟨bdev, h, hn⟩ := (open_rec_chain drivers epollfd ts ((chain_address ts).length + 1) hts
    hwf hlen (Nat.lt_succ_self _)).1 hok
  refine ⟨bdev, _, h, hn, ?_⟩
  have := congrArg List.length hn
  simpa only [chain_names, List.length_map] using this

theorem backend_open_builds_chain_witness :
    ∃ bdev calls,
      priskv_backend_open [life_driver "p" 0 0 0, life_driver "q" 0 0 0]
        (some (chain_address [("p".data, "a".data), ("q".data, "b".data)])) 3 =
        some (some bdev, calls) ∧
      (chain_names bdev).map String.data =
        [("p".data, "a".data), ("q".data, "b".data)].map Prod.fst ∧
      (chain_drivers bdev).length = [("p".data, "a".data), ("q".data, "b".data)].length :=
  (backend_open_builds_chain [life_driver "p" 0 0 0, life_driver "q" 0 0 0] 3).2.2
    [("p".data, "a".data), ("q".data, "b".data)] (by decide) (by decide) (by decide) (by decide)

/-- C26, as it is written, fails: with the drivers `p` and `q` registered, the
`bdrv_open` of both returning 0 and the `clearup` of `p` returning -1,
`priskv_backend_open` on `p:a;q:b` opens both tiers, calls the `clearup` of the
first, closes the chain and returns `NULL`. -/
theorem backend_open_clearup_counterexample :
    chain_address [("p".data, "a".data), ("q".data, "b".data)] = "p:a;q:b".data ∧
    (∀ link ∈ chain_links [("p".data, "a".data), ("q".data, "b".data)],
      (priskv_backend_find_driver [life_driver "p" 0 (-1) 0, life_driver "q" 0 0 0]
        link.protocol).map (fun bdrv => (bdrv.bdrv_open link 3).1) = some 0) ∧
    (priskv_backend_open [life_driver "p" 0 (-1) 0, life_driver "q" 0 0 0]
        (some "p:a;q:b".data) 3).map (fun r => (r.1.isSome, r.2)) =
      some (false, [backend_life.bdrv_open 0 ⟨"p".data, "a".data, some "q:b".data⟩,
        backend_life.bdrv_open 1 ⟨"q".data, "b".data, none⟩,
        backend_life.clearup 0, backend_life.close 1, backend_life.close 0]) := by
  refine ⟨by decide, by decide, by decide⟩

/-- C27: `parse_link` on `a;b:c`, whose first `;` comes before its first `:`,
returns 0 with the protocol `a;b`, the address `c` and the child address `b:c`:
the length `end - delim - 1` of the address is negative and is taken as a
`size_t`. With drivers of the names `a;b` and `b` registered,
`priskv_backend_open` returns a device of two tiers for it. The other strings
that the grammar excludes are refused with `-EINVAL`: the empty string, a string
without `:`, an empty protocol, an empty address and a `;` with nothing after
it. -/
theorem parse_link_semicolon_first :
    parse_link (some "a;b:c".data) = (0, some ⟨"a;b".data, "c".data, some "b:c".data⟩) ∧
    (priskv_backend_open [life_driver "a;b" 0 0 0, life_driver "b" 0 0 0]
        (some "a;b:c".data) 3).map (fun r => r.1.map chain_names) = some (some ["a;b", "b"]) ∧
    parse_link (some "".data) = (-EINVAL, none) ∧
    parse_link (some "pa".data) = (-EINVAL, none) ∧
    parse_link (some ":a".data) = (-EINVAL, none) ∧
    parse_link (some "p:".data) = (-EINVAL, none) ∧
    parse_link (some "p:;q:b".data) = (-EINVAL, none) ∧
    parse_link (some "p:a;".data) = (-EINVAL, none) := by
  refine ⟨by decide, by decide, by decide, by decide, by decide, by decide, by decide, by decide⟩

/-- C28: on the chain address of `n` tiers, when the protocol of every tier has a
registered driver (a driver of the list of the registered drivers with that
name) whose `bdrv_open` returns 0 and, for a tier with a child, whose `clearup`
returns 0, `priskv_backend_open` returns a device after the calls of
`open_calls`: the `bdrv_open` of the tiers 0, ..., n - 1 in this order, each
with its link, and then the `clearup` of the tiers n - 2, ..., 0, once each,
none for the last tier and none at all for `n = 1`. When the protocol of some
tier is the name of no registered driver, or the `bdrv_open` of its registered
driver does not return 0, or it has a child and the `clearup` does not return
0, `priskv_backend_open` returns `NULL`. -/
theorem backend_open_head_first {σ : Type} (drivers : List (priskv_backend_driver σ))
    (epollfd : Int) (ts : List (List Char × List Char)) (hts : ts ≠ [])
    (hwf : ∀ t ∈ ts, tier_wf t) (hlen : (chain_address ts).length < 18446744073709551616) :
    ((∀ link ∈ chain_links ts, ∃ bdrv, driver_named drivers link.protocol bdrv ∧
        (bdrv.bdrv_open link epollfd).1 = 0 ∧
        (link.childaddr ≠ none → (bdrv.clearup (bdrv.bdrv_open link epollfd).2).1 = 0)) →
      ∃ bdev, priskv_backend_open drivers (some (chain_address ts)) epollfd =
        some (some bdev, open_calls 0 (chain_links ts))) ∧
    ((∃ link ∈ chain_links ts, not_registered drivers link.protocol ∨
        ∃ bdrv, driver_named drivers link.protocol bdrv ∧
          ((bdrv.bdrv_open link epollfd).1 ≠ 0 ∨
            (link.childaddr ≠ none ∧
              (bdrv.clearup (bdrv.bdrv_open link epollfd).2).1 ≠ 0))) →
      ∃ calls, priskv_backend_open drivers (some (chain_address ts)) epollfd =
        some (none, calls)) := by
  have h := open_rec_chain drivers epollfd ts ((chain_address ts).length + 1) hts hwf hlen
    (Nat.lt_succ_self _)
  refine ⟨fun hok => ?_, fun hbad => ?_⟩
  · obtain ⟨bdev, hb, _⟩ := h.1 (fun link hl =>
      (link_opens_named drivers epollfd link).2 (hok link hl))
    exact ⟨bdev, hb⟩
  · obtain ⟨link, hl, hb⟩ := hbad
    exact h.2 ⟨link, hl, link_opens_false drivers epollfd link hb⟩

theorem backend_open_head_first_witness :
    (open_calls 0 (chain_links [("p".data, "a".data), ("q".data, "b".data), ("p".data, "c".data)]) =
      [backend_life.bdrv_open 0 ⟨"p".data, "a".data, some "q:b;p:c".data⟩,
        backend_life.bdrv_open 1 ⟨"q".data, "b".data, some "p:c".data⟩,
        backend_life.bdrv_open 2 ⟨"p".data, "c".data, none⟩,
        backend_life.clearup 1, backend_life.clearup 0] ∧
     ∃ bdev, priskv_backend_open [life_driver "p" 0 0 0, life_driver "q" 0 0 0]
        (some (chain_address [("p".data, "a".data), ("q".data, "b".data), ("p".data, "c".data)]))
        3 =
      some (some bdev, open_calls 0
        (chain_links [("p".data, "a".data), ("q".data, "b".data), ("p".data, "c".data)]))) ∧
    (chain_address [("p".data, "a".data), ("r".data, "b".data)] = "p:a;r:b".data ∧
     not_registered [life_driver "p" 0 0 0, life_driver "q" 0 0 0] "r".data ∧
     ∃ calls, priskv_backend_open [life_driver "p" 0 0 0, life_driver "q" 0 0 0]
        (some (chain_address [("p".data, "a".data), ("r".data, "b".data)])) 3 =
      some (none, calls)) :=
  have hp : driver_named [life_driver "p" 0 0 0, life_driver "q" 0 0 0] "p".data
      (life_driver "p" 0 0 0) :=
    ⟨[], [life_driver "q" 0 0 0], rfl, rfl, fun d hd => absurd hd (List.not_mem_nil _)⟩
  have hq : driver_named [life_driver "p" 0 0 0, life_driver "q" 0 0 0] "q".data
      (life_driver "q" 0 0 0) :=
    ⟨[life_driver "p" 0 0 0], [], rfl, rfl, fun d hd => by
      rw [List.mem_singleton.1 hd]; decide⟩
  have hr : not_registered [life_driver "p" 0 0 0, life_driver "q" 0 0 0] "r".data :=
    fun d hd => by
      simp only [List.mem_cons, List.mem_singleton, List.not_mem_nil, or_false] at hd
      rcases hd with h | h <;> rw [h] <;> decide
  ⟨⟨by decide, (backend_open_head_first [life_driver "p" 0 0 0, life_driver "q" 0 0 0] 3
      [("p".data, "a".data), ("q".data, "b".data), ("p".data, "c".data)] (by decide) (by decide)
      (by decide)).1 (fun link hl => by
        simp only [chain_links, chain_address, List.mem_cons, List.mem_singleton,
          List.not_mem_nil, or_false] at hl
        rcases hl with h | h | h <;> rw [h]
        · exact ⟨_, hp, rfl, fun _ => rfl⟩
        · exact ⟨_, hq, rfl, fun _ => rfl⟩
        · exact ⟨_, hp, rfl, fun _ => rfl⟩)⟩,
   by decide, hr,
   (backend_open_head_first [life_driver "p" 0 0 0, life_driver "q" 0 0 0] 3
      [("p".data, "a".data), ("r".data, "b".data)] (by decide) (by decide) (by decide)).2
      ⟨⟨"r".data, "b".data, none⟩, by decide, Or.inl hr⟩⟩

/-- C29: `priskv_backend_close` on a chain of two tiers whose second driver
returns -1 from its `close` calls that `close` alone and returns -1: the `close`
of the driver of the first tier is never called. So it is when
`priskv_backend_open` fails after both tiers were opened, the `clearup` of the
first returning -1: the chain is closed through `priskv_backend_close`, and
`NULL` is returned with the driver of the first tier still open. -/
theorem backend_close_skips_parent :
    priskv_backend_close (.mk (life_driver "p" 0 0 0) ()
      (some (.mk (life_driver "q" 0 0 (-1)) () none))) = (-1, [backend_life.close 1]) ∧
    (priskv_backend_open [life_driver "p" 0 (-1) 0, life_driver "q" 0 0 (-1)]
        (some "p:a;q:b".data) 3).map (fun r => (r.1.isSome, r.2)) =
      some (false, [backend_life.bdrv_open 0 ⟨"p".data, "a".data, some "q:b".data⟩,
        backend_life.bdrv_open 1 ⟨"q".data, "b".data, none⟩,
        backend_life.clearup 0, backend_life.close 1]) := by
  refine ⟨by decide, by decide⟩

/-- C30: for the schema of `struct { int nvals; int x; int *vals; }` with the
forced fields `x` and `vals` and the value with `x = 7` and the two elements 5
and 6, `priskv_codec_code` makes `{ "x": 7, "vals": [ 5, 6 ] }`, and
`priskv_codec_decode` of that returns a structure with the count 2 and the
elements 5 and 6 whose `x` is 0: the length of the array is stored as a `size_t`
of 8 bytes where the schema has an `int`, over the field `x` that was decoded
before. With the count before the padding at the end of the structure, as in
`test_codec.c`, the same value comes back as it was. -/
theorem codec_decode_count_overwrites :
    load counted_mem (16 + 4) 4 = some 7 ∧
    priskv_codec_code 2 counted_mem 16 counted_obj = some (some counted_json) ∧
    (priskv_codec_decode 2 counted_mem priskv_codec_new counted_json counted_obj).map (fun r => r.1) =
      some (some 40) ∧
    (priskv_codec_decode 2 counted_mem priskv_codec_new counted_json counted_obj).bind
      (fun r => load r.2.1 (40 + 4) 4) = some 0 ∧
    (priskv_codec_decode 2 counted_mem priskv_codec_new counted_json counted_obj).bind
      (fun r => load r.2.1 40 4) = some 2 ∧
    (priskv_codec_decode 2 counted_mem priskv_codec_new counted_json counted_obj).bind
      (fun r => priskv_codec_code 2 r.2.1 40 counted_obj) =
      some (some (json_type_object [("x", json_type_int 0),
        ("vals", json_type_array [json_type_int 5, json_type_int 6])])) ∧
    priskv_codec_code 2 padded_mem 16 padded_obj = some (some counted_json) ∧
    (priskv_codec_decode 2 padded_mem priskv_codec_new counted_json padded_obj).map (fun r => r.1) =
      some (some 48) ∧
    (priskv_codec_decode 2 padded_mem priskv_codec_new counted_json padded_obj).bind
      (fun r => priskv_codec_code 2 r.2.1 48 padded_obj) = some (some counted_json) := by
  refine ⟨by decide, by rfl, by decide, by decide, by decide, by rfl, by rfl, by decide, by rfl⟩

/-- More rounds do not change what the loop of `priskv_backend_freeup` yields. -/
theorem freeup_mono {σ : Type} (bdrv : priskv_backend_driver σ) (L : Nat) :
    ∀ (fuel : Nat) (data : σ) {r : priskv_backend_status × Nat × σ × List backend_call},
      _priskv_backend_freeup bdrv L fuel data = some r →
      ∀ k, _priskv_backend_freeup bdrv L (fuel + k) data = some r
  | 0, _, _, h, _ => by simp [_priskv_backend_freeup] at h
  | fuel + 1, data, r, h, k => by
    have e : fuel + 1 + k = (fuel + k) + 1 := by omega
    rw [e]
    simp only [_priskv_backend_freeup] at h ⊢
    by_cases hc : bdrv.is_cacheable data L = true
    · simp only [hc, not_true_eq_false, if_false] at h ⊢
      exact h
    · simp only [hc, not_false_eq_true, if_true] at h ⊢
      by_cases he : (bdrv.evict data).status = PRISKV_BACKEND_STATUS_OK
      · simp only [he, ne_eq, not_true_eq_false, if_false] at h ⊢
        cases hr : _priskv_backend_freeup bdrv L fuel (bdrv.evict data).data with
        | none => rw [hr] at h; simp at h
        | some r1 =>
          rw [hr] at h
          rw [freeup_mono bdrv L fuel _ hr k]
          exact h
      · simp only [ne_eq, he, not_false_eq_true, if_true] at h ⊢
        exact h

/-- More rounds do not change what `priskv_backend_get` yields. -/
theorem get_mono {σ : Type} (key : String) (valuelen : Nat) {fuel fuel1 : Nat}
    (hf : fuel ≤ fuel1) :
    ∀ (d : priskv_backend_device σ) (val : List Nat) {r : backend_done σ},
      priskv_backend_get fuel d key val valuelen = some r →
      priskv_backend_get fuel1 d key val valuelen = some r
  | .mk bdrv data none, val, r, h => by
    rw [get_leaf] at h ⊢
    exact h
  | .mk bdrv data (some c), val, r, h => by
    simp only [priskv_backend_get] at h ⊢
    by_cases hs : (bdrv.get data key val valuelen).1.status = PRISKV_BACKEND_STATUS_OK
    · simp only [hs, if_true] at h ⊢
      exact h
    · simp only [hs, if_false] at h ⊢
      cases hc : priskv_backend_get fuel c key (bdrv.get data key val valuelen).2 valuelen with
      | none => rw [hc] at h; simp at h
      | some rc =>
        rw [hc] at h
        rw [get_mono key valuelen hf c _ hc]
        simp only at h ⊢
        split at h
        · exact h
        · rename_i status length _
          simp only [priskv_backend_child_get_cb] at h ⊢
          by_cases ho : status = PRISKV_BACKEND_STATUS_OK
          · simp only [ho, if_true] at h ⊢
            cases hfr : priskv_backend_freeup fuel bdrv (bdrv.get data key val valuelen).1.data
                length with
            | none => rw [hfr] at h; simp at h
            | some q =>
              obtain ⟨k, rfl⟩ := Nat.exists_eq_add_of_le hf
              have := freeup_mono bdrv length fuel _ hfr k
              rw [hfr] at h
              simp only [priskv_backend_freeup] at this ⊢
              rw [this]
              exact h
          · simp only [ho, if_false] at h ⊢
            exact h
        · simp at h

/-- The function `priskv_backend_cache` invokes the callback of the request once,
with `OK`. -/
theorem cache_once {σ : Type} (bdrv : priskv_backend_driver σ) (data : σ) (key : String)
    (val : List Nat) (valuelen : Nat) (status : priskv_backend_status) (length : Nat) :
    ∃ l, (priskv_backend_cache bdrv data key val valuelen status length).1 =
      [(PRISKV_BACKEND_STATUS_OK, l)] := by
  by_cases h : status = PRISKV_BACKEND_STATUS_OK
  · exact ⟨(bdrv.set data key val valuelen 0).length, by
      simp only [priskv_backend_cache, h, ne_eq, not_true_eq_false, if_false,
        priskv_backend_cache_cb]⟩
  · exact ⟨length, by simp only [priskv_backend_cache, ne_eq, h, not_false_eq_true, if_true]⟩

/-- On a chain whose eviction loops end `priskv_backend_get` returns, with enough
rounds, and the callback of the caller is invoked once. -/
theorem get_once {σ : Type} (key : String) (valuelen : Nat) :
    ∀ (d : priskv_backend_device σ) (val : List Nat),
      (∀ bdrv ∈ chain_drivers d, ∀ data L, ∃ n, (priskv_backend_freeup n bdrv data L).isSome) →
      ∃ fuel rc s l, priskv_backend_get fuel d key val valuelen = some rc ∧ rc.cbs = [(s, l)]
  | .mk bdrv data none, val, _ => ⟨0, _, _, _, get_leaf 0 bdrv data key val valuelen, rfl⟩
  | .mk bdrv data (some c), val, hfree => by
    by_cases hs : (bdrv.get data key val valuelen).1.status = PRISKV_BACKEND_STATUS_OK
    · exact ⟨0, _, _, _, get_hit 0 bdrv data (some c) key val valuelen hs, rfl⟩
    · obtain ⟨f1, rc, s, l, hc, hcb⟩ := get_once key valuelen c (bdrv.get data key val valuelen).2
        (fun b hb => hfree b (by simp only [chain_drivers, List.mem_cons]; exact Or.inr hb))
      by_cases ho : s = PRISKV_BACKEND_STATUS_OK
      · subst ho
        obtain ⟨n, hn⟩ := hfree bdrv (by simp only [chain_drivers, List.mem_cons, true_or])
          (bdrv.get data key val valuelen).1.data l
        obtain ⟨q, hq⟩ := Option.isSome_iff_exists.1 hn
        have hq1 : priskv_backend_freeup (max f1 n) bdrv (bdrv.get data key val valuelen).1.data l =
            some q := by
          obtain ⟨k, hk⟩ := Nat.exists_eq_add_of_le (le_max_right f1 n)
          rw [hk]
          exact freeup_mono bdrv l n _ hq k
        have hc1 := get_mono key valuelen (le_max_left f1 n) c _ hc
        refine ⟨max f1 n, ?_⟩
        rw [get_miss (max f1 n) bdrv data c key val valuelen hs hc1 hcb]
        simp only [priskv_backend_child_get_cb, if_true, hq1, Option.map_some']
        obtain ⟨l2, hl2⟩ := cache_once bdrv q.2.2.1 key rc.val valuelen q.1 q.2.1
        exact ⟨_, PRISKV_BACKEND_STATUS_OK, l2, rfl, hl2⟩
      · refine ⟨f1, ?_⟩
        rw [get_miss f1 bdrv data c key val valuelen hs hc hcb]
        simp only [priskv_backend_child_get_cb, if_neg ho, Option.map_some']
        exact ⟨_, _, _, rfl, rfl⟩

/-- One round of the loop of `priskv_backend_freeup` ends when the device is
cacheable, when the evict fails, or when the loop ends after the evict. -/
theorem freeup_ends_step {σ : Type} (bdrv : priskv_backend_driver σ) (L fuel : Nat) (data : σ)
    (h : bdrv.is_cacheable data L = true ∨
      (bdrv.evict data).status ≠ PRISKV_BACKEND_STATUS_OK ∨
      (_priskv_backend_freeup bdrv L fuel (bdrv.evict data).data).isSome) :
    (_priskv_backend_freeup bdrv L (fuel + 1) data).isSome := by
  simp only [_priskv_backend_freeup]
  by_cases hc : bdrv.is_cacheable data L = true
  · simp only [hc, not_true_eq_false, if_false, Option.isSome_some]
  · simp only [hc, not_false_eq_true, if_true]
    by_cases he : (bdrv.evict data).status = PRISKV_BACKEND_STATUS_OK
    · simp only [he, ne_eq, not_true_eq_false, if_false]
      rcases h with h | h | h
      · exact absurd h hc
      · exact absurd he h
      · obtain ⟨q, hq⟩ := Option.isSome_iff_exists.1 h
        rw [hq]
        rfl
    · simp only [ne_eq, he, not_false_eq_true, if_true, Option.isSome_some, Bool.false_eq_true]

/-- The eviction loop of the table driver ends. -/
theorem table_freeup_ends (cap L : Nat) : ∀ (n : Nat) (t : List (String × List Nat)),
    t.length ≤ n → (priskv_backend_freeup (n + 1) (table_driver cap) t L).isSome
  | 0, t, h => by
    have ht : t = [] := List.length_eq_zero.1 (by omega)
    subst ht
    apply freeup_ends_step
    by_cases hc : 0 < cap
    · left; simp [table_driver, hc]
    · right; left; simp [table_driver]
  | n + 1, t, h => by
    apply freeup_ends_step
    right; right
    have hlen : ((table_driver cap).evict t).data.length ≤ n := by
      cases t with
      | nil => simp [table_driver]
      | cons x r =>
        simp only [table_driver, List.length_dropLast, List.length_cons] at h ⊢
        omega
    exact table_freeup_ends cap L n _ hlen


/-- C39: on every chain whose eviction loops end, `priskv_backend_get` returns
once it is given enough rounds, and `priskv_backend_get`, `priskv_backend_set`,
`priskv_backend_del` and `priskv_backend_test` each invoke the callback of the
caller exactly once, whatever the drivers report. -/
theorem backend_callback_once {σ : Type} (d : priskv_backend_device σ) (key : String)
    (val : List Nat) (valuelen timeout : Nat)
    (hfree : ∀ bdrv ∈ chain_drivers d, ∀ data L,
      ∃ n, (priskv_backend_freeup n bdrv data L).isSome) :
    (∃ fuel, ∀ fuel1, fuel ≤ fuel1 → ∃ rc s l,
      priskv_backend_get fuel1 d key val valuelen = some rc ∧ rc.cbs = [(s, l)]) ∧
    (∃ rc s l, priskv_backend_set d key val valuelen timeout = some rc ∧ rc.cbs = [(s, l)]) ∧
    (∃ rc s l, priskv_backend_del d key = some rc ∧ rc.cbs = [(s, l)]) ∧
    (∃ s l, (priskv_backend_test d key).cbs = [(s, l)]) := by
  refine ⟨?_, set_returns key val valuelen timeout d, del_returns key d, test_once key d⟩
  obtain ⟨fuel, rc, s, l, h1, h2⟩ := get_once key valuelen d val hfree
  exact ⟨fuel, fun fuel1 hf => ⟨rc, s, l, get_mono key valuelen hf d val h1, h2⟩⟩

/-- The chain `cache;origin` of the scenario E3: the eviction loops of the table
drivers end, and each of the four functions invokes the callback once. -/
theorem backend_callback_once_witness :
    (∃ fuel, ∀ fuel1, fuel ≤ fuel1 → ∃ rc s l,
      priskv_backend_get fuel1 e3_chain "k" [0, 0, 0, 0, 0, 0, 0, 0] 8 = some rc ∧
        rc.cbs = [(s, l)]) ∧
    (∃ rc s l, priskv_backend_set e3_chain "k" [0, 0, 0, 0, 0, 0, 0, 0] 8 0 = some rc ∧ rc.cbs = [(s, l)]) ∧
    (∃ rc s l, priskv_backend_del e3_chain "k" = some rc ∧ rc.cbs = [(s, l)]) ∧
    (∃ s l, (priskv_backend_test e3_chain "k").cbs = [(s, l)]) :=
  backend_callback_once e3_chain "k" [0, 0, 0, 0, 0, 0, 0, 0] 8 0 (by
    intro bdrv hb data L
    simp only [e3_chain, chain_drivers, List.mem_cons, List.mem_singleton,
      List.not_mem_nil, or_false] at hb
    rcases hb with rfl | rfl
    · exact ⟨_, table_freeup_ends 4 L data.length data le_rfl⟩
    · exact ⟨_, table_freeup_ends 1000 L data.length data le_rfl⟩)

/-- The value of `ALIGN_UP(n + 1, 64)`: the multiple of 64 above `n`. -/
theorem align_up_fd (n : Nat) :
    n < ALIGN_UP (n + 1) PRISKV_FDS_GROW ∧ ALIGN_UP (n + 1) PRISKV_FDS_GROW ≤ n + 64 ∧
      64 ∣ ALIGN_UP (n + 1) PRISKV_FDS_GROW := by
  unfold ALIGN_UP PRISKV_FDS_GROW
  refine ⟨by omega, by omega, Dvd.intro_left _ rfl⟩

/-- What `priskv_fd_handlers_try_grow` does for a descriptor that is not
negative, on a table whose `priskv_fds` is the length of the array. -/
theorem try_grow_spec {t : fd_table} (hl : t.priskv_fds = (t.fd_handlers.length : Int))
    (n : Nat) :
    (n < t.fd_handlers.length → priskv_fd_handlers_try_grow t (n : Int) = some t) ∧
    (t.fd_handlers.length ≤ n → 2147483584 ≤ n →
      priskv_fd_handlers_try_grow t (n : Int) = none) ∧
    (t.fd_handlers.length ≤ n → n < 2147483584 →
      priskv_fd_handlers_try_grow t (n : Int) =
        some { priskv_fds := ((ALIGN_UP (n + 1) PRISKV_FDS_GROW : Nat) : Int),
               fd_handlers := t.fd_handlers ++
                 List.replicate (ALIGN_UP (n + 1) PRISKV_FDS_GROW - t.fd_handlers.length)
                   none }) := by
  have e1 : ((n : Int) + 1).toNat = n + 1 := by omega
  refine ⟨fun h => ?_, fun h1 h2 => ?_, fun h1 h2 => ?_⟩
  · unfold priskv_fd_handlers_try_grow
    rw [if_neg (by rw [hl]; omega)]
  · unfold priskv_fd_handlers_try_grow
    rw [if_pos (by rw [hl]; omega), if_pos (by omega)]
  · unfold priskv_fd_handlers_try_grow
    rw [if_pos (by rw [hl]; omega), if_neg (by omega)]
    simp only [e1]
    have := (align_up_fd n).1
    rw [List.take_of_length_le (by omega)]

/-- What `priskv_set_fd_handler` does on a table whose `priskv_fds` is the length
of the array: it faults for a negative descriptor and when the table would have
to grow beyond the range of `int`; else it writes the entry of `fd`, keeps the
other entries, and the table grows to the multiple of 64 above `fd` if it was
too short. -/
theorem set_fd_spec {t : fd_table} (hl : t.priskv_fds = (t.fd_handlers.length : Int))
    (fd : Int) (pollin pollout : Option Nat) (op : Nat) :
    (fd < 0 → priskv_set_fd_handler t fd pollin pollout op = none) ∧
    (t.priskv_fds ≤ fd → 2147483584 ≤ fd →
      priskv_set_fd_handler t fd pollin pollout op = none) ∧
    (0 ≤ fd → (fd < t.priskv_fds ∨ fd < 2147483584) →
      ∃ t1, priskv_set_fd_handler t fd pollin pollout op = some t1 ∧
        t1.priskv_fds = (t1.fd_handlers.length : Int) ∧
        fd < t1.priskv_fds ∧ t.priskv_fds ≤ t1.priskv_fds ∧
        (fd < t.priskv_fds → t1.priskv_fds = t.priskv_fds) ∧
        (t.priskv_fds ≤ fd →
          t1.priskv_fds = ((ALIGN_UP (fd + 1).toNat PRISKV_FDS_GROW : Nat) : Int)) ∧
        t1.fd_handlers[fd.toNat]? = some (some ⟨pollin, pollout, op⟩) ∧
        ∀ j, j ≠ fd.toNat → j < t.fd_handlers.length →
          t1.fd_handlers[j]? = t.fd_handlers[j]?) := by
  refine ⟨fun h => ?_, fun h1 h2 => ?_, fun h0 h1 => ?_⟩
  · unfold priskv_set_fd_handler
    rw [if_pos (by omega)]
  · obtain ⟨n, rfl⟩ := Int.eq_ofNat_of_zero_le (by omega : 0 ≤ fd)
    unfold priskv_set_fd_handler
    rw [if_neg (by omega), (try_grow_spec hl n).2.1 (by omega) (by omega)]
  · obtain ⟨n, rfl⟩ := Int.eq_ofNat_of_zero_le h0
    unfold priskv_set_fd_handler
    rw [if_neg (by omega)]
    by_cases hn : n < t.fd_handlers.length
    · rw [(try_grow_spec hl n).1 hn]
      simp only [Int.toNat_ofNat, hn, if_true]
      refine ⟨_, rfl, ?_, ?_, le_rfl, fun _ => rfl, fun h => ?_, ?_, fun j hj _ => ?_⟩
      · simp only [List.length_set]; exact hl
      · simp only; omega
      · omega
      · simp only [List.getElem?_set_self hn]
      · simp only [List.getElem?_set_ne (Ne.symm hj)]
    · have hn2 : n < 2147483584 := by omega
      obtain ⟨a1, a2, a3⟩ := align_up_fd n
      rw [(try_grow_spec hl n).2.2 (by omega) hn2]
      have hlen : (t.fd_handlers ++ List.replicate
          (ALIGN_UP (n + 1) PRISKV_FDS_GROW - t.fd_handlers.length)
            (none : Option priskv_fd_handler)).length = ALIGN_UP (n + 1) PRISKV_FDS_GROW := by
        simp only [List.length_append, List.length_replicate]; omega
      simp only [Int.toNat_ofNat, hlen, a1, if_true]
      have e1 : ((n : Int) + 1).toNat = n + 1 := by omega
      refine ⟨_, rfl, ?_, ?_, ?_, fun h => ?_, fun _ => ?_, ?_, fun j hj hjl => ?_⟩
      · simp only [List.length_set, hlen]
      · simp only; omega
      · simp only; omega
      · omega
      · simp only [e1]
      · simp only [List.getElem?_set_self (by rw [hlen]; exact a1)]
      · simp only [List.getElem?_set_ne (Ne.symm hj), List.getElem?_append_left hjl]

/-- The invariant holds in every table reached. -/
theorem FdReach.fd_inv {t : fd_table} {inst : List Int} (h : FdReach t inst) : FdInv t inst := by
  induction h with
  | init => exact ⟨rfl, ⟨0, rfl⟩, fun f hf => absurd hf (List.not_mem_nil _)⟩
  | @set t t1 inst fd pollin pollout op _ hs ih =>
    obtain ⟨hl, hd, hi⟩ := ih
    obtain ⟨s1, s2, s3⟩ := set_fd_spec hl fd pollin pollout op
    have h0 : 0 ≤ fd := by
      by_contra hc
      rw [s1 (by omega)] at hs
      exact Option.noConfusion hs
    have h1 : fd < t.priskv_fds ∨ fd < 2147483584 := by
      by_contra hc
      rw [s2 (by omega) (by omega)] at hs
      exact Option.noConfusion hs
    obtain ⟨t2, e, q1, q2, q3, q4, q5, q6, q7⟩ := s3 h0 h1
    rw [hs] at e
    simp only [Option.some.injEq] at e
    subst e
    refine ⟨q1, ?_, fun f hf => ?_⟩
    · by_cases hlt : fd < t.priskv_fds
      · rw [q4 hlt]; exact hd
      · rw [q5 (by omega)]
        obtain ⟨n, rfl⟩ := Int.eq_ofNat_of_zero_le h0
        have e1 : ((n : Int) + 1).toNat = n + 1 := by omega
        rw [e1]
        exact Int.natCast_dvd_natCast.2 (align_up_fd n).2.2
    · rcases List.mem_cons.1 hf with rfl | hf
      · exact ⟨h0, q2, _, q6⟩
      · obtain ⟨i1, i2, hh, i3⟩ := hi f hf
        refine ⟨i1, by omega, ?_⟩
        by_cases hff : f = fd
        · subst hff; exact ⟨_, q6⟩
        · refine ⟨hh, ?_⟩
          rw [q7 f.toNat (by omega) (by omega)]
          exact i3

/-- The entry that `priskv_get_fd_handler` copies for a descriptor that is not
negative and below `priskv_fds`. -/
theorem get_fd_spec {t : fd_table} {fd : Int} {h : priskv_fd_handler} (h0 : 0 ≤ fd)
    (h1 : fd < t.priskv_fds) (he : t.fd_handlers[fd.toNat]? = some (some h)) :
    priskv_get_fd_handler t fd = some h := by
  unfold priskv_get_fd_handler
  rw [if_neg (by omega), if_neg (by omega), he]

/-- The bit `EPOLLIN` of an event. -/
theorem and_epollin (e : Nat) : (e &&& EPOLLIN ≠ 0) ↔ e.testBit 0 = true := by
  unfold EPOLLIN
  rw [Nat.testBit_zero, Nat.and_one_is_mod, decide_eq_true_eq]
  omega

/-- The bit `EPOLLOUT` of an event. -/
theorem and_epollout (e : Nat) : (e &&& EPOLLOUT ≠ 0) ↔ e.testBit 2 = true := by
  unfold EPOLLOUT
  have h4 : (4 : Nat) = 2 ^ 2 := rfl
  rw [h4, Nat.and_two_pow]
  cases e.testBit 2 <;> simp

/-- The invocations of `priskv_fd_handler_event` on a table in which the entry of
the descriptor of the event was written. -/
theorem event_spec {t : fd_table} {fd : Int} {pollin pollout : Option Nat} {op : Nat}
    (h0 : 0 ≤ fd) (h1 : fd < t.priskv_fds)
    (he : t.fd_handlers[fd.toNat]? = some (some ⟨pollin, pollout, op⟩)) (events : Nat) :
    priskv_fd_handler_event t ⟨events, fd⟩ = some (dispatch_spec fd pollin pollout op events) := by
  unfold priskv_fd_handler_event
  simp only [get_fd_spec h0 h1 he, dispatch_spec]
  congr 2
  · by_cases hb : events.testBit 0 = true
    · rw [if_pos ((and_epollin events).2 hb)]
      cases pollin with
      | none => simp
      | some f => simp [hb, EPOLLIN]
    · rw [if_neg (fun hc => hb ((and_epollin events).1 hc))]
      simp [hb]
  · by_cases hb : events.testBit 2 = true
    · rw [if_pos ((and_epollout events).2 hb)]
      cases pollout with
      | none => simp
      | some f => simp [hb, EPOLLOUT]
    · rw [if_neg (fun hc => hb ((and_epollout events).1 hc))]
      simp [hb]

/-- After descriptor 3 was installed, the installation of descriptor 70 with a
`pollin` handler and no `pollout` handler: the table grows from 64 to 128
entries, an event with `EPOLLIN` and `EPOLLOUT` invokes the `pollin` handler
only, and the entry of descriptor 3 is as before. -/
theorem fd_dispatch_example :
    ((priskv_set_fd_handler fd_table_init 3 (some 5) (some 6) 8).bind (fun t0 =>
      (priskv_set_fd_handler t0 70 (some 7) none 9).map (fun t1 =>
        (t0.priskv_fds, t1.priskv_fds, priskv_fd_handler_event t1 ⟨5, 70⟩,
          priskv_get_fd_handler t1 3, priskv_fd_handler_event t1 ⟨5, 3⟩)))) =
      some (64, 128, some [⟨7, 70, 9, 1⟩], some ⟨some 5, some 6, 8⟩,
        some [⟨5, 3, 8, 1⟩, ⟨6, 3, 8, 4⟩]) := by
  rfl

/-- C33: in every table reached, `priskv_set_fd_handler` for a descriptor from 0
to 2147483583 does not fault. After it `priskv_fd_handler_event` on an event for
`fd` makes the invocations of `dispatch_spec`: `pollin(fd, opaque, EPOLLIN)` when
the event has `EPOLLIN` and `pollin` is not `NULL`, then
`pollout(fd, opaque, EPOLLOUT)` when the event has `EPOLLOUT` and `pollout` is not
`NULL`, no invocation twice. The entries of the other descriptors installed are
what they were, and `priskv_fds` is the length of the array, a multiple of 64 and
above every descriptor installed. -/
theorem fd_handler_dispatch (t : fd_table) (inst : List Int) (hr : FdReach t inst) (fd : Int)
    (pollin pollout : Option Nat) (op : Nat) (h0 : 0 ≤ fd) (h1 : fd < 2147483584) :
    ∃ t1, priskv_set_fd_handler t fd pollin pollout op = some t1 ∧
      (∀ events, priskv_fd_handler_event t1 ⟨events, fd⟩ =
        some (dispatch_spec fd pollin pollout op events) ∧
        (dispatch_spec fd pollin pollout op events).Nodup) ∧
      (∀ f ∈ inst, f ≠ fd → (priskv_get_fd_handler t f).isSome ∧
        priskv_get_fd_handler t1 f = priskv_get_fd_handler t f) ∧
      t1.priskv_fds = (t1.fd_handlers.length : Int) ∧ (64 : Int) ∣ t1.priskv_fds ∧
      (∀ f ∈ fd :: inst, 0 ≤ f ∧ f < t1.priskv_fds) ∧
      (fd < t.priskv_fds → t1.priskv_fds = t.priskv_fds) := by
  have hinv := hr.fd_inv
  obtain ⟨_, _, s3⟩ := set_fd_spec hinv.1 fd pollin pollout op
  obtain ⟨t1, e, q1, q2, q3, q4, q5, q6, q7⟩ := s3 h0 (Or.inr h1)
  have hinv1 := (FdReach.set hr e).fd_inv
  refine ⟨t1, e, fun events => ⟨event_spec h0 q2 q6 events, ?_⟩, fun f hf hne => ?_, q1,
    hinv1.2.1, fun f hf => ⟨(hinv1.2.2 f hf).1, (hinv1.2.2 f hf).2.1⟩, q4⟩
  · unfold dispatch_spec
    split <;> split <;> simp
  · obtain ⟨i1, i2, hh, i3⟩ := hinv.2.2 f hf
    have hl := hinv.1
    have e1 : t1.fd_handlers[f.toNat]? = some (some hh) := by
      rw [q7 f.toNat (by omega) (by omega)]
      exact i3
    rw [get_fd_spec i1 i2 i3, get_fd_spec i1 (by omega) e1]
    exact ⟨rfl, rfl⟩

/-- The installation of descriptor 70 in the table at the start of the process,
with a `pollin` handler and no `pollout` handler. -/
theorem fd_handler_dispatch_witness :
    ∃ t1, priskv_set_fd_handler fd_table_init 70 (some 7) none 9 = some t1 ∧
      (∀ events, priskv_fd_handler_event t1 ⟨events, 70⟩ =
        some (dispatch_spec 70 (some 7) none 9 events) ∧
        (dispatch_spec 70 (some 7) none 9 events).Nodup) ∧
      (∀ f ∈ ([] : List Int), f ≠ 70 → (priskv_get_fd_handler fd_table_init f).isSome ∧
        priskv_get_fd_handler t1 f = priskv_get_fd_handler fd_table_init f) ∧
      t1.priskv_fds = (t1.fd_handlers.length : Int) ∧ (64 : Int) ∣ t1.priskv_fds ∧
      (∀ f ∈ (70 : Int) :: [], 0 ≤ f ∧ f < t1.priskv_fds) ∧
      ((70 : Int) < fd_table_init.priskv_fds → t1.priskv_fds = fd_table_init.priskv_fds) :=
  fd_handler_dispatch fd_table_init [] FdReach.init 70 (some 7) none 9 (by decide) (by decide)

/-- A new key comes last in `json_object_object_add`. -/
theorem object_add_new {entries : List (String × json_object)} {key : String}
    (h : key ∉ entries.map Prod.fst) (val : json_object) :
    json_object_object_add entries key val = entries ++ [(key, val)] := by
  unfold json_object_object_add
  rw [if_neg]
  simp only [List.any_eq_true, decide_eq_true_eq, not_exists, not_and]
  intro e he hk
  exact h (List.mem_map.2 ⟨e, he, hk⟩)

/-- A value field is left out by `__priskv_code_obj` exactly when `field_omitted`
says so. -/
theorem value_ignored_iff (m : List Nat) (data : Nat) (f : priskv_object_field priskv_object)
    (ht : f.type = priskv_obj_field_type_value) :
    (if f._ignored then priskv_value_is_ignored m (data + f.offset) f.obj.type else some false) =
      some true ↔ field_omitted m data f = true := by
  unfold field_omitted
  rw [ht]
  cases hi : f._ignored
  · simp
  · cases hty : f.obj.type <;>
      simp only [priskv_value_is_ignored, if_true, Bool.true_and, Option.map_eq_some',
        decide_eq_true_eq, Option.some.injEq, Bool.false_eq_true, exists_eq_right]

/-- An array field is left out by `__priskv_code_obj` exactly when
`field_omitted` says so. -/
theorem array_ignored_iff (m : List Nat) (data : Nat) (f : priskv_object_field priskv_object)
    (ht : f.type = priskv_obj_field_type_array) {n : Nat}
    (hn : load m (data + f.noffset) 4 = some n) :
    (f._ignored = true ∧ int32_of n = 0) ↔ field_omitted m data f = true := by
  unfold field_omitted
  rw [ht, hn]
  simp

/-- What the body of the loop over the fields in `__priskv_code_obj` does for a
field that is left out: nothing. -/
theorem code_field_omitted (cv : Nat → priskv_object → Option (Option json_object))
    (m : List Nat) (data : Nat) (f : priskv_object_field priskv_object)
    (jobj : List (String × json_object)) (ho : field_omitted m data f = true)
    (hs : (code_field cv m data f jobj).isSome) :
    code_field cv m data f jobj = some (some jobj) := by
  unfold code_field at hs ⊢
  cases ht : f.type with
  | priskv_obj_field_type_value =>
    simp only [ht] at hs ⊢
    rw [(value_ignored_iff m data f ht).2 ho]
  | priskv_obj_field_type_array =>
    simp only [ht] at hs ⊢
    cases hn : load m (data + f.noffset) 4 with
    | none => rw [hn] at hs; simp at hs
    | some n =>
      simp only []
      rw [if_pos ((array_ignored_iff m data f ht hn).2 ho)]

/-- What the body of the loop over the fields in `__priskv_code_obj` does for a
field that is not left out, when it does not jump to `fail`: it adds the entry
of the field. -/
theorem code_field_emitted (cv : Nat → priskv_object → Option (Option json_object))
    (m : List Nat) (data : Nat) (f : priskv_object_field priskv_object)
    (jobj jobj1 : List (String × json_object)) (ho : ¬ field_omitted m data f = true)
    (h : code_field cv m data f jobj = some (some jobj1)) :
    ∃ v, jobj1 = json_object_object_add jobj f.name v ∧ emit_rel cv m data f (f.name, v) := by
  unfold code_field at h
  cases ht : f.type with
  | priskv_obj_field_type_value =>
    simp only [ht] at h
    have hne := fun hc => ho ((value_ignored_iff m data f ht).1 hc)
    cases hig : (if f._ignored then priskv_value_is_ignored m (data + f.offset) f.obj.type
        else some false) with
    | none => rw [hig] at h; simp at h
    | some b =>
      cases b with
      | true => exact absurd hig hne
      | false =>
        rw [hig] at h
        simp only at h
        cases hcv : cv (data + f.offset) f.obj with
        | none => rw [hcv] at h; simp at h
        | some q =>
          cases q with
          | none => rw [hcv] at h; simp at h
          | some v =>
            rw [hcv] at h
            simp only [Option.some.injEq] at h
            refine ⟨v, h.symm, rfl, fun _ => hcv, fun hc => ?_⟩
            rw [ht] at hc
            exact priskv_object_field_type.noConfusion hc
  | priskv_obj_field_type_array =>
    simp only [ht] at h
    cases hn : load m (data + f.noffset) 4 with
    | none => rw [hn] at h; simp at h
    | some n =>
      rw [hn] at h
      simp only at h
      rw [if_neg (fun hc => ho ((array_ignored_iff m data f ht hn).1 hc))] at h
      by_cases hneg : int32_of n < 0
      · rw [if_pos hneg] at h
        simp at h
      · rw [if_neg hneg] at h
        cases hce : code_elems (fun a => cv a f.obj) m (data + f.offset) f.obj.size
            (int32_of n).toNat 0 with
        | none => rw [hce] at h; simp at h
        | some q =>
          cases q with
          | none => rw [hce] at h; simp at h
          | some l =>
            rw [hce] at h
            simp only [Option.some.injEq] at h
            refine ⟨json_type_array l, h.symm, rfl, fun hc => ?_, fun _ =>
              ⟨n, l, hn, by omega, hce, rfl⟩⟩
            rw [ht] at hc
            exact priskv_object_field_type.noConfusion hc

/-- What the loop over the fields in `__priskv_code_obj` makes, when it makes an
object: the entries so far, and after them one entry for each field that is not
left out, in the order of the fields. -/
theorem code_fields_spec (cv : Nat → priskv_object → Option (Option json_object))
    (m : List Nat) (data : Nat) :
    ∀ (fields : List (priskv_object_field priskv_object)) (jobj : List (String × json_object))
      (r : json_object),
      code_fields cv m data fields jobj = some (some r) →
      (fields.map (fun f => f.name)).Nodup →
      (∀ f ∈ fields, f.name ∉ jobj.map Prod.fst) →
      ∃ new, r = json_type_object (jobj ++ new) ∧
        List.Forall₂ (emit_rel cv m data)
          (fields.filter (fun f => !field_omitted m data f)) new
  | [], jobj, r, h, _, _ => by
    rw [code_fields] at h
    have h1 : json_type_object jobj = r := Option.some.inj (Option.some.inj h)
    refine ⟨[], ?_, ?_⟩
    · rw [List.append_nil]; exact h1.symm
    · exact List.Forall₂.nil
  | f :: rest, jobj, r, h, hnd, hfresh => by
    rw [List.map_cons, List.nodup_cons] at hnd
    rw [code_fields] at h
    cases hcf : code_field cv m data f jobj with
    | none => rw [hcf] at h; simp at h
    | some q =>
      cases q with
      | none => rw [hcf] at h; simp at h
      | some jobj1 =>
        rw [hcf] at h
        simp only at h
        by_cases ho : field_omitted m data f = true
        · have := code_field_omitted cv m data f jobj ho (by rw [hcf]; rfl)
          rw [hcf] at this
          simp only [Option.some.injEq] at this
          subst this
          obtain ⟨new, h1, h2⟩ := code_fields_spec cv m data rest jobj1 r h hnd.2
            (fun g hg => hfresh g (List.mem_cons_of_mem _ hg))
          refine ⟨new, h1, ?_⟩
          rw [List.filter_cons_of_neg (by simp [ho])]
          exact h2
        · obtain ⟨v, hj, hrel⟩ := code_field_emitted cv m data f jobj jobj1 ho hcf
          rw [object_add_new (hfresh f (List.mem_cons_self _ _))] at hj
          subst hj
          obtain ⟨new, h1, h2⟩ := code_fields_spec cv m data rest _ r h hnd.2 (by
            intro g hg
            simp only [List.map_append, List.map_cons, List.map_nil, List.mem_append,
              List.mem_singleton, not_or]
            refine ⟨hfresh g (List.mem_cons_of_mem _ hg), fun hc => ?_⟩
            exact hnd.1 (List.mem_map.2 ⟨g, hg, hc⟩))
          rw [List.append_assoc] at h1
          refine ⟨(f.name, v) :: new, h1, ?_⟩
          rw [List.filter_cons_of_pos (by simp [ho])]
          exact List.Forall₂.cons hrel h2

/-- The names of the entries are the names of the fields they belong to. -/
theorem emit_names {cv : Nat → priskv_object → Option (Option json_object)} {m : List Nat}
    {data : Nat} {fs : List (priskv_object_field priskv_object)}
    {es : List (String × json_object)} (h : List.Forall₂ (emit_rel cv m data) fs es) :
    es.map Prod.fst = fs.map (fun f => f.name) := by
  induction h with
  | nil => rfl
  | cons h1 _ ih => simp only [List.map_cons, ih, h1.1]

/-- Every field of the list has its entry. -/
theorem emit_mem {cv : Nat → priskv_object → Option (Option json_object)} {m : List Nat}
    {data : Nat} {fs : List (priskv_object_field priskv_object)}
    {es : List (String × json_object)} (h : List.Forall₂ (emit_rel cv m data) fs es)
    {f : priskv_object_field priskv_object} (hf : f ∈ fs) :
    ∃ e ∈ es, emit_rel cv m data f e := by
  induction h with
  | nil => exact absurd hf (List.not_mem_nil _)
  | @cons a b l1 l2 h1 _ ih =>
    rcases List.mem_cons.1 hf with rfl | hf
    · exact ⟨b, List.mem_cons_self _ _, h1⟩
    · obtain ⟨e, he, hr⟩ := ih hf
      exact ⟨e, List.mem_cons_of_mem _ he, hr⟩

/-- A value that can be read is coded, given that objects that can be read are. -/
theorem value_code_total {fuel : Nat} {m : List Nat}
    (ih : ∀ data obj, readable fuel m data obj = true →
      ∃ r, __priskv_code_obj fuel m data obj = some (some r))
    (data : Nat) (obj : priskv_object)
    (h : value_readable (readable fuel m) m data obj = true) :
    ∃ r, priskv_value_code (__priskv_code_obj fuel m) m data obj = some (some r) := by
  unfold value_readable at h
  unfold priskv_value_code
  cases hty : obj.type with
  | priskv_obj_type_boolean =>
    rw [hty] at h
    obtain ⟨v, hv⟩ := Option.isSome_iff_exists.1 h
    simp only [hv]
    exact ⟨_, rfl⟩
  | priskv_obj_type_int =>
    rw [hty] at h
    obtain ⟨v, hv⟩ := Option.isSome_iff_exists.1 h
    simp only [hv]
    exact ⟨_, rfl⟩
  | priskv_obj_type_uint64 =>
    rw [hty] at h
    obtain ⟨v, hv⟩ := Option.isSome_iff_exists.1 h
    simp only [hv]
    exact ⟨_, rfl⟩
  | priskv_obj_type_string =>
    rw [hty] at h
    cases hp : load m data 8 with
    | none => rw [hp] at h; simp at h
    | some p =>
      rw [hp] at h
      simp only [Bool.or_eq_true, decide_eq_true_eq] at h ⊢
      by_cases h0 : p = 0
      · rw [if_pos h0]
        exact ⟨_, rfl⟩
      · rcases h with h | h
        · exact absurd h h0
        · obtain ⟨s, hs⟩ := Option.isSome_iff_exists.1 h
          rw [if_neg h0, hs]
          exact ⟨_, rfl⟩
  | priskv_obj_type_object =>
    rw [hty] at h
    exact ih data obj h

/-- Elements that can be read are coded. -/
theorem code_elems_total (code : Nat → Option (Option json_object)) (vr : Nat → Bool)
    (hcode : ∀ a, vr a = true → ∃ r, code a = some (some r)) (m : List Nat)
    (field_data size base : Nat) (hload : load m field_data 8 = some base) :
    ∀ (k j : Nat), elems_readable vr base size k j = true →
      ∃ l, code_elems code m field_data size k j = some (some l)
  | 0, _, _ => ⟨[], rfl⟩
  | k + 1, j, h => by
    rw [elems_readable, Bool.and_eq_true] at h
    obtain ⟨r, hr⟩ := hcode _ h.1
    obtain ⟨l, hl⟩ := code_elems_total code vr hcode m field_data size base hload k (j + 1) h.2
    rw [code_elems, hload]
    simp only [hr, hl]
    exact ⟨_, rfl⟩

/-- The test of a value for being left out reads what the coder of the value
reads. -/
theorem is_ignored_total {fuel : Nat} {m : List Nat} (data : Nat) (obj : priskv_object)
    (h : value_readable (readable fuel m) m data obj = true) :
    (priskv_value_is_ignored m data obj.type).isSome := by
  unfold value_readable at h
  cases hty : obj.type with
  | priskv_obj_type_boolean => rfl
  | priskv_obj_type_int =>
    rw [hty] at h
    obtain ⟨v, hv⟩ := Option.isSome_iff_exists.1 h
    simp only [priskv_value_is_ignored, hv, Option.map_some', Option.isSome_some]
  | priskv_obj_type_uint64 =>
    rw [hty] at h
    obtain ⟨v, hv⟩ := Option.isSome_iff_exists.1 h
    simp only [priskv_value_is_ignored, hv, Option.map_some', Option.isSome_some]
  | priskv_obj_type_string =>
    rw [hty] at h
    cases hp : load m data 8 with
    | none => rw [hp] at h; simp at h
    | some p => simp only [priskv_value_is_ignored, hp, Option.map_some', Option.isSome_some]
  | priskv_obj_type_object => rfl

/-- A field that can be read is coded. -/
theorem code_field_total {fuel : Nat} {m : List Nat}
    (ih : ∀ data obj, readable fuel m data obj = true →
      ∃ r, __priskv_code_obj fuel m data obj = some (some r))
    (data : Nat) (f : priskv_object_field priskv_object) (jobj : List (String × json_object))
    (h : field_readable (value_readable (readable fuel m) m) m data f = true) :
    ∃ jobj1, code_field (priskv_value_code (__priskv_code_obj fuel m) m) m data f jobj =
      some (some jobj1) := by
  unfold field_readable at h
  unfold code_field
  cases ht : f.type with
  | priskv_obj_field_type_value =>
    rw [ht] at h
    simp only [] at h ⊢
    obtain ⟨v, hv⟩ := value_code_total ih _ _ h
    have hig : ∃ b, (if f._ignored then priskv_value_is_ignored m (data + f.offset) f.obj.type
        else some false) = some b := by
      by_cases hi : f._ignored = true
      · rw [if_pos hi]
        exact Option.isSome_iff_exists.1 (is_ignored_total _ _ h)
      · rw [if_neg hi]
        exact ⟨false, rfl⟩
    obtain ⟨b, hb⟩ := hig
    rw [hb]
    cases b with
    | true => exact ⟨jobj, rfl⟩
    | false =>
      simp only [hv]
      exact ⟨_, rfl⟩
  | priskv_obj_field_type_array =>
    rw [ht] at h
    simp only [] at h ⊢
    cases hn : load m (data + f.noffset) 4 with
    | none => rw [hn] at h; simp at h
    | some n =>
      rw [hn] at h
      simp only [Bool.and_eq_true, Bool.or_eq_true, decide_eq_true_eq] at h ⊢
      by_cases hsk : f._ignored = true ∧ int32_of n = 0
      · rw [if_pos hsk]
        exact ⟨jobj, rfl⟩
      · rw [if_neg hsk, if_neg (by omega)]
        have hel : ∃ l, code_elems
            (fun a => priskv_value_code (__priskv_code_obj fuel m) m a f.obj) m
            (data + f.offset) f.obj.size (int32_of n).toNat 0 = some (some l) := by
          rcases h.2 with h0 | h1
          · rw [h0]
            exact ⟨[], rfl⟩
          · cases hp : load m (data + f.offset) 8 with
            | none => rw [hp] at h1; simp at h1
            | some base =>
              rw [hp] at h1
              exact code_elems_total _ (fun a => value_readable (readable fuel m) m a f.obj)
                (fun a ha => value_code_total ih a f.obj ha) m _ _ base hp _ _ h1
        obtain ⟨l, hl⟩ := hel
        simp only [hl]
        exact ⟨_, rfl⟩

/-- Fields that can be read are coded. -/
theorem code_fields_total {fuel : Nat} {m : List Nat}
    (ih : ∀ data obj, readable fuel m data obj = true →
      ∃ r, __priskv_code_obj fuel m data obj = some (some r))
    (data : Nat) :
    ∀ (fields : List (priskv_object_field priskv_object)) (jobj : List (String × json_object)),
      fields.all (field_readable (value_readable (readable fuel m) m) m data) = true →
      ∃ r, code_fields (priskv_value_code (__priskv_code_obj fuel m) m) m data fields jobj =
        some (some r)
  | [], jobj, _ => ⟨_, by rw [code_fields]⟩
  | f :: rest, jobj, h => by
    rw [List.all_cons, Bool.and_eq_true] at h
    obtain ⟨j1, h1⟩ := code_field_total ih data f jobj h.1
    obtain ⟨r, h2⟩ := code_fields_total ih data rest j1 h.2
    rw [code_fields]
    simp only [h1, h2]
    exact ⟨_, rfl⟩

/-- A structure that is a value of the schema in the memory is coded: with the
depth of the schema as the bound, `__priskv_code_obj` returns an object. -/
theorem code_obj_total : ∀ (fuel : Nat) (m : List Nat) (data : Nat) (obj : priskv_object),
    readable fuel m data obj = true → ∃ r, __priskv_code_obj fuel m data obj = some (some r)
  | 0, _, _, _, h => by simp [readable] at h
  | fuel + 1, m, data, obj, h => by
    rw [readable, Bool.and_eq_true, decide_eq_true_eq] at h
    rw [__priskv_code_obj, if_neg h.1]
    exact code_fields_total (fun d o => code_obj_total fuel m d o) data obj.fields [] h.2

/-- C32: a structure that is a value of its schema in the memory is coded:
`priskv_codec_code` returns a JSON value. When the schema has fields with
different names, that value is an object whose keys are the names of the fields
that are not left out, in the order of the schema; a field is left out exactly
when it is declared `ignored` and its value is 0 (`int`, `uint64_t`), a `NULL`
pointer (string) or, for an array field, its count is 0. So a forced field, a
boolean and an object within the object always have their key; a forced string
that is `NULL` has the value `""` and a forced array with the count 0 the value
`[]`. -/
theorem codec_code_fields (fuel : Nat) (m : List Nat) (data : Nat) (obj : priskv_object)
    (hn : (obj.fields.map (fun f => f.name)).Nodup) :
    (readable fuel m data obj = true →
      ∃ r, priskv_codec_code fuel m data obj = some (some r)) ∧
    ∀ r, priskv_codec_code fuel m data obj = some (some r) →
    ∃ entries, r = json_type_object entries ∧
      entries.map Prod.fst =
        (obj.fields.filter (fun f => !field_omitted m data f)).map (fun f => f.name) ∧
      (∀ f ∈ obj.fields, f.name ∈ entries.map Prod.fst ↔ field_omitted m data f = false) ∧
      (∀ f ∈ obj.fields, f._ignored = false → f.name ∈ entries.map Prod.fst) ∧
      (∀ f ∈ obj.fields, f.type = priskv_obj_field_type_value →
        f.obj.type = priskv_obj_type_boolean ∨ f.obj.type = priskv_obj_type_object →
        f.name ∈ entries.map Prod.fst) ∧
      (∀ f ∈ obj.fields, f.type = priskv_obj_field_type_value →
        f.obj.type = priskv_obj_type_string → f._ignored = false →
        load m (data + f.offset) 8 = some 0 → (f.name, json_type_string []) ∈ entries) ∧
      (∀ f ∈ obj.fields, f.type = priskv_obj_field_type_array → f._ignored = false →
        (load m (data + f.noffset) 4).map int32_of = some 0 →
        (f.name, json_type_array []) ∈ entries) := by
  refine ⟨fun hr => ?_, fun r h => ?_⟩
  · cases fuel with
    | zero => simp [readable] at hr
    | succ k =>
      have hd : data ≠ 0 := by
        rw [readable, Bool.and_eq_true, decide_eq_true_eq] at hr
        exact hr.1
      unfold priskv_codec_code
      rw [if_neg hd]
      exact code_obj_total (k + 1) m data obj hr
  unfold priskv_codec_code at h
  by_cases hd : data = 0
  · rw [if_pos hd] at h
    simp at h
  rw [if_neg hd] at h
  cases fuel with
  | zero => simp [__priskv_code_obj] at h
  | succ fuel =>
    rw [__priskv_code_obj, if_neg hd] at h
    obtain ⟨entries, h1, h2⟩ := code_fields_spec _ m data obj.fields [] r h hn
      (fun f _ hc => by simp at hc)
    rw [List.nil_append] at h1
    have hnames := emit_names h2
    have hiff : ∀ f ∈ obj.fields,
        (f.name ∈ entries.map Prod.fst ↔ field_omitted m data f = false) := by
      intro f hf
      rw [hnames]
      constructor
      · intro hin
        obtain ⟨g, hg, hgn⟩ := List.mem_map.1 hin
        rw [List.mem_filter] at hg
        have : g = f := List.inj_on_of_nodup_map hn hg.1 hf hgn
        rw [← this]
        simpa using hg.2
      · intro ho
        exact List.mem_map.2 ⟨f, List.mem_filter.2 ⟨hf, by simp [ho]⟩, rfl⟩
    have hforced : ∀ f ∈ obj.fields, f._ignored = false → field_omitted m data f = false := by
      intro f _ hi
      unfold field_omitted
      rw [hi]
      rfl
    have hval : ∀ f ∈ obj.fields, field_omitted m data f = false →
        ∃ e ∈ entries, emit_rel (priskv_value_code (__priskv_code_obj fuel m) m) m data f e :=
      fun f hf ho => emit_mem h2 (List.mem_filter.2 ⟨hf, by simp [ho]⟩)
    refine ⟨entries, h1, hnames, hiff, fun f hf hi => (hiff f hf).2 (hforced f hf hi),
      fun f hf ht hty => (hiff f hf).2 ?_, fun f hf ht hty hi hl => ?_,
      fun f hf ht hi hl => ?_⟩
    · unfold field_omitted
      rw [ht]
      rcases hty with hty | hty <;> rw [hty] <;> simp
    · obtain ⟨e, he, hn1, hv, _⟩ := hval f hf (hforced f hf hi)
      have hv1 := hv ht
      unfold priskv_value_code at hv1
      simp only [hty, hl, if_true, Option.some.injEq] at hv1
      have : e = (f.name, json_type_string []) := by
        rw [← hn1, hv1]
      rw [← this]
      exact he
    · obtain ⟨e, he, hn1, _, ha⟩ := hval f hf (hforced f hf hi)
      obtain ⟨n, l, hl1, _, hce, hl2⟩ := ha ht
      rw [hl1] at hl
      have hl0 : int32_of n = 0 := Option.some.inj hl
      rw [hl0] at hce
      have hl3 : l = [] := by
        have : code_elems (fun a => priskv_value_code (__priskv_code_obj fuel m) m a f.obj) m
            (data + f.offset) f.obj.size (0 : Int).toNat 0 = some (some []) := rfl
        rw [this] at hce
        exact (Option.some.inj (Option.some.inj hce)).symm
      have : e = (f.name, json_type_array []) := by
        rw [← hn1, ← hl3, ← hl2]
      rw [← this]
      exact he

/-- The case `test_codec_code_int_ignored` of `test_codec.c`: both fields are 0,
and the output is `{ "int_val_required": 0 }`. -/
theorem codec_code_fields_witness :
    readable 2 test_int_mem 16 test_int_ignored_obj = true ∧
    priskv_codec_code 2 test_int_mem 16 test_int_ignored_obj =
      some (some (json_type_object [("int_val_required", json_type_int 0)])) ∧
    (∃ r, priskv_codec_code 2 test_int_mem 16 test_int_ignored_obj = some (some r)) ∧
    ∃ entries, json_type_object [("int_val_required", json_type_int 0)] =
        json_type_object entries ∧
      entries.map Prod.fst =
        (test_int_ignored_obj.fields.filter
          (fun f => !field_omitted test_int_mem 16 f)).map (fun f => f.name) :=
  ⟨by decide, by rfl,
    (codec_code_fields 2 test_int_mem 16 test_int_ignored_obj (by decide)).1 (by decide), by
    obtain ⟨entries, h1, h2, _⟩ :=
      (codec_code_fields 2 test_int_mem 16 test_int_ignored_obj (by decide)).2
        (json_type_object [("int_val_required", json_type_int 0)]) (by rfl)
    exact ⟨entries, h1, h2⟩⟩

/-- A store inside the memory does not fault. -/
theorem store_some : ∀ (n : Nat) (m : List Nat) (a v : Nat), a + n ≤ m.length →
    ∃ m1, store m a n v = some m1
  | 0, m, _, _, _ => ⟨m, rfl⟩
  | n + 1, m, a, v, h => by
    obtain ⟨m1, h1⟩ := store_some n m (a + 1) (v / 256) (by omega)
    refine ⟨m1.set a (v % 256), ?_⟩
    rw [store, if_pos (by omega), h1]
    rfl

/-- A store keeps the length of the memory. -/
theorem store_length : ∀ (n : Nat) {m m1 : List Nat} {a v : Nat},
    store m a n v = some m1 → m1.length = m.length
  | 0, m, m1, _, _, h => by
    rw [store] at h
    rw [← Option.some.inj h]
  | n + 1, m, m1, a, v, h => by
    rw [store] at h
    split at h
    · cases h2 : store m (a + 1) n (v / 256) with
      | none => rw [h2] at h; simp at h
      | some m2 =>
        rw [h2] at h
        simp only [Option.map_some', Option.some.injEq] at h
        rw [← h, List.length_set]
        exact store_length n h2
    · simp at h

/-- A store changes the bytes from `a` to `a + n` only. -/
theorem store_other : ∀ (n : Nat) {m m1 : List Nat} {a v : Nat},
    store m a n v = some m1 → ∀ x, (x < a ∨ a + n ≤ x) → m1[x]? = m[x]?
  | 0, m, m1, _, _, h, x, _ => by
    rw [store] at h
    rw [← Option.some.inj h]
  | n + 1, m, m1, a, v, h, x, hx => by
    rw [store] at h
    split at h
    · cases h2 : store m (a + 1) n (v / 256) with
      | none => rw [h2] at h; simp at h
      | some m2 =>
        rw [h2] at h
        simp only [Option.map_some', Option.some.injEq] at h
        rw [← h, List.getElem?_set_ne (by omega)]
        exact store_other n h2 x (by omega)
    · simp at h

/-- A load reads the bytes from `a` to `a + n` only. -/
theorem load_congr : ∀ (n : Nat) {m m1 : List Nat} {a : Nat},
    (∀ x, a ≤ x → x < a + n → m1[x]? = m[x]?) → load m1 a n = load m a n
  | 0, _, _, _, _ => rfl
  | n + 1, m, m1, a, h => by
    rw [load, load, h a le_rfl (by omega), load_congr n (fun x h1 h2 => h x (by omega) (by omega))]

/-- The bytes that a store wrote, read again. -/
theorem load_store : ∀ (n : Nat) {m m1 : List Nat} {a v : Nat},
    store m a n v = some m1 → load m1 a n = some (v % 256 ^ n)
  | 0, m, m1, _, v, _ => by
    rw [load, pow_zero, Nat.mod_one]
  | n + 1, m, m1, a, v, h => by
    rw [store] at h
    split at h
    · rename_i ha
      cases h2 : store m (a + 1) n (v / 256) with
      | none => rw [h2] at h; simp at h
      | some m2 =>
        rw [h2] at h
        simp only [Option.map_some', Option.some.injEq] at h
        have hlen := store_length n h2
        have ih := load_store n h2
        rw [load, ← h, List.getElem?_set_self (by omega)]
        simp only []
        have hcongr : load (m2.set a (v % 256)) (a + 1) n = load m2 (a + 1) n := by
          exact load_congr n (fun x h1 _ => List.getElem?_set_ne (by omega))
        rw [hcongr, ih]
        simp only [Option.map_some', Option.some.injEq]
        rw [pow_succ]
        have := Nat.mod_mul_left_div_self v 256 (256 ^ n)
        have h3 := Nat.div_add_mod (v % (256 ^ n * 256)) 256
        rw [Nat.mod_mul_left_mod] at h3
        omega
    · simp at h

/-- A pointer that was stored is read again as it was. -/
theorem load_store_ptr {m m1 : List Nat} {a v : Nat} (h : store m a 8 v = some m1)
    (hv : v < 18446744073709551616) : load m1 a 8 = some v := by
  rw [load_store 8 h]
  congr 1
  exact Nat.mod_eq_of_lt (by norm_num; exact hv)

/-- The memory that was there before `strdup`. -/
theorem strdup_get (m s : List Nat) {x : Nat} (hx : x < m.length) :
    (strdup m s).2[x]? = m[x]? := by
  unfold strdup
  simp only [List.append_assoc]
  exact List.getElem?_append_left hx

/-- The length of the memory after `strdup`. -/
theorem strdup_length (m s : List Nat) : (strdup m s).2.length = m.length + (s.length + 1) := by
  unfold strdup
  simp only [List.length_append, List.length_singleton]
  omega

/-- The memory that was there before `calloc`. -/
theorem calloc_get (m : List Nat) (n size : Nat) {x : Nat} (hx : x < m.length) :
    (calloc m n size).2[x]? = m[x]? := by
  unfold calloc
  exact List.getElem?_append_left hx

/-- The bytes of the block of `calloc` are 0. -/
theorem calloc_zero (m : List Nat) (n size : Nat) {x : Nat} (h1 : m.length ≤ x)
    (h2 : x < m.length + n * size) : (calloc m n size).2[x]? = some 0 := by
  unfold calloc
  simp only []
  rw [List.getElem?_append_right h1, List.getElem?_replicate]
  rw [if_pos (by omega)]

/-- The length of the memory after `calloc`, and the address of the block. -/
theorem calloc_length (m : List Nat) (n size : Nat) :
    (calloc m n size).2.length = m.length + n * size ∧ (calloc m n size).1 = m.length := by
  unfold calloc
  simp only [List.length_append, List.length_replicate, and_self]

/-- A memory that is not changed. -/
theorem Frame.same (m : List Nat) (bound lo hi : Nat) : Frame m m bound lo hi :=
  ⟨le_rfl, by omega, fun _ _ _ => rfl⟩

/-- One decoding step after another. -/
theorem Frame.trans {m m1 m2 : List Nat} {b1 b2 lo hi : Nat} (h1 : Frame m m1 b1 lo hi)
    (h2 : Frame m1 m2 b2 lo hi) : Frame m m2 (b1 + b2) lo hi := by
  obtain ⟨a1, a2, a3⟩ := h1
  obtain ⟨c1, c2, c3⟩ := h2
  refine ⟨by omega, by omega, fun x hx ho => ?_⟩
  rw [c3 x (by omega) ho, a3 x hx ho]

/-- A frame with a larger bound and a larger range. -/
theorem Frame.mono {m m1 : List Nat} {b b1 lo hi lo1 hi1 : Nat} (h : Frame m m1 b lo hi)
    (hb : b ≤ b1) (hlo : lo1 ≤ lo) (hhi : hi ≤ hi1) : Frame m m1 b1 lo1 hi1 := by
  obtain ⟨a1, a2, a3⟩ := h
  exact ⟨a1, by omega, fun x hx ho => a3 x hx (by omega)⟩

/-- The outcome of a jump to `fail` with the error `text`. -/
theorem Outcome.fail (c c0 : priskv_codec) (text : String) :
    Outcome (-1) c (__priskv_codec_set_error c0 text) false (some (cut_error text)) :=
  Or.inr ⟨rfl, rfl, _, rfl, rfl⟩

/-- The outcome of a success. -/
theorem Outcome.pass (c : priskv_codec) : Outcome 0 c c true none :=
  Or.inl ⟨rfl, rfl, rfl, rfl⟩

/-- The result of a decoding function is 0 or -1. -/
theorem Outcome.cases {r : Int} {c c1 : priskv_codec} {ok : Bool} {err : Option String}
    (h : Outcome r c c1 ok err) :
    (r = 0 ∧ ¬ r < 0 ∧ ok = true ∧ err = none ∧ c1 = c) ∨
    (r = -1 ∧ r < 0 ∧ ok = false ∧ ∃ e, err = some e ∧ priskv_codec_get_error c1 = e) := by
  rcases h with ⟨h1, h2, h3, h4⟩ | ⟨h1, h2, h3⟩
  · exact Or.inl ⟨h1, by omega, h2, h3, h4⟩
  · exact Or.inr ⟨h1, by omega, h2, h3⟩

/-- A store of a value of `w` bytes at the start of a structure of `size` bytes
inside the memory. -/
theorem store_frame {m : List Nat} {data size w : Nat} (v : Nat) (hw : w ≤ size)
    (hin : data + size ≤ m.length) :
    ∃ m1, store m data w v = some m1 ∧ Frame m m1 0 data (data + size) := by
  obtain ⟨m1, h1⟩ := store_some w m data v (by omega)
  have hlen := store_length w h1
  exact ⟨m1, h1, by omega, by omega, fun x _ ho => store_other w h1 x (by omega)⟩

/-- What follows from the layout of a schema. -/
theorem layout_width {fuel : Nat} {obj : priskv_object} (h : layout_ok fuel obj = true) :
    type_width obj.type ≤ obj.size ∧ ∃ k, fuel = k + 1 ∧
      obj.fields.all (field_layout (layout_ok k) obj.size) = true := by
  cases fuel with
  | zero => simp [layout_ok] at h
  | succ k =>
    rw [layout_ok, Bool.and_eq_true, decide_eq_true_eq] at h
    exact ⟨h.1, k, rfl, h.2⟩

/-- What `priskv_value_decode` does, given what `__priskv_decode_obj` does. -/
theorem value_decode_spec {fuel : Nat} (ih : ObjSpec fuel) (codec : priskv_codec) (m : List Nat)
    (j : json_object) (data : Nat) (obj : priskv_object) (hl : layout_ok fuel obj = true)
    (hd : data ≠ 0) (hin : data + obj.size ≤ m.length)
    (hb : m.length + value_alloc (decode_alloc fuel) obj j < 18446744073709551616) :
    ∃ r m1 c1, priskv_value_decode (__priskv_decode_obj fuel) codec m j data obj =
        some (r, m1, c1) ∧
      Frame m m1 (value_alloc (decode_alloc fuel) obj j) data (data + obj.size) ∧
      Outcome r codec c1 (value_conforms (conforms fuel) obj j)
        (value_error (decode_error fuel) obj j) := by
  have hw := (layout_width hl).1
  unfold priskv_value_decode
  cases hty : obj.type with
  | priskv_obj_type_boolean =>
    rw [hty] at hw
    cases j with
    | json_type_boolean b =>
      obtain ⟨m1, h1, h2⟩ := store_frame (if b then 1 else 0) (show 1 ≤ obj.size from hw) hin
      refine ⟨0, m1, codec, by simp only [h1, Option.map_some'], h2.mono (by omega) le_rfl le_rfl,
        ?_⟩
      simp only [value_conforms, value_error, hty, has_type]
      exact Outcome.pass codec
    | _ =>
      refine ⟨-1, m, _, rfl, Frame.same _ _ _ _, ?_⟩
      simp only [value_conforms, value_error, hty, has_type]
      exact Outcome.fail codec codec "type is not boolean"
  | priskv_obj_type_int =>
    rw [hty] at hw
    cases j with
    | json_type_int v =>
      obtain ⟨m1, h1, h2⟩ := store_frame (json_object_get_int v % 4294967296).toNat (show 4 ≤ obj.size from hw) hin
      refine ⟨0, m1, codec, by simp only [h1, Option.map_some'], h2.mono (by omega) le_rfl le_rfl,
        ?_⟩
      simp only [value_conforms, value_error, hty, has_type]
      exact Outcome.pass codec
    | _ =>
      refine ⟨-1, m, _, rfl, Frame.same _ _ _ _, ?_⟩
      simp only [value_conforms, value_error, hty, has_type]
      exact Outcome.fail codec codec "type is not int"
  | priskv_obj_type_uint64 =>
    rw [hty] at hw
    cases j with
    | json_type_int v =>
      obtain ⟨m1, h1, h2⟩ := store_frame (json_object_get_uint64 v) (show 8 ≤ obj.size from hw) hin
      refine ⟨0, m1, codec, by simp only [h1, Option.map_some'], h2.mono (by omega) le_rfl le_rfl,
        ?_⟩
      simp only [value_conforms, value_error, hty, has_type]
      exact Outcome.pass codec
    | _ =>
      refine ⟨-1, m, _, rfl, Frame.same _ _ _ _, ?_⟩
      simp only [value_conforms, value_error, hty, has_type]
      exact Outcome.fail codec codec "type is not int"
  | priskv_obj_type_string =>
    rw [hty] at hw
    cases j with
    | json_type_string s =>
      have hlen := strdup_length m s
      obtain ⟨m1, h1, h2, h3, h4⟩ := @store_frame (strdup m s).2 data obj.size 8
        (strdup m s).1 (show 8 ≤ obj.size from hw) (by omega)
      refine ⟨0, m1, codec, by simp only [h1, Option.map_some'], ⟨by omega, ?_, fun x hx ho => ?_⟩,
        ?_⟩
      · simp only [value_alloc, hty]
        omega
      · rw [h4 x (by omega) ho, strdup_get m s hx]
      · simp only [value_conforms, value_error, hty, has_type]
        exact Outcome.pass codec
    | _ =>
      refine ⟨-1, m, _, rfl, Frame.same _ _ _ _, ?_⟩
      simp only [value_conforms, value_error, hty, has_type]
      exact Outcome.fail codec codec "type is not string"
  | priskv_obj_type_object =>
    cases j with
    | json_type_object entries =>
      have hb1 : m.length + decode_alloc fuel obj (json_type_object entries) <
          18446744073709551616 := by
        simpa only [value_alloc, hty] using hb
      obtain ⟨r, m1, c1, h1, h2, _, h3⟩ := ih codec m entries data obj hl hd hin hb1
      refine ⟨r, m1, c1, h1, ?_, ?_⟩
      · simpa only [value_alloc, hty] using h2
      · simpa only [value_conforms, value_error, hty, has_type, if_true, Bool.true_and] using h3
    | _ =>
      refine ⟨-1, m, _, rfl, Frame.same _ _ _ _, ?_⟩
      simp only [value_conforms, value_error, hty, has_type]
      exact Outcome.fail codec codec "type is not object"

/-- What the loop over the elements of an array field does: the elements go to
the block at `base`, whose address is read at `field_data`, a place below the
block. -/
theorem decode_elems_spec {fuel : Nat} (ih : ObjSpec fuel) (fobj : priskv_object)
    (hl : layout_ok fuel fobj = true) (name : String) (field_data base : Nat)
    (hbase : base ≠ 0) (hfd : field_data + 8 ≤ base) :
    ∀ (elems : List json_object) (codec : priskv_codec) (m : List Nat) (j : Nat),
      load m field_data 8 = some base →
      base + fobj.size * (j + elems.length) ≤ m.length →
      m.length + (elems.map (value_alloc (decode_alloc fuel) fobj)).sum <
        18446744073709551616 →
      ∃ r m1 c1,
        decode_elems (fun c m3 e a => priskv_value_decode (__priskv_decode_obj fuel) c m3 e a fobj)
          name field_data fobj.size codec m elems j = some (r, m1, c1) ∧
        Frame m m1 (elems.map (value_alloc (decode_alloc fuel) fobj)).sum base
          (base + fobj.size * (j + elems.length)) ∧
        Outcome r codec c1 (elems.all (value_conforms (conforms fuel) fobj))
          ((elems_error (value_error (decode_error fuel) fobj) elems).map
            (fun s => cut_error ("failed to decode array `" ++ name ++ "`: " ++ s)))
  | [], codec, m, j, _, _, _ => by
    refine ⟨0, m, codec, by rw [decode_elems], Frame.same _ _ _ _, ?_⟩
    simp only [List.all_nil, elems_error, Option.map_none']
    exact Outcome.pass codec
  | e :: rest, codec, m, j, hload, hin, hb => by
    simp only [List.map_cons, List.sum_cons, List.length_cons] at hb hin ⊢
    have hmul1 : fobj.size * (j + 1) ≤ fobj.size * (j + (rest.length + 1)) :=
      Nat.mul_le_mul_left _ (by omega)
    have hmul2 : fobj.size * (j + 1) = fobj.size * j + fobj.size := by ring
    have hmul3 : fobj.size * (j + 1 + rest.length) = fobj.size * (j + (rest.length + 1)) := by
      ring_nf
    obtain ⟨r, m1, c1, h1, h2, h3⟩ := value_decode_spec ih codec m e (base + fobj.size * j) fobj hl
      (by omega) (by omega) (by omega)
    rw [decode_elems, hload]
    simp only [h1]
    rcases h3.cases with ⟨hr, hnl, hok, herr, hc⟩ | ⟨hr, hlt, hok, e1, herr, hc⟩
    · rw [if_neg hnl]
      subst hc
      have hload1 : load m1 field_data 8 = some base := by
        rw [← hload]
        exact load_congr 8 (fun x hx1 hx2 => h2.2.2 x (by omega) (Or.inl (by omega)))
      obtain ⟨r2, m2, c2, g1, g2, g3⟩ := decode_elems_spec ih fobj hl name field_data base hbase
        hfd rest c1 m1 (j + 1) hload1 (by have := h2.1; rw [hmul3]; omega)
        (by have := h2.2.1; omega)
      refine ⟨r2, m2, c2, g1, ?_, ?_⟩
      · refine (h2.mono le_rfl (by omega) (by omega)).trans (g2.mono le_rfl le_rfl ?_)
        rw [hmul3]
      · simpa only [List.all_cons, hok, Bool.true_and, elems_error, herr] using g3
    · rw [if_pos hlt]
      refine ⟨-1, m1, _, rfl, h2.mono (by omega) (by omega) (by omega), ?_⟩
      simp only [List.all_cons, hok, Bool.false_and, elems_error, herr, Option.map_some']
      rw [← hc]
      exact Outcome.fail codec c1 _

/-- What the body of the loop over the fields in `__priskv_decode_obj` does for
one field. -/
theorem decode_field_spec {fuel : Nat} (ih : ObjSpec fuel) (jobj : json_object)
    (data size : Nat) (codec : priskv_codec) (m : List Nat)
    (f : priskv_object_field priskv_object)
    (hl : field_layout (layout_ok fuel) size f = true) (hd : data ≠ 0)
    (hin : data + size ≤ m.length)
    (hb : m.length + field_alloc (value_alloc (decode_alloc fuel)) jobj f <
      18446744073709551616) :
    ∃ r m1 c1, decode_field (priskv_value_decode (__priskv_decode_obj fuel)) jobj data codec m f =
        some (r, m1, c1) ∧
      Frame m m1 (field_alloc (value_alloc (decode_alloc fuel)) jobj f) data (data + size) ∧
      (∀ x, x < m.length →
        (json_object_object_get jobj f.name ≠ none → ¬ field_covers data f x) →
        m1[x]? = m[x]?) ∧
      Outcome r codec c1 (field_conforms (value_conforms (conforms fuel)) jobj f)
        (field_error (value_error (decode_error fuel)) jobj f) := by
  unfold field_layout at hl
  rw [Bool.and_eq_true] at hl
  obtain ⟨hlo, hlf⟩ := hl
  unfold decode_field field_conforms field_error field_alloc at *
  cases hg : json_object_object_get jobj f.name with
  | none =>
    simp only []
    by_cases hr : f._required = true
    · rw [if_pos hr]
      refine ⟨-1, m, _, rfl, Frame.same _ _ _ _, fun _ _ _ => rfl, ?_⟩
      simp only [hr, Bool.not_true, if_true]
      exact Outcome.fail codec codec _
    · rw [if_neg hr]
      refine ⟨0, m, codec, rfl, Frame.same _ _ _ _, fun _ _ _ => rfl, ?_⟩
      have hr0 : f._required = false := by simpa using hr
      simp only [hr0, Bool.not_false, Bool.false_eq_true, if_false]
      exact Outcome.pass codec
  | some v =>
    rw [hg] at hb
    simp only [] at hb ⊢
    cases ht : f.type with
    | priskv_obj_field_type_value =>
      rw [ht] at hlf hb
      simp only [decide_eq_true_eq] at hlf hb ⊢
      obtain ⟨r, m1, c1, h1, h2, h3⟩ := value_decode_spec ih codec m v (data + f.offset) f.obj hlo
        (by omega) (by omega) hb
      simp only [h1]
      have hfine : ∀ x, x < m.length →
          (some v ≠ none → ¬ field_covers data f x) → m1[x]? = m[x]? := by
        intro x hx hc
        apply h2.2.2 x hx
        by_contra hcon
        exact hc (fun h => Option.noConfusion h) (Or.inl ⟨ht, by omega, by omega⟩)
      rcases h3.cases with ⟨hr, hnl, hok, herr, hc⟩ | ⟨hr, hlt, hok, e1, herr, hc⟩
      · rw [if_neg hnl]
        subst hc
        refine ⟨0, m1, c1, rfl, h2.mono le_rfl (by omega) (by omega), hfine, ?_⟩
        rw [hok, herr]
        exact Outcome.pass c1
      · rw [if_pos hlt]
        refine ⟨-1, m1, _, rfl, h2.mono le_rfl (by omega) (by omega), hfine, ?_⟩
        rw [hok, herr, Option.map_some', ← hc]
        exact Outcome.fail codec c1 _
    | priskv_obj_field_type_array =>
      rw [ht] at hlf hb
      simp only [decide_eq_true_eq] at hlf hb ⊢
      cases v with
      | json_type_array elems =>
        simp only [] at hb ⊢
        obtain ⟨m1, s1⟩ := store_some 8 m (data + f.noffset) elems.length (by omega)
        have l1 := store_length 8 s1
        have hc1 := calloc_length m1 elems.length f.obj.size
        obtain ⟨m2, s2⟩ := store_some 8 (calloc m1 elems.length f.obj.size).2 (data + f.offset)
          (calloc m1 elems.length f.obj.size).1 (by rw [hc1.1]; omega)
        have l2 := store_length 8 s2
        have hbase : (calloc m1 elems.length f.obj.size).1 = m.length := by rw [hc1.2, l1]
        have hload : load m2 (data + f.offset) 8 = some m.length := by
          rw [← hbase]
          exact load_store_ptr s2 (by rw [hbase]; omega)
        have hmul : f.obj.size * (0 + elems.length) = elems.length * f.obj.size := by ring
        obtain ⟨r, m3, c1, h1, h2, h3⟩ := decode_elems_spec ih f.obj hlo f.name (data + f.offset)
          m.length (by omega) (by omega) elems codec m2 0 hload
          (by rw [hmul, l2, hc1.1, l1]) (by rw [l2, hc1.1, l1]; omega)
        simp only [s1, s2, h1]
        have hfine : ∀ x, x < m.length →
            (some (json_type_array elems) ≠ none → ¬ field_covers data f x) →
            m3[x]? = m[x]? := by
          intro x hx hc
          have hnc := hc (fun h => Option.noConfusion h)
          have hx1 : ¬ (data + f.offset ≤ x ∧ x < data + f.offset + 8) := fun h =>
            hnc (Or.inr ⟨ht, Or.inl h⟩)
          have hx2 : ¬ (data + f.noffset ≤ x ∧ x < data + f.noffset + 8) := fun h =>
            hnc (Or.inr ⟨ht, Or.inr h⟩)
          rw [h2.2.2 x (by rw [l2, hc1.1, l1]; omega) (Or.inl hx),
            store_other 8 s2 x (by omega), calloc_get m1 _ _ (by omega),
            store_other 8 s1 x (by omega)]
        refine ⟨r, m3, c1, rfl, ⟨?_, ?_, fun x hx ho => hfine x hx (fun _ hcov => ?_)⟩, hfine, h3⟩
        · have := h2.1
          rw [l2, hc1.1, l1] at this
          omega
        · have := h2.2.1
          rw [l2, hc1.1, l1] at this
          omega
        · rcases hcov with ⟨hv1, _, _⟩ | ⟨_, ⟨h5, h6⟩ | ⟨h5, h6⟩⟩
          · rw [ht] at hv1
            exact priskv_object_field_type.noConfusion hv1
          · omega
          · omega
      | _ =>
        exact ⟨-1, m, _, rfl, Frame.same _ _ _ _, fun _ _ _ => rfl, Outcome.fail codec codec _⟩

/-- What the loop over the fields in `__priskv_decode_obj` does. -/
theorem decode_fields_spec {fuel : Nat} (ih : ObjSpec fuel) (jobj : json_object)
    (data size : Nat) (hd : data ≠ 0) :
    ∀ (fields : List (priskv_object_field priskv_object)) (codec : priskv_codec) (m : List Nat),
      fields.all (field_layout (layout_ok fuel) size) = true → data + size ≤ m.length →
      m.length + (fields.map (field_alloc (value_alloc (decode_alloc fuel)) jobj)).sum <
        18446744073709551616 →
      ∃ r m1 c1, decode_fields (priskv_value_decode (__priskv_decode_obj fuel)) jobj data codec m
          fields = some (r, m1, c1) ∧
        Frame m m1 (fields.map (field_alloc (value_alloc (decode_alloc fuel)) jobj)).sum data
          (data + size) ∧
        (∀ x, x < m.length →
          (∀ f ∈ fields, json_object_object_get jobj f.name ≠ none → ¬ field_covers data f x) →
          m1[x]? = m[x]?) ∧
        Outcome r codec c1 (fields.all (field_conforms (value_conforms (conforms fuel)) jobj))
          (fields_error (value_error (decode_error fuel)) jobj fields)
  | [], codec, m, _, _, _ => by
    refine ⟨0, m, codec, by rw [decode_fields], Frame.same _ _ _ _, fun _ _ _ => rfl, ?_⟩
    simp only [List.all_nil, fields_error]
    exact Outcome.pass codec
  | f :: rest, codec, m, hl, hin, hb => by
    simp only [List.all_cons, Bool.and_eq_true, List.map_cons, List.sum_cons] at hl hb ⊢
    obtain ⟨r, m1, c1, h1, h2, h3, h4⟩ := decode_field_spec ih jobj data size codec m f hl.1 hd hin
      (by omega)
    rw [decode_fields]
    simp only [h1]
    rcases h4.cases with ⟨hr, hnl, hok, herr, hc⟩ | ⟨hr, hlt, hok, e1, herr, hc⟩
    · rw [if_neg hnl]
      subst hc
      obtain ⟨r2, m2, c2, g1, g2, g3, g4⟩ := decode_fields_spec ih jobj data size hd rest c1 m1
        hl.2 (by have := h2.1; omega) (by have := h2.2.1; omega)
      refine ⟨r2, m2, c2, g1, h2.trans g2, fun x hx hcov => ?_, ?_⟩
      · rw [g3 x (by have := h2.1; omega) (fun g hg => hcov g (List.mem_cons_of_mem _ hg)),
          h3 x hx (hcov f (List.mem_cons_self _ _))]
      · simpa only [hok, Bool.true_and, fields_error, herr] using g4
    · rw [if_pos hlt]
      refine ⟨-1, m1, c1, rfl, h2.mono (by omega) le_rfl le_rfl,
        fun x hx hcov => h3 x hx (hcov f (List.mem_cons_self _ _)), ?_⟩
      simp only [hok, Bool.false_and, fields_error, herr]
      exact Or.inr ⟨rfl, rfl, e1, rfl, hc⟩

/-- The result of `__priskv_decode_obj`, at every depth. -/
theorem decode_obj_spec : ∀ fuel, ObjSpec fuel
  | 0 => fun _ _ _ _ _ hl => by simp [layout_ok] at hl
  | fuel + 1 => fun codec m entries data obj hl hd hin hb => by
    rw [layout_ok, Bool.and_eq_true] at hl
    rw [decode_alloc] at hb
    rw [__priskv_decode_obj, if_neg hd, conforms, decode_error, decode_alloc]
    · exact decode_fields_spec (decode_obj_spec fuel) (json_type_object entries) data obj.size
        hd obj.fields codec m hl.2 hin hb
    · intro h
      exact json_object.noConfusion h


/-- The cases of `test_codec.c` for the schema `test_int`: a required field that
is missing, a value that is no `int`, and an optional field that is missing and
reads as 0 in the structure that is returned. -/
theorem codec_decode_examples :
    (priskv_codec_decode 3 [0] priskv_codec_new
        (json_type_object [("int_val_optional", json_type_int 202020202)]) test_int_obj).map
      (fun r => (r.1, priskv_codec_get_error r.2.2)) =
      some (none, "not found `int_val_required` that is required") ∧
    (priskv_codec_decode 3 [0] priskv_codec_new
        (json_type_object [("int_val_required", json_type_boolean true)]) test_int_obj).map
      (fun r => (r.1, priskv_codec_get_error r.2.2)) =
      some (none, "failed to decode `int_val_required`: type is not int") ∧
    (priskv_codec_decode 3 [0] priskv_codec_new
        (json_type_object [("int_val_required", json_type_int 101010101)]) test_int_obj).map
      (fun r => (r.1, load r.2.1 1 4, load r.2.1 (1 + 4) 4)) =
      some (some 1, some 101010101, some 0) := by
  refine ⟨by rfl, by rfl, by rfl⟩

set_option maxRecDepth 16000 in
/-- The schema `outer_obj`, whose field `child` is an object with the required
`int` field `val`. A value of `val` that is no `int` gives the error of `val`
after the name of `child`, none of the texts for one field; the value `null` of
the optional `int` field `opt` is taken as no value, and the decoding succeeds.
For the schema `long_obj`, whose required field has a name of 250 letters, the
error of the missing field is cut to 254 letters. -/
theorem codec_decode_counterexample :
    ((priskv_codec_decode 3 [0] priskv_codec_new
        (json_type_object [("child", json_type_object [("val", json_type_boolean true)])])
        outer_obj).map (fun r => (r.1, priskv_codec_get_error r.2.2)) =
      some (none, "failed to decode `child`: failed to decode `val`: type is not int") ∧
     ∀ name ∈ ["child", "val"],
      "failed to decode `child`: failed to decode `val`: type is not int" ≠
        "not found `" ++ name ++ "` that is required" ∧
      ∀ T ∈ ["boolean", "int", "string", "object", "array"],
        "failed to decode `child`: failed to decode `val`: type is not int" ≠
          "failed to decode `" ++ name ++ "`: type is not " ++ T ∧
        "failed to decode `child`: failed to decode `val`: type is not int" ≠
          "failed to decode array `" ++ name ++ "`: type is not " ++ T) ∧
    ((priskv_codec_decode 3 [0] priskv_codec_new
        (json_type_object [("child", json_type_object [("val", json_type_int 1)]),
          ("opt", json_type_null)]) outer_obj).map (fun r => r.1) = some (some 1) ∧
     has_type priskv_obj_type_int json_type_null = false) ∧
    ((priskv_codec_decode 3 [0] priskv_codec_new (json_type_object []) long_obj).map
        (fun r => (r.1, (priskv_codec_get_error r.2.2).length)) = some (none, 254) ∧
     ("not found `" ++ long_name ++ "` that is required").length = 279) := by
  refine ⟨⟨by rfl, by decide⟩, ⟨by rfl, by rfl⟩, ⟨by rfl, by rfl⟩⟩

/-- C31: for a schema that is laid out inside its size, a memory with room for
the allocations below the size of the address space, and a JSON object,
`priskv_codec_decode` returns. It returns the new structure exactly when the
object conforms to the schema: every required field has a value other than
`null`, and every value other than `null` has the JSON type that its declaration
demands, also in the objects within and in the elements of arrays. Then the
codec is as it was, and the bytes of the structure that belong to no field with
a value are 0. Else it returns `NULL` and the error of the codec is that of the
first offending field in the order of the declaration, as `decode_error` says:
the error of a value that is an object, or of an element, follows the name of
its field, and every text is cut to 254 bytes. The memory that was there before
is as it was. -/
theorem codec_decode_conforms (fuel : Nat) (m : List Nat) (codec : priskv_codec)
    (entries : List (String × json_object)) (obj : priskv_object)
    (hl : layout_ok fuel obj = true) (hm : m ≠ [])
    (hb : m.length + obj.size + decode_alloc fuel obj (json_type_object entries) <
      18446744073709551616) :
    ∃ r m1 c1, priskv_codec_decode fuel m codec (json_type_object entries) obj =
        some (r, m1, c1) ∧
      (r = some m.length ∨ r = none) ∧
      r.isSome = conforms fuel obj (json_type_object entries) ∧
      (r.isSome → c1 = codec ∧ decode_error fuel obj (json_type_object entries) = none ∧
        ∀ x, m.length ≤ x → x < m.length + obj.size →
          (∀ f ∈ obj.fields, json_object_object_get (json_type_object entries) f.name ≠ none →
            ¬ field_covers m.length f x) → m1[x]? = some 0) ∧
      (r = none → ∃ e, decode_error fuel obj (json_type_object entries) = some e ∧
        priskv_codec_get_error c1 = e) ∧
      (∀ x, x < m.length → m1[x]? = m[x]?) := by
  have hc := calloc_length m 1 obj.size
  have hlen : 0 < m.length := List.length_pos.2 hm
  obtain ⟨r, m1, c1, h1, h2, h3, h4⟩ := decode_obj_spec fuel codec (calloc m 1 obj.size).2
    entries (calloc m 1 obj.size).1 obj hl (by rw [hc.2]; omega)
    (by rw [hc.1, hc.2]; omega) (by rw [hc.1]; omega)
  have hold : ∀ x, x < m.length → m1[x]? = m[x]? := fun x hx => by
    rw [h2.2.2 x (by rw [hc.1]; omega) (Or.inl (by rw [hc.2]; exact hx)), calloc_get m 1 _ hx]
  unfold priskv_codec_decode
  simp only [h1]
  rcases h4.cases with ⟨hr, hnl, hok, herr, hcc⟩ | ⟨hr, hlt, hok, e1, herr, hcc⟩
  · rw [if_neg hnl]
    refine ⟨_, m1, c1, rfl, Or.inl (by rw [hc.2]), by rw [hok]; rfl, fun _ => ⟨hcc, herr,
      fun x hx1 hx2 hcov => ?_⟩, fun hn => Option.noConfusion hn, hold⟩
    rw [h3 x (by rw [hc.1]; omega) (by rw [hc.2]; exact hcov)]
    exact calloc_zero m 1 obj.size hx1 (by omega)
  · rw [if_pos hlt]
    exact ⟨none, m1, c1, rfl, Or.inr rfl, by rw [hok]; rfl,
      fun hs => Bool.noConfusion hs, fun _ => ⟨e1, herr, hcc⟩, hold⟩

/-- The case `test_codec_decode_int_missing_required` of `test_codec.c`. -/
theorem codec_decode_conforms_witness :
    layout_ok 3 test_int_obj = true ∧
    ∃ r m1 c1, priskv_codec_decode 3 [0] priskv_codec_new
        (json_type_object [("int_val_optional", json_type_int 202020202)]) test_int_obj =
        some (r, m1, c1) ∧
      (r = some 1 ∨ r = none) ∧
      r.isSome = conforms 3 test_int_obj
        (json_type_object [("int_val_optional", json_type_int 202020202)]) ∧
      (r = none → ∃ e, decode_error 3 test_int_obj
          (json_type_object [("int_val_optional", json_type_int 202020202)]) = some e ∧
        priskv_codec_get_error c1 = e) :=
  ⟨by decide, by
    obtain ⟨r, m1, c1, h1, h2, h3, _, h5, _⟩ := codec_decode_conforms 3 [0] priskv_codec_new
      [("int_val_optional", json_type_int 202020202)] test_int_obj (by decide) (by decide)
      (by decide)
    exact ⟨r, m1, c1, h1, h2, h3, h5⟩⟩

end PrisKV
